import Mathlib

/-!
# libfirm backend: Belady spiller (version 2) and ILP scheduler windows

A shallow embedding of parts of `ir/be/bespillbelady2.c` and `ir/be/beilpsched.c`.

Conventions of the embedding:

* an `ir_node *` is identified with its node index (`get_irn_idx`), a `Nat`;
* a `workset_t` keeps its length and its inlined array `vals[]`; the array is a
  function from the slot number, so that slots beyond `len` keep their stale
  content exactly as the C array does;
* `assert` in `workset_insert` ("Workset already full!") guards a write behind
  the end of the array: the embedding returns `none` when it is violated;
* the target description, the liveness information and the next-use analysis
  (`arch_*`, `be_is_live_in`, `be_get_next_use`) are not part of these files: they
  are fields of the environment;
* `unsigned` arithmetic is `Nat` arithmetic reduced modulo `2 ^ 32`, `int` casts
  are two's complement.
-/

namespace Firm

/-! ## Machine integers -/

/-- Reduction of a natural number to an `unsigned` (32 bit). -/
def u32 (x : Nat) : Nat := x % 2 ^ 32

/-- Wrap an integer into the range of `int` (32 bit, two's complement). -/
def wrap_int (z : Int) : Int := (z + 2 ^ 31) % 2 ^ 32 - 2 ^ 31

/-- The cast `(int) x` of an `unsigned` value. -/
def int_of_unsigned (x : Nat) : Int := wrap_int (x : Int)

/-! ## Worksets (`bespillbelady2.c`) -/

/-- An association between a node and a point in time (`loc_t`). -/
structure loc_t where
  irn : Nat
  time : Nat
  version : Nat
deriving DecidableEq, Repr

/-- The working set `workset_t`: current length and the inlined array of
values/distances. -/
structure workset_t where
  len : Nat
  vals : Nat → loc_t

/-- The entries `vals[0] .. vals[len-1]` of a workset. -/
def workset_t.locs (ws : workset_t) : List loc_t :=
  (List.range ws.len).map ws.vals

/-- The values (nodes) of a workset, in slot order: what `workset_foreach` visits. -/
def workset_t.irns (ws : workset_t) : List Nat :=
  ws.locs.map loc_t.irn

/-- The part of `belady_env_t` that does not change during the pass, together with
the external analyses the pass consults. -/
structure belady_env_t where
  /-- The number of regs in this reg-class -/
  n_regs : Nat
  /-- The test `arch_irn_consider_in_reg_alloc(env->arch, env->cls, val)` -/
  consider_in_reg_alloc : Nat → Bool
  /-- The flag `arch_irn_get_flags(env->arch, def) & arch_irn_flags_dont_spill` -/
  dont_spill : Nat → Bool
  /-- The oracle `be_get_next_use(env->uses, from, from_step, def, skip_from_uses).time` -/
  be_get_next_use : Nat → Nat → Nat → Bool → Nat
  /-- The constant `USES_INFINITY` of beuses.h -/
  USES_INFINITY : Nat
  /-- The test `USES_IS_INFINITE(t)` of beuses.h -/
  USES_IS_INFINITE : Nat → Bool
  /-- The test `is_Phi(irn)` -/
  is_Phi : Nat → Bool
  /-- The block `get_nodes_block(irn)` -/
  get_nodes_block : Nat → Nat
  /-- The test `be_is_live_in(env->lv, bl, irn)` -/
  be_is_live_in : Nat → Nat → Bool
  /-- The number `get_irn_arity(bl)` of control flow predecessors of a block -/
  get_irn_arity : Nat → Nat := fun _ => 0
  /-- The block `get_Block_cfgpred_block(bl, i)` -/
  get_Block_cfgpred_block : Nat → Nat → Nat := fun _ _ => 0
  /-- The operand `get_irn_n(irn, i)` of a node -/
  get_irn_n : Nat → Nat → Nat := fun _ _ => 0
  /-- The execution frequency `get_block_execfreq(env->ef, bl)` that `new_block_info`
  stores in `exec_freq` -/
  get_block_execfreq : Nat → ℚ := fun _ => 0
  /-- The nodes of `sched_foreach(bl, irn)`, in schedule order -/
  sched_nodes : Nat → List Nat := fun _ => []

/-- Function `loc_compare_idx`: compare two locations by node index. -/
def loc_compare_idx (p q : loc_t) : Int :=
  wrap_int (int_of_unsigned p.irn - int_of_unsigned q.irn)

/-- Function `loc_compare`: compare by time, then by node index. -/
def loc_compare (p q : loc_t) : Int :=
  let diff := wrap_int (int_of_unsigned p.time - int_of_unsigned q.time)
  if diff ≠ 0 then diff else loc_compare_idx p q

/-- Fresh workset of `new_workset`: the `memset` leaves length 0 and zeroed slots. -/
def new_workset : workset_t :=
  { len := 0, vals := fun _ => { irn := 0, time := 0, version := 0 } }

/-- Function `workset_get_index`: the first slot below `len` holding `val` (`none` for -1). -/
def workset_get_index (ws : workset_t) (val : Nat) : Option Nat :=
  (List.range ws.len).find? (fun i => (ws.vals i).irn == val)

/-- Macro `workset_contains(ws, n)`: `workset_get_index(ws, n) >= 0`. -/
def workset_contains (ws : workset_t) (val : Nat) : Bool :=
  (workset_get_index ws val).isSome

/-- Function `workset_insert`: insert `val` iff it is of the current register class and not
yet contained. `none` when the workset is already full (the assertion). Only the
`irn` field of the new slot is written. -/
def workset_insert (env : belady_env_t) (ws : workset_t) (val : Nat) : Option workset_t :=
  if !env.consider_in_reg_alloc val then some ws
  else if workset_contains ws val then some ws
  else if ws.len < env.n_regs then
    some { len := ws.len + 1,
           vals := fun i => if i = ws.len then { ws.vals i with irn := val } else ws.vals i }
  else none

/-- Function `workset_clear`: removes all entries. -/
def workset_clear (ws : workset_t) : workset_t := { ws with len := 0 }

/-- Macro `workset_set_length(ws, length)`. -/
def workset_set_length (ws : workset_t) (length : Nat) : workset_t := { ws with len := length }

/-- Macro `workset_set_time(ws, i, t)`. -/
def workset_set_time (ws : workset_t) (i t : Nat) : workset_t :=
  { ws with vals := fun j => if j = i then { ws.vals j with time := t } else ws.vals j }

/-- Macro `workset_sort`: `qsort` of the first `len` slots with `loc_compare`. The library
sort is any comparison sort; insertion sort stands for it (on a workset, whose
nodes are pairwise different, `loc_compare` never returns 0 for two slots, so every
comparison sort gives the same array). -/
def workset_sort (ws : workset_t) : workset_t :=
  let sorted := (ws.locs).insertionSort (fun p q => loc_compare p q ≤ 0)
  { ws with vals := fun i => if i < ws.len then sorted.getD i (ws.vals i) else ws.vals i }

/-- Function `get_distance`: the distance to the next use, or 0 if the node has the
dont_spill flag set. (The assertion on the ignore flag is a check of the
caller's input and is not part of the embedding.) -/
def get_distance (env : belady_env_t) (from_ from_step def_ : Nat) (skip_from_uses : Bool) : Nat :=
  let use_time := env.be_get_next_use from_ from_step def_ skip_from_uses
  if env.USES_IS_INFINITE use_time then env.USES_INFINITY
  else if env.dont_spill def_ then 0
  else use_time

/-- Function `is_transport_in`: the value is live in or defined by a Phi in the block. -/
def is_transport_in (env : belady_env_t) (bl irn : Nat) : Bool :=
  (env.is_Phi irn && env.get_nodes_block irn == bl) || env.be_is_live_in bl irn

/-- The fields of `block_info_t` used by the local pass. -/
structure block_info_t where
  bl : Nat
  first_non_in : Option Nat
  ws_end : workset_t
  entrance_reg : workset_t
  entrance_mem : workset_t
  pressure : Nat

/-- Function `new_block_info`: zeroed record with two fresh entrance worksets. -/
def new_block_info (bl : Nat) : block_info_t :=
  { bl := bl, first_non_in := none, ws_end := new_workset,
    entrance_reg := new_workset, entrance_mem := new_workset, pressure := 0 }

/-- The mutable part of `belady_env_t`, the log of `be_add_reload` calls
(value, instruction before which it is reloaded) and the block record at hand. -/
structure belady_state where
  /-- The main workset used while processing a block -/
  ws : workset_t
  /-- The current instruction -/
  instr : Nat
  /-- The current instruction number (relative to block start) -/
  instr_nr : Nat
  /-- The calls `be_add_reload(env->senv, val, before, env->cls, 1)`, oldest first -/
  reloads : List (Nat × Nat)
  bi : block_info_t

/-- Step 1 of `displace` for one value of `new_vals`: count the demand and decide
about the reload. The second component is `to_insert[0 .. demand-1]`. -/
def displace_mark (env : belady_env_t) (is_usage : Bool)
    (acc : belady_state × List Nat) (val : Nat) : Option (belady_state × List Nat) :=
  let s := acc.1
  if !workset_contains s.ws val then
    let to_insert := acc.2 ++ [val]
    if is_usage then
      if is_transport_in env s.bi.bl val then
        if s.bi.pressure < env.n_regs then
          (workset_insert env s.bi.entrance_reg val).map fun er =>
            ({ s with bi := { s.bi with pressure := s.bi.pressure + 1, entrance_reg := er } },
              to_insert)
        else
          (workset_insert env s.bi.entrance_mem val).map fun em =>
            ({ s with bi := { s.bi with entrance_mem := em },
                      reloads := s.reloads ++ [(val, s.instr)] }, to_insert)
      else
        some ({ s with reloads := s.reloads ++ [(val, s.instr)] }, to_insert)
    else some (s, to_insert)
  else some (s, acc.2)

/-- The loop "get current next-use distance" of `displace`. -/
def displace_set_times (env : belady_env_t) (s : belady_state) (is_usage : Bool) : workset_t :=
  (List.range s.ws.len).foldl
    (fun ws i =>
      workset_set_time ws i (get_distance env s.instr s.instr_nr (ws.vals i).irn (!is_usage)))
    s.ws

/-- Step 2 of `displace`: make room for at least `demand` slots. -/
def displace_make_room (env : belady_env_t) (s : belady_state) (demand : Nat)
    (is_usage : Bool) : workset_t :=
  let len := s.ws.len
  let max_allowed := env.n_regs - demand
  if len > max_allowed then
    workset_set_length (workset_sort (displace_set_times env s is_usage)) max_allowed
  else s.ws

/-- Function `displace`: grant the request that `new_vals` can be held in registers;
`is_usage` says that the values are used (not defined). -/
def displace (env : belady_env_t) (s : belady_state) (new_vals : workset_t)
    (is_usage : Bool) : Option belady_state :=
  (new_vals.irns.foldlM (displace_mark env is_usage) (s, [])).bind fun acc =>
    let ws := displace_make_room env acc.1 acc.2.length is_usage
    (acc.2.foldlM (workset_insert env) ws).map fun ws2 => { acc.1 with ws := ws2 }

/-- What `belady` reads of a scheduled node. -/
structure sched_node where
  idx : Nat
  is_Proj : Bool
  is_Phi : Bool
  /-- The operands `get_irn_n(irn, i)` for `i < get_irn_arity(irn)` -/
  ins : List Nat
  /-- The test `get_irn_mode(irn) == mode_T` -/
  is_mode_T : Bool
  /-- The nodes `get_edge_src_irn` of the out edges -/
  outs : List Nat

/-- The body of the `sched_foreach` loop of `belady`. The first component is the
local `new_vals`. -/
def belady_instr (env : belady_env_t) (acc : workset_t × belady_state) (irn : sched_node) :
    Option (workset_t × belady_state) :=
  let s := acc.2
  if irn.is_Proj || irn.is_Phi then some acc
  else
    let s := { s with bi := { s.bi with first_non_in := s.bi.first_non_in.orElse fun _ => some irn.idx },
                      instr := irn.idx }
    (irn.ins.foldlM (workset_insert env) (workset_clear acc.1)).bind fun used =>
    (displace env s used true).bind fun s =>
    ((if irn.is_mode_T then irn.outs else [irn.idx]).foldlM (workset_insert env)
        (workset_clear used)).bind fun defined =>
    (displace env s defined false).map fun s =>
      (defined, { s with bi := { s.bi with pressure := max s.bi.pressure s.ws.len },
                         instr_nr := s.instr_nr + 1 })

/-- The instruction loop of `belady` over (a prefix of) the schedule of a block. -/
def belady_loop (env : belady_env_t) (acc : workset_t × belady_state) (sched : List sched_node) :
    Option (workset_t × belady_state) :=
  sched.foldlM (belady_instr env) acc

/-- Function `belady`: decide for the block `bl` with schedule `sched` which values are used
from a register and which are reloaded. `ws`, `instr` and `reloads` are what the
environment holds when the block is entered. -/
def belady (env : belady_env_t) (ws : workset_t) (instr : Nat) (reloads : List (Nat × Nat))
    (bl : Nat) (sched : List sched_node) : Option belady_state :=
  let s0 : belady_state :=
    { ws := ws, instr := instr, instr_nr := 0, reloads := reloads, bi := new_block_info bl }
  (belady_loop env (new_workset, s0) sched).map fun acc =>
    { acc.2 with bi := { acc.2.bi with ws_end := acc.2.ws } }

/-! ## Concrete blocks for the local pass -/

/-- Modelled from the spec: the next-use oracle `be_get_next_use` (beuses.c is not
in src), for a value that is not used behind the block: the number of steps from
the instruction with number `from_step` (looking only behind that instruction when
`skip_from_uses`) to the next instruction of the schedule that uses `def_`, and
`infinity` if there is none. Projs and Phis are no instructions. -/
def local_next_use (sched : List sched_node) (infinity from_step def_ : Nat)
    (skip_from_uses : Bool) : Nat :=
  let instrs := sched.filter fun n => !(n.is_Proj || n.is_Phi)
  let start := from_step + (if skip_from_uses then 1 else 0)
  match (List.range instrs.length).find?
      (fun j => decide (start ≤ j) && ((instrs.map sched_node.ins).getD j []).contains def_) with
  | some j => j - from_step
  | none => infinity

/-- An environment for one block with schedule `sched`: `n` registers, the values
of the class given by `cls`, no dont_spill flag, no Phi, the live-in values given
by `live_in`, and the oracle `local_next_use`. -/
def block_env (sched : List sched_node) (n : Nat) (cls live_in : Nat → Bool) : belady_env_t :=
  { n_regs := n, consider_in_reg_alloc := cls, dont_spill := fun _ => false,
    be_get_next_use := fun _ from_step def_ skip => local_next_use sched 10000000 from_step def_ skip,
    USES_INFINITY := 10000000, USES_IS_INFINITE := fun t => decide (10000000 ≤ t),
    is_Phi := fun _ => false, get_nodes_block := fun _ => 0, be_is_live_in := fun _ v => live_in v }

/-- An instruction `idx` with operands `ins` whose result is the node itself. -/
def plain_node (idx : Nat) (ins : List Nat) : sched_node :=
  { idx := idx, is_Proj := false, is_Phi := false, ins := ins, is_mode_T := false, outs := [] }

/-- Five definitions 1..5 followed by one use of each (the using nodes 11..15 are
not of the register class). -/
def five_values_block : List sched_node :=
  [plain_node 1 [], plain_node 2 [], plain_node 3 [], plain_node 4 [], plain_node 5 [],
   plain_node 11 [1], plain_node 12 [2], plain_node 13 [3], plain_node 14 [4], plain_node 15 [5]]

/-- The environment of `five_values_block` with four registers. -/
def five_values_env : belady_env_t :=
  block_env five_values_block 4 (fun v => decide (v ≤ 5)) (fun _ => false)

/-- The state in which `belady` enters a block `bl` with an empty workset. -/
def entry_state (bl : Nat) : belady_state :=
  { ws := new_workset, instr := 0, instr_nr := 0, reloads := [], bi := new_block_info bl }

/-- The order of the keys (next-use distance, node index) that `loc_compare`
implements on values below `2 ^ 31`: `p` comes before `q` or equals it. -/
def loc_key_le (p q : loc_t) : Prop :=
  p.time < q.time ∨ (p.time = q.time ∧ p.irn ≤ q.irn)

instance : DecidableRel loc_key_le := fun p q => by
  unfold loc_key_le; exact inferInstance

/-- The state of `five_values_block` when its fifth instruction is reached: the
values 1..4 are resident. -/
def full_state : belady_state :=
  { ws := { len := 4, vals := fun i => { irn := i + 1, time := 0, version := 0 } },
    instr := 5, instr_nr := 4, reloads := [], bi := new_block_info 0 }

/-- The request set holding the single value `v`. -/
def single_request (v : Nat) : workset_t :=
  { len := 1, vals := fun _ => { irn := v, time := 0, version := 0 } }

/-- The state after `displace` has placed the defined value 5 in `full_state`. -/
def full_state_after : belady_state :=
  (displace five_values_env full_state (single_request 5) false).getD full_state

/-- The values an instruction defines, as `belady` collects them: the Projs of a
tuple node, the node itself otherwise. -/
def sched_node.defs (irn : sched_node) : List Nat :=
  if irn.is_mode_T then irn.outs else [irn.idx]

/-- Projs and Phis are no instructions for `belady`. -/
def sched_node.is_instr (irn : sched_node) : Bool :=
  !(irn.is_Proj || irn.is_Phi)

/-- All values the instructions of a schedule use or define (with repetitions). -/
def block_values (sched : List sched_node) : List Nat :=
  (sched.filter sched_node.is_instr).flatMap fun irn => irn.ins ++ irn.defs

/-- All values the instructions of a schedule define. -/
def block_defs (sched : List sched_node) : List Nat :=
  (sched.filter sched_node.is_instr).flatMap sched_node.defs

/-- Modelled from the spec: the live values at instruction number `j` of a block
(the liveness analysis belive.c is not in src). A value of the register class is
counted at `j` if it is defined by instruction `j`, or if it is available (live in,
or defined by an earlier instruction) and used by instruction `j` or a later one.
No value is used behind the block. -/
def live_values (sched : List sched_node) (cls live_in : Nat → Bool) (j : Nat) : List Nat :=
  let instrs := sched.filter sched_node.is_instr
  ((block_values sched).dedup.filter cls).filter fun v =>
    (((instrs.map sched_node.defs).getD j []).contains v) ||
    ((live_in v || (block_defs (instrs.take j)).contains v) &&
      ((instrs.drop j).any fun irn => irn.ins.contains v))

/-- Modelled from the spec: the largest number of simultaneously live values of the
register class in a block, see `live_values`. -/
def max_live (sched : List sched_node) (cls live_in : Nat → Bool) : Nat :=
  ((List.range (sched.filter sched_node.is_instr).length).map fun j =>
    (live_values sched cls live_in j).length).foldr max 0

/-- A block with the live-in value 9: a chain 1 -> 2 -> 3 of definitions and a
node 4 (not of the register class) that uses 9 and 3. -/
def chain_block : List sched_node :=
  [plain_node 1 [], plain_node 2 [1], plain_node 3 [2], plain_node 4 [9, 3]]

/-- The environment of `chain_block` with three registers. -/
def chain_env : belady_env_t :=
  block_env chain_block 3 (fun v => decide (v ≠ 4)) (fun v => decide (v = 9))

/-- Five definitions 1..5 followed by one use of each, in the order `uses`; the
`i`-th using node has number `11 + i` and is not of the register class. -/
def five_values_block_of (uses : List Nat) : List sched_node :=
  [plain_node 1 [], plain_node 2 [], plain_node 3 [], plain_node 4 [], plain_node 5 []] ++
    (List.range uses.length).map fun i => plain_node (11 + i) [uses.getD i 0]

/-! ## ILP scheduler: ASAP/ALAP windows (`beilpsched.c`)

The graph is a function from the node index to what the analysis reads of the
node. The graph walkers (irgwalk.c) are not in src: the order in which a walk
visits the nodes is a parameter. The phase data of a node or block starts
zeroed (`init_ilpsched_irn`). -/

/-- An execution unit (`be_execution_unit_t`, bemachine.h): its type `tp`, given as
the index of the type in `unit_types` of the machine (the type of the DUMMY unit is
none of them), and the test `be_machine_is_dummy_unit`. -/
structure be_execution_unit_t where
  tp : Nat
  is_dummy : Bool
deriving DecidableEq, Repr

/-- What the window analysis and the scheduler read of an `ir_node`. -/
structure ir_node where
  is_Block : Bool
  is_Proj : Bool
  is_Phi : Bool
  is_NoMem : Bool
  is_Jmp : Bool
  is_End : Bool
  /-- The test `be_is_Keep(irn)` -/
  is_Keep : Bool
  /-- The test `get_irn_mode(irn) == mode_X` -/
  is_mode_X : Bool
  /-- The test `arch_isa_get_allowed_execution_units(isa, irn) != NULL` -/
  has_units : Bool
  /-- The block `get_nodes_block(irn)` -/
  block : Nat
  /-- The operands `get_irn_n(irn, i)` -/
  ins : List Nat
  /-- The dependencies `get_irn_dep(irn, i)` -/
  deps : List Nat
  /-- The sources of the out edges of kind `EDGE_KIND_NORMAL` -/
  outs : List Nat
  /-- The sources of the out edges of kind `EDGE_KIND_DEP` -/
  dep_outs : List Nat
  /-- The value `be_ilp_sched_latency(sel, irn, env)` of the backend -/
  latency : Nat
  /-- The array `arch_isa_get_allowed_execution_units(isa, irn)` when it is not NULL:
  for every allowed unit type the units of this type -/
  execunits : List (List be_execution_unit_t) := []
  /-- The test `get_irn_mode(irn) == mode_M` -/
  is_mode_M : Bool := false
  /-- The test `get_irn_mode(irn) == mode_T` -/
  is_mode_T : Bool := false
  /-- The test `get_irn_mode(irn) == mode_b` -/
  is_mode_b : Bool := false
  /-- The test `get_irn_opcode(irn) == iro_Start` -/
  is_Start : Bool := false
  /-- The test `get_irn_opcode(irn) == iro_Bad` -/
  is_Bad : Bool := false
  /-- The test `is_cfop(irn)` -/
  is_cfop : Bool := false
  /-- The test `to_appear_in_schedule(irn)` of besched -/
  to_appear_in_schedule : Bool := false

/-- A graph: the node of every index. -/
abbrev ir_graph := Nat → ir_node

/-- The operands followed by the dependencies: `get_irn_in_or_dep(irn, i)` for
`i < get_irn_ins_or_deps(irn)`. -/
def in_or_dep (g : ir_graph) (irn : Nat) : List Nat :=
  (g irn).ins ++ (g irn).deps

/-- The predecessor `get_Proj_pred(irn)`, operand 0. -/
def get_Proj_pred (g : ir_graph) (irn : Nat) : Nat :=
  (g irn).ins.getD 0 0

/-- Modelled from the spec: `skip_Proj` of irnode.c (not in src), which gives the
operation a projection projects from and every other node unchanged. -/
def skip_Proj (g : ir_graph) (irn : Nat) : Nat :=
  if (g irn).is_Proj then get_Proj_pred g irn else irn

/-- Function `is_normal_Proj`: a Proj which has no execution units assigned. -/
def is_normal_Proj (g : ir_graph) (irn : Nat) : Bool :=
  (g irn).is_Proj && !(g irn).has_units

/-- Function `skip_normal_Proj`: the predecessor if `irn` is a normal Proj. -/
def skip_normal_Proj (g : ir_graph) (irn : Nat) : Nat :=
  if is_normal_Proj g irn then get_Proj_pred g irn else irn

/-- Function `fixed_latency`: the latency of the backend, at least 1 except for
Projs and Keeps. -/
def fixed_latency (g : ir_graph) (irn : Nat) : Nat :=
  let lat := (g irn).latency
  if lat = 0 ∧ !(g irn).is_Proj ∧ !(g irn).is_Keep then 1 else lat

/-- Macro `consider_for_sched`: the node is considered for ILP scheduling. -/
def consider_for_sched (g : ir_graph) (irn : Nat) : Bool :=
  !((g irn).is_Block || is_normal_Proj g irn || (g irn).is_Phi || (g irn).is_NoMem ||
    (g irn).is_Jmp || (g irn).is_End)

/-- The fields of `ilpsched_node_attr_t` used by the window analysis. -/
structure ilpsched_node_attr_t where
  asap : Nat
  alap : Nat
  latency : Nat
  visit_idx : Nat
  consumer_idx : Nat
  n_consumer : Nat
  block_consumer : List Nat
  projkeeps : List Nat
  alap_changed : Bool
deriving DecidableEq, Repr

/-- The fields of `ilpsched_block_attr_t` used by the window analysis. -/
structure ilpsched_block_attr_t where
  n_interesting_nodes : Nat
  max_steps : Nat
  root_nodes : List Nat
  head_ilp_nodes : List Nat
deriving DecidableEq, Repr

/-- The phase data: node attributes and block attributes by node index. -/
structure ilpsched_phase where
  na : Nat → ilpsched_node_attr_t
  ba : Nat → ilpsched_block_attr_t

/-- The zeroed phase data of `init_ilpsched_irn`. -/
def init_phase : ilpsched_phase :=
  { na := fun _ => { asap := 0, alap := 0, latency := 0, visit_idx := 0, consumer_idx := 0,
                     n_consumer := 0, block_consumer := [], projkeeps := [], alap_changed := false },
    ba := fun _ => { n_interesting_nodes := 0, max_steps := 0, root_nodes := [],
                     head_ilp_nodes := [] } }

/-- Overwrite the attributes of node `irn`. -/
def ilpsched_phase.set_na (st : ilpsched_phase) (irn : Nat) (a : ilpsched_node_attr_t) :
    ilpsched_phase :=
  { st with na := fun j => if j = irn then a else st.na j }

/-- Overwrite the attributes of block `bl`. -/
def ilpsched_phase.set_ba (st : ilpsched_phase) (bl : Nat) (a : ilpsched_block_attr_t) :
    ilpsched_phase :=
  { st with ba := fun j => if j = bl then a else st.ba j }

/-- The test of the ASAP and ALAP loops on a predecessor: no Phi, no NoMem, and in
the block at hand. -/
def is_block_pred (g : ir_graph) (block pred : Nat) : Bool :=
  !(g pred).is_Phi && !(g pred).is_NoMem && (g pred).block == block

/-- The same-block predecessors of `irn` in the order the loops visit them (from the
last operand or dependency down to the first), normal Projs skipped. -/
def block_preds (g : ir_graph) (irn : Nat) : List Nat :=
  ((in_or_dep g irn).reverse.map (skip_normal_Proj g)).filter (is_block_pred g (g irn).block)

/-- Subtraction of `unsigned` values. -/
def u32_sub (a b : Nat) : Nat := (a % 2 ^ 32 + 2 ^ 32 - b % 2 ^ 32) % 2 ^ 32

/-- The body of the predecessor loop of `calculate_irn_asap`. -/
def asap_visit_pred (g : ir_graph) (irn : Nat) (st : ilpsched_phase) (x : Nat) : ilpsched_phase :=
  let pred := skip_normal_Proj g x
  if is_block_pred g (g irn).block pred then
    let lat := fixed_latency g pred
    st.set_na irn { st.na irn with
      latency := lat, asap := max (st.na irn).asap (u32 ((st.na pred).asap + lat)) }
  else st

/-- Function `calculate_irn_asap`: the ASAP scheduling step for `irn`. -/
def calculate_irn_asap (g : ir_graph) (st : ilpsched_phase) (irn : Nat) : ilpsched_phase :=
  if !consider_for_sched g irn then st
  else
    let block := (g irn).block
    let st := st.set_na irn { st.na irn with asap := 1 }
    let st := (in_or_dep g irn).reverse.foldl (asap_visit_pred g irn) st
    st.set_ba block { st.ba block with
      head_ilp_nodes := irn :: (st.ba block).head_ilp_nodes,
      max_steps := u32 ((st.ba block).max_steps + fixed_latency g irn) }

/-- The local variables of `collect_alap_root_nodes` together with the phase data. -/
structure collect_state where
  st : ilpsched_phase
  has_block_user : Bool
  n_consumer : Nat
  consumer : List Nat

/-- The code of `collect_alap_root_nodes` for a user that is neither Phi nor Block:
skip it if already visited for `irn`, note a user in the block (collecting it when
`collect`), count it when `count`, and mark it visited. -/
def collect_user (g : ir_graph) (irn block : Nat) (collect count : Bool)
    (acc : collect_state) (user : Nat) : collect_state :=
  if (acc.st.na user).consumer_idx = irn then acc
  else
    let acc :=
      if (g user).block = block then
        { acc with consumer := if collect then acc.consumer ++ [user] else acc.consumer,
                   has_block_user := true }
      else acc
    let acc := if count then { acc with n_consumer := acc.n_consumer + 1 } else acc
    { acc with st := acc.st.set_na user { acc.st.na user with consumer_idx := irn } }

/-- The body of the out edge loop of `collect_alap_root_nodes` for the edge kind
number `i` (0 for data edges, 1 for dependency edges). -/
def collect_edge (g : ir_graph) (irn block i : Nat) (acc : collect_state) (user : Nat) :
    collect_state :=
  if is_normal_Proj g user then
    if (g user).is_mode_X then acc
    else
      let acc := (g user).outs.foldl
        (fun acc real_user =>
          if !(g real_user).is_Phi && !(g real_user).is_Block then
            collect_user g irn block (i == 0) (i == 0) acc real_user
          else acc) acc
      (g user).dep_outs.foldl
        (fun acc real_user =>
          if !(g real_user).is_Phi && !(g real_user).is_Block then
            collect_user g irn block false (i == 0) acc real_user
          else acc) acc
  else if (g user).is_Block then acc
  else if !(g user).is_Phi then collect_user g irn block (i == 0) (i == 0) acc user
  else acc

/-- Function `collect_alap_root_nodes`: add a node having no user in its block to the
root list of the block; record its consumers. -/
def collect_alap_root_nodes (g : ir_graph) (st : ilpsched_phase) (irn : Nat) : ilpsched_phase :=
  if !consider_for_sched g irn then st
  else
    let block := (g irn).block
    let acc : collect_state := { st := st, has_block_user := false, n_consumer := 0, consumer := [] }
    let acc := (g irn).outs.foldl (collect_edge g irn block 0) acc
    let acc := if !acc.has_block_user then (g irn).dep_outs.foldl (collect_edge g irn block 1) acc
               else acc
    let st := acc.st
    let st := st.set_ba block { st.ba block with
      n_interesting_nodes := (st.ba block).n_interesting_nodes + 1,
      root_nodes := if !acc.has_block_user then (st.ba block).root_nodes ++ [irn]
                    else (st.ba block).root_nodes }
    st.set_na irn { st.na irn with n_consumer := acc.n_consumer, block_consumer := acc.consumer }

/-- The body of the predecessor loop of `calculate_block_alap` for the node `cur`;
the second component is `next_queue`. -/
def alap_visit_pred (g : ir_graph) (block cur : Nat) (acc : ilpsched_phase × List Nat) (x : Nat) :
    ilpsched_phase × List Nat :=
  let pred := skip_normal_Proj g x
  if is_block_pred g block pred then
    let st := acc.1
    if (st.na pred).visit_idx = cur ∧ !(st.na cur).alap_changed then acc
    else
      let st := st.set_na pred { st.na pred with visit_idx := cur }
      let lat := fixed_latency g pred
      let st :=
        if (st.na pred).alap = 0 then
          st.set_na pred { st.na pred with alap_changed := true, alap := u32_sub (st.na cur).alap lat }
        else if (st.na pred).alap > u32_sub (st.na cur).alap lat then
          st.set_na pred { st.na pred with alap := u32_sub (st.na cur).alap lat, alap_changed := true }
        else
          st.set_na pred { st.na pred with alap_changed := false }
      (st, if (in_or_dep g pred).length > 0 then acc.2 ++ [pred] else acc.2)
  else acc

/-- The body of the inner queue loop of `calculate_block_alap` for the node `cur`. -/
def alap_process_node (g : ir_graph) (block : Nat) (acc : ilpsched_phase × List Nat) (cur : Nat) :
    ilpsched_phase × List Nat :=
  let st := acc.1
  let st :=
    if (st.na cur).alap = 0 then st.set_na cur { st.na cur with alap := (st.ba block).max_steps }
    else st
  (in_or_dep g cur).reverse.foldl (alap_visit_pred g block cur) (st, acc.2)

/-- The outer loop of `calculate_block_alap`: process the current queue, continue
with the next queue until a queue is empty. `none` when `fuel` rounds do not
suffice. -/
def alap_rounds (g : ir_graph) (block : Nat) : Nat → ilpsched_phase → List Nat → Option ilpsched_phase
  | _, st, [] => some st
  | 0, _, _ :: _ => none
  | fuel + 1, st, cur :: queue =>
    let r := (cur :: queue).foldl (alap_process_node g block) (st, [])
    alap_rounds g block fuel r.1 r.2

/-- Function `calculate_block_alap`: the ALAP scheduling step of all nodes of `block`,
starting from the root nodes. -/
def calculate_block_alap (g : ir_graph) (fuel : Nat) (st : ilpsched_phase) (block : Nat) :
    Option ilpsched_phase :=
  alap_rounds g block fuel st (st.ba block).root_nodes

/-- Function `refine_asap_alap_times`: set the ASAP/ALAP times of Projs and Keeps to
the ones of their ancestor. -/
def refine_asap_alap_times (g : ir_graph) (st : ilpsched_phase) (irn : Nat) : ilpsched_phase :=
  if !consider_for_sched g irn then st
  else if !(g irn).is_Proj && !(g irn).is_Keep then st
  else
    let pred := if (g irn).is_Keep then (g irn).ins.getD 0 0 else irn
    let pred := skip_Proj g pred
    let st := st.set_na irn { st.na irn with asap := (st.na pred).asap }
    let st := st.set_na irn { st.na irn with alap := (st.na pred).alap }
    st.set_na pred { st.na pred with projkeeps := (st.na pred).projkeeps ++ [irn] }

/-- The window analysis of `be_ilp_sched`: the walk with `collect_alap_root_nodes`
(on entering a node, order `pre`) and `calculate_irn_asap` (on leaving it, order
`post`), which touch different fields, then `calculate_block_alap` for every block,
then the walk with `refine_asap_alap_times`. -/
def window_analysis (g : ir_graph) (pre post blocks : List Nat) (fuel : Nat) :
    Option ilpsched_phase :=
  let st := pre.foldl (collect_alap_root_nodes g) init_phase
  let st := post.foldl (calculate_irn_asap g) st
  (blocks.foldlM (calculate_block_alap g fuel) st).map fun st =>
    post.foldl (refine_asap_alap_times g) st

/-- A node that is nothing special: not a Block, Proj, Phi, NoMem, Jmp, End or Keep. -/
def op_node (block : Nat) (ins deps outs : List Nat) (latency : Nat) : ir_node :=
  { is_Block := false, is_Proj := false, is_Phi := false, is_NoMem := false, is_Jmp := false,
    is_End := false, is_Keep := false, is_mode_X := false, has_units := true, block := block,
    ins := ins, deps := deps, outs := outs, dep_outs := [], latency := latency }

/-- A Keep node for the value `kept`, with the latency 0 the backend gives it. -/
def keep_node (block kept : Nat) : ir_node :=
  { op_node block [kept] [] [] 0 with is_Keep := true }

/-- A Block node. -/
def block_node : ir_node :=
  { op_node 0 [] [] [] 0 with is_Block := true, has_units := false }

/-- The graph whose node `i` is the `i`-th entry of `nodes` (Blocks elsewhere). -/
def graph_of (nodes : List ir_node) : ir_graph :=
  fun i => nodes.getD i block_node

/-- A block 0 with the chain 1 -> 2 of two operations of latency 1 and the Keep 3
of the value of 2; operation 1 has an operand (node 4) from block 5. -/
def kept_chain_graph : ir_graph :=
  graph_of [block_node, op_node 0 [4] [] [2] 1, op_node 0 [1] [] [3] 1, keep_node 0 2,
    op_node 5 [] [] [1] 1]

/-- The window analysis of `kept_chain_graph`, operands visited before their users. -/
def kept_chain_windows : Option ilpsched_phase :=
  window_analysis kept_chain_graph [3, 2, 1, 4] [4, 1, 2, 3] [5, 0] 10

/-- A block 0 with four operations of latency 1: 2 uses 1, 3 uses 2 twice (as in
`x * x`), 4 uses 3 and 2; operation 1 has an operand (node 5) from block 6. -/
def square_graph : ir_graph :=
  graph_of [block_node, op_node 0 [5] [] [2] 1, op_node 0 [1] [] [3, 3, 4] 1,
    op_node 0 [2, 2] [] [4] 1, op_node 0 [3, 2] [] [] 1, op_node 6 [] [] [1] 1]

/-- The window analysis of `square_graph`, operands visited before their users. -/
def square_windows : Option ilpsched_phase :=
  window_analysis square_graph [4, 3, 2, 1, 5] [5, 1, 2, 3, 4] [6, 0] 10

/-- The final phase data of `kept_chain_windows`. -/
def kept_chain_final : ilpsched_phase :=
  kept_chain_windows.getD init_phase

/-! ## The ILP of a block (`beilpsched.c`)

The linear program library (lpp), the machine description (bemachine) and the
heights analysis are not in src. A variable is identified with the number
`lpp_add_var` returns, a constraint is kept with its name, relation, right-hand
side and the factors set for it in order. A solution gives every variable the
truth value of `! LPP_VALUE_IS_0(lpp_get_var_sol(lpp, var))`. -/

/-- An execution unit type (`be_execution_unit_type_t`): the number of its units.
The type is identified with its index in `unit_types`, which also stands for its
name. -/
structure be_execution_unit_type_t where
  n_units : Nat
deriving DecidableEq, Repr

/-- The fields of the machine description `be_machine_t` read by the scheduler. -/
structure be_machine_t where
  unit_types : List be_execution_unit_type_t
  bundle_size : Nat
  bundels_per_cycle : Nat
deriving DecidableEq, Repr

/-- Number `cpu->n_unit_types` of unit types of the machine. -/
def be_machine_t.n_unit_types (cpu : be_machine_t) : Nat := cpu.unit_types.length

/-- The names given to variables and constraints (the `snprintf` formats), with the
node index, the unit type and the 0-based step they are made of. -/
inductive ilp_name where
  | x (n tp t : Nat)
  | y (n tp t : Nat)
  | a (n tp t : Nat)
  | d (n tp t : Nat)
  | assignment_cst (n : Nat)
  | dead_node_assign_cst (n : Nat)
  | precedence (pred n t : Nat)
  | resource_cst (tp t : Nat)
  | bundle_cst (t : Nat)
  | dying_node_cst (t n : Nat)
  | alive_node_cst (t n tp : Nat)
  | pressure_cst (n t tp : Nat)
deriving DecidableEq, Repr

/-- The relation of a constraint (`lpp_cst_t`). -/
inductive lpp_cst_t where
  | lpp_equal
  | lpp_less
  | lpp_greater
deriving DecidableEq, Repr

/-- A variable of the linear program: its name and its weight in the objective
function. All variables of the scheduler are `lpp_binary`. -/
structure lpp_var where
  name : ilp_name
  obj : Int
deriving DecidableEq, Repr

/-- A constraint of the linear program: name, relation, right-hand side and the
calls `lpp_set_factor_fast(lpp, cst, var, value)` made for it, in order. -/
structure lpp_cst where
  name : ilp_name
  kind : lpp_cst_t
  rhs : Int
  factors : List (Int × Int)
deriving DecidableEq, Repr

/-- The linear program `lpp_t`: its variables (variable `i + 1` is entry `i`) and
its constraints. -/
structure lpp_t where
  vars : List lpp_var
  csts : List lpp_cst
deriving DecidableEq, Repr

/-- Modelled from the spec: `new_lpp_userdef` of lpp.c (not in src), the empty
linear program. -/
def new_lpp : lpp_t := { vars := [], csts := [] }

/-- Modelled from the spec: `lpp_add_var` of lpp.c (not in src) for a name not used
so far; the new variable gets the next number, counted from 1. -/
def lpp_add_var (lpp : lpp_t) (name : ilp_name) (obj : Int) : lpp_t × Int :=
  ({ lpp with vars := lpp.vars ++ [{ name := name, obj := obj }] }, (lpp.vars.length : Int) + 1)

/-- Modelled from the spec: `lpp_add_cst_uniq` of lpp.c (not in src) followed by the
`lpp_set_factor_fast` and `lpp_set_factor_fast_bulk` calls for the new constraint. -/
def lpp_add_cst (lpp : lpp_t) (name : ilp_name) (kind : lpp_cst_t) (rhs : Int)
    (factors : List (Int × Int)) : lpp_t :=
  { lpp with csts := lpp.csts ++ [{ name := name, kind := kind, rhs := rhs, factors := factors }] }

/-- The calls of `lpp_set_factor_fast_bulk(lpp, cst, vars, ARR_LEN(vars), value)`. -/
def bulk (vars : List Int) (value : Int) : List (Int × Int) :=
  vars.map fun v => (v, value)

/-- The factor of variable `v` in the constraint: the value set last, 0 if none. -/
def lpp_cst.coef (c : lpp_cst) (v : Int) : Int :=
  ((c.factors.reverse.find? fun f => f.1 == v).map Prod.snd).getD 0

/-- The left-hand side of the constraint under the solution `sol`. -/
def lpp_cst.lhs (c : lpp_cst) (sol : Int → Bool) : Int :=
  (((c.factors.map Prod.fst).dedup.filter sol).map c.coef).sum

/-- The constraint holds under the solution `sol`. -/
def lpp_cst.holds (c : lpp_cst) (sol : Int → Bool) : Bool :=
  match c.kind with
  | lpp_cst_t.lpp_equal => decide (c.lhs sol = c.rhs)
  | lpp_cst_t.lpp_less => decide (c.lhs sol ≤ c.rhs)
  | lpp_cst_t.lpp_greater => decide (c.lhs sol ≥ c.rhs)

/-- All constraints of the linear program hold under `sol`. -/
def lpp_t.is_sol (lpp : lpp_t) (sol : Int → Bool) : Bool :=
  lpp.csts.all fun c => c.holds sol

/-- The type `unit_type_info_t`: an allowed unit type of a node and the number of
units the backend lists for it. -/
structure unit_type_info_t where
  tp : Nat
  n_units : Nat
deriving DecidableEq, Repr

/-- The tables `ilp_var_types_t` of the variables of a node. An array that is not
allocated is empty. -/
structure ilp_var_types_t where
  x : List Int
  a : List Int
  d : List Int
  y : List Int
deriving DecidableEq, Repr

/-- The fields of `ilpsched_node_attr_t` that the ILP construction and the schedule
use, in addition to the ones of the window analysis. -/
structure ilp_node_attr_t where
  sched_point : Nat
  block_idx : Nat
  is_dummy_node : Bool
  n_unit_types : Nat
  type_info : List unit_type_info_t
  ilp_vars : ilp_var_types_t
deriving DecidableEq, Repr

/-- The zeroed ILP fields of a node (`memset` in `init_ilpsched_irn`). -/
def init_ilp_node_attr : ilp_node_attr_t :=
  { sched_point := 0, block_idx := 0, is_dummy_node := false, n_unit_types := 0, type_info := [],
    ilp_vars := { x := [], a := [], d := [], y := [] } }

/-- The fields of `be_ilpsched_env_t` and of its options read by the ILP
construction: the machine, `opts->limit_dead`, and the heights analysis
(`heights_reachable_in_block(glob_heights, n, m)`, heights.c is not in src). -/
structure be_ilpsched_env_t where
  cpu : be_machine_t
  limit_dead : Nat
  heights_reachable_in_block : Nat → Nat → Bool

/-- The data of the scheduler while the ILP of a block is built: the phase data of
the window analysis, the ILP fields of every node, `block_last_idx` of every
block, and the linear program. -/
structure ilp_state where
  ph : ilpsched_phase
  ia : Nat → ilp_node_attr_t
  block_last_idx : Nat → Nat
  lpp : lpp_t

/-- Overwrite the ILP fields of node `irn`. -/
def ilp_state.set_ia (st : ilp_state) (irn : Nat) (a : ilp_node_attr_t) : ilp_state :=
  { st with ia := fun j => if j = irn then a else st.ia j }

/-- The state before the ILP of a block is built. -/
def init_ilp_state (ph : ilpsched_phase) : ilp_state :=
  { ph := ph, ia := fun _ => init_ilp_node_attr, block_last_idx := fun _ => 0, lpp := new_lpp }

/-- Function `build_block_idx`: assign a per block unique number to each node. -/
def build_block_idx (g : ir_graph) (st : ilp_state) (irn : Nat) : ilp_state :=
  if !consider_for_sched g irn then st
  else
    let block := (g irn).block
    let st := st.set_ia irn { st.ia irn with block_idx := st.block_last_idx block % 2 ^ 30 }
    { st with block_last_idx := fun b =>
        if b = block then u32 (st.block_last_idx block + 1) else st.block_last_idx b }

/-- The values of `t` in a loop `for (t = lo; t <= hi; ++t)` over `unsigned` (for
`hi = UINT_MAX` the C loop does not end; the list then stops at `UINT_MAX`). -/
def steps_le (lo hi : Nat) : List Nat := List.range' lo (hi + 1 - lo)

/-- The values of `t` in a loop `for (t = lo; t < hi; ++t)`. -/
def steps_lt (lo hi : Nat) : List Nat := List.range' lo (hi - lo)

/-- The values of `i` in a loop `for (i = n - 1; i >= 0; --i)` over `int`. -/
def down_from (n : Nat) : List Nat := (List.range n).reverse

/-- Macro `VALID_SCHED_INTERVAL`: the number of steps of the window. -/
def VALID_SCHED_INTERVAL (na : ilpsched_node_attr_t) : Nat :=
  u32 (u32_sub na.alap na.asap + 1)

/-- Macro `VALID_KILL_INTERVAL`: the number of steps at which a node can die. -/
def VALID_KILL_INTERVAL (ba : ilpsched_block_attr_t) (na : ilpsched_node_attr_t) : Nat :=
  u32 (u32_sub ba.max_steps na.asap + 1)

/-- Macro `ILPVAR_IDX`: the index in the table `x` (or `y`) for a unit type index and
a 0-based step. -/
def ILPVAR_IDX (na : ilpsched_node_attr_t) (unit control_step : Nat) : Nat :=
  u32 (u32_sub (unit * VALID_SCHED_INTERVAL na + control_step) na.asap + 1)

/-- Macro `ILPVAR_IDX_DEAD`: the index in the table `d` (or `a`). -/
def ILPVAR_IDX_DEAD (ba : ilpsched_block_attr_t) (na : ilpsched_node_attr_t)
    (unit control_step : Nat) : Nat :=
  u32 (u32_sub (unit * VALID_KILL_INTERVAL ba na + control_step) na.asap + 1)

/-- An array of `len` entries after `memset(.., -1, ..)` and the writes
`arr[k++] = v` for the values `vals` in order, `k` starting at 0; a write behind
the end of the array is not kept. -/
def arr_fill (len : Nat) (vals : List Int) : List Int :=
  vals.take len ++ List.replicate (len - vals.length) (-1)

/-- The read `arr[idx]`; an index behind the end of the array reads -1. -/
def arr_get (arr : List Int) (idx : Nat) : Int := arr.getD idx (-1)

/-- The sched window loop `for (t = na->asap - 1; t <= na->alap - 1; ++t)`. -/
def sched_steps (na : ilpsched_node_attr_t) : List Nat :=
  steps_le (u32_sub na.asap 1) (u32_sub na.alap 1)

/-- The local variables of the variable loops of `create_variables`: the linear
program and the values written to the tables `x`, `y` and `a` or `d` so far. -/
structure var_acc where
  lpp : lpp_t
  xs : List Int
  ys : List Int
  ads : List Int

/-- The body of the loop over the steps of the window in `create_variables`:
the variable `x` and, unless the node is a dummy node, the variable `y`. -/
def create_xy (irn tp : Nat) (is_dummy_node : Bool) (weigth_y : Nat) (acc : var_acc) (t : Nat) :
    var_acc :=
  let r := lpp_add_var acc.lpp (ilp_name.x irn tp t) ((u32 (t + 1) : Nat) : Int)
  let acc := { acc with lpp := r.1, xs := acc.xs ++ [r.2] }
  if !is_dummy_node then
    let r := lpp_add_var acc.lpp (ilp_name.y irn tp t) (weigth_y : Int)
    { acc with lpp := r.1, ys := acc.ys ++ [r.2] }
  else acc

/-- The body of the loop `for (t = na->asap - 1; t <= ba->max_steps; ++t)` in
`create_variables`: the variable `a` or `d`. -/
def create_ad (irn tp : Nat) (alive : Bool) (n_interesting_nodes : Nat) (acc : var_acc) (t : Nat) :
    var_acc :=
  let r :=
    if alive then lpp_add_var acc.lpp (ilp_name.a irn tp t) (n_interesting_nodes : Int)
    else lpp_add_var acc.lpp (ilp_name.d irn tp t) ((u32 (t + 1) : Nat) : Int)
  { acc with lpp := r.1, ads := acc.ads ++ [r.2] }

/-- The body of the loop over the unit types in `create_variables`. -/
def create_tp_vars (irn : Nat) (na : ilpsched_node_attr_t) (ba : ilpsched_block_attr_t)
    (type_info : List unit_type_info_t) (is_dummy_node alive : Bool) (weigth_y : Nat)
    (acc : var_acc) (tp_idx : Nat) : var_acc :=
  let tp := (type_info.getD tp_idx { tp := 0, n_units := 0 }).tp
  let acc := (sched_steps na).foldl (create_xy irn tp is_dummy_node weigth_y) acc
  if !is_dummy_node then
    (steps_le (u32_sub na.asap 1) ba.max_steps).foldl
      (create_ad irn tp alive ba.n_interesting_nodes) acc
  else acc

/-- The body of the node loop of `create_variables`: the unit type information and
the variables of the node `irn`. -/
def create_node_variables (env : be_ilpsched_env_t) (g : ir_graph) (block : Nat)
    (st : ilp_state) (irn : Nat) : ilp_state :=
  let ba := st.ph.ba block
  let na := st.ph.na irn
  let weigth_y := u32 (ba.n_interesting_nodes * ba.n_interesting_nodes)
  let execunits := (g irn).execunits
  let n_unit_types := execunits.length
  let is_dummy_node := (st.ia irn).is_dummy_node || execunits.any fun units => units.any fun u => u.is_dummy
  let type_info := execunits.map fun units =>
    ({ tp := (units.getD 0 { tp := 0, is_dummy := false }).tp, n_units := units.length } :
      unit_type_info_t)
  let alive := decide (ba.n_interesting_nodes > env.limit_dead)
  let num_ad := u32 (u32_sub ba.max_steps na.asap + 1)
  let acc : var_acc := { lpp := st.lpp, xs := [], ys := [], ads := [] }
  let acc := (List.range n_unit_types).foldl
    (create_tp_vars irn na ba type_info is_dummy_node alive weigth_y) acc
  let x := arr_fill (u32 (n_unit_types * VALID_SCHED_INTERVAL na)) acc.xs
  let y := if !is_dummy_node then arr_fill (u32 (n_unit_types * VALID_SCHED_INTERVAL na)) acc.ys
           else (st.ia irn).ilp_vars.y
  let a := if !is_dummy_node && alive then arr_fill (u32 (n_unit_types * num_ad)) acc.ads
           else (st.ia irn).ilp_vars.a
  let d := if !is_dummy_node && !alive then arr_fill (u32 (n_unit_types * num_ad)) acc.ads
           else (st.ia irn).ilp_vars.d
  let st := st.set_ia irn { st.ia irn with
    n_unit_types := n_unit_types, type_info := type_info, is_dummy_node := is_dummy_node,
    ilp_vars := { x := x, a := a, d := d, y := y } }
  { st with lpp := acc.lpp }

/-- Function `create_variables`: the variables of all nodes of the block. -/
def create_variables (env : be_ilpsched_env_t) (g : ir_graph) (st : ilp_state) (block : Nat) :
    ilp_state :=
  (st.ph.ba block).head_ilp_nodes.foldl (create_node_variables env g block) st

/-- Function `is_valid_unit_type_for_node`: the highest index of the unit type `tp`
in the type information of the node, `none` for the result -1. -/
def is_valid_unit_type_for_node (tp : Nat) (ia : ilp_node_attr_t) : Option Nat :=
  (down_from ia.n_unit_types).find? fun i =>
    decide ((ia.type_info.getD i { tp := 0, n_units := 0 }).tp = tp)

/-- The entries of the table `x` of a node for all its unit types (from the last one
down) and the steps `ts`: the loops
`for (tp_idx = n_unit_types - 1; ..) for (t ...) ARR_APP1(.., x[ILPVAR_IDX(na, tp_idx, t)])`. -/
def x_vars (na : ilpsched_node_attr_t) (ia : ilp_node_attr_t) (ts : List Nat) : List Int :=
  (down_from ia.n_unit_types).flatMap fun tp_idx =>
    ts.map fun t => arr_get ia.ilp_vars.x (ILPVAR_IDX na tp_idx t)

/-- The body of the loop over `t` of the precedence constraints: the constraint
for the node `irn`, its predecessor `pred` and the 0-based step `t`. -/
def create_precedence_cst (st : ilp_state) (irn pred delay : Nat) (lpp : lpp_t) (t : Nat) : lpp_t :=
  let na := st.ph.na irn
  let pna := st.ph.na pred
  let vars_n := x_vars na (st.ia irn) (steps_le (u32_sub na.asap 1) t)
  let vars_m := x_vars pna (st.ia pred) (steps_lt (u32 (u32_sub t delay + 1)) pna.alap)
  let tmp_var_idx :=
    if arr_get (st.ia irn).ilp_vars.x 0 < arr_get (st.ia pred).ilp_vars.x 0 then vars_n ++ vars_m
    else vars_m ++ vars_n
  lpp_add_cst lpp (ilp_name.precedence pred irn t) lpp_cst_t.lpp_less 1 (bulk tmp_var_idx 1)

/-- The body of the predecessor loop of the precedence constraints; the second
component is the bitset `bs_block_irns`. The assertion on the window of the
predecessor ("Invalid scheduling interval.") is not part of the embedding. -/
def create_precedence_pred (g : ir_graph) (st : ilp_state) (block irn : Nat)
    (acc : lpp_t × List Nat) (x : Nat) : lpp_t × List Nat :=
  let pred := skip_normal_Proj g x
  if (g pred).is_Phi || decide (block ≠ (g pred).block) || (g pred).is_NoMem then acc
  else
    let na := st.ph.na irn
    let pna := st.ph.na pred
    if (st.ia pred).block_idx ∈ acc.2 then acc
    else
      let delay := u32 (fixed_latency g pred)
      let t_low := max na.asap (u32_sub (u32 (pna.asap + delay)) 1)
      let t_high := min na.alap (u32_sub (u32 (pna.alap + delay)) 1)
      ((steps_le (u32_sub t_low 1) (u32_sub t_high 1)).foldl
        (create_precedence_cst st irn pred delay) acc.1, (st.ia pred).block_idx :: acc.2)

/-- The body of the node loop of `create_assignment_and_precedence_constraints`. -/
def create_assignment_and_precedence_node (env : be_ilpsched_env_t) (g : ir_graph)
    (st0 : ilp_state) (block : Nat) (lpp : lpp_t) (irn : Nat) : lpp_t :=
  let ba := st0.ph.ba block
  let ia := st0.ia irn
  let lpp := lpp_add_cst lpp (ilp_name.assignment_cst irn) lpp_cst_t.lpp_equal 1
    (bulk ia.ilp_vars.x 1)
  let lpp :=
    if !ia.is_dummy_node && decide (ba.n_interesting_nodes ≤ env.limit_dead) then
      lpp_add_cst lpp (ilp_name.dead_node_assign_cst irn) lpp_cst_t.lpp_less 1
        (bulk ia.ilp_vars.d 1)
    else lpp
  ((in_or_dep g irn).reverse.foldl (create_precedence_pred g st0 block irn) (lpp, [])).1

/-- Function `create_assignment_and_precedence_constraints`. -/
def create_assignment_and_precedence_constraints (env : be_ilpsched_env_t) (g : ir_graph)
    (st : ilp_state) (block : Nat) : ilp_state :=
  let lpp := (st.ph.ba block).head_ilp_nodes.foldl
    (create_assignment_and_precedence_node env g st block) st.lpp
  { st with lpp := lpp }

/-- The variable of the node `irn` in the resource constraint of the unit type
`cur_tp` and the step `t`, if it has one. -/
def resource_var (st : ilp_state) (cur_tp t irn : Nat) : Option Int :=
  let na := st.ph.na irn
  match is_valid_unit_type_for_node cur_tp (st.ia irn) with
  | some tp_idx =>
    if t ≥ u32_sub na.asap 1 ∧ t ≤ u32_sub na.alap 1 then
      some (arr_get (st.ia irn).ilp_vars.x (ILPVAR_IDX na tp_idx t))
    else none
  | none => none

/-- The body of the loop over `t` of `create_ressource_constraints`. -/
def create_ressource_cst (env : be_ilpsched_env_t) (st : ilp_state) (block glob_type_idx : Nat)
    (lpp : lpp_t) (t : Nat) : lpp_t :=
  let n_units := (env.cpu.unit_types.getD glob_type_idx { n_units := 0 }).n_units
  let tmp_var_idx := (st.ph.ba block).head_ilp_nodes.filterMap (resource_var st glob_type_idx t)
  lpp_add_cst lpp (ilp_name.resource_cst glob_type_idx t) lpp_cst_t.lpp_less (n_units : Int)
    (bulk tmp_var_idx 1)

/-- Function `create_ressource_constraints`: for each unit type of the machine and each
step a constraint. -/
def create_ressource_constraints (env : be_ilpsched_env_t) (st : ilp_state) (block : Nat) :
    ilp_state :=
  let lpp := (down_from env.cpu.n_unit_types).foldl
    (fun lpp glob_type_idx =>
      (List.range (st.ph.ba block).max_steps).foldl
        (create_ressource_cst env st block glob_type_idx) lpp) st.lpp
  { st with lpp := lpp }

/-- The variables of the node `irn` in the bundle constraint of the step `t`. -/
def bundle_vars (g : ir_graph) (st : ilp_state) (t irn : Nat) : List Int :=
  let na := st.ph.na irn
  if (g irn).is_Proj || (g irn).is_Keep then []
  else if (st.ia irn).is_dummy_node then []
  else if t ≥ u32_sub na.asap 1 ∧ t ≤ u32_sub na.alap 1 then x_vars na (st.ia irn) [t]
  else []

/-- The body of the loop over `t` of `create_bundle_constraints`. -/
def create_bundle_cst (env : be_ilpsched_env_t) (g : ir_graph) (st : ilp_state) (block : Nat)
    (lpp : lpp_t) (t : Nat) : lpp_t :=
  let n_instr_max := u32 (env.cpu.bundle_size * env.cpu.bundels_per_cycle)
  let tmp_var_idx := (st.ph.ba block).head_ilp_nodes.flatMap (bundle_vars g st t)
  lpp_add_cst lpp (ilp_name.bundle_cst t) lpp_cst_t.lpp_less (n_instr_max : Int)
    (bulk tmp_var_idx 1)

/-- Function `create_bundle_constraints`: for each step a constraint. -/
def create_bundle_constraints (env : be_ilpsched_env_t) (g : ir_graph) (st : ilp_state)
    (block : Nat) : ilp_state :=
  let lpp := (List.range (st.ph.ba block).max_steps).foldl
    (create_bundle_cst env g st block) st.lpp
  { st with lpp := lpp }

/-- The variables `x` of the consumers in the block, from the last consumer down,
for the steps that `ts` gives for each of them. -/
def consumer_vars (st : ilp_state) (irn : Nat) (ts : ilpsched_node_attr_t → List Nat) : List Int :=
  (st.ph.na irn).block_consumer.reverse.flatMap fun cons =>
    x_vars (st.ph.na cons) (st.ia cons) (ts (st.ph.na cons))

/-- The body of the loop over the unit types of a node in
`create_dying_nodes_constraint`. -/
def create_dying_cst (st : ilp_state) (block t irn : Nat) (lpp : lpp_t) (node_tp_idx : Nat) :
    lpp_t :=
  let ba := st.ph.ba block
  let na := st.ph.na irn
  let d := (st.ia irn).ilp_vars.d
  let tmp_var_idx := consumer_vars st irn fun ca =>
    (steps_le (u32_sub ca.asap 1) t).filter fun tm => decide (tm ≤ u32_sub ca.alap 1)
  let factors :=
    if tmp_var_idx.length > 0 then
      (steps_lt (u32_sub na.asap 1) t).map
          (fun tn => (arr_get d (ILPVAR_IDX_DEAD ba na node_tp_idx tn), (-1 : Int))) ++
        [(arr_get d (ILPVAR_IDX_DEAD ba na node_tp_idx t), 0 - (na.n_consumer : Int))] ++
        bulk tmp_var_idx 1
    else []
  lpp_add_cst lpp (ilp_name.dying_node_cst t irn) lpp_cst_t.lpp_less
    ((u32_sub na.n_consumer 1 : Nat) : Int) factors

/-- The body of the node loop of `create_dying_nodes_constraint`. -/
def create_dying_node (st : ilp_state) (block t : Nat) (lpp : lpp_t) (irn : Nat) : lpp_t :=
  let na := st.ph.na irn
  if na.block_consumer.length < 1 || (st.ia irn).is_dummy_node then lpp
  else if t ≥ u32_sub na.asap 1 then
    (down_from (st.ia irn).n_unit_types).foldl (create_dying_cst st block t irn) lpp
  else lpp

/-- Function `create_dying_nodes_constraint`. -/
def create_dying_nodes_constraint (st : ilp_state) (block : Nat) : ilp_state :=
  let lpp := (List.range (st.ph.ba block).max_steps).foldl
    (fun lpp t => (st.ph.ba block).head_ilp_nodes.foldl (create_dying_node st block t) lpp) st.lpp
  { st with lpp := lpp }

/-- The body of the loop over the unit types of a node in
`create_alive_nodes_constraint`. -/
def create_alive_cst (st : ilp_state) (block irn t : Nat) (lpp : lpp_t) (node_tp_idx : Nat) :
    lpp_t :=
  let ba := st.ph.ba block
  let na := st.ph.na irn
  let ia := st.ia irn
  let tp := (ia.type_info.getD node_tp_idx { tp := 0, n_units := 0 }).tp
  let tn_max := min (u32_sub na.alap 1) t
  let tmp_var_idx_n := (steps_le (u32_sub na.asap 1) tn_max).map fun tn =>
    arr_get ia.ilp_vars.x (ILPVAR_IDX na node_tp_idx tn)
  let tmp_var_idx_m := consumer_vars st irn fun ca =>
    steps_le (u32_sub ca.asap 1) (min (u32_sub ca.alap 1) t)
  lpp_add_cst lpp (ilp_name.alive_node_cst t irn tp) lpp_cst_t.lpp_less 0
    (bulk tmp_var_idx_n (na.n_consumer : Int) ++ bulk tmp_var_idx_m (-1) ++
      [(arr_get ia.ilp_vars.a (ILPVAR_IDX_DEAD ba na node_tp_idx t), 0 - (na.n_consumer : Int))])

/-- The body of the node loop of `create_alive_nodes_constraint`. -/
def create_alive_node (st : ilp_state) (block : Nat) (lpp : lpp_t) (irn : Nat) : lpp_t :=
  let na := st.ph.na irn
  if (st.ia irn).is_dummy_node then lpp
  else
    (steps_lt (u32_sub na.asap 1) (st.ph.ba block).max_steps).foldl
      (fun lpp t =>
        (down_from (st.ia irn).n_unit_types).foldl (create_alive_cst st block irn t) lpp) lpp

/-- Function `create_alive_nodes_constraint`. -/
def create_alive_nodes_constraint (st : ilp_state) (block : Nat) : ilp_state :=
  let lpp := (st.ph.ba block).head_ilp_nodes.foldl (create_alive_node st block) st.lpp
  { st with lpp := lpp }

/-- The body of the loop over `t` of `create_pressure_dead_constraint` for the node
`cur_irn` and the unit type `glob_type_idx` with the index `cur_tp_idx` in the
type information of the node. -/
def create_pressure_dead_cst (env : be_ilpsched_env_t) (st : ilp_state)
    (block cur_irn glob_type_idx cur_tp_idx : Nat) (lpp : lpp_t) (t : Nat) : lpp_t :=
  let ba := st.ph.ba block
  let n_units := (env.cpu.unit_types.getD glob_type_idx { n_units := 0 }).n_units
  let entries := ba.head_ilp_nodes.flatMap fun irn =>
    let na := st.ph.na irn
    let tmax := min t (u32_sub na.alap 1)
    match is_valid_unit_type_for_node glob_type_idx (st.ia irn) with
    | none => []
    | some tp_idx =>
      (steps_le (u32_sub na.asap 1) tmax).map fun tn =>
        (arr_get (st.ia irn).ilp_vars.x (ILPVAR_IDX na tp_idx tn),
         arr_get (st.ia irn).ilp_vars.d (ILPVAR_IDX_DEAD ba na tp_idx tn))
  let y_idx := ILPVAR_IDX (st.ph.na cur_irn) cur_tp_idx t
  lpp_add_cst lpp (ilp_name.pressure_cst cur_irn t glob_type_idx) lpp_cst_t.lpp_less
    ((u32_sub n_units 1 : Nat) : Int)
    (bulk (entries.map Prod.fst) 1 ++ bulk (entries.map Prod.snd) (-1) ++
      [(arr_get (st.ia cur_irn).ilp_vars.y y_idx, 0 - (t : Int))])

/-- The body of the loop over `t` of `create_pressure_alive_constraint`. -/
def create_pressure_alive_cst (env : be_ilpsched_env_t) (st : ilp_state)
    (block cur_irn glob_type_idx cur_tp_idx : Nat) (lpp : lpp_t) (t : Nat) : lpp_t :=
  let ba := st.ph.ba block
  let n_units := (env.cpu.unit_types.getD glob_type_idx { n_units := 0 }).n_units
  let tmp_var_idx := ba.head_ilp_nodes.flatMap fun irn =>
    let na := st.ph.na irn
    if t < u32_sub na.asap 1 then []
    else
      match is_valid_unit_type_for_node glob_type_idx (st.ia irn) with
      | none => []
      | some tp_idx => [arr_get (st.ia irn).ilp_vars.a (ILPVAR_IDX_DEAD ba na tp_idx t)]
  let y_idx := ILPVAR_IDX (st.ph.na cur_irn) cur_tp_idx t
  lpp_add_cst lpp (ilp_name.pressure_cst cur_irn t glob_type_idx) lpp_cst_t.lpp_less
    ((u32_sub n_units 1 : Nat) : Int)
    (bulk tmp_var_idx 1 ++
      [(arr_get (st.ia cur_irn).ilp_vars.y y_idx, 0 - (ba.n_interesting_nodes : Int))])

/-- The node loop shared by `create_pressure_dead_constraint` and
`create_pressure_alive_constraint`, which differ in the constraint `cst` made for
a node, a unit type of the machine and a step of the window of the node. -/
def create_pressure_node (env : be_ilpsched_env_t) (st : ilp_state)
    (cst : (cur_irn glob_type_idx cur_tp_idx : Nat) → lpp_t → Nat → lpp_t)
    (lpp : lpp_t) (cur_irn : Nat) : lpp_t :=
  if (st.ia cur_irn).is_dummy_node then lpp
  else
    (down_from env.cpu.n_unit_types).foldl
      (fun lpp glob_type_idx =>
        match is_valid_unit_type_for_node glob_type_idx (st.ia cur_irn) with
        | none => lpp
        | some cur_tp_idx =>
          (sched_steps (st.ph.na cur_irn)).foldl (cst cur_irn glob_type_idx cur_tp_idx) lpp) lpp

/-- Function `create_pressure_dead_constraint`. -/
def create_pressure_dead_constraint (env : be_ilpsched_env_t) (st : ilp_state) (block : Nat) :
    ilp_state :=
  let lpp := (st.ph.ba block).head_ilp_nodes.foldl
    (create_pressure_node env st (create_pressure_dead_cst env st block)) st.lpp
  { st with lpp := lpp }

/-- Function `create_pressure_alive_constraint`. -/
def create_pressure_alive_constraint (env : be_ilpsched_env_t) (st : ilp_state) (block : Nat) :
    ilp_state :=
  let lpp := (st.ph.ba block).head_ilp_nodes.foldl
    (create_pressure_node env st (create_pressure_alive_cst env st block)) st.lpp
  { st with lpp := lpp }

/-- The part of `create_ilp` that builds the linear program of a block with more
than one interesting node: the variables and all constraints. -/
def build_ilp (env : be_ilpsched_env_t) (g : ir_graph) (st : ilp_state) (block : Nat) : ilp_state :=
  let st := { st with lpp := new_lpp }
  let st := create_variables env g st block
  let st := create_assignment_and_precedence_constraints env g st block
  let st := create_ressource_constraints env st block
  let st := create_bundle_constraints env g st block
  if (st.ph.ba block).n_interesting_nodes > env.limit_dead then
    create_pressure_alive_constraint env (create_alive_nodes_constraint st block) block
  else
    create_pressure_dead_constraint env (create_dying_nodes_constraint st block) block

/-! ## The schedule of a block (`beilpsched.c`)

The schedule of the block is the list of the nodes in the order of the calls
`sched_add_before(block, irn)`, each with the cycle reported to the backend. A node
counts as scheduled (`sched_is_scheduled`) when it is in this list. -/

/-- Function `notified_sched_add_before` for `before == block`: append the node. -/
def notified_sched_add_before (sched : List (Nat × Nat)) (irn cycle : Nat) : List (Nat × Nat) :=
  sched ++ [(irn, cycle)]

/-- The test `sched_is_scheduled(irn)`. -/
def sched_is_scheduled (sched : List (Nat × Nat)) (irn : Nat) : Bool :=
  (sched.map Prod.fst).contains irn

/-- Function `check_for_keeps`: the Keeps among the users of `irn`, put to the queue. -/
def check_for_keeps (g : ir_graph) (keeps : List Nat) (irn : Nat) : List Nat :=
  keeps ++ (g irn).outs.filter fun user => (g user).is_Keep

/-- Function `add_to_sched`: add a node, its Projs (in case of mode_T nodes) and its
Keeps to the schedule. -/
def add_to_sched (g : ir_graph) (sched : List (Nat × Nat)) (irn cycle : Nat) : List (Nat × Nat) :=
  if (g irn).is_mode_M then sched
  else
    let sched := if !sched_is_scheduled sched irn then notified_sched_add_before sched irn cycle
                 else sched
    let r : List (Nat × Nat) × List Nat :=
      if (g irn).is_mode_T then
        (g irn).outs.foldl
          (fun (acc : List (Nat × Nat) × List Nat) user =>
            let sched :=
              if (g user).to_appear_in_schedule || (g user).is_mode_b then
                notified_sched_add_before acc.1 user cycle
              else acc.1
            (sched, check_for_keeps g acc.2 user)) (sched, [])
      else (sched, check_for_keeps g [] irn)
    r.2.foldl
      (fun sched keep =>
        if !sched_is_scheduled sched keep then notified_sched_add_before sched keep cycle
        else sched) r.1

/-- Modelled from the spec: macro `QSORT_CMP` (not in src), the sign of the
comparison of two numbers. -/
def QSORT_CMP (c d : Nat) : Int :=
  if c < d then -1 else if c > d then 1 else 0

/-- Function `cmp_ilpsched_irn`: compare the scheduling time steps of two nodes. -/
def cmp_ilpsched_irn (env : be_ilpsched_env_t) (st : ilp_state) (n1 n2 : Nat) : Int :=
  if (st.ia n1).sched_point = (st.ia n2).sched_point then
    if env.heights_reachable_in_block n1 n2 then 1
    else if env.heights_reachable_in_block n2 n1 then -1
    else QSORT_CMP (st.ph.na n2).latency (st.ph.na n1).latency
  else QSORT_CMP (st.ia n1).sched_point (st.ia n2).sched_point

/-- The loops of `apply_solution` over the variables of a node "until the non-zero
one is found": the 0-based step of the first variable in the table `x` that the
solution sets, `none` if there is none. -/
def solution_step (sol : Int → Bool) (na : ilpsched_node_attr_t) (ia : ilp_node_attr_t) :
    Option Nat :=
  ((((down_from ia.n_unit_types).flatMap fun _ => sched_steps na).enum.find? fun p =>
    sol (arr_get ia.ilp_vars.x p.1)).map Prod.snd)

/-- The body of the node loop of `apply_solution` for a block with more than one
interesting node; the second component is the array `sched_nodes`. -/
def collect_sched_node (sol : Int → Bool) (acc : ilp_state × List Nat) (irn : Nat) :
    ilp_state × List Nat :=
  match solution_step sol (acc.1.ph.na irn) (acc.1.ia irn) with
  | some t => (acc.1.set_ia irn { acc.1.ia irn with sched_point := t }, acc.2 ++ [irn])
  | none => acc

/-- The first part of `apply_solution`: collect the nodes and their scheduling time
step, and sort them. The library sort is any comparison sort; insertion sort
stands for it. -/
def collect_sched_nodes (env : be_ilpsched_env_t) (st : ilp_state) (sol : Int → Bool)
    (block : Nat) : ilp_state × List Nat :=
  let ba := st.ph.ba block
  if ba.n_interesting_nodes = 0 then (st, [])
  else if ba.n_interesting_nodes = 1 then (st, ba.head_ilp_nodes.take 1)
  else
    let r := ba.head_ilp_nodes.foldl (collect_sched_node sol) (st, [])
    (r.1, r.2.insertionSort fun n1 n2 => cmp_ilpsched_irn env r.1 n1 n2 ≤ 0)

/-- The loop of `apply_solution` over the nodes of the block that makes all Phis
ready; the second component is `cfop`, the control flow operation seen last. -/
def sched_phis (g : ir_graph) (block : Nat) : List (Nat × Nat) × Option Nat :=
  (g block).outs.foldl
    (fun (acc : List (Nat × Nat) × Option Nat) irn =>
      if (g irn).is_Phi then (add_to_sched g acc.1 irn 0, acc.2)
      else if (g irn).is_Start || (g irn).is_End || (g irn).is_Proj || (g irn).is_Bad then acc
      else if (g irn).is_cfop then (acc.1, some irn)
      else acc) ([], none)

/-- Function `apply_solution`: schedule all nodes in the given block, according to the
ILP solution. The result is the schedule of the block. -/
def apply_solution (env : be_ilpsched_env_t) (g : ir_graph) (st : ilp_state) (sol : Int → Bool)
    (block : Nat) : ilp_state × List (Nat × Nat) :=
  let r := collect_sched_nodes env st sol block
  let p := sched_phis g block
  let sched := r.2.foldl (fun sched irn => add_to_sched g sched irn (r.1.ia irn).sched_point) p.1
  match p.2 with
  | some cfop =>
    (r.1, if !sched_is_scheduled sched cfop then add_to_sched g sched cfop 0 else sched)
  | none => (r.1, sched)

/-- The result of `create_ilp`: the linear program if one was built, and the
schedule of the block. -/
structure ilp_result where
  st : ilp_state
  lpp : Option lpp_t
  sched : List (Nat × Nat)

/-- Function `create_ilp`: create the ILP (add variables, build constraints, solve,
build schedule from solution). The solver `lpp_solve_net` is a parameter: it
gives a solution or `none`, for which `lpp_is_sol_valid` fails; the result is
`none` when the assertion "ILP solution is not feasible!" fails. -/
def create_ilp (env : be_ilpsched_env_t) (g : ir_graph)
    (lpp_solve_net : lpp_t → Option (Int → Bool)) (st : ilp_state) (block : Nat) :
    Option ilp_result :=
  if (st.ph.ba block).n_interesting_nodes > 1 then
    let st := build_ilp env g st block
    match lpp_solve_net st.lpp with
    | none => none
    | some sol =>
      let r := apply_solution env g st sol block
      some { st := r.1, lpp := some st.lpp, sched := r.2 }
  else
    let r := apply_solution env g st (fun _ => false) block
    some { st := r.1, lpp := none, sched := r.2 }

/-- The second linear program has the variables of the first and its constraints,
followed by further constraints. -/
def lpp_t.extended_by (l1 l2 : lpp_t) : Prop :=
  l2.vars = l1.vars ∧ l1.csts <+: l2.csts

/-- The state of the variable loops of `create_variables` for a node, where the
linear program had `L` variables and the constraints `C` before the node: the
table `x` has `n` entries so far, ascending, all of them variables made for the
node. -/
def var_acc.inv (L : Nat) (C : List lpp_cst) (n : Nat) (acc : var_acc) : Prop :=
  acc.xs.Pairwise (fun v w => v < w) ∧
    (∀ v ∈ acc.xs, (L : Int) < v ∧ v ≤ (acc.lpp.vars.length : Int)) ∧
    L ≤ acc.lpp.vars.length ∧ acc.lpp.csts = C ∧ acc.xs.length = n

/-- The window of a node with `k` unit types is valid and its table `x` fits into
`unsigned` arithmetic: `1 <= asap <= alap`, and `k * (alap - asap + 1)` as well as
`alap` are below `2 ^ 32`. -/
def window_ok (na : ilpsched_node_attr_t) (k : Nat) : Prop :=
  1 ≤ na.asap ∧ na.asap ≤ na.alap ∧ na.alap < 2 ^ 32 ∧ k * (na.alap - na.asap + 1) < 2 ^ 32

instance (na : ilpsched_node_attr_t) (k : Nat) : Decidable (window_ok na k) := by
  unfold window_ok; exact inferInstance

/-- The state of `create_ilp` after `create_variables`. -/
def ilp_with_variables (env : be_ilpsched_env_t) (g : ir_graph) (st : ilp_state) (block : Nat) :
    ilp_state :=
  create_variables env g { st with lpp := new_lpp } block

/-- The state of `create_ilp` after `create_assignment_and_precedence_constraints`. -/
def ilp_with_precedence (env : be_ilpsched_env_t) (g : ir_graph) (st : ilp_state) (block : Nat) :
    ilp_state :=
  create_assignment_and_precedence_constraints env g (ilp_with_variables env g st block) block

/-- The state of `create_ilp` after `create_ressource_constraints`. -/
def ilp_with_ressource (env : be_ilpsched_env_t) (g : ir_graph) (st : ilp_state) (block : Nat) :
    ilp_state :=
  create_ressource_constraints env (ilp_with_precedence env g st block) block

/-- The state of `create_ilp` after `create_bundle_constraints`. -/
def ilp_with_bundle (env : be_ilpsched_env_t) (g : ir_graph) (st : ilp_state) (block : Nat) :
    ilp_state :=
  create_bundle_constraints env g (ilp_with_ressource env g st block) block

/-- A unit of the unit type 0 of the machine. -/
def unit0 : be_execution_unit_t := { tp := 0, is_dummy := false }

/-- The block of the linear chain scenario: block 0 with the operations 1 -> 2 -> 3
(`a`, `b`, `c`), each of latency 1 and allowed on the unit type 0. -/
def chain3_graph : ir_graph :=
  graph_of [{ block_node with outs := [1, 2, 3] },
    { op_node 0 [] [] [2] 1 with execunits := [[unit0]] },
    { op_node 0 [1] [] [3] 1 with execunits := [[unit0]] },
    { op_node 0 [2] [] [] 1 with execunits := [[unit0]] }]

/-- A machine with one unit type of one unit and an issue width of 1; the dead node
variant of the pressure constraints is used for blocks of up to 70 nodes (the
default of `ilp_opts`). No node is reachable from another one at the same step. -/
def one_unit_env : be_ilpsched_env_t :=
  { cpu := { unit_types := [{ n_units := 1 }], bundle_size := 1, bundels_per_cycle := 1 },
    limit_dead := 70, heights_reachable_in_block := fun _ _ => false }

/-- The walks of `be_ilp_sched` before `create_ilp`: the window analysis, and
`build_block_idx` for the nodes in the order `post`. -/
def ilp_sched_prepare (g : ir_graph) (pre post blocks : List Nat) (fuel : Nat) : Option ilp_state :=
  (window_analysis g pre post blocks fuel).map fun ph =>
    post.foldl (build_block_idx g) (init_ilp_state ph)

/-- The state of the scheduler for `chain3_graph` before `create_ilp`. -/
def chain3_state : ilp_state :=
  (ilp_sched_prepare chain3_graph [3, 2, 1] [1, 2, 3] [0] 10).getD (init_ilp_state init_phase)

/-- The solution `sol` places the node `n` on a unit of the type `tp` at the 0-based
step `t` of its window: it sets the variable `x` of `n` for a unit type index of
the type `tp` and the step `t`. -/
def scheduled_on (st : ilp_state) (sol : Int → Bool) (n tp t : Nat) : Bool :=
  decide ((st.ph.na n).asap ≤ t + 1 ∧ t + 1 ≤ (st.ph.na n).alap) &&
    (List.range (st.ia n).n_unit_types).any fun u =>
      decide (((st.ia n).type_info.getD u { tp := 0, n_units := 0 }).tp = tp) &&
        sol (arr_get (st.ia n).ilp_vars.x (ILPVAR_IDX (st.ph.na n) u t))

/-- The solution `sol` issues the node `n` at the 0-based step `t` of its window: it
sets a variable `x` of `n` for the step `t`. -/
def issued_at (st : ilp_state) (sol : Int → Bool) (n t : Nat) : Bool :=
  decide ((st.ph.na n).asap ≤ t + 1 ∧ t + 1 ≤ (st.ph.na n).alap) &&
    (List.range (st.ia n).n_unit_types).any fun u =>
      sol (arr_get (st.ia n).ilp_vars.x (ILPVAR_IDX (st.ph.na n) u t))

/-- The block of the resource scenario: block 0 with the three independent operations
1, 2 and 3, each of latency 1 and allowed on the unit type 0 only. -/
def three_ops_graph : ir_graph :=
  graph_of [{ block_node with outs := [1, 2, 3] },
    { op_node 0 [] [] [] 1 with execunits := [[unit0]] },
    { op_node 0 [] [] [] 1 with execunits := [[unit0]] },
    { op_node 0 [] [] [] 1 with execunits := [[unit0]] }]

/-- A machine with the unit type 0 of one unit and the unit type 1 of two units, and
an issue width of 3. -/
def two_types_env : be_ilpsched_env_t :=
  { cpu := { unit_types := [{ n_units := 1 }, { n_units := 2 }], bundle_size := 3,
             bundels_per_cycle := 1 },
    limit_dead := 70, heights_reachable_in_block := fun _ _ => false }

/-- The state of the scheduler for `three_ops_graph` before `create_ilp`. -/
def three_ops_state : ilp_state :=
  (ilp_sched_prepare three_ops_graph [3, 2, 1] [1, 2, 3] [0] 10).getD (init_ilp_state init_phase)

/-- A solution of the linear program of `three_ops_graph`: operation 3 at step 1,
operation 2 at step 2, operation 1 at step 3, each dying at its own step. -/
def three_ops_sol : Int → Bool := fun v => decide (v ∈ ([1, 13, 25, 7, 18, 29] : List Int))

/-- The block of the issue width scenario: block 0 with the operation 1 and the Keep 2
of its value, and the independent operations 3 and 4; all of them are allowed on
the unit type 0, the operations have latency 1. -/
def kept_value_graph : ir_graph :=
  graph_of [{ block_node with outs := [1, 2, 3, 4] },
    { op_node 0 [] [] [2] 1 with execunits := [[unit0]] },
    { keep_node 0 1 with execunits := [[unit0]] },
    { op_node 0 [] [] [] 1 with execunits := [[unit0]] },
    { op_node 0 [] [] [] 1 with execunits := [[unit0]] }]

/-- A machine with one unit type of two units and an issue width of 1. -/
def narrow_issue_env : be_ilpsched_env_t :=
  { cpu := { unit_types := [{ n_units := 2 }], bundle_size := 1, bundels_per_cycle := 1 },
    limit_dead := 70, heights_reachable_in_block := fun _ _ => false }

/-- The state of the scheduler for `kept_value_graph` before `create_ilp`. -/
def kept_value_state : ilp_state :=
  (ilp_sched_prepare kept_value_graph [4, 3, 2, 1] [1, 2, 3, 4] [0] 10).getD
    (init_ilp_state init_phase)

/-- A solution of the linear program of `kept_value_graph`: operation 1 at step 1, its
Keep 2 and operation 3 at step 2, operation 4 at step 3, each dying at its own
step. -/
def kept_value_sol : Int → Bool :=
  fun v => decide (v ∈ ([29, 23, 13, 5, 33, 26, 18, 9] : List Int))

/-- The dummy unit; its type is none of the unit types of the machines used here. -/
def dummy_unit : be_execution_unit_t := { tp := 1, is_dummy := true }

/-- The block of the slow operation scenario: block 0 with the operation 1 of latency
2, its user 2 of latency 1 and the Keep 3 of the value of 1, which has the dummy
unit. -/
def slow_kept_graph : ir_graph :=
  graph_of [{ block_node with outs := [1, 2, 3] },
    { op_node 0 [] [] [2, 3] 2 with execunits := [[unit0]] },
    { op_node 0 [1] [] [] 1 with execunits := [[unit0]] },
    { keep_node 0 1 with execunits := [[dummy_unit]] }]

/-- The state of the scheduler for `slow_kept_graph` before `create_ilp`. -/
def slow_kept_state : ilp_state :=
  (ilp_sched_prepare slow_kept_graph [3, 2, 1] [1, 2, 3] [0] 10).getD (init_ilp_state init_phase)

/-- A solution of the linear program of `slow_kept_graph`: operation 1 and its Keep 3
at step 1, operation 2 at step 3. -/
def slow_kept_sol : Int → Bool := fun v => decide (v ∈ ([1, 2, 6, 8, 4] : List Int))

/-- The block of the used and kept value scenario: block 0 with the operation 1
(latency 1), its user 2 (latency 1) and the Keep 3 of the value of 1, which has
the dummy unit. The dependency graph of the block is acyclic. -/
def used_kept_graph : ir_graph :=
  graph_of [{ block_node with outs := [1, 2, 3] },
    { op_node 0 [] [] [2, 3] 1 with execunits := [[unit0]] },
    { op_node 0 [1] [] [] 1 with execunits := [[unit0]] },
    { keep_node 0 1 with execunits := [[dummy_unit]] }]

/-- The state of the scheduler for `used_kept_graph` before `create_ilp`. -/
def used_kept_state : ilp_state :=
  (ilp_sched_prepare used_kept_graph [3, 2, 1] [1, 2, 3] [0] 10).getD (init_ilp_state init_phase)

/-- A solution of the linear program of `chain3_graph`: the operations 1, 2, 3 at the
steps 1, 2, 3, each dying at its own step. -/
def chain3_sol : Int → Bool := fun v => decide (v ∈ ([1, 5, 10, 12, 7, 3] : List Int))

/-- A block with the operation 1 of latency 2, its user 2 of latency 1, and the
independent operation 3 of latency 3. -/
def tie_graph : ir_graph :=
  graph_of [{ block_node with outs := [1, 2, 3] },
    { op_node 0 [] [] [2] 2 with execunits := [[unit0]] },
    { op_node 0 [1] [] [] 1 with execunits := [[unit0]] },
    { op_node 0 [] [] [] 3 with execunits := [[unit0]] }]

/-- A machine with two units of one type that issues two operations per cycle; the
heights of `tie_graph`: only 2 depends on 1. -/
def wide_env : be_ilpsched_env_t :=
  { cpu := { unit_types := [{ n_units := 2 }], bundle_size := 2, bundels_per_cycle := 1 },
    limit_dead := 70, heights_reachable_in_block := fun n m => decide (n = 2 ∧ m = 1) }

/-- The state of the scheduler for `tie_graph` after the window analysis. -/
def tie_state : ilp_state :=
  (ilp_sched_prepare tie_graph [3, 2, 1] [1, 2, 3] [0] 10).getD (init_ilp_state init_phase)

/-- A solution for `tie_graph`: 1 at step 0, and both 2 and 3 at step 2. -/
def tie_sol : Int → Bool := fun v => decide (v ∈ [33, 20, 5, 41, 28, 15])

/-- A block with the control flow operation 1, which is considered for scheduling
(it is no Jmp), and the independent operation 2. -/
def branch_graph : ir_graph :=
  graph_of [{ block_node with outs := [1, 2] },
    { op_node 0 [] [] [] 1 with execunits := [[unit0]], is_cfop := true, is_mode_X := true },
    { op_node 0 [] [] [] 1 with execunits := [[unit0]] }]

/-- The state of the scheduler for `branch_graph` after the window analysis. -/
def branch_state : ilp_state :=
  (ilp_sched_prepare branch_graph [2, 1] [1, 2] [0] 10).getD (init_ilp_state init_phase)


/-- A solution for `branch_graph`: the control flow operation 1 at step 0 and the
operation 2 at step 1. -/
def branch_sol : Int → Bool := fun v => decide (v ∈ [8, 3, 12, 6])

/-- A Jmp, the control flow operation that is not considered for scheduling. -/
def jmp_node (block : Nat) : ir_node :=
  { op_node block [] [] [] 0 with is_Jmp := true, is_cfop := true, is_mode_X := true }

/-- A block with the single operation 1 and the Jmp 2. -/
def single_op_graph : ir_graph :=
  graph_of [{ block_node with outs := [1, 2] },
    { op_node 0 [] [] [] 1 with execunits := [[unit0]] }, jmp_node 0]

/-- The state of the scheduler for `single_op_graph` after the window analysis. -/
def single_op_state : ilp_state :=
  (ilp_sched_prepare single_op_graph [2, 1] [1, 2] [0] 10).getD (init_ilp_state init_phase)

/-- A block with the single operation 1 of mode M (such as a Sync) and the Jmp 2. -/
def single_mem_graph : ir_graph :=
  graph_of [{ block_node with outs := [1, 2] },
    { op_node 0 [] [] [] 1 with execunits := [[unit0]], is_mode_M := true }, jmp_node 0]

/-- The state of the scheduler for `single_mem_graph` after the window analysis. -/
def single_mem_state : ilp_state :=
  (ilp_sched_prepare single_mem_graph [2, 1] [1, 2] [0] 10).getD (init_ilp_state init_phase)

/-- The schedule of the block in `apply_solution` when all nodes from the list
`sched_nodes` are added, before the control flow node is. -/
def apply_solution_nodes (env : be_ilpsched_env_t) (g : ir_graph) (st : ilp_state)
    (sol : Int → Bool) (block : Nat) : List (Nat × Nat) :=
  (collect_sched_nodes env st sol block).2.foldl
    (fun sched irn =>
      add_to_sched g sched irn (((collect_sched_nodes env st sol block).1.ia irn).sched_point))
    (sched_phis g block).1

/-- The node is put into the schedule together with another node, by `add_to_sched`:
it is a Keep, or a user of a mode_T node that is to appear in the schedule. -/
def follows_owner (g : ir_graph) (n : Nat) : Prop :=
  (g n).is_Keep = true ∨
    ∃ m, (g m).is_mode_T = true ∧ n ∈ (g m).outs ∧
      ((g n).to_appear_in_schedule || (g n).is_mode_b) = true

/-! ## The global part of the Belady spiller (`bespillbelady2.c`)

Conventions of this part:

* a `double` is an IEEE 754 binary64 value: a rational number, `HUGE_VAL` (the
  positive infinity), the negative infinity or a NaN. The model admits every
  rational number as an execution frequency; the results of `+` and `-` are
  rounded to the nearest binary64 number, ties to even, and an exact zero result
  is the finite value 0 (the sign of a zero is not modelled, no operation of the
  pass reads it). The cast `(int)` truncates towards zero;
* `bi->exec_freq` is the value of `get_block_execfreq` that `new_block_info` has
  stored; nothing changes it;
* a pointer into the array `end_info` is the number of the slot;
* the search functions change nothing but the `global_end_state_t`: they read the
  block records and work on clones of the end worksets;
* the recursion of `can_make_available_at_end` and `can_bring_in` carries a budget
  of nested calls; `none` means that the budget did not suffice. -/

/-- The values of type `double`: the finite values, which are rational numbers,
`HUGE_VAL`, which is the positive infinity, the negative infinity, and NaN. -/
inductive double where
  | val (q : ℚ)
  | HUGE_VAL
  | neg_HUGE_VAL
  | NaN
deriving DecidableEq, Repr

/-- The comparison `a <= b` of two doubles; it is false if one of them is a NaN. -/
def double.le : double → double → Bool
  | double.val p, double.val q => decide (p ≤ q)
  | double.val _, double.HUGE_VAL => true
  | double.neg_HUGE_VAL, double.val _ => true
  | double.neg_HUGE_VAL, double.HUGE_VAL => true
  | double.neg_HUGE_VAL, double.neg_HUGE_VAL => true
  | double.HUGE_VAL, double.HUGE_VAL => true
  | _, _ => false

/-- The comparison `a < b` of two doubles; it is false if one of them is a NaN. -/
def double.lt : double → double → Bool
  | double.val p, double.val q => decide (p < q)
  | double.val _, double.HUGE_VAL => true
  | double.neg_HUGE_VAL, double.val _ => true
  | double.neg_HUGE_VAL, double.HUGE_VAL => true
  | _, _ => false

/-- The number of binary digits of `n`; the first argument bounds the recursion
(`n` itself is enough). -/
def bit_length : Nat → Nat → Nat
  | 0, _ => 0
  | fuel + 1, n => if n = 0 then 0 else bit_length fuel (n / 2) + 1

/-- The binary64 number nearest to the positive rational `n / d` (`n` and `d` not 0),
ties to even; `none` if the rounded value is above the largest finite number,
(2^53 - 1) * 2^971. With `lg` the integer part of the binary logarithm of `n / d`,
the result is a multiple `m * 2^e` of the unit `2^e` in the last place, where `e`
is `lg - 52` and at least -1074 (the unit of the subnormal numbers). -/
def round_pos (n d : Nat) : Option ℚ :=
  let k : Int := (bit_length n n : Int) - (bit_length d d : Int)
  let lg : Int := if d * 2 ^ k.toNat ≤ n * 2 ^ (-k).toNat then k else k - 1
  let e : Int := max (lg - 52) (-1074)
  let num := n * 2 ^ (-e).toNat
  let den := d * 2 ^ e.toNat
  let m0 := num / den
  let r := num % den
  let m := if den < 2 * r ∨ (2 * r = den ∧ m0 % 2 = 1) then m0 + 1 else m0
  if 971 < e ∨ (e = 971 ∧ 2 ^ 53 ≤ m) then none
  else some (mkRat (m * 2 ^ e.toNat) (2 ^ (-e).toNat))

/-- The rounding of the exact result of an operation to the type `double`: round to
nearest, ties to even; a result beyond the largest finite number becomes an
infinity. -/
def round_double (q : ℚ) : double :=
  if q = 0 then double.val 0
  else if 0 < q then
    match round_pos q.num.toNat q.den with
    | some x => double.val x
    | none => double.HUGE_VAL
  else
    match round_pos (-q.num).toNat q.den with
    | some x => double.val (-x)
    | none => double.neg_HUGE_VAL

/-- The sum `a + b` of two doubles. -/
def double.add : double → double → double
  | double.val p, double.val q => round_double (p + q)
  | double.val _, double.HUGE_VAL => double.HUGE_VAL
  | double.val _, double.neg_HUGE_VAL => double.neg_HUGE_VAL
  | double.HUGE_VAL, double.val _ => double.HUGE_VAL
  | double.HUGE_VAL, double.HUGE_VAL => double.HUGE_VAL
  | double.neg_HUGE_VAL, double.val _ => double.neg_HUGE_VAL
  | double.neg_HUGE_VAL, double.neg_HUGE_VAL => double.neg_HUGE_VAL
  | _, _ => double.NaN

/-- The negation `-a` of a double. -/
def double.neg : double → double
  | double.val p => double.val (-p)
  | double.HUGE_VAL => double.neg_HUGE_VAL
  | double.neg_HUGE_VAL => double.HUGE_VAL
  | double.NaN => double.NaN

/-- The difference `a - b` of two doubles. -/
def double.sub (a b : double) : double := a.add b.neg

/-- The cast `(int) x` of a finite double in the range of `int`: truncation towards
zero. -/
def double_to_int (x : ℚ) : Int :=
  if 0 ≤ x then x.num / x.den else -((-x.num) / x.den)

/-- Function `block_freq_gt`: the comparison function of the sort of the blocks,
`return qi->exec_freq - pi->exec_freq` with the result type `int`. The conversion
of an infinity or a NaN to `int` is undefined in C; 0 stands for it. -/
def block_freq_gt (env : belady_env_t) (p q : Nat) : Int :=
  match (double.val (env.get_block_execfreq q)).sub (double.val (env.get_block_execfreq p)) with
  | double.val x => double_to_int x
  | _ => 0

/-- The record `block_end_state_t` of the search for one block and one value. -/
structure block_end_state_t where
  bl : Nat
  irn : Nat
  costs : double
  end_state : workset_t
  reload_at_end : Bool
  live_through : Bool

/-- The record `global_end_state_t`; the bitset `succ_phis` is the list of its
members. -/
structure global_end_state_t where
  succ_phis : List Nat
  end_info : Nat → block_end_state_t
  gauge : Nat
  version : Nat

/-- Write the record `bes` to the slot `k` of `end_info`. -/
def global_end_state_t.update (ges : global_end_state_t) (k : Nat) (bes : block_end_state_t) :
    global_end_state_t :=
  { ges with end_info := fun i => if i = k then bes else ges.end_info i }

/-- Function `get_block_end_state`: the slot of the record for `bl` and `irn` among the
first `gauge` slots; if there is none, the slot `gauge` is initialised with a
clone of the end workset of the block and the costs -1. -/
def get_block_end_state (bi : Nat → block_info_t) (state : global_end_state_t) (bl irn : Nat) :
    global_end_state_t × Nat :=
  match (List.range state.gauge).find?
      (fun i => (state.end_info i).bl == bl && (state.end_info i).irn == irn) with
  | some i => (state, i)
  | none =>
    let curr : block_end_state_t :=
      { bl := bl, irn := irn, costs := double.val (-1), end_state := (bi bl).ws_end,
        reload_at_end := false, live_through := false }
    ({ state.update state.gauge curr with gauge := state.gauge + 1 }, state.gauge)

/-- The assignment `ws->vals[i].version = version`. -/
def workset_set_version (ws : workset_t) (i version : Nat) : workset_t :=
  { ws with vals := fun j => if j = i then { ws.vals j with version := version } else ws.vals j }

/-- The assignments `end->vals[slot].irn = irn; end->vals[slot].version = version`. -/
def workset_set_slot (ws : workset_t) (slot irn version : Nat) : workset_t :=
  { ws with vals := fun j =>
      if j = slot then { ws.vals j with irn := irn, version := version } else ws.vals j }

/-- The slot search of `can_make_available_at_end`: the slot `len` if there is room
in the end array, otherwise the first slot whose version is older than the version
of the search; `none` stands for -1. -/
def find_slot (n_regs version : Nat) (end_ : workset_t) : Option Nat :=
  if end_.len < n_regs then some end_.len
  else (List.range end_.len).find? fun i => decide ((end_.vals i).version < version)

/-- The loop of `can_bring_in` over the control flow predecessors `i`, with the
function `can_make_available_at_end` it calls as a parameter. -/
def can_bring_in_loop (env : belady_env_t)
    (cmae : global_end_state_t → Nat → Nat → Option (global_end_state_t × double))
    (bl irn gauge_begin : Nat) :
    List Nat → global_end_state_t → double → Option (global_end_state_t × double)
  | [], ges, glob_costs => some (ges, glob_costs)
  | i :: rest, ges, glob_costs =>
    let pr := env.get_Block_cfgpred_block bl i
    let op := if env.is_Phi irn && (bl == env.get_nodes_block irn) then env.get_irn_n irn i
              else irn
    match cmae ges pr op with
    | none => none
    | some r =>
      if double.HUGE_VAL.le r.2 then some ({ r.1 with gauge := gauge_begin }, double.HUGE_VAL)
      else can_bring_in_loop env cmae bl irn gauge_begin rest r.1 (glob_costs.add r.2)

/-- The body of `can_bring_in`, with the function `can_make_available_at_end` it
calls as a parameter. -/
def can_bring_in_with (env : belady_env_t)
    (cmae : global_end_state_t → Nat → Nat → Option (global_end_state_t × double))
    (ges : global_end_state_t) (bl irn : Nat) : Option (global_end_state_t × double) :=
  let def_block := bl == env.get_nodes_block irn
  let phi := env.is_Phi irn
  if phi || !def_block then
    can_bring_in_loop env cmae bl irn ges.gauge (List.range (env.get_irn_arity bl)) ges
      (double.val 0)
  else some (ges, double.HUGE_VAL)

/-- The decision of `can_make_available_at_end` for the record in slot `k` between the
reload at the end of the block, which drops the search behind `gauge`, and the
transport of the value through the block. -/
def choose_cheaper (ges : global_end_state_t) (k gauge : Nat) (reload_here bring_in : double) :
    global_end_state_t :=
  let bes := ges.end_info k
  if reload_here.le bring_in then
    global_end_state_t.update { ges with gauge := gauge } k
      { bes with costs := reload_here, reload_at_end := true }
  else ges.update k { bes with live_through := true, costs := bring_in }

/-- The end of `can_make_available_at_end` when a slot was found: the value and the
version of the search are written to the slot of the end workset of the record
in slot `k`; the costs of the record are returned. -/
def take_slot (ges : global_end_state_t) (k slot irn : Nat) : global_end_state_t × double :=
  let bes := ges.end_info k
  (ges.update k { bes with end_state := workset_set_slot bes.end_state slot irn ges.version },
    bes.costs)

/-- Function `can_make_available_at_end`: the costs of having `irn` in a register at
the end of `bl`. The first argument is the budget of nested calls. -/
def can_make_available_at_end (env : belady_env_t) (bi : Nat → block_info_t) :
    Nat → global_end_state_t → Nat → Nat → Option (global_end_state_t × double)
  | 0, _, _, _ => none
  | fuel + 1, ges0, bl, irn =>
    let r := get_block_end_state bi ges0 bl irn
    let bes := r.1.end_info r.2
    if (double.val 0).le bes.costs then some (r.1, bes.costs)
    else
      match workset_get_index bes.end_state irn with
      | some index =>
        let end_ :=
          if (bes.end_state.vals index).version < r.1.version then
            workset_set_version bes.end_state index r.1.version
          else bes.end_state
        some (r.1.update r.2 { bes with end_state := end_, costs := double.val 0 }, double.val 0)
      | none =>
        let ges := r.1.update r.2 { bes with costs := double.HUGE_VAL }
        match find_slot env.n_regs ges.version bes.end_state with
        | none => some (ges, double.HUGE_VAL)
        | some slot =>
          if slot > 0 then
            let gauge := ges.gauge
            let reload_here := double.val (env.get_block_execfreq bl)
            let inner :=
              if (bi bl).pressure < env.n_regs then
                can_bring_in_with env (can_make_available_at_end env bi fuel) ges bl irn
              else some (ges, double.HUGE_VAL)
            match inner with
            | none => none
            | some r2 =>
              some (take_slot (choose_cheaper r2.1 r.2 gauge reload_here r2.2) r.2 slot irn)
          else some (ges, double.HUGE_VAL)

/-- Function `can_bring_in`: the costs of having `irn` in a register at the entrance
of `bl`. The budget is the one of the calls of `can_make_available_at_end`. -/
def can_bring_in (env : belady_env_t) (bi : Nat → block_info_t) (fuel : Nat)
    (ges : global_end_state_t) (bl irn : Nat) : Option (global_end_state_t × double) :=
  can_bring_in_with env (can_make_available_at_end env bi fuel) ges bl irn

/-- The state of the global pass: the search state, the block records
(`get_block_info`), the calls `be_add_reload(env->senv, irn, before, env->cls, 1)` as
pairs of the value and `before` (oldest first), and the calls `be_spill_phi`. -/
structure global_state where
  ges : global_end_state_t
  bi : Nat → block_info_t
  reloads : List (Nat × Option Nat)
  spilled_phis : List Nat

/-- The body of the loop of `materialize_and_commit_end_state` for the slot `i`. -/
def commit_end_state (s : global_state) (i : Nat) : global_state :=
  let bes := s.ges.end_info i
  let b := s.bi bes.bl
  let reloads := if bes.reload_at_end then s.reloads ++ [(bes.irn, some bes.bl)] else s.reloads
  let pressure := max (b.pressure + (if bes.live_through then 1 else 0)) bes.end_state.len
  match workset_get_index bes.end_state bes.irn with
  | some idx =>
    let end_state := workset_set_version bes.end_state idx s.ges.version
    { s with
      ges := s.ges.update i { bes with end_state := end_state },
      bi := fun bl => if bl = bes.bl then { b with pressure := pressure, ws_end := end_state }
                      else s.bi bl,
      reloads := reloads }
  | none =>
    { s with
      bi := fun bl => if bl = bes.bl then { b with pressure := pressure } else s.bi bl,
      reloads := reloads }

/-- Function `materialize_and_commit_end_state`: insert the reloads at the block ends,
update the pressure indicators and copy the end worksets of the search back to the
blocks. -/
def materialize_and_commit_end_state (s : global_state) : global_state :=
  (List.range s.ges.gauge).foldl commit_end_state s

/-- The body of the loop of `fix_block_borders` for the value `irn` of the
`entrance_reg` of `block`. -/
def fix_block_borders_value (env : belady_env_t) (fuel block : Nat) (s : global_state)
    (irn : Nat) : Option global_state :=
  let is_entrance_phi := env.is_Phi irn && (env.get_nodes_block irn == block)
  let ges : global_end_state_t := { s.ges with gauge := 0, version := u32_sub s.ges.version 1 }
  match can_bring_in env s.bi fuel ges block irn with
  | none => none
  | some r =>
    if (double.val (env.get_block_execfreq block)).lt r.2 then
      some { s with ges := r.1, reloads := s.reloads ++ [(irn, (s.bi block).first_non_in)] }
    else
      let ges2 : global_end_state_t :=
        if is_entrance_phi then { r.1 with succ_phis := r.1.succ_phis ++ [irn] } else r.1
      some (materialize_and_commit_end_state { s with ges := ges2 })

/-- Function `fix_block_borders`: examine all values which shall be in registers at
the beginning of the block. -/
def fix_block_borders (env : belady_env_t) (fuel : Nat) (s : global_state) (block : Nat) :
    Option global_state :=
  (s.bi block).entrance_reg.irns.foldlM (fix_block_borders_value env fuel block) s

/-- The loop of `global_assign` over the Phis at the start of the schedule of `bl`. -/
def spill_phis (env : belady_env_t) (s : global_state) (bl : Nat) : global_state :=
  { s with spilled_phis := s.spilled_phis ++
      ((env.sched_nodes bl).takeWhile env.is_Phi).filter fun irn => s.ges.succ_phis.contains irn }

/-- The array `env->blocks` after the `qsort` with `block_freq_gt`; insertion sort
stands for the library sort. -/
def sort_blocks (env : belady_env_t) (blocks : List Nat) : List Nat :=
  blocks.insertionSort fun p q => block_freq_gt env p q ≤ 0

/-- The state in which `global_assign` starts: no record in use, version -1. -/
def init_global_state (bi : Nat → block_info_t) (reloads : List (Nat × Option Nat)) :
    global_state :=
  { ges := { succ_phis := [],
             end_info := fun _ => { bl := 0, irn := 0, costs := double.val 0,
                                    end_state := new_workset, reload_at_end := false,
                                    live_through := false },
             gauge := 0, version := 2 ^ 32 - 1 },
    bi := bi, reloads := reloads, spilled_phis := [] }

/-- Function `global_assign`: fix the borders of all blocks in the order of the sorted
array, then spill Phis. -/
def global_assign (env : belady_env_t) (fuel : Nat) (blocks : List Nat)
    (bi : Nat → block_info_t) (reloads : List (Nat × Option Nat)) : Option global_state :=
  ((sort_blocks env blocks).foldlM (fix_block_borders env fuel) (init_global_state bi reloads)).map
    fun s => (sort_blocks env blocks).foldl (spill_phis env) s

/-! ## Concrete graphs for the global pass -/

/-- The workset that holds the values `l` in this order, all with version 0 as the
local pass leaves them. -/
def workset_of (l : List Nat) : workset_t :=
  { len := l.length, vals := fun i => { irn := l.getD i 0, time := 0, version := 0 } }

/-- A block record as the local pass leaves it. -/
def block_info_of (bl : Nat) (first_non_in : Option Nat) (ws_end entrance_reg : List Nat)
    (pressure : Nat) : block_info_t :=
  { bl := bl, first_non_in := first_non_in, ws_end := workset_of ws_end,
    entrance_reg := workset_of entrance_reg, entrance_mem := new_workset, pressure := pressure }

/-- A graph of seven blocks with three registers and the execution frequency 1
everywhere. Block 1 defines the values 10 and 11 and is the predecessor of block 2;
block 2 is the predecessor of the blocks 3 and 4, which are the predecessors of
block 5; block 5 starts with the Phi 12 of the values 10 (from block 3) and 11 (from
block 4). Block 7 is the predecessor of block 6, which starts with the Phi 17 of
the value 18. -/
def diamond_env : belady_env_t :=
  { n_regs := 3, consider_in_reg_alloc := fun _ => true, dont_spill := fun _ => false,
    be_get_next_use := fun _ _ _ _ => 0, USES_INFINITY := 10000000,
    USES_IS_INFINITE := fun t => decide (10000000 ≤ t),
    is_Phi := fun v => decide (v = 12 ∨ v = 17),
    get_nodes_block := fun v =>
      if v = 12 then 5 else if v = 17 then 6 else if v = 13 ∨ v = 14 then 2
      else if v = 15 then 3 else if v = 16 then 4 else if v = 18 then 7 else 1,
    be_is_live_in := fun _ _ => false,
    get_irn_arity := fun bl => if bl = 5 then 2 else if bl = 1 ∨ bl = 7 then 0 else 1,
    get_Block_cfgpred_block := fun bl i =>
      if bl = 2 then 1 else if bl = 3 ∨ bl = 4 then 2 else if bl = 5 then 3 + i
      else if bl = 6 then 7 else 0,
    get_irn_n := fun irn i => if irn = 12 then 10 + i else if irn = 17 then 18 else 0,
    get_block_execfreq := fun _ => 1,
    sched_nodes := fun bl => if bl = 5 then [12, 20] else if bl = 6 then [17, 21] else [] }

/-- The block records of `diamond_env` after the local pass: no pressure is above
the three registers. The end workset of block 7 is empty. -/
def diamond_info (bl : Nat) : block_info_t :=
  if bl = 1 then block_info_of 1 none [10, 11] [] 2
  else if bl = 2 then block_info_of 2 none [13, 14] [] 2
  else if bl = 3 then block_info_of 3 none [15] [] 1
  else if bl = 4 then block_info_of 4 none [16] [] 1
  else if bl = 5 then block_info_of 5 (some 20) [12] [12] 1
  else if bl = 6 then block_info_of 6 (some 21) [17] [17] 1
  else block_info_of bl none [] [] 0

/-- Two blocks without values to bring in: block 1 with the execution frequency
1/4 and block 2 with the execution frequency 3/4. -/
def fraction_env : belady_env_t :=
  { diamond_env with
    get_irn_arity := fun _ => 0,
    get_block_execfreq := fun bl => if bl = 1 then 1 / 4 else 3 / 4,
    sched_nodes := fun _ => [] }

/-- The operand of `irn` that `can_bring_in` looks for at the end of the `i`-th
control flow predecessor of `bl`: the `i`-th operand of a Phi of the block, and
the value itself otherwise. -/
def bring_in_operand (env : belady_env_t) (bl irn i : Nat) : Nat :=
  if env.is_Phi irn && (bl == env.get_nodes_block irn) then env.get_irn_n irn i else irn

/-- The calls `cmae(pred_i, op_i)` for the predecessor edges `i` of the list, one
after the other, whatever they return: the state after the last call and the
costs returned, in the order of the calls. -/
def pred_calls (env : belady_env_t)
    (cmae : global_end_state_t → Nat → Nat → Option (global_end_state_t × double))
    (bl irn : Nat) : List Nat → global_end_state_t → Option (global_end_state_t × List double)
  | [], ges => some (ges, [])
  | i :: rest, ges =>
    match cmae ges (env.get_Block_cfgpred_block bl i) (bring_in_operand env bl irn i) with
    | none => none
    | some r => (pred_calls env cmae bl irn rest r.1).map fun q => (q.1, r.2 :: q.2)

/-- The sum of a list of costs, added up from the left starting with `start`. -/
def sum_costs (start : double) (costs : List double) : double :=
  costs.foldl double.add start

/-- The lengths that the main workset has after each instruction of the schedule
(Projs and Phis are no instructions), in the order of the schedule, when `belady`
processes it from the state `acc`. -/
def workset_lengths (env : belady_env_t) :
    workset_t × belady_state → List sched_node → List Nat
  | _, [] => []
  | acc, irn :: rest =>
    match belady_instr env acc irn with
    | none => []
    | some acc2 =>
      (if irn.is_Proj || irn.is_Phi then [] else [acc2.2.ws.len]) ++
        workset_lengths env acc2 rest

/-- Every record in use has costs that are not negative: it has been visited, and
`can_make_available_at_end` returns its costs at once. -/
def global_end_state_t.visited (ges : global_end_state_t) : Prop :=
  ∀ i < ges.gauge, (double.val 0).le (ges.end_info i).costs = true

/-- Every pair (block, value) of the list has a record in use. -/
def global_end_state_t.covers (ges : global_end_state_t) (S : List (Nat × Nat)) : Prop :=
  ∀ p ∈ S, ∃ i < ges.gauge, (ges.end_info i).bl = p.1 ∧ (ges.end_info i).irn = p.2

/-- The second search state has all the records in use of the first, unchanged, and
the same version and Phi set. -/
def global_end_state_t.extended_by (g g2 : global_end_state_t) : Prop :=
  g.gauge ≤ g2.gauge ∧ (∀ i < g.gauge, g2.end_info i = g.end_info i) ∧
    g2.succ_phis = g.succ_phis ∧ g2.version = g.version

/-- A block that is its own control flow predecessor, with two registers, the
value 13 in its end workset and the value 10 to bring in. -/
def loop_env : belady_env_t :=
  { diamond_env with
    n_regs := 2,
    get_irn_arity := fun _ => 1,
    get_Block_cfgpred_block := fun _ _ => 2,
    is_Phi := fun _ => false }

/-- The block record of the block 2 of `loop_env`. -/
def loop_info (bl : Nat) : block_info_t :=
  block_info_of bl (some 20) [13] [10] 1

/-- The environment of `five_values_block` in which every value carries the
dont_spill flag. -/
def pinned_env : belady_env_t :=
  { five_values_env with dont_spill := fun _ => true }

/-- The loop `for (i = 0; i < env.n_blocks; ++i) belady(env.blocks[i], &env)` of
`be_spill_belady_spill_env2` over the blocks with their schedules: the first
component is what `env->ws`, `env->instr` and the reload requests are after the
blocks processed so far, the second the block records in processing order. -/
def belady_blocks (env : belady_env_t) (blocks : List (Nat × List sched_node)) :
    Option (belady_state × List block_info_t) :=
  blocks.foldlM
    (fun (acc : belady_state × List block_info_t) b =>
      (belady env acc.1.ws acc.1.instr acc.1.reloads b.1 b.2).map fun s => (s, acc.2 ++ [s.bi]))
    (entry_state 0, [])

/-- The schedule of a block that defines the value 1. -/
def def_block : List sched_node := [plain_node 1 []]

/-- The schedule of a block whose only instruction 12 uses the live-in value 1. -/
def use_block : List sched_node := [plain_node 12 [1]]

/-- An environment for the block 1 with the schedule `def_block` and the block 2
with the schedule `use_block`: two registers, the value 1 is of the register
class and live in at block 2, and has no use behind an instruction. -/
def two_blocks_env : belady_env_t :=
  { n_regs := 2, consider_in_reg_alloc := fun v => decide (v = 1), dont_spill := fun _ => false,
    be_get_next_use := fun _ _ _ _ => 10000000,
    USES_INFINITY := 10000000, USES_IS_INFINITE := fun t => decide (10000000 ≤ t),
    is_Phi := fun _ => false, get_nodes_block := fun v => if v = 12 then 2 else 1,
    be_is_live_in := fun bl v => decide (bl = 2 ∧ v = 1) }

/-- A block of three instructions that use one live-in value each. -/
def three_live_ins_block : List sched_node :=
  [plain_node 11 [1], plain_node 12 [2], plain_node 13 [3]]

/-- The environment of `three_live_ins_block` with one register; the values 1, 2, 3
are of the register class and live in. -/
def three_live_ins_env : belady_env_t :=
  block_env three_live_ins_block 1 (fun v => decide (v ≤ 3)) (fun v => decide (v ≤ 3))

/-- A block with the operation 1 of latency 2, the Keep 2 of its value, which has the
dummy unit, and the independent operation 3 of latency 1. The dependency graph
is acyclic: its only edge is from 1 to 2. -/
def kept_pair_graph : ir_graph :=
  graph_of [{ block_node with outs := [1, 2, 3] },
    { op_node 0 [] [] [2] 2 with execunits := [[unit0]] },
    { keep_node 0 1 with execunits := [[dummy_unit]] },
    { op_node 0 [] [] [] 1 with execunits := [[unit0]] }]

/-- The state of the scheduler for `kept_pair_graph` after the window analysis. -/
def kept_pair_state : ilp_state :=
  (ilp_sched_prepare kept_pair_graph [3, 2, 1] [1, 2, 3] [0] 10).getD (init_ilp_state init_phase)

/-- A solution of the linear program of `kept_pair_graph` on `wide_env`: the three
nodes at the first step. -/
def kept_pair_sol : Int → Bool := fun v => decide (v ∈ ([12, 11, 1, 14] : List Int))

/-- The state of `apply_solution` for `kept_pair_graph` and `kept_pair_sol` after the
scheduling time steps are collected. -/
def kept_pair_sched_state : ilp_state :=
  (collect_sched_nodes wide_env (build_ilp wide_env kept_pair_graph kept_pair_state 0)
    kept_pair_sol 0).1

/-- A unit of the unit type 1 of the machine. -/
def unit1 : be_execution_unit_t := { tp := 1, is_dummy := false }

/-- A block with the operation 1, which is allowed on the unit types 0 and 1, and the
independent operation 2; both have latency 1. -/
def two_types_graph : ir_graph :=
  graph_of [{ block_node with outs := [1, 2] },
    { op_node 0 [] [] [] 1 with execunits := [[unit0], [unit1]] },
    { op_node 0 [] [] [] 1 with execunits := [[unit0]] }]

/-- The state of the scheduler for `two_types_graph` after the window analysis. -/
def two_types_state : ilp_state :=
  (ilp_sched_prepare two_types_graph [2, 1] [1, 2] [0] 10).getD (init_ilp_state init_phase)

/-- The name of the variable with the number `v` of a linear program. -/
def lpp_t.var_name (lpp : lpp_t) (v : Int) : Option ilp_name :=
  if 1 ≤ v then (lpp.vars.get? (v - 1).toNat).map lpp_var.name else none

/-- A block with the operation 1 of latency 1, the Proj 2 of its result, which has
execution units and the latency 0, and the user 3 of the Proj with latency 1. -/
def proj_user_graph : ir_graph :=
  graph_of [{ block_node with outs := [1, 2, 3] },
    { op_node 0 [] [] [2] 1 with execunits := [[unit0]], is_mode_T := true },
    { op_node 0 [1] [] [3] 0 with execunits := [[unit0]], is_Proj := true },
    { op_node 0 [2] [] [] 1 with execunits := [[unit0]] }]

/-- The state of the scheduler for `proj_user_graph` after the window analysis. -/
def proj_user_state : ilp_state :=
  (ilp_sched_prepare proj_user_graph [3, 2, 1] [1, 2, 3] [0] 10).getD (init_ilp_state init_phase)

/-- The name is one of the constraints `assignment_cst_n..`. -/
def ilp_name.is_assignment_cst : ilp_name → Bool
  | ilp_name.assignment_cst _ => true
  | _ => false

/-- The name is one of the constraints `precedence_n.._n.._..`. -/
def ilp_name.is_precedence_cst : ilp_name → Bool
  | ilp_name.precedence _ _ _ => true
  | _ => false

/-- The name is one of the constraints `resource_cst_.._..`. -/
def ilp_name.is_resource_cst : ilp_name → Bool
  | ilp_name.resource_cst _ _ => true
  | _ => false

/-- The name is one of the constraints `bundle_cst_..`. -/
def ilp_name.is_bundle_cst : ilp_name → Bool
  | ilp_name.bundle_cst _ => true
  | _ => false

/-- The constraints of the linear program whose name satisfies `p` hold under `sol`;
nothing is asked of the other constraints. -/
def lpp_t.holds_where (lpp : lpp_t) (p : ilp_name → Bool) (sol : Int → Bool) : Bool :=
  lpp.csts.all fun c => !p c.name || c.holds sol

/-- An assignment for the linear program of `used_kept_graph`, which has no solution:
operation 1 at step 1 and operation 2 at step 2, the Keep 3 at no step. -/
def used_kept_assignment : Int → Bool := fun v => decide (v ∈ ([6, 2] : List Int))

/-- An assignment for the linear program of `kept_value_graph` that sets variables
`x` only: the operation 1 at step 1, the Keep 2 and the operation 3 at step 2, the
operation 4 at step 3; no node dies. -/
def kept_value_steps : Int → Bool := fun v => decide (v ∈ ([29, 23, 13, 5] : List Int))

/-- The effect of the body of the loop of `materialize_and_commit_end_state` for the
record `bes` on the record `b` of the block of `bes`: the pressure indicator is
updated, and if the value of the record is in its end workset, the end workset
of the search, with the version of the search in the slot of the value, is
copied to the end workset of the block. -/
def commit_block_info (version : Nat) (bes : block_end_state_t) (b : block_info_t) :
    block_info_t :=
  { b with
    pressure := max (b.pressure + (if bes.live_through then 1 else 0)) bes.end_state.len,
    ws_end :=
      match workset_get_index bes.end_state bes.irn with
      | some idx => workset_set_version bes.end_state idx version
      | none => b.ws_end }

/-- The binary64 number nearest to 0.1. -/
def double_tenth : ℚ := 3602879701896397 / 36028797018963968

/-- The binary64 number nearest to 0.7. -/
def double_seven_tenths : ℚ := 3152519739159347 / 4503599627370496

/-- The binary64 number that the sum `0.1 + 0.7` of doubles is; it is smaller than
the exact sum 28823037615171173 / 36028797018963968 of the two numbers. -/
def double_tenth_plus_seven_tenths : ℚ := 7205759403792793 / 9007199254740992

/-- A join with two registers: the blocks 1, 2 and 3 are the predecessors of block 4,
whose first instruction is 20. The value 10 is defined in another block and is to
be brought in to block 4. The execution frequencies are 1 for block 1, the double
0.1 for block 2, the double 0.7 for block 3 and the double 0.1 + 0.7 for block 4. -/
def join_env : belady_env_t :=
  { n_regs := 2, consider_in_reg_alloc := fun _ => true, dont_spill := fun _ => false,
    be_get_next_use := fun _ _ _ _ => 0, USES_INFINITY := 10000000,
    USES_IS_INFINITE := fun t => decide (10000000 ≤ t),
    is_Phi := fun _ => false,
    get_nodes_block := fun _ => 0,
    be_is_live_in := fun _ _ => false,
    get_irn_arity := fun bl => if bl = 4 then 3 else 0,
    get_Block_cfgpred_block := fun bl i => if bl = 4 then 1 + i else 0,
    get_irn_n := fun _ _ => 0,
    get_block_execfreq := fun bl =>
      if bl = 2 then double_tenth else if bl = 3 then double_seven_tenths
      else if bl = 4 then double_tenth_plus_seven_tenths else 1,
    sched_nodes := fun bl => if bl = 4 then [20] else [] }

/-- The block records of `join_env` after the local pass: the value 10 is in a
register at the end of block 1; the blocks 2 and 3 end with another value in a
register and have had both registers in use. -/
def join_info (bl : Nat) : block_info_t :=
  if bl = 1 then block_info_of 1 none [10] [] 1
  else if bl = 2 then block_info_of 2 none [13] [] 2
  else if bl = 3 then block_info_of 3 none [14] [] 2
  else if bl = 4 then block_info_of 4 (some 20) [10] [10] 1
  else block_info_of bl none [] [] 0

/-- The value among 1..4 whose use comes last in `uses`. -/
def last_resident_use (uses : List Nat) : Nat :=
  (uses.filter fun v => decide (v ≤ 4)).getLastD 0

/-- The lists that arise from `l` when `a` is put at one of its places. -/
def insert_everywhere (a : Nat) : List Nat → List (List Nat)
  | [] => [[a]]
  | b :: l => (a :: b :: l) :: (insert_everywhere a l).map (fun r => b :: r)

/-- All orders of the entries of a list. -/
def all_orders : List Nat → List (List Nat)
  | [] => [[]]
  | a :: l => (all_orders l).flatMap (insert_everywhere a)

/-- The environment of `five_values_block_of uses` with four registers; the values
1..5 are of the register class, none is live in, none has the dont_spill flag. -/
def five_values_env_of (uses : List Nat) : belady_env_t :=
  block_env (five_values_block_of uses) 4 (fun v => decide (v ≤ 5)) (fun _ => false)

/-- The next-use oracle of `env` is the one of a block with the schedule `sched`
whose values are not used behind the block (`local_next_use`), an infinite distance
is one that is not below `USES_INFINITY`, and the numbers stay in the range in
which the `int` casts of `loc_compare` are exact: `USES_INFINITY` is below `2 ^ 31`
(it is 10000000 in beuses.h) and the schedule is shorter than `USES_INFINITY`. -/
def local_oracle (env : belady_env_t) (sched : List sched_node) : Prop :=
  (∀ f j v sk, env.be_get_next_use f j v sk = local_next_use sched env.USES_INFINITY j v sk) ∧
    (∀ t, env.USES_IS_INFINITE t = decide (env.USES_INFINITY ≤ t)) ∧
    env.USES_INFINITY < 2 ^ 31 ∧ sched.length < env.USES_INFINITY

/-- The invariant of the instruction loop of `belady` in a block whose live values
always fit into the registers, after the instructions `pre` and before the
instructions `rest`: the reload log is still `r0`; the workset holds pairwise
different values of the class that the block has used or defined and that were
transported in or defined; every such value that a later instruction uses is in
the workset; the pressure is at most the number of different values used or
defined so far and at most `n_regs`; `entrance_reg` has at most `pressure` entries. -/
def live_fit_inv (env : belady_env_t) (r0 : List (Nat × Nat)) (bl : Nat)
    (pre rest : List sched_node) (s : belady_state) : Prop :=
  s.reloads = r0 ∧ s.ws.irns.Nodup ∧ s.ws.len ≤ env.n_regs ∧
    (∀ v ∈ s.ws.irns, env.consider_in_reg_alloc v = true ∧ v ∈ block_values pre ∧
      (is_transport_in env bl v = true ∨ v ∈ block_defs pre)) ∧
    (∀ v ∈ block_values pre, env.consider_in_reg_alloc v = true →
      (∃ x ∈ rest, x.is_instr = true ∧ v ∈ x.ins) → v ∈ s.ws.irns) ∧
    s.bi.pressure ≤ ((block_values pre).filter env.consider_in_reg_alloc).dedup.length ∧
    s.bi.pressure ≤ env.n_regs ∧ s.bi.entrance_reg.len ≤ s.bi.pressure ∧ s.bi.bl = bl ∧
    s.instr_nr = (pre.filter sched_node.is_instr).length

/-- A block with two registers and the live-in value 9: the first instruction uses 9,
every further instruction uses the value of the one before it. Seven values
are used or defined, two are live at any instruction. -/
def live_chain_block : List sched_node :=
  [plain_node 1 [9], plain_node 2 [1], plain_node 3 [2], plain_node 4 [3], plain_node 5 [4],
   plain_node 6 [5]]

/-- The environment of `live_chain_block` with two registers; every value is of the
register class. -/
def live_chain_env : belady_env_t :=
  block_env live_chain_block 2 (fun _ => true) (fun v => decide (v = 9))

/-- The facts about the moment at which the fifth value of `five_values_block_of uses`
is placed, with four registers: the block needs five values at the same time;
the values 1..4 are resident when the fifth value is placed; and the value among
1..4 whose use comes last has the largest next-use distance of them. -/
def placement_facts (uses : List Nat) : Prop :=
  max_live (five_values_block_of uses) (five_values_env_of uses).consider_in_reg_alloc
      ((five_values_env_of uses).be_is_live_in 0) = 5 ∧
    (belady_loop (five_values_env_of uses) (new_workset, entry_state 0)
      ((five_values_block_of uses).take 4)).map
      (fun acc => (acc.2.ws.irns, acc.2.instr_nr)) = some ([1, 2, 3, 4], 4) ∧
    last_resident_use uses ∈ [1, 2, 3, 4] ∧
    (∀ v ∈ [1, 2, 3, 4], get_distance (five_values_env_of uses) 5 4 v true ≤
      get_distance (five_values_env_of uses) 5 4 (last_resident_use uses) true)

instance (uses : List Nat) : Decidable (placement_facts uses) := by
  unfold placement_facts; exact inferInstance

/-- For the block `five_values_block_of uses` with four registers `belady` requests
exactly one reload: of the value among 1..4 whose use comes last, before the node
that uses it. -/
def one_reload_facts (uses : List Nat) : Prop :=
  (belady (five_values_env_of uses) new_workset 0 [] 0 (five_values_block_of uses)).map
    belady_state.reloads =
    some [(last_resident_use uses, 11 + uses.indexOf (last_resident_use uses))]

instance (uses : List Nat) : Decidable (one_reload_facts uses) := by
  unfold one_reload_facts; exact inferInstance

/-! ## Facts about worksets and `displace` -/

theorem workset_locs_length (ws : workset_t) : ws.locs.length = ws.len := by
  simp [workset_t.locs]

theorem workset_irns_length (ws : workset_t) : ws.irns.length = ws.len := by
  simp [workset_t.irns, workset_locs_length]

theorem workset_insert_len {env : belady_env_t} {ws ws2 : workset_t} {v : Nat}
    (h : workset_insert env ws v = some ws2) :
    ws.len ≤ ws2.len ∧ ws2.len ≤ ws.len + 1 ∧ (ws.len ≤ env.n_regs → ws2.len ≤ env.n_regs) := by
  unfold workset_insert at h
  split_ifs at h with h1 h2 h3
  · cases h; simp
  · cases h; simp
  · cases h; simp; omega

theorem workset_insert_isSome {env : belady_env_t} {ws : workset_t} (v : Nat)
    (h : ws.len < env.n_regs) : ∃ ws2, workset_insert env ws v = some ws2 := by
  unfold workset_insert
  split_ifs with h1 h2
  · exact ⟨_, rfl⟩
  · exact ⟨_, rfl⟩
  · exact ⟨_, rfl⟩

theorem workset_insert_fold {env : belady_env_t} (l : List Nat) :
    ∀ ws : workset_t, ws.len + l.length ≤ env.n_regs →
      ∃ ws2, l.foldlM (workset_insert env) ws = some ws2 ∧
        ws.len ≤ ws2.len ∧ ws2.len ≤ ws.len + l.length := by
  induction l with
  | nil => intro ws _; exact ⟨ws, rfl, le_refl _, le_refl _⟩
  | cons v l ih =>
    intro ws h
    simp only [List.length_cons] at h
    obtain ⟨w1, hw1⟩ := @workset_insert_isSome env ws v (by omega)
    have hl := workset_insert_len hw1
    obtain ⟨w2, hw2, h3, h4⟩ := ih w1 (by omega)
    refine ⟨w2, ?_, by omega, ?_⟩
    · simp [List.foldlM_cons, hw1, hw2]
    · simp only [List.length_cons]; omega

theorem workset_insert_fold_le {env : belady_env_t} (l : List Nat) :
    ∀ ws ws2 : workset_t, ws.len ≤ env.n_regs → l.foldlM (workset_insert env) ws = some ws2 →
      ws2.len ≤ env.n_regs := by
  induction l with
  | nil => intro ws ws2 h e; simp at e; subst e; exact h
  | cons v l ih =>
    intro ws ws2 h e
    simp only [List.foldlM_cons, Option.bind_eq_bind, Option.bind_eq_some] at e
    obtain ⟨w1, hw1, e2⟩ := e
    exact ih w1 ws2 ((workset_insert_len hw1).2.2 h) e2

theorem displace_mark_frame {env : belady_env_t} {u : Bool} {acc acc2 : belady_state × List Nat}
    {v : Nat} (h : displace_mark env u acc v = some acc2) :
    acc2.1.ws = acc.1.ws ∧ acc2.1.instr = acc.1.instr ∧ acc2.1.instr_nr = acc.1.instr_nr ∧
      acc2.1.bi.bl = acc.1.bi.bl ∧
      acc2.2 = (if workset_contains acc.1.ws v then acc.2 else acc.2 ++ [v]) := by
  unfold displace_mark at h
  by_cases hc : workset_contains acc.1.ws v
  · simp [hc] at h; subst h; simp [hc]
  · simp only [hc, Bool.not_false, if_true] at h
    split_ifs at h with h1 h2 h3
    · simp only [Option.map_eq_some'] at h
      obtain ⟨er, _, rfl⟩ := h
      simp [hc]
    · simp only [Option.map_eq_some'] at h
      obtain ⟨er, _, rfl⟩ := h
      simp [hc]
    · cases h; simp [hc]
    · cases h; simp [hc]

theorem displace_mark_fold_frame {env : belady_env_t} {u : Bool} (l : List Nat) :
    ∀ acc acc2 : belady_state × List Nat,
      l.foldlM (displace_mark env u) acc = some acc2 →
      acc2.1.ws = acc.1.ws ∧ acc2.1.instr = acc.1.instr ∧ acc2.1.instr_nr = acc.1.instr_nr ∧
        acc2.1.bi.bl = acc.1.bi.bl ∧
        acc2.2 = acc.2 ++ l.filter (fun v => !workset_contains acc.1.ws v) := by
  induction l with
  | nil => intro acc acc2 h; simp at h; subst h; simp
  | cons v l ih =>
    intro acc acc2 h
    simp only [List.foldlM_cons, Option.bind_eq_bind, Option.bind_eq_some] at h
    obtain ⟨a1, h1, h2⟩ := h
    have f1 := displace_mark_frame h1
    have f2 := ih a1 acc2 h2
    refine ⟨by rw [f2.1, f1.1], by rw [f2.2.1, f1.2.1], by rw [f2.2.2.1, f1.2.2.1],
      by rw [f2.2.2.2.1, f1.2.2.2.1], ?_⟩
    rw [f2.2.2.2.2, f1.2.2.2.2, f1.1]
    by_cases hc : workset_contains acc.1.ws v <;> simp [hc, List.filter_cons]

theorem displace_mark_fold_false {env : belady_env_t} (l : List Nat) :
    ∀ acc : belady_state × List Nat,
      ∃ acc2, l.foldlM (displace_mark env false) acc = some acc2 ∧ acc2.1 = acc.1 := by
  induction l with
  | nil => intro acc; exact ⟨acc, rfl, rfl⟩
  | cons v l ih =>
    intro acc
    have h1 : ∃ a1, displace_mark env false acc v = some a1 ∧ a1.1 = acc.1 := by
      unfold displace_mark
      by_cases hc : workset_contains acc.1.ws v <;> simp [hc]
    obtain ⟨a1, h1, e1⟩ := h1
    obtain ⟨a2, h2, e2⟩ := ih a1
    exact ⟨a2, by simp [List.foldlM_cons, h1, h2], by rw [e2, e1]⟩

theorem displace_set_times_len (env : belady_env_t) (s : belady_state) (u : Bool) :
    (displace_set_times env s u).len = s.ws.len := by
  unfold displace_set_times
  generalize List.range s.ws.len = l
  generalize s.ws = w
  induction l generalizing w with
  | nil => rfl
  | cons i l ih => simp only [List.foldl_cons]; rw [ih]; rfl

theorem displace_make_room_len (env : belady_env_t) (s : belady_state) (demand : Nat) (u : Bool) :
    (displace_make_room env s demand u).len = min s.ws.len (env.n_regs - demand) := by
  unfold displace_make_room
  by_cases h : s.ws.len > env.n_regs - demand
  · simp only [h, if_true, workset_set_length]; omega
  · simp only [h, if_false]; omega

theorem displace_of_mark {env : belady_env_t} {s : belady_state} {new_vals : workset_t}
    {u : Bool} (hnv : new_vals.len ≤ env.n_regs) {acc : belady_state × List Nat}
    (hm : new_vals.irns.foldlM (displace_mark env u) (s, []) = some acc) :
    ∃ s2, displace env s new_vals u = some s2 ∧ s2.ws.len ≤ env.n_regs ∧
      s2.ws.len ≤ s.ws.len + acc.2.length ∧ s2.reloads = acc.1.reloads ∧ s2.bi = acc.1.bi ∧
      s2.instr = acc.1.instr ∧ s2.instr_nr = acc.1.instr_nr := by
  have fr := displace_mark_fold_frame _ _ _ hm
  have hd : acc.2.length ≤ env.n_regs := by
    rw [fr.2.2.2.2]
    simp only [List.nil_append]
    exact le_trans (List.length_filter_le _ _) (by rw [workset_irns_length]; exact hnv)
  have hl := displace_make_room_len env acc.1 acc.2.length u
  obtain ⟨w2, hw2, h3, h4⟩ := @workset_insert_fold env acc.2
    (displace_make_room env acc.1 acc.2.length u) (by omega)
  refine ⟨{ acc.1 with ws := w2 }, ?_, ?_, ?_, rfl, rfl, rfl, rfl⟩
  · unfold displace
    simp [hm, hw2]
  · show w2.len ≤ env.n_regs
    omega
  · show w2.len ≤ s.ws.len + acc.2.length
    rw [fr.1] at hl
    simp only at hl
    omega

theorem displace_some_mark {env : belady_env_t} {s s2 : belady_state} {new_vals : workset_t}
    {u : Bool} (h : displace env s new_vals u = some s2) :
    ∃ acc, new_vals.irns.foldlM (displace_mark env u) (s, []) = some acc ∧
      ∃ w2, acc.2.foldlM (workset_insert env) (displace_make_room env acc.1 acc.2.length u) = some w2
        ∧ s2 = { acc.1 with ws := w2 } := by
  unfold displace at h
  simp only [Option.bind_eq_some, Option.map_eq_some'] at h
  obtain ⟨acc, hm, w2, hw, rfl⟩ := h
  exact ⟨acc, hm, w2, hw, rfl⟩

theorem displace_len_le {env : belady_env_t} {s s2 : belady_state} {new_vals : workset_t}
    {u : Bool} (hws : s.ws.len ≤ env.n_regs) (h : displace env s new_vals u = some s2) :
    s2.ws.len ≤ env.n_regs := by
  obtain ⟨acc, hm, w2, hw, rfl⟩ := displace_some_mark h
  have fr := displace_mark_fold_frame _ _ _ hm
  have hl := displace_make_room_len env acc.1 acc.2.length u
  refine workset_insert_fold_le acc.2 _ w2 ?_ hw
  rw [hl, fr.1]
  exact le_trans (Nat.min_le_left _ _) hws

theorem belady_instr_len_le {env : belady_env_t} {acc acc2 : workset_t × belady_state}
    {irn : sched_node} (hws : acc.2.ws.len ≤ env.n_regs)
    (h : belady_instr env acc irn = some acc2) : acc2.2.ws.len ≤ env.n_regs := by
  unfold belady_instr at h
  cases hpq : (irn.is_Proj || irn.is_Phi) with
  | true =>
    simp only [hpq, if_true] at h
    cases h; exact hws
  | false =>
    simp only [hpq, Bool.false_eq_true, if_false, Option.bind_eq_some, Option.map_eq_some'] at h
    obtain ⟨used, _, s1, h1, defined, _, s2, h2, rfl⟩ := h
    have b1 : s1.ws.len ≤ env.n_regs := displace_len_le (by exact hws) h1
    have b2 : s2.ws.len ≤ env.n_regs := displace_len_le b1 h2
    exact b2

theorem belady_loop_len_le {env : belady_env_t} (pre : List sched_node) :
    ∀ acc acc2 : workset_t × belady_state, acc.2.ws.len ≤ env.n_regs →
      belady_loop env acc pre = some acc2 → acc2.2.ws.len ≤ env.n_regs := by
  induction pre with
  | nil => intro acc acc2 h e; simp [belady_loop] at e; subst e; exact h
  | cons irn l ih =>
    intro acc acc2 h e
    simp only [belady_loop, List.foldlM_cons, Option.bind_eq_bind, Option.bind_eq_some] at e
    obtain ⟨a1, h1, e2⟩ := e
    exact ih a1 acc2 (belady_instr_len_le h h1) e2

/-- C1 (spill boundedness). A call of `displace` made while the main workset has at
most `n_regs` entries and the request has at most `n_regs` entries leaves at most
`n_regs` entries in the main workset; the insertions into the main workset never
hit the "workset full" assertion (the call fails only if step 1, which touches the
entrance worksets, fails, and never for defined values). Hence in `belady` the
workset length is at most `n_regs` before every instruction (after every prefix
`pre` of the schedule) and at the end of the block. -/
theorem displace_workset_bounded (env : belady_env_t) :
    (∀ (s : belady_state) (new_vals : workset_t) (is_usage : Bool),
        s.ws.len ≤ env.n_regs → new_vals.len ≤ env.n_regs →
        (∀ s2, displace env s new_vals is_usage = some s2 → s2.ws.len ≤ env.n_regs) ∧
        ((new_vals.irns.foldlM (displace_mark env is_usage) (s, [])).isSome = true →
          (displace env s new_vals is_usage).isSome = true) ∧
        (is_usage = false → (displace env s new_vals is_usage).isSome = true)) ∧
    (∀ (w : workset_t) (s : belady_state) (sched pre post : List sched_node)
        (acc : workset_t × belady_state),
        s.ws.len ≤ env.n_regs → sched = pre ++ post →
        belady_loop env (w, s) pre = some acc → acc.2.ws.len ≤ env.n_regs) := by
  refine ⟨fun s new_vals is_usage hws hnv => ⟨fun s2 h => displace_len_le hws h, ?_, ?_⟩, ?_⟩
  · intro hm
    obtain ⟨acc, hacc⟩ := Option.isSome_iff_exists.mp hm
    obtain ⟨s2, h2, _⟩ := displace_of_mark hnv hacc
    rw [h2]; rfl
  · intro hu
    subst hu
    obtain ⟨acc, hacc, _⟩ := @displace_mark_fold_false env new_vals.irns (s, [])
    obtain ⟨s2, h2, _⟩ := displace_of_mark hnv hacc
    rw [h2]; rfl
  · intro w s sched pre post acc hws _ h
    exact belady_loop_len_le pre (w, s) acc hws h

/-- Witness for C1: the bound at the block `five_values_block` with four registers. -/
theorem displace_workset_bounded_witness :
    (displace five_values_env (entry_state 0) new_workset false).isSome = true ∧
    ((belady_loop five_values_env (new_workset, entry_state 0) five_values_block).elim False
      fun acc => acc.2.ws.len ≤ 4) := by
  refine ⟨((displace_workset_bounded five_values_env).1 (entry_state 0) new_workset false
    (by decide) (by decide)).2.2 rfl, ?_⟩
  cases h : belady_loop five_values_env (new_workset, entry_state 0) five_values_block with
  | none =>
    have hs : (belady_loop five_values_env (new_workset, entry_state 0) five_values_block).isSome
        = true := by decide
    rw [h] at hs
    exact absurd hs (by decide)
  | some acc =>
    exact (displace_workset_bounded five_values_env).2 new_workset (entry_state 0)
      five_values_block five_values_block [] acc (by decide) (by simp) h

theorem workset_contains_iff (ws : workset_t) (v : Nat) :
    workset_contains ws v = true ↔ v ∈ ws.irns := by
  unfold workset_contains workset_get_index workset_t.irns workset_t.locs
  rw [Option.isSome_iff_exists]
  constructor
  · rintro ⟨i, hi⟩
    have h1 := List.find?_some hi
    have h2 := List.mem_of_find?_eq_some hi
    simp only [List.mem_map, List.mem_range]
    simp only [beq_iff_eq] at h1
    exact ⟨ws.vals i, ⟨i, List.mem_range.mp h2, rfl⟩, h1⟩
  · intro h
    simp only [List.mem_map, List.mem_range] at h
    obtain ⟨l, ⟨i, hi, rfl⟩, hv⟩ := h
    cases hf : List.find? (fun i => (ws.vals i).irn == v) (List.range ws.len) with
    | some j => exact ⟨j, rfl⟩
    | none =>
      rw [List.find?_eq_none] at hf
      have := hf i (List.mem_range.mpr hi)
      simp [hv] at this

theorem workset_insert_locs {env : belady_env_t} {ws ws2 : workset_t} {v : Nat}
    (h : workset_insert env ws v = some ws2) :
    ws2.locs = ws.locs ∨
      (v ∉ ws.irns ∧ ws2.locs = ws.locs ++ [{ ws.vals ws.len with irn := v }]) := by
  unfold workset_insert at h
  split_ifs at h with h1 h2 h3
  · cases h; exact Or.inl rfl
  · cases h; exact Or.inl rfl
  · cases h
    right
    refine ⟨fun hm => h2 ((workset_contains_iff ws v).mpr hm), ?_⟩
    simp only [workset_t.locs, List.range_succ, List.map_append, List.map_cons, List.map_nil,
      if_true]
    congr 1
    apply List.map_congr_left
    intro i hi
    have : i ≠ ws.len := Nat.ne_of_lt (List.mem_range.mp hi)
    simp [this]

theorem workset_insert_irns {env : belady_env_t} {ws ws2 : workset_t} {v : Nat}
    (h : workset_insert env ws v = some ws2) :
    ws2.irns = ws.irns ∨ (v ∉ ws.irns ∧ ws2.irns = ws.irns ++ [v]) := by
  rcases workset_insert_locs h with h1 | ⟨hn, h1⟩
  · left; simp [workset_t.irns, h1]
  · right; exact ⟨hn, by simp [workset_t.irns, h1]⟩

theorem workset_insert_fold_irns {env : belady_env_t} (l : List Nat) :
    ∀ ws ws2 : workset_t, l.foldlM (workset_insert env) ws = some ws2 →
      ∃ added, ws2.irns = ws.irns ++ added ∧ (∀ v ∈ added, v ∈ l ∧ v ∉ ws.irns) ∧
        (ws.irns.Nodup → ws2.irns.Nodup) := by
  induction l with
  | nil => intro ws ws2 h; simp at h; subst h; exact ⟨[], by simp, by simp, id⟩
  | cons v l ih =>
    intro ws ws2 h
    simp only [List.foldlM_cons, Option.bind_eq_bind, Option.bind_eq_some] at h
    obtain ⟨w1, h1, h2⟩ := h
    obtain ⟨added, e, hs, hnd⟩ := ih w1 ws2 h2
    rcases workset_insert_irns h1 with e1 | ⟨hn, e1⟩
    · rw [e1] at e hs hnd
      exact ⟨added, e, fun x hx => ⟨List.mem_cons_of_mem _ (hs x hx).1, (hs x hx).2⟩, hnd⟩
    · rw [e1] at e hs hnd
      refine ⟨v :: added, by simp [e], ?_, ?_⟩
      · intro x hx
        rcases List.mem_cons.mp hx with rfl | hx
        · exact ⟨List.mem_cons_self _ _, hn⟩
        · have := hs x hx
          exact ⟨List.mem_cons_of_mem _ this.1, fun hm => this.2 (List.mem_append_left _ hm)⟩
      · intro hd
        apply hnd
        rw [List.nodup_append]
        refine ⟨hd, List.nodup_singleton v, ?_⟩
        intro a ha hb
        simp only [List.mem_singleton] at hb
        subst hb
        exact hn ha

instance : IsTotal loc_t loc_key_le := ⟨fun p q => by unfold loc_key_le; omega⟩

instance : IsTrans loc_t loc_key_le := ⟨fun p q r => by unfold loc_key_le; omega⟩

theorem wrap_int_of_bounded {z : Int} (h1 : -(2 ^ 31) ≤ z) (h2 : z < 2 ^ 31) : wrap_int z = z := by
  unfold wrap_int
  have : (z + 2 ^ 31) % 2 ^ 32 = z + 2 ^ 31 := Int.emod_eq_of_lt (by omega) (by omega)
  omega

theorem int_of_unsigned_of_lt {x : Nat} (h : x < 2 ^ 31) : int_of_unsigned x = (x : Int) := by
  unfold int_of_unsigned
  apply wrap_int_of_bounded <;> omega

theorem loc_compare_le_iff {p q : loc_t} (hp1 : p.time < 2 ^ 31) (hp2 : p.irn < 2 ^ 31)
    (hq1 : q.time < 2 ^ 31) (hq2 : q.irn < 2 ^ 31) :
    loc_compare p q ≤ 0 ↔ loc_key_le p q := by
  unfold loc_compare loc_compare_idx loc_key_le
  rw [int_of_unsigned_of_lt hp1, int_of_unsigned_of_lt hp2, int_of_unsigned_of_lt hq1,
    int_of_unsigned_of_lt hq2]
  rw [wrap_int_of_bounded (z := (p.time : Int) - q.time) (by omega) (by omega),
    wrap_int_of_bounded (z := (p.irn : Int) - q.irn) (by omega) (by omega)]
  simp only
  split_ifs with h <;> omega

theorem orderedInsert_congr {α : Type} (r r2 : α → α → Prop) [DecidableRel r] [DecidableRel r2]
    (a : α) (l : List α) (h : ∀ b ∈ l, (r a b ↔ r2 a b)) :
    l.orderedInsert r a = l.orderedInsert r2 a := by
  induction l with
  | nil => rfl
  | cons b l ih =>
    have hb := h b (List.mem_cons_self _ _)
    simp only [List.orderedInsert]
    by_cases hr : r a b
    · simp [hr, hb.mp hr]
    · have : ¬ r2 a b := fun x => hr (hb.mpr x)
      simp [hr, this, ih (fun c hc => h c (List.mem_cons_of_mem _ hc))]

theorem insertionSort_congr {α : Type} (r r2 : α → α → Prop) [DecidableRel r] [DecidableRel r2]
    (l : List α) (h : ∀ a ∈ l, ∀ b ∈ l, (r a b ↔ r2 a b)) :
    l.insertionSort r = l.insertionSort r2 := by
  induction l with
  | nil => rfl
  | cons a l ih =>
    simp only [List.insertionSort]
    rw [ih (fun x hx y hy => h x (List.mem_cons_of_mem _ hx) y (List.mem_cons_of_mem _ hy))]
    apply orderedInsert_congr
    intro b hb
    have hb2 : b ∈ l := (List.perm_insertionSort r2 l).mem_iff.mp hb
    exact h a (List.mem_cons_self _ _) b (List.mem_cons_of_mem _ hb2)

theorem range_foldl_set_time (f : Nat → Nat) (n : Nat) (ws : workset_t) :
    ((List.range n).foldl (fun w i => workset_set_time w i (f (w.vals i).irn)) ws).len = ws.len ∧
    ∀ j, ((List.range n).foldl (fun w i => workset_set_time w i (f (w.vals i).irn)) ws).vals j =
      if j < n then { ws.vals j with time := f (ws.vals j).irn } else ws.vals j := by
  induction n with
  | zero => simp
  | succ n ih =>
    rw [List.range_succ, List.foldl_append]
    simp only [List.foldl_cons, List.foldl_nil]
    obtain ⟨ih1, ih2⟩ := ih
    generalize (List.range n).foldl (fun w i => workset_set_time w i (f (w.vals i).irn)) ws = w
      at ih1 ih2 ⊢
    refine ⟨ih1, fun j => ?_⟩
    show (if j = n then { w.vals j with time := f (w.vals n).irn } else w.vals j) = _
    by_cases hj : j = n
    · subst hj
      simp [ih2]
    · rw [if_neg hj, ih2]
      by_cases h2 : j < n
      · have : j < n + 1 := by omega
        simp [h2, this]
      · have : ¬ j < n + 1 := by omega
        simp [h2, this]

theorem displace_set_times_locs (env : belady_env_t) (s : belady_state) (u : Bool) :
    (displace_set_times env s u).locs =
      s.ws.locs.map (fun l => { l with time := get_distance env s.instr s.instr_nr l.irn (!u) }) := by
  have h := range_foldl_set_time (fun v => get_distance env s.instr s.instr_nr v (!u)) s.ws.len s.ws
  unfold displace_set_times workset_t.locs
  rw [h.1, List.map_map]
  apply List.map_congr_left
  intro i hi
  rw [h.2]
  simp [List.mem_range.mp hi]

theorem map_getD_range {α : Type} (l : List α) (f : Nat → α) :
    (List.range l.length).map (fun i => if i < l.length then l.getD i (f i) else f i) = l := by
  apply List.ext_getElem
  · simp
  · intro i h1 h2
    simp only [List.length_map, List.length_range] at h1
    simp [h1, List.getD_eq_getElem?_getD, List.getElem?_eq_getElem h1]

theorem workset_sort_locs (ws : workset_t) :
    (workset_sort ws).locs = ws.locs.insertionSort (fun p q => loc_compare p q ≤ 0) := by
  have hl : (ws.locs.insertionSort (fun p q => loc_compare p q ≤ 0)).length = ws.len := by
    rw [List.length_insertionSort, workset_locs_length]
  have := map_getD_range (ws.locs.insertionSort (fun p q => loc_compare p q ≤ 0)) ws.vals
  rw [hl] at this
  exact this

theorem workset_set_length_locs (ws : workset_t) (m : Nat) (h : m ≤ ws.len) :
    (workset_set_length ws m).locs = ws.locs.take m := by
  unfold workset_set_length workset_t.locs
  rw [← List.map_take, List.take_range, Nat.min_eq_left h]

theorem sorted_take_drop {α : Type} {r : α → α → Prop} {S : List α} (m : Nat)
    (h : S.Sorted r) : ∀ y ∈ S.take m, ∀ x ∈ S.drop m, r y x := by
  have h2 : (S.take m ++ S.drop m).Pairwise r := by rw [List.take_append_drop]; exact h
  exact (List.pairwise_append.mp h2).2.2

theorem victims_core (S : List loc_t) (m : Nat) (added old new : List Nat)
    (hold : List.Perm old (S.map loc_t.irn)) (hnd : old.Nodup)
    (hnew : new = (S.take m).map loc_t.irn ++ added) (hadd : ∀ v ∈ added, v ∉ old)
    (hsorted : S.Sorted loc_key_le) :
    (old.filter (fun v => decide (v ∉ new))).length = S.length - m ∧
      ∀ x ∈ S, x.irn ∉ new → ∀ y ∈ S, y.irn ∈ new → loc_key_le y x := by
  have hSnd : (S.map loc_t.irn).Nodup := hold.nodup_iff.mp hnd
  have hsplit : S.map loc_t.irn = (S.take m).map loc_t.irn ++ (S.drop m).map loc_t.irn := by
    rw [← List.map_append, List.take_append_drop]
  have hdisj : ∀ v ∈ (S.take m).map loc_t.irn, v ∉ (S.drop m).map loc_t.irn := by
    rw [hsplit] at hSnd
    intro v hv hv2
    exact (List.nodup_append.mp hSnd).2.2 hv hv2
  have htake : ∀ v ∈ (S.take m).map loc_t.irn, v ∈ new := by
    intro v hv; rw [hnew]; exact List.mem_append_left _ hv
  have hdrop : ∀ v ∈ (S.drop m).map loc_t.irn, v ∉ new := by
    intro v hv hn
    rw [hnew] at hn
    rcases List.mem_append.mp hn with h1 | h1
    · exact hdisj v h1 hv
    · apply hadd v h1
      apply hold.mem_iff.mpr
      rw [hsplit]; exact List.mem_append_right _ hv
  constructor
  · rw [(hold.filter _).length_eq, hsplit, List.filter_append, List.length_append]
    have e1 : ((S.take m).map loc_t.irn).filter (fun v => decide (v ∉ new)) = [] := by
      rw [List.filter_eq_nil_iff]
      intro v hv
      simp [htake v hv]
    have e2 : ((S.drop m).map loc_t.irn).filter (fun v => decide (v ∉ new))
        = (S.drop m).map loc_t.irn := by
      rw [List.filter_eq_self]
      intro v hv
      simp [hdrop v hv]
    rw [e1, e2]
    simp
  · intro x hx hxn y hy hyn
    have hx2 : x ∈ S.take m ++ S.drop m := by rw [List.take_append_drop]; exact hx
    have hy2 : y ∈ S.take m ++ S.drop m := by rw [List.take_append_drop]; exact hy
    have hxd : x ∈ S.drop m := by
      rcases List.mem_append.mp hx2 with h1 | h1
      · exact absurd (htake _ (List.mem_map_of_mem _ h1)) hxn
      · exact h1
    have hyt : y ∈ S.take m := by
      rcases List.mem_append.mp hy2 with h1 | h1
      · exact h1
      · exact absurd hyn (hdrop _ (List.mem_map_of_mem _ h1))
    exact sorted_take_drop m hsorted y hyt x hxd

theorem displace_victims (env : belady_env_t) (s s2 : belady_state)
    (new_vals : workset_t) (is_usage : Bool)
    (hnd : s.ws.irns.Nodup) (hnv : new_vals.len ≤ env.n_regs)
    (hidx : ∀ v ∈ s.ws.irns, v < 2 ^ 31)
    (hdist : ∀ v ∈ s.ws.irns, get_distance env s.instr s.instr_nr v (!is_usage) < 2 ^ 31)
    (h : displace env s new_vals is_usage = some s2) :
    (s.ws.len + (new_vals.irns.filter (fun v => !workset_contains s.ws v)).length ≤ env.n_regs →
      ∀ v ∈ s.ws.irns, v ∈ s2.ws.irns) ∧
    (env.n_regs < s.ws.len + (new_vals.irns.filter (fun v => !workset_contains s.ws v)).length →
      (s.ws.irns.filter (fun v => decide (v ∉ s2.ws.irns))).length =
        s.ws.len + (new_vals.irns.filter (fun v => !workset_contains s.ws v)).length - env.n_regs ∧
      ∀ r ∈ s.ws.irns, r ∉ s2.ws.irns → ∀ k ∈ s.ws.irns, k ∈ s2.ws.irns →
        get_distance env s.instr s.instr_nr k (!is_usage) <
            get_distance env s.instr s.instr_nr r (!is_usage) ∨
          (get_distance env s.instr s.instr_nr k (!is_usage) =
              get_distance env s.instr s.instr_nr r (!is_usage) ∧ k ≤ r)) := by
  obtain ⟨acc, hm, w2, hw, rfl⟩ := displace_some_mark h
  obtain ⟨fws, finstr, fnr, _, fti⟩ := displace_mark_fold_frame _ _ _ hm
  simp only [List.nil_append] at fti fws finstr fnr
  rw [← fti]
  have hdem : acc.2.length ≤ env.n_regs := by
    rw [fti]
    exact le_trans (List.length_filter_le _ _) (by rw [workset_irns_length]; exact hnv)
  have hti : ∀ v ∈ acc.2, v ∉ s.ws.irns := by
    intro v hv hm2
    rw [fti, List.mem_filter] at hv
    have := (workset_contains_iff s.ws v).mpr hm2
    simp [this] at hv
  obtain ⟨added, e, hs, _⟩ := workset_insert_fold_irns acc.2 _ w2 hw
  show (s.ws.len + acc.2.length ≤ env.n_regs → ∀ v ∈ s.ws.irns, v ∈ w2.irns) ∧
    (env.n_regs < s.ws.len + acc.2.length →
      (s.ws.irns.filter (fun v => decide (v ∉ w2.irns))).length =
        s.ws.len + acc.2.length - env.n_regs ∧
      ∀ r ∈ s.ws.irns, r ∉ w2.irns → ∀ k ∈ s.ws.irns, k ∈ w2.irns → _)
  constructor
  · intro hle v hv
    have hroom : displace_make_room env acc.1 acc.2.length is_usage = s.ws := by
      unfold displace_make_room
      have : ¬ s.ws.len > env.n_regs - acc.2.length := by omega
      simp only [fws, this, if_false]
    rw [e, hroom]
    exact List.mem_append_left _ hv
  · intro hgt
    have hroom : displace_make_room env acc.1 acc.2.length is_usage =
        workset_set_length (workset_sort (displace_set_times env acc.1 is_usage))
          (env.n_regs - acc.2.length) := by
      unfold displace_make_room
      have : s.ws.len > env.n_regs - acc.2.length := by omega
      simp only [fws, this, if_true]
    have hlen_sort : (workset_sort (displace_set_times env acc.1 is_usage)).len = s.ws.len := by
      show (displace_set_times env acc.1 is_usage).len = s.ws.len
      rw [displace_set_times_len, fws]
    have hlocs : (displace_make_room env acc.1 acc.2.length is_usage).locs =
        ((s.ws.locs.map (fun l =>
            ({ l with time := get_distance env s.instr s.instr_nr l.irn (!is_usage) } : loc_t))
          ).insertionSort (fun p q => loc_compare p q ≤ 0)).take (env.n_regs - acc.2.length) := by
      rw [hroom, workset_set_length_locs _ _ (by rw [hlen_sort]; omega), workset_sort_locs,
        displace_set_times_locs, fws, finstr, fnr]
    generalize hL : s.ws.locs.map (fun l =>
        ({ l with time := get_distance env s.instr s.instr_nr l.irn (!is_usage) } : loc_t)) = L
      at hlocs
    have hLirn : L.map loc_t.irn = s.ws.irns := by
      rw [← hL, List.map_map]; rfl
    have hLtime : ∀ x ∈ L, x.time = get_distance env s.instr s.instr_nr x.irn (!is_usage) := by
      intro x hx
      rw [← hL, List.mem_map] at hx
      obtain ⟨l, _, rfl⟩ := hx
      rfl
    have hLb : ∀ x ∈ L, x.time < 2 ^ 31 ∧ x.irn < 2 ^ 31 := by
      intro x hx
      have hxi : x.irn ∈ s.ws.irns := by rw [← hLirn]; exact List.mem_map_of_mem _ hx
      exact ⟨by rw [hLtime x hx]; exact hdist _ hxi, hidx _ hxi⟩
    have hsort : L.insertionSort (fun p q => loc_compare p q ≤ 0) = L.insertionSort loc_key_le := by
      apply insertionSort_congr
      intro a ha b hb
      exact loc_compare_le_iff (hLb a ha).1 (hLb a ha).2 (hLb b hb).1 (hLb b hb).2
    rw [hsort] at hlocs
    have hperm := List.perm_insertionSort loc_key_le L
    have hsorted := List.sorted_insertionSort loc_key_le L
    generalize hS : L.insertionSort loc_key_le = S at hlocs hperm hsorted
    have hold : List.Perm s.ws.irns (S.map loc_t.irn) := by
      rw [← hLirn]; exact (hperm.map _).symm
    have hnew : w2.irns = (S.take (env.n_regs - acc.2.length)).map loc_t.irn ++ added := by
      rw [e]; unfold workset_t.irns; rw [hlocs]
    have hadd : ∀ v ∈ added, v ∉ s.ws.irns := fun v hv => hti v (hs v hv).1
    have hSlen : S.length = s.ws.len := by
      rw [hperm.length_eq, ← hL, List.length_map, workset_locs_length]
    obtain ⟨c1, c2⟩ := victims_core S (env.n_regs - acc.2.length) added s.ws.irns w2.irns
      hold hnd hnew hadd hsorted
    refine ⟨by rw [c1, hSlen]; omega, ?_⟩
    intro r hr hrn k hk hkn
    obtain ⟨x, hx, rfl⟩ := List.mem_map.mp (hold.mem_iff.mp hr)
    obtain ⟨y, hy, rfl⟩ := List.mem_map.mp (hold.mem_iff.mp hk)
    have := c2 x hx hrn y hy hkn
    unfold loc_key_le at this
    rw [hLtime x (hperm.mem_iff.mp hx), hLtime y (hperm.mem_iff.mp hy)] at this
    exact this

/-- C2 (victim selection in `displace`). With `demand` the number of requested
values that are not resident: if `len + demand ≤ n_regs` every resident value
stays resident; otherwise exactly `len + demand - n_regs` resident values are
removed, and the key (next-use distance, node index) of every removed value is
at least the key of every value that is kept. The workset holds pairwise
different nodes; indices and distances are below `2 ^ 31`, the range in which the
`int` casts of `loc_compare` are exact. -/
theorem displace_victim_selection (env : belady_env_t) (s s2 : belady_state)
    (new_vals : workset_t) (is_usage : Bool)
    (hnd : s.ws.irns.Nodup) (hnv : new_vals.len ≤ env.n_regs)
    (hidx : ∀ v ∈ s.ws.irns, v < 2 ^ 31)
    (hdist : ∀ v ∈ s.ws.irns, get_distance env s.instr s.instr_nr v (!is_usage) < 2 ^ 31)
    (h : displace env s new_vals is_usage = some s2) :
    (s.ws.len + (new_vals.irns.filter (fun v => !workset_contains s.ws v)).length ≤ env.n_regs →
      ∀ v ∈ s.ws.irns, v ∈ s2.ws.irns) ∧
    (env.n_regs < s.ws.len + (new_vals.irns.filter (fun v => !workset_contains s.ws v)).length →
      (s.ws.irns.filter (fun v => decide (v ∉ s2.ws.irns))).length =
        s.ws.len + (new_vals.irns.filter (fun v => !workset_contains s.ws v)).length - env.n_regs ∧
      ∀ r ∈ s.ws.irns, r ∉ s2.ws.irns → ∀ k ∈ s.ws.irns, k ∈ s2.ws.irns →
        get_distance env s.instr s.instr_nr k (!is_usage) <
            get_distance env s.instr s.instr_nr r (!is_usage) ∨
          (get_distance env s.instr s.instr_nr k (!is_usage) =
              get_distance env s.instr s.instr_nr r (!is_usage) ∧ k ≤ r)) :=
  displace_victims env s s2 new_vals is_usage hnd hnv hidx hdist h

/-- Witness for C2: placing the fifth value of `five_values_block` with four
registers removes exactly one resident value. -/
theorem displace_victim_selection_witness :
    (full_state.ws.irns.filter (fun v => decide (v ∉ full_state_after.ws.irns))).length =
      full_state.ws.len +
        ((single_request 5).irns.filter (fun v => !workset_contains full_state.ws v)).length -
        five_values_env.n_regs :=
  ((displace_victim_selection five_values_env full_state full_state_after (single_request 5) false
    (by decide) (by decide) (by decide) (by decide) (by rfl)).2 (by decide)).1

theorem workset_insert_mem {env : belady_env_t} {ws ws2 : workset_t} {v : Nat}
    (h : workset_insert env ws v = some ws2) :
    (∀ x ∈ ws.irns, x ∈ ws2.irns) ∧ (env.consider_in_reg_alloc v = true → v ∈ ws2.irns) := by
  constructor
  · intro x hx
    rcases workset_insert_irns h with e | ⟨_, e⟩
    · rw [e]; exact hx
    · rw [e]; exact List.mem_append_left _ hx
  · intro hc
    unfold workset_insert at h
    simp only [hc, Bool.not_true, Bool.false_eq_true, if_false] at h
    split_ifs at h with h2 h3
    · cases h; exact (workset_contains_iff ws v).mp h2
    · have h' : workset_insert env ws v = some ws2 := by
        unfold workset_insert
        simp only [hc, Bool.not_true, Bool.false_eq_true, if_false, h2, h3, if_true]
        exact h
      rcases workset_insert_irns h' with e | ⟨_, e⟩
      · exfalso
        have l1 : ws2.irns.length = ws.irns.length := by rw [e]
        rw [workset_irns_length, workset_irns_length] at l1
        cases h
        simp at l1
      · rw [e]; simp

/-- What one round of step 1 of `displace` does for a used value. -/
theorem displace_mark_usage {env : belady_env_t} {a a2 : belady_state × List Nat} {val : Nat}
    (h : displace_mark env true a val = some a2) :
    (val ∈ a.1.ws.irns → a2 = a) ∧
    (val ∉ a.1.ws.irns → is_transport_in env a.1.bi.bl val = true →
      a.1.bi.pressure < env.n_regs →
        a2.1.bi.pressure = a.1.bi.pressure + 1 ∧ a2.1.reloads = a.1.reloads ∧
        (∀ x ∈ a.1.bi.entrance_reg.irns, x ∈ a2.1.bi.entrance_reg.irns) ∧
        (env.consider_in_reg_alloc val = true → val ∈ a2.1.bi.entrance_reg.irns)) ∧
    (val ∉ a.1.ws.irns →
      ¬ (is_transport_in env a.1.bi.bl val = true ∧ a.1.bi.pressure < env.n_regs) →
        a2.1.bi.pressure = a.1.bi.pressure ∧ a2.1.reloads = a.1.reloads ++ [(val, a.1.instr)] ∧
        a2.1.bi.entrance_reg = a.1.bi.entrance_reg) := by
  unfold displace_mark at h
  by_cases hc : workset_contains a.1.ws val = true
  · have hm := (workset_contains_iff _ _).mp hc
    simp only [hc, Bool.not_true, Bool.false_eq_true, if_false, Option.some.injEq] at h
    exact ⟨fun _ => h.symm, fun hn => absurd hm hn, fun hn => absurd hm hn⟩
  · have hm : val ∉ a.1.ws.irns := fun x => hc ((workset_contains_iff _ _).mpr x)
    simp only [hc, Bool.not_false, if_true] at h
    refine ⟨fun x => absurd x hm, ?_, ?_⟩
    · intro _ ht hp
      simp only [ht, hp, if_true, Option.map_eq_some'] at h
      obtain ⟨er, her, rfl⟩ := h
      have := workset_insert_mem her
      exact ⟨rfl, rfl, this.1, this.2⟩
    · intro _ hn
      by_cases ht : is_transport_in env a.1.bi.bl val = true
      · have hp : ¬ a.1.bi.pressure < env.n_regs := fun x => hn ⟨ht, x⟩
        simp only [ht, hp, if_true, if_false, Option.map_eq_some'] at h
        obtain ⟨em, _, rfl⟩ := h
        exact ⟨rfl, rfl, rfl⟩
      · simp only [ht, if_false, Bool.false_eq_true, Option.some.injEq] at h
        subst h
        exact ⟨rfl, rfl, rfl⟩

theorem displace_mark_isSome {env : belady_env_t} (a : belady_state × List Nat) (val : Nat)
    (h1 : a.1.bi.entrance_reg.len < env.n_regs) (h2 : a.1.bi.entrance_mem.len < env.n_regs) :
    (displace_mark env true a val).isSome = true := by
  obtain ⟨er, her⟩ := @workset_insert_isSome env _ val h1
  obtain ⟨em, hem⟩ := @workset_insert_isSome env _ val h2
  unfold displace_mark
  simp only [her, hem, if_true, Option.map_some']
  split_ifs <;> rfl

theorem displace_mark_fold_usage {env : belady_env_t} (l : List Nat) :
    ∀ a b : belady_state × List Nat, l.foldlM (displace_mark env true) a = some b →
      a.1.bi.pressure ≤ b.1.bi.pressure ∧
      (∀ x ∈ a.1.bi.entrance_reg.irns, x ∈ b.1.bi.entrance_reg.irns) ∧
      ∃ R, b.1.reloads = a.1.reloads ++ R ∧ ∀ x ∈ R, x.1 ∈ l ∧ x.2 = a.1.instr := by
  induction l with
  | nil => intro a b h; simp at h; subst h; exact ⟨le_refl _, fun _ hx => hx, [], by simp, by simp⟩
  | cons v l ih =>
    intro a b h
    simp only [List.foldlM_cons, Option.bind_eq_bind, Option.bind_eq_some] at h
    obtain ⟨a1, h1, h2⟩ := h
    obtain ⟨p2, e2, R2, r2, m2⟩ := ih a1 b h2
    have fr := displace_mark_frame h1
    have st := displace_mark_usage h1
    by_cases hm : v ∈ a.1.ws.irns
    · have := st.1 hm
      subst this
      exact ⟨p2, e2, R2, r2, fun x hx => ⟨List.mem_cons_of_mem _ (m2 x hx).1, (m2 x hx).2⟩⟩
    · by_cases hc : is_transport_in env a.1.bi.bl v = true ∧ a.1.bi.pressure < env.n_regs
      · obtain ⟨q1, q2, q3, _⟩ := st.2.1 hm hc.1 hc.2
        refine ⟨by omega, fun x hx => e2 x (q3 x hx), R2, by rw [r2, q2], ?_⟩
        intro x hx
        exact ⟨List.mem_cons_of_mem _ (m2 x hx).1, by rw [(m2 x hx).2, fr.2.1]⟩
      · obtain ⟨q1, q2, q3⟩ := st.2.2 hm hc
        refine ⟨by omega, fun x hx => e2 x (by rw [q3]; exact hx), (v, a.1.instr) :: R2,
          by rw [r2, q2]; simp, ?_⟩
        intro x hx
        rcases List.mem_cons.mp hx with rfl | hx
        · exact ⟨List.mem_cons_self _ _, rfl⟩
        · exact ⟨List.mem_cons_of_mem _ (m2 x hx).1, by rw [(m2 x hx).2, fr.2.1]⟩

theorem count_eq_zero_of_fst {R : List (Nat × Nat)} {l : List Nat} {val i : Nat}
    (hR : ∀ x ∈ R, x.1 ∈ l ∧ x.2 = i) (hv : val ∉ l) : R.count (val, i) = 0 := by
  rw [List.count_eq_zero]
  intro hm
  exact hv (hR _ hm).1

/-- C3 (reload rule of `displace` for used values). In a call with `is_usage` set
the requested values are handled one after the other; `a1` is the state when the
requested value `val` is reached and `a2` the state after it. A resident value
changes nothing and causes no reload. A value that is not resident, is
transported into the block and meets a pressure below `n_regs` raises the
pressure by exactly 1, is in `entrance_reg` afterwards (values of the request set
are of the register class) and causes no reload. In every other case exactly
one reload of the value before the current instruction is requested and the
pressure stays. Step 1 cannot fail while both entrance worksets have a free
slot. -/
theorem displace_reload_rule (env : belady_env_t) (s s2 : belady_state) (new_vals : workset_t)
    (pre post : List Nat) (val : Nat)
    (hnd : new_vals.irns.Nodup) (hsplit : new_vals.irns = pre ++ val :: post)
    (h : displace env s new_vals true = some s2) :
    (∃ a1 a2, pre.foldlM (displace_mark env true) (s, []) = some a1 ∧
      displace_mark env true a1 val = some a2 ∧
      (val ∈ s.ws.irns →
        a2 = a1 ∧ s2.reloads.count (val, s.instr) = s.reloads.count (val, s.instr)) ∧
      (val ∉ s.ws.irns → is_transport_in env s.bi.bl val = true →
        a1.1.bi.pressure < env.n_regs →
          a2.1.bi.pressure = a1.1.bi.pressure + 1 ∧
          (env.consider_in_reg_alloc val = true → val ∈ s2.bi.entrance_reg.irns) ∧
          s2.reloads.count (val, s.instr) = s.reloads.count (val, s.instr)) ∧
      (val ∉ s.ws.irns →
        ¬ (is_transport_in env s.bi.bl val = true ∧ a1.1.bi.pressure < env.n_regs) →
          a2.1.bi.pressure = a1.1.bi.pressure ∧
          s2.reloads.count (val, s.instr) = s.reloads.count (val, s.instr) + 1)) ∧
    (∀ (a : belady_state × List Nat) (v : Nat), a.1.bi.entrance_reg.len < env.n_regs →
      a.1.bi.entrance_mem.len < env.n_regs → (displace_mark env true a v).isSome = true) := by
  refine ⟨?_, fun a v h1 h2 => displace_mark_isSome a v h1 h2⟩
  obtain ⟨a3, hm, w2, hw, rfl⟩ := displace_some_mark h
  rw [hsplit, List.foldlM_append] at hm
  simp only [Option.bind_eq_bind, Option.bind_eq_some, List.foldlM_cons] at hm
  obtain ⟨a1, hpre, a2, hstep, hpost⟩ := hm
  have fr1 := displace_mark_fold_frame _ _ _ hpre
  have fr2 := displace_mark_frame hstep
  obtain ⟨_, _, R1, r1, m1⟩ := displace_mark_fold_usage _ _ _ hpre
  obtain ⟨_, e3, R3, r3, m3⟩ := displace_mark_fold_usage _ _ _ hpost
  have st := displace_mark_usage hstep
  rw [fr1.1, fr1.2.2.2.1, fr1.2.1] at st
  rw [hsplit] at hnd
  have hvpre : val ∉ pre := fun hx =>
    (List.nodup_append.mp hnd).2.2 hx (List.mem_cons_self _ _)
  have hvpost : val ∉ post := by
    have := (List.nodup_append.mp hnd).2.1
    exact (List.nodup_cons.mp this).1
  have c1 : R1.count (val, s.instr) = 0 := count_eq_zero_of_fst m1 hvpre
  have c3 : R3.count (val, s.instr) = 0 := by
    apply count_eq_zero_of_fst (l := post) _ hvpost
    intro x hx
    exact ⟨(m3 x hx).1, by rw [(m3 x hx).2, fr2.2.1, fr1.2.1]⟩
  refine ⟨a1, a2, hpre, hstep, ?_, ?_, ?_⟩
  · intro hres
    have e := st.1 hres
    refine ⟨e, ?_⟩
    show a3.1.reloads.count (val, s.instr) = _
    rw [r3, e, r1]
    simp only [List.count_append, c1, c3, add_zero]
  · intro hn ht hp
    obtain ⟨q1, q2, _, q4⟩ := st.2.1 hn ht hp
    refine ⟨q1, fun hc => e3 _ (q4 hc), ?_⟩
    show a3.1.reloads.count (val, s.instr) = _
    rw [r3, q2, r1]
    simp only [List.count_append, c1, c3, add_zero]
  · intro hn hc
    obtain ⟨q1, q2, _⟩ := st.2.2 hn hc
    refine ⟨q1, ?_⟩
    show a3.1.reloads.count (val, s.instr) = _
    rw [r3, q2, r1]
    simp only [List.count_append, c1, c3, add_zero, List.count_singleton, beq_self_eq_true,
      if_true]

/-- Witness for C3: in `chain_block` the live-in value 9, requested at the block
entry with pressure 0, is put into `entrance_reg`. -/
theorem displace_reload_rule_witness :
    9 ∈ ((displace chain_env (entry_state 0) (single_request 9) true).getD
      (entry_state 0)).bi.entrance_reg.irns := by
  obtain ⟨a1, a2, hpre, _, _, h2, _⟩ :=
    (displace_reload_rule chain_env (entry_state 0)
      ((displace chain_env (entry_state 0) (single_request 9) true).getD (entry_state 0))
      (single_request 9) [] [] 9 (by decide) (by decide) (by rfl)).1
  simp only [List.foldlM_nil, Option.pure_def, Option.some.injEq] at hpre
  subst hpre
  exact (h2 (by decide) (by decide) (by decide)).2.1 (by decide)

/-- C4, as stated, fails: in `chain_block` with three registers at most three values
are live at any instruction, yet `belady`, started with an empty workset, requests
a reload of the live-in value 9 before node 4. -/
theorem idempotence_counterexample :
    max_live chain_block chain_env.consider_in_reg_alloc (chain_env.be_is_live_in 0)
        ≤ chain_env.n_regs ∧
      (belady chain_env new_workset 0 [] 0 chain_block).map belady_state.reloads
        = some [(9, 4)] := by
  decide

theorem nodup_subset_length_le {l U : List Nat} (hl : l.Nodup) (hs : ∀ v ∈ l, v ∈ U) :
    l.length ≤ U.length :=
  (List.subperm_of_subset hl hs).length_le

theorem workset_insert_new {env : belady_env_t} {ws : workset_t} {v : Nat}
    (hc : env.consider_in_reg_alloc v = true) (hn : v ∉ ws.irns) (hlen : ws.len < env.n_regs) :
    ∃ ws2, workset_insert env ws v = some ws2 ∧ ws2.irns = ws.irns ++ [v] := by
  obtain ⟨ws2, h⟩ := @workset_insert_isSome env _ v hlen
  refine ⟨ws2, h, ?_⟩
  rcases workset_insert_irns h with e | ⟨_, e⟩
  · exact absurd (e ▸ (workset_insert_mem h).2 hc) hn
  · exact e

theorem workset_insert_fold_exact {env : belady_env_t} (l : List Nat) :
    ∀ ws : workset_t, l.Nodup →
      (∀ v ∈ l, env.consider_in_reg_alloc v = true ∧ v ∉ ws.irns) →
      ws.len + l.length ≤ env.n_regs →
      ∃ ws2, l.foldlM (workset_insert env) ws = some ws2 ∧ ws2.irns = ws.irns ++ l := by
  induction l with
  | nil => intro ws _ _ _; exact ⟨ws, rfl, by simp⟩
  | cons v l ih =>
    intro ws hnd hv hlen
    simp only [List.length_cons] at hlen
    obtain ⟨hvl, hnd2⟩ := List.nodup_cons.mp hnd
    obtain ⟨w1, h1, e1⟩ := workset_insert_new (hv v (List.mem_cons_self _ _)).1
      (hv v (List.mem_cons_self _ _)).2 (by omega : ws.len < env.n_regs)
    have l1 : w1.len = ws.len + 1 := by
      have := congrArg List.length e1
      rw [workset_irns_length, List.length_append, workset_irns_length] at this
      simpa using this
    obtain ⟨w2, h2, e2⟩ := ih w1 hnd2 (by
      intro x hx
      refine ⟨(hv x (List.mem_cons_of_mem _ hx)).1, ?_⟩
      rw [e1]
      intro hm
      rcases List.mem_append.mp hm with hm | hm
      · exact (hv x (List.mem_cons_of_mem _ hx)).2 hm
      · simp only [List.mem_singleton] at hm
        subst hm
        exact hvl hx) (by omega)
    exact ⟨w2, by simp [List.foldlM_cons, h1, h2], by rw [e2, e1]; simp⟩

theorem workset_insert_fold_request {env : belady_env_t} (U : List Nat)
    (hU : U.length ≤ env.n_regs) (l : List Nat) :
    ∀ ws : workset_t, ws.irns.Nodup → (∀ v ∈ ws.irns, v ∈ U) →
      (∀ v ∈ ws.irns, env.consider_in_reg_alloc v = true) →
      (∀ v ∈ l, env.consider_in_reg_alloc v = true → v ∈ U) →
      ∃ ws2, l.foldlM (workset_insert env) ws = some ws2 ∧ ws2.irns.Nodup ∧
        (∀ v ∈ ws2.irns, v ∈ U) ∧ (∀ v ∈ ws2.irns, env.consider_in_reg_alloc v = true) ∧
        (∀ v ∈ ws2.irns, v ∈ ws.irns ∨ v ∈ l) ∧
        (∀ v ∈ l, env.consider_in_reg_alloc v = true → v ∈ ws2.irns) := by
  induction l with
  | nil => intro ws hnd hs hc _; exact ⟨ws, rfl, hnd, hs, hc, fun v hv => Or.inl hv, by simp⟩
  | cons v l ih =>
    intro ws hnd hs hc hl
    have step : ∃ w1, workset_insert env ws v = some w1 ∧ w1.irns.Nodup ∧
        (∀ x ∈ w1.irns, x ∈ U) ∧ (∀ x ∈ w1.irns, env.consider_in_reg_alloc x = true) ∧
        (∀ x ∈ w1.irns, x ∈ ws.irns ∨ x = v) ∧
        (env.consider_in_reg_alloc v = true → v ∈ w1.irns) := by
      by_cases hcv : env.consider_in_reg_alloc v = true
      · by_cases hm : v ∈ ws.irns
        · refine ⟨ws, ?_, hnd, hs, hc, fun x hx => Or.inl hx, fun _ => hm⟩
          unfold workset_insert
          simp [hcv, (workset_contains_iff ws v).mpr hm]
        · have hlen : ws.len < env.n_regs := by
            have h1 : (v :: ws.irns).Nodup := List.nodup_cons.mpr ⟨hm, hnd⟩
            have h2 : ∀ x ∈ v :: ws.irns, x ∈ U := by
              intro x hx
              rcases List.mem_cons.mp hx with rfl | hx
              · exact hl _ (List.mem_cons_self _ _) hcv
              · exact hs x hx
            have := nodup_subset_length_le h1 h2
            simp only [List.length_cons, workset_irns_length] at this
            omega
          obtain ⟨w1, h1, e1⟩ := workset_insert_new hcv hm hlen
          refine ⟨w1, h1, ?_, ?_, ?_, ?_, fun _ => by rw [e1]; simp⟩
          · rw [e1, List.nodup_append]
            refine ⟨hnd, List.nodup_singleton v, ?_⟩
            intro a ha hb
            simp only [List.mem_singleton] at hb
            subst hb
            exact hm ha
          · intro x hx
            rw [e1] at hx
            rcases List.mem_append.mp hx with hx | hx
            · exact hs x hx
            · simp only [List.mem_singleton] at hx
              subst hx
              exact hl _ (List.mem_cons_self _ _) hcv
          · intro x hx
            rw [e1] at hx
            rcases List.mem_append.mp hx with hx | hx
            · exact hc x hx
            · simp only [List.mem_singleton] at hx
              subst hx
              exact hcv
          · intro x hx
            rw [e1] at hx
            rcases List.mem_append.mp hx with hx | hx
            · exact Or.inl hx
            · exact Or.inr (List.mem_singleton.mp hx)
      · refine ⟨ws, ?_, hnd, hs, hc, fun x hx => Or.inl hx, fun h => absurd h hcv⟩
        unfold workset_insert
        simp [hcv]
    obtain ⟨w1, h1, nd1, s1, c1, m1, i1⟩ := step
    obtain ⟨w2, h2, nd2, s2, c2, m2, i2⟩ := ih w1 nd1 s1 c1
      (fun x hx hcx => hl x (List.mem_cons_of_mem _ hx) hcx)
    refine ⟨w2, by simp [List.foldlM_cons, h1, h2], nd2, s2, c2, ?_, ?_⟩
    · intro x hx
      rcases m2 x hx with h | h
      · rcases m1 x h with h | h
        · exact Or.inl h
        · exact Or.inr (h ▸ List.mem_cons_self _ _)
      · exact Or.inr (List.mem_cons_of_mem _ h)
    · intro x hx hcx
      rcases List.mem_cons.mp hx with rfl | hx
      · obtain ⟨added, e, _, _⟩ := workset_insert_fold_irns l w1 w2 h2
        rw [e]; exact List.mem_append_left _ (i1 hcx)
      · exact i2 x hx hcx

theorem displace_mark_fold_no_reload {env : belady_env_t} (l : List Nat) :
    ∀ a : belady_state × List Nat,
      (∀ v ∈ l, v ∉ a.1.ws.irns → is_transport_in env a.1.bi.bl v = true) →
      a.1.bi.pressure + (l.filter (fun v => !workset_contains a.1.ws v)).length ≤ env.n_regs →
      a.1.bi.entrance_reg.len ≤ a.1.bi.pressure →
      ∃ b, l.foldlM (displace_mark env true) a = some b ∧ b.1.reloads = a.1.reloads ∧
        b.1.bi.pressure = a.1.bi.pressure + (l.filter (fun v => !workset_contains a.1.ws v)).length ∧
        b.1.bi.entrance_reg.len ≤ b.1.bi.pressure := by
  induction l with
  | nil => intro a _ _ h; exact ⟨a, rfl, rfl, by simp, h⟩
  | cons v l ih =>
    intro a htr hbud her
    by_cases hc : workset_contains a.1.ws v = true
    · have h1 : displace_mark env true a v = some a := by
        unfold displace_mark; simp [hc]
      simp only [List.filter_cons, hc, Bool.not_true, Bool.false_eq_true, if_false] at hbud ⊢
      obtain ⟨b, hb, r, p, e⟩ := ih a (fun x hx => htr x (List.mem_cons_of_mem _ hx)) hbud her
      exact ⟨b, by simp [List.foldlM_cons, h1, hb], r, p, e⟩
    · have hm : v ∉ a.1.ws.irns := fun x => hc ((workset_contains_iff _ _).mpr x)
      have hcf : workset_contains a.1.ws v = false := by simpa using hc
      simp only [List.filter_cons, hcf, Bool.not_false, if_true, List.length_cons] at hbud ⊢
      have ht := htr v (List.mem_cons_self _ _) hm
      have hp : a.1.bi.pressure < env.n_regs := by omega
      obtain ⟨er, her2⟩ := @workset_insert_isSome env a.1.bi.entrance_reg v
        (by omega)
      have hl := workset_insert_len her2
      obtain ⟨a1, h1, q1, q2, q3, q4, q5⟩ : ∃ a1, displace_mark env true a v = some a1 ∧
          a1.1.ws = a.1.ws ∧ a1.1.bi.bl = a.1.bi.bl ∧
          a1.1.bi.pressure = a.1.bi.pressure + 1 ∧ a1.1.bi.entrance_reg.len ≤ a.1.bi.pressure + 1 ∧
          a1.1.reloads = a.1.reloads := by
        refine ⟨
          ({ a.1 with bi := { a.1.bi with pressure := a.1.bi.pressure + 1, entrance_reg := er } },
            a.2 ++ [v]), ?_, rfl, rfl, rfl, ?_, rfl⟩
        · unfold displace_mark
          simp [hcf, ht, hp, her2]
        · show er.len ≤ a.1.bi.pressure + 1
          omega
      obtain ⟨b, hb, r, p, e⟩ := ih a1
        (by rw [q1, q2]; exact fun x hx => htr x (List.mem_cons_of_mem _ hx))
        (by rw [q1, q3]; omega) (by rw [q3]; exact q4)
      refine ⟨b, by simp [List.foldlM_cons, h1, hb], by rw [r, q5], ?_, e⟩
      rw [p, q1, q3]
      omega

theorem displace_no_evict {env : belady_env_t} {s : belady_state} {nv : workset_t} (u : Bool)
    (hnvnd : nv.irns.Nodup) (hnvc : ∀ v ∈ nv.irns, env.consider_in_reg_alloc v = true)
    (hroom : s.ws.len + (nv.irns.filter (fun v => !workset_contains s.ws v)).length ≤ env.n_regs)
    (htr : u = true → ∀ v ∈ nv.irns, v ∉ s.ws.irns → is_transport_in env s.bi.bl v = true)
    (hp : s.bi.pressure ≤ s.ws.len) (her : s.bi.entrance_reg.len ≤ s.bi.pressure) :
    ∃ s2, displace env s nv u = some s2 ∧ s2.reloads = s.reloads ∧
      s2.ws.irns = s.ws.irns ++ nv.irns.filter (fun v => !workset_contains s.ws v) ∧
      s2.bi.pressure ≤ s2.ws.len ∧ s2.bi.entrance_reg.len ≤ s2.bi.pressure ∧
      s2.bi.bl = s.bi.bl ∧ s2.instr = s.instr ∧ s2.instr_nr = s.instr_nr := by
  have hmark : ∃ acc, nv.irns.foldlM (displace_mark env u) (s, []) = some acc ∧
      acc.1.reloads = s.reloads ∧
      acc.1.bi.pressure ≤ s.ws.len + (nv.irns.filter (fun v => !workset_contains s.ws v)).length ∧
      acc.1.bi.entrance_reg.len ≤ acc.1.bi.pressure := by
    cases u with
    | true =>
      have hbud : (s, ([] : List Nat)).1.bi.pressure +
          (nv.irns.filter (fun v => !workset_contains (s, ([] : List Nat)).1.ws v)).length
            ≤ env.n_regs := by
        show s.bi.pressure + (nv.irns.filter (fun v => !workset_contains s.ws v)).length ≤ _
        omega
      obtain ⟨b, hb, r, p, e⟩ := @displace_mark_fold_no_reload env nv.irns (s, [])
        (htr rfl) hbud her
      refine ⟨b, hb, r, ?_, e⟩
      rw [p]
      show s.bi.pressure + (nv.irns.filter (fun v => !workset_contains s.ws v)).length ≤ _
      omega
    | false =>
      obtain ⟨b, hb, e⟩ := @displace_mark_fold_false env nv.irns (s, [])
      exact ⟨b, hb, by rw [e], by rw [e]; show s.bi.pressure ≤ _; omega, by rw [e]; exact her⟩
  obtain ⟨acc, hm, hr, hpr, he⟩ := hmark
  obtain ⟨fws, finstr, fnr, fbl, fti⟩ := displace_mark_fold_frame _ _ _ hm
  simp only [List.nil_append] at fti fws finstr fnr fbl
  have hroom2 : displace_make_room env acc.1 acc.2.length u = s.ws := by
    unfold displace_make_room
    have : ¬ s.ws.len > env.n_regs - acc.2.length := by rw [fti]; omega
    simp only [fws, this, if_false]
  obtain ⟨w2, hw2, e2⟩ := @workset_insert_fold_exact env acc.2 s.ws
    (by rw [fti]; exact hnvnd.filter _)
    (by
      intro v hv
      rw [fti, List.mem_filter] at hv
      refine ⟨hnvc v hv.1, fun hm2 => ?_⟩
      have := (workset_contains_iff s.ws v).mpr hm2
      simp [this] at hv)
    (by rw [fti]; exact hroom)
  have hlen : w2.len = s.ws.len + acc.2.length := by
    have := congrArg List.length e2
    rwa [workset_irns_length, List.length_append, workset_irns_length] at this
  refine ⟨{ acc.1 with ws := w2 }, ?_, hr, by rw [← fti]; exact e2, ?_, he, fbl, finstr, fnr⟩
  · unfold displace
    simp [hm, hroom2, hw2]
  · show acc.1.bi.pressure ≤ w2.len
    rw [hlen, fti]; exact hpr

theorem displace_within {env : belady_env_t} (U : List Nat) (hU : U.length ≤ env.n_regs)
    {s : belady_state} {nv : workset_t} (u : Bool)
    (hnd : s.ws.irns.Nodup) (hsU : ∀ v ∈ s.ws.irns, v ∈ U)
    (hnvnd : nv.irns.Nodup) (hnvc : ∀ v ∈ nv.irns, env.consider_in_reg_alloc v = true)
    (hnvU : ∀ v ∈ nv.irns, v ∈ U)
    (htr : u = true → ∀ v ∈ nv.irns, v ∉ s.ws.irns → is_transport_in env s.bi.bl v = true)
    (hp : s.bi.pressure ≤ s.ws.len) (her : s.bi.entrance_reg.len ≤ s.bi.pressure) :
    ∃ s2, displace env s nv u = some s2 ∧ s2.reloads = s.reloads ∧ s2.ws.irns.Nodup ∧
      (∀ v ∈ s2.ws.irns, v ∈ U) ∧ (∀ v ∈ s.ws.irns, v ∈ s2.ws.irns) ∧
      (∀ v ∈ nv.irns, v ∈ s2.ws.irns) ∧
      s2.bi.pressure ≤ s2.ws.len ∧ s2.bi.entrance_reg.len ≤ s2.bi.pressure ∧
      s2.bi.bl = s.bi.bl := by
  have hfm : ∀ v ∈ nv.irns.filter (fun v => !workset_contains s.ws v), v ∈ nv.irns ∧ v ∉ s.ws.irns := by
    intro v hv
    rw [List.mem_filter] at hv
    refine ⟨hv.1, fun hm => ?_⟩
    have := (workset_contains_iff s.ws v).mpr hm
    simp [this] at hv
  have hall : (s.ws.irns ++ nv.irns.filter (fun v => !workset_contains s.ws v)).Nodup := by
    rw [List.nodup_append]
    exact ⟨hnd, hnvnd.filter _, fun a ha hb => (hfm a hb).2 ha⟩
  have hallU : ∀ v ∈ s.ws.irns ++ nv.irns.filter (fun v => !workset_contains s.ws v), v ∈ U := by
    intro v hv
    rcases List.mem_append.mp hv with h | h
    · exact hsU v h
    · exact hnvU v (hfm v h).1
  have hroom : s.ws.len + (nv.irns.filter (fun v => !workset_contains s.ws v)).length
      ≤ env.n_regs := by
    have := nodup_subset_length_le hall hallU
    rw [List.length_append, workset_irns_length] at this
    omega
  obtain ⟨s2, h2, r, e, p, er, b, _, _⟩ := displace_no_evict u hnvnd hnvc hroom htr hp her
  refine ⟨s2, h2, r, by rw [e]; exact hall, by rw [e]; exact hallU, ?_, ?_, p, er, b⟩
  · intro v hv; rw [e]; exact List.mem_append_left _ hv
  · intro v hv
    rw [e]
    by_cases hm : v ∈ s.ws.irns
    · exact List.mem_append_left _ hm
    · apply List.mem_append_right
      rw [List.mem_filter]
      refine ⟨hv, ?_⟩
      have : workset_contains s.ws v = false := by
        cases hc : workset_contains s.ws v with
        | false => rfl
        | true => exact absurd ((workset_contains_iff s.ws v).mp hc) hm
      simp [this]

theorem workset_clear_irns (w : workset_t) : (workset_clear w).irns = [] := by
  simp [workset_clear, workset_t.irns, workset_t.locs]

theorem block_defs_append (pre : List sched_node) (irn : sched_node) :
    block_defs (pre ++ [irn]) =
      block_defs pre ++ (if irn.is_instr then irn.defs else []) := by
  unfold block_defs
  rw [List.filter_append, List.flatMap_append]
  by_cases h : irn.is_instr = true
  · simp [List.filter_cons, h]
  · simp [List.filter_cons, h]

theorem mem_block_values {sched : List sched_node} {irn : sched_node} {v : Nat}
    (hi : irn ∈ sched) (hin : irn.is_instr = true) (hv : v ∈ irn.ins ∨ v ∈ irn.defs) :
    v ∈ block_values sched := by
  unfold block_values
  rw [List.mem_flatMap]
  exact ⟨irn, List.mem_filter.mpr ⟨hi, hin⟩, List.mem_append.mpr hv⟩

theorem mem_insert_everywhere (a : Nat) (s t : List Nat) :
    s ++ a :: t ∈ insert_everywhere a (s ++ t) := by
  induction s with
  | nil => cases t <;> simp [insert_everywhere]
  | cons b s ih =>
    simp only [List.cons_append, insert_everywhere, List.mem_cons, List.mem_map]
    exact Or.inr ⟨_, ih, rfl⟩

theorem mem_all_orders (l : List Nat) : ∀ uses : List Nat, uses.Perm l → uses ∈ all_orders l := by
  induction l with
  | nil => intro uses h; rw [List.perm_nil.mp h]; simp [all_orders]
  | cons a l ih =>
    intro uses h
    have ha : a ∈ uses := h.mem_iff.mpr (List.mem_cons_self _ _)
    obtain ⟨s, t, rfl⟩ := List.append_of_mem ha
    have h2 : (s ++ t).Perm l := by
      have := List.perm_middle.symm.trans h
      exact (List.perm_cons a).mp this
    simp only [all_orders, List.mem_flatMap]
    exact ⟨s ++ t, ih _ h2, mem_insert_everywhere a s t⟩

set_option maxRecDepth 100000 in
set_option maxHeartbeats 4000000 in
theorem one_reload_first :
    ∀ r ∈ all_orders [2, 3, 4, 5], one_reload_facts (r.take 0 ++ 1 :: r.drop 0) := by
  decide

set_option maxRecDepth 100000 in
set_option maxHeartbeats 4000000 in
theorem one_reload_second :
    ∀ r ∈ all_orders [2, 3, 4, 5], one_reload_facts (r.take 1 ++ 1 :: r.drop 1) := by
  decide

set_option maxRecDepth 100000 in
set_option maxHeartbeats 4000000 in
theorem one_reload_third :
    ∀ r ∈ all_orders [2, 3, 4, 5], one_reload_facts (r.take 2 ++ 1 :: r.drop 2) := by
  decide

set_option maxRecDepth 100000 in
set_option maxHeartbeats 4000000 in
theorem one_reload_fourth :
    ∀ r ∈ all_orders [2, 3, 4, 5], one_reload_facts (r.take 3 ++ 1 :: r.drop 3) := by
  decide

set_option maxRecDepth 100000 in
set_option maxHeartbeats 4000000 in
theorem one_reload_fifth :
    ∀ r ∈ all_orders [2, 3, 4, 5], one_reload_facts (r.take 4 ++ 1 :: r.drop 4) := by
  decide

set_option maxRecDepth 100000 in
set_option maxHeartbeats 4000000 in
theorem placement_first :
    ∀ r ∈ all_orders [2, 3, 4, 5], placement_facts (r.take 0 ++ 1 :: r.drop 0) := by
  decide

set_option maxRecDepth 100000 in
set_option maxHeartbeats 4000000 in
theorem placement_second :
    ∀ r ∈ all_orders [2, 3, 4, 5], placement_facts (r.take 1 ++ 1 :: r.drop 1) := by
  decide

set_option maxRecDepth 100000 in
set_option maxHeartbeats 4000000 in
theorem placement_third :
    ∀ r ∈ all_orders [2, 3, 4, 5], placement_facts (r.take 2 ++ 1 :: r.drop 2) := by
  decide

set_option maxRecDepth 100000 in
set_option maxHeartbeats 4000000 in
theorem placement_fourth :
    ∀ r ∈ all_orders [2, 3, 4, 5], placement_facts (r.take 3 ++ 1 :: r.drop 3) := by
  decide

set_option maxRecDepth 100000 in
set_option maxHeartbeats 4000000 in
theorem placement_fifth :
    ∀ r ∈ all_orders [2, 3, 4, 5], placement_facts (r.take 4 ++ 1 :: r.drop 4) := by
  decide

theorem five_values_all_orders (uses : List Nat) (h : uses.Perm [1, 2, 3, 4, 5]) :
    placement_facts uses ∧ one_reload_facts uses := by
  have ha : 1 ∈ uses := h.mem_iff.mpr (List.mem_cons_self _ _)
  obtain ⟨s, t, rfl⟩ := List.append_of_mem ha
  have h2 : (s ++ t).Perm [2, 3, 4, 5] :=
    (List.perm_cons 1).mp (List.perm_middle.symm.trans h)
  have hr := mem_all_orders _ _ h2
  have hlen : s.length + t.length = 4 := by
    have := h2.length_eq
    simpa using this
  have e1 : (s ++ t).take s.length = s := List.take_left' rfl
  have e2 : (s ++ t).drop s.length = t := List.drop_left' rfl
  have hk : s.length = 0 ∨ s.length = 1 ∨ s.length = 2 ∨ s.length = 3 ∨ s.length = 4 := by
    omega
  rcases hk with hk | hk | hk | hk | hk
  · rw [hk] at e1 e2
    have h3 := placement_first _ hr
    have h4 := one_reload_first _ hr
    rw [e1, e2] at h3 h4
    exact ⟨h3, h4⟩
  · rw [hk] at e1 e2
    have h3 := placement_second _ hr
    have h4 := one_reload_second _ hr
    rw [e1, e2] at h3 h4
    exact ⟨h3, h4⟩
  · rw [hk] at e1 e2
    have h3 := placement_third _ hr
    have h4 := one_reload_third _ hr
    rw [e1, e2] at h3 h4
    exact ⟨h3, h4⟩
  · rw [hk] at e1 e2
    have h3 := placement_fourth _ hr
    have h4 := one_reload_fourth _ hr
    rw [e1, e2] at h3 h4
    exact ⟨h3, h4⟩
  · rw [hk] at e1 e2
    have h3 := placement_fifth _ hr
    have h4 := one_reload_fifth _ hr
    rw [e1, e2] at h3 h4
    exact ⟨h3, h4⟩

/-- C5, as stated, fails: the block of five definitions followed by two rounds of
uses of the five values needs five values at the same time, the class has four
registers and no value has the dont_spill flag, and `belady`, started with an
empty workset, requests two reloads. -/
theorem two_rounds_two_reloads :
    max_live (five_values_block_of [1, 2, 3, 4, 5, 1, 2, 3, 4, 5])
        (five_values_env_of [1, 2, 3, 4, 5, 1, 2, 3, 4, 5]).consider_in_reg_alloc
        ((five_values_env_of [1, 2, 3, 4, 5, 1, 2, 3, 4, 5]).be_is_live_in 0) = 5 ∧
      (five_values_env_of [1, 2, 3, 4, 5, 1, 2, 3, 4, 5]).n_regs = 4 ∧
      (∀ v, (five_values_env_of [1, 2, 3, 4, 5, 1, 2, 3, 4, 5]).dont_spill v = false) ∧
      (belady (five_values_env_of [1, 2, 3, 4, 5, 1, 2, 3, 4, 5]) new_workset 0 [] 0
        (five_values_block_of [1, 2, 3, 4, 5, 1, 2, 3, 4, 5])).map belady_state.reloads =
        some [(4, 14), (3, 18)] := by
  refine ⟨by decide, by decide, fun _ => rfl, by decide⟩

/-- C5 as amended (one value too many). Let a block consist of the definitions of the
values 1..5 followed by one use of each of the five values, one per instruction
(the nodes 11..15, which are not of the register class), in any order; the class
has four registers, no value is live in and none has the dont_spill flag. The
block needs five values at the same time, and `belady`, started with an empty
workset, requests exactly one reload, before the node that uses the reloaded
value. When the fifth value is placed the values 1..4 are resident, and the
reloaded value is the one of them with the largest next-use distance at that
moment, the one whose use comes last. -/
theorem five_values_one_reload (uses : List Nat) (h : uses.Perm [1, 2, 3, 4, 5]) :
    max_live (five_values_block_of uses) (five_values_env_of uses).consider_in_reg_alloc
        ((five_values_env_of uses).be_is_live_in 0) = 5 ∧
      (belady (five_values_env_of uses) new_workset 0 [] 0 (five_values_block_of uses)).map
        belady_state.reloads =
        some [(last_resident_use uses, 11 + uses.indexOf (last_resident_use uses))] ∧
      (belady_loop (five_values_env_of uses) (new_workset, entry_state 0)
        ((five_values_block_of uses).take 4)).map
        (fun acc => (acc.2.ws.irns, acc.2.instr_nr)) = some ([1, 2, 3, 4], 4) ∧
      last_resident_use uses ∈ [1, 2, 3, 4] ∧
      (∀ v ∈ [1, 2, 3, 4], get_distance (five_values_env_of uses) 5 4 v true ≤
        get_distance (five_values_env_of uses) 5 4 (last_resident_use uses) true) :=
  ⟨(five_values_all_orders uses h).1.1, (five_values_all_orders uses h).2,
    (five_values_all_orders uses h).1.2⟩

/-- Witness for C5 as amended: the uses in the order 3, 5, 1, 4, 2; the value 2 is
reloaded before the node 15. -/
theorem five_values_one_reload_witness :
    (belady (five_values_env_of [3, 5, 1, 4, 2]) new_workset 0 [] 0
      (five_values_block_of [3, 5, 1, 4, 2])).map belady_state.reloads = some [(2, 15)] :=
  (five_values_one_reload [3, 5, 1, 4, 2] (by decide)).2.1

/-- C6 (window bounds) fails on the code: in `kept_chain_graph`, an acyclic block
whose longest path ends in a Keep of latency 0, `max_steps` is 2 and the analysis
leaves operation 2 and its Keep 3 with `asap = 2` and `alap = 1`, the window that
the assertion "Invalid scheduling interval." of the constraint builder rejects. -/
theorem kept_chain_window_invalid :
    kept_chain_windows.map (fun st =>
      ((st.ba 0).max_steps, (st.ba 0).root_nodes, consider_for_sched kept_chain_graph 2,
        (st.na 1).asap, (st.na 1).alap, (st.na 2).asap, (st.na 2).alap,
        (st.na 3).asap, (st.na 3).alap)) =
      some (2, [3], true, 1, 2, 2, 1, 2, 1) := by
  rfl

/-- C9 (ALAP fixpoint) fails on the code: in `square_graph`, an acyclic block in
which operation 3 uses operation 2 twice, `calculate_block_alap` ends with
`alap(1) = 2` and `alap(2) = 2` for the edge 1 -> 2 of latency 1: the second visit
of 2 from 3 clears `alap_changed` of 2, so the lowered ALAP of 2 is never passed on
to 1. The only root 4 has `alap = max_steps = 4`. -/
theorem square_alap_not_fixpoint :
    square_windows.map (fun st =>
      ((st.ba 0).max_steps, (st.ba 0).root_nodes, block_preds square_graph 2,
        fixed_latency square_graph 1,
        (st.na 1).alap, (st.na 2).alap, (st.na 3).alap, (st.na 4).alap)) =
      some (4, [4], [1], 1, 2, 2, 3, 4) := by
  rfl

/-- C7, as stated, fails: in the final windows of `kept_chain_graph` the Keep 3 has
the same-block predecessor 2 of latency 1 and `asap(3) = 2 < asap(2) + 1`. -/
theorem asap_precedence_counterexample :
    kept_chain_windows.map (fun st =>
      (consider_for_sched kept_chain_graph 3, block_preds kept_chain_graph 3,
        fixed_latency kept_chain_graph 2,
        decide ((st.na 3).asap ≥ (st.na 2).asap + fixed_latency kept_chain_graph 2))) =
      some (true, [2], 1, false) := by
  decide

/-- C8, as stated, fails: in `kept_chain_graph` operation 2 has the single same-block
predecessor 1 with `asap(1) = 1` and latency 1, and `calculate_irn_asap` sets
`asap(2) = 2`, not `1 + (1 + 1)`. -/
theorem asap_definition_counterexample :
    block_preds kept_chain_graph 2 = [1] ∧
      ((calculate_irn_asap kept_chain_graph init_phase 1).na 1).asap = 1 ∧
      fixed_latency kept_chain_graph 1 = 1 ∧
      ((calculate_irn_asap kept_chain_graph
        (calculate_irn_asap kept_chain_graph init_phase 1) 2).na 2).asap = 2 ∧
      ((calculate_irn_asap kept_chain_graph
        (calculate_irn_asap kept_chain_graph init_phase 1) 2).na 2).asap ≠
        1 + (((calculate_irn_asap kept_chain_graph init_phase 1).na 1).asap +
          fixed_latency kept_chain_graph 1) := by
  decide

theorem foldl_max_ge_init (l : List Nat) : ∀ a : Nat, a ≤ l.foldl max a := by
  induction l with
  | nil => intro a; exact le_refl _
  | cons x l ih => intro a; exact le_trans (le_max_left a x) (ih (max a x))

theorem foldl_max_ge_mem (l : List Nat) : ∀ a : Nat, ∀ x ∈ l, x ≤ l.foldl max a := by
  induction l with
  | nil => intro a x hx; simp at hx
  | cons y l ih =>
    intro a x hx
    rcases List.mem_cons.mp hx with rfl | hx
    · exact le_trans (le_max_right a x) (foldl_max_ge_init l (max a x))
    · exact ih (max a y) x hx

theorem foldl_max_mem (l : List Nat) : ∀ a : Nat, l.foldl max a = a ∨ l.foldl max a ∈ l := by
  induction l with
  | nil => intro a; exact Or.inl rfl
  | cons y l ih =>
    intro a
    rcases ih (max a y) with h | h
    · simp only [List.foldl_cons, h]
      rcases max_choice a y with h2 | h2
      · exact Or.inl h2
      · exact Or.inr (by rw [h2]; exact List.mem_cons_self _ _)
    · exact Or.inr (List.mem_cons_of_mem _ h)

theorem asap_visit_pred_fold (g : ir_graph) (irn : Nat) (l : List Nat) :
    ∀ st : ilpsched_phase,
      (∀ x ∈ l, is_block_pred g (g irn).block (skip_normal_Proj g x) = true →
        skip_normal_Proj g x ≠ irn) →
      (∀ j, j ≠ irn → (l.foldl (asap_visit_pred g irn) st).na j = st.na j) ∧
      (l.foldl (asap_visit_pred g irn) st).ba = st.ba ∧
      ((l.foldl (asap_visit_pred g irn) st).na irn).asap =
        (((l.map (skip_normal_Proj g)).filter (is_block_pred g (g irn).block)).map
          (fun p => u32 ((st.na p).asap + fixed_latency g p))).foldl max (st.na irn).asap ∧
      (l.foldl (asap_visit_pred g irn) st).na irn =
        { st.na irn with
          asap := ((l.foldl (asap_visit_pred g irn) st).na irn).asap,
          latency := ((l.foldl (asap_visit_pred g irn) st).na irn).latency } := by
  induction l with
  | nil => intro st _; exact ⟨fun _ _ => rfl, rfl, rfl, rfl⟩
  | cons x l ih =>
    intro st hne
    have hne2 := fun y hy => hne y (List.mem_cons_of_mem _ hy)
    simp only [List.foldl_cons, List.map_cons]
    by_cases hb : is_block_pred g (g irn).block (skip_normal_Proj g x) = true
    · have hx := hne x (List.mem_cons_self _ _) hb
      obtain ⟨f1, f2, f3, f4⟩ := ih (asap_visit_pred g irn st x) hne2
      have e1 : ∀ j, j ≠ irn → (asap_visit_pred g irn st x).na j = st.na j := by
        intro j hj
        simp [asap_visit_pred, hb, ilpsched_phase.set_na, hj]
      have e2 : (asap_visit_pred g irn st x).na irn = { st.na irn with
          latency := fixed_latency g (skip_normal_Proj g x),
          asap := max (st.na irn).asap
            (u32 ((st.na (skip_normal_Proj g x)).asap + fixed_latency g (skip_normal_Proj g x))) } := by
        simp [asap_visit_pred, hb, ilpsched_phase.set_na]
      have e3 : (asap_visit_pred g irn st x).ba = st.ba := by
        simp [asap_visit_pred, hb, ilpsched_phase.set_na]
      refine ⟨fun j hj => by rw [f1 j hj, e1 j hj], by rw [f2, e3], ?_, ?_⟩
      · rw [f3, List.filter_cons, if_pos hb, List.map_cons, List.foldl_cons, e2]
        simp only
        congr 1
        apply List.map_congr_left
        intro p hp
        have hp2 := List.mem_filter.mp hp
        obtain ⟨y, hy, rfl⟩ := List.mem_map.mp hp2.1
        rw [e1 _ (hne2 y hy hp2.2)]
      · rw [f4, e2]
    · have e0 : asap_visit_pred g irn st x = st := by
        simp [asap_visit_pred, hb]
      rw [e0, List.filter_cons, if_neg hb]
      exact ih st hne2

theorem calculate_irn_asap_eq (g : ir_graph) (st : ilpsched_phase) (irn : Nat)
    (hc : consider_for_sched g irn = true) (hself : irn ∉ block_preds g irn) :
    ((calculate_irn_asap g st irn).na irn).asap =
      ((block_preds g irn).map
        (fun p => u32 ((st.na p).asap + fixed_latency g p))).foldl max 1 := by
  have hne : ∀ x ∈ (in_or_dep g irn).reverse,
      is_block_pred g (g irn).block (skip_normal_Proj g x) = true → skip_normal_Proj g x ≠ irn := by
    intro x hx hb he
    apply hself
    unfold block_preds
    rw [List.mem_filter]
    exact ⟨List.mem_map.mpr ⟨x, hx, he⟩, by rw [he] at hb; exact hb⟩
  obtain ⟨f1, _, f3, _⟩ := asap_visit_pred_fold g irn (in_or_dep g irn).reverse
    (st.set_na irn { st.na irn with asap := 1 }) hne
  unfold calculate_irn_asap
  simp only [hc, Bool.not_true, Bool.false_eq_true, if_false]
  show ((List.foldl (asap_visit_pred g irn) (st.set_na irn { st.na irn with asap := 1 })
    (in_or_dep g irn).reverse).na irn).asap = _
  rw [f3]
  unfold block_preds
  have e1 : ((st.set_na irn { st.na irn with asap := 1 }).na irn).asap = 1 := by
    simp [ilpsched_phase.set_na]
  rw [e1]
  congr 1
  apply List.map_congr_left
  intro p hp
  have hp2 := List.mem_filter.mp hp
  obtain ⟨y, hy, rfl⟩ := List.mem_map.mp hp2.1
  have : skip_normal_Proj g y ≠ irn := hne y hy hp2.2
  simp [ilpsched_phase.set_na, this]

/-- C8 as amended (ASAP definition). For a schedulable operation that is not its own
predecessor, `calculate_irn_asap` sets `asap(n)` to the maximum of 1 and of
`asap(p) + latency(p)` (an `unsigned` sum) over the same-block predecessors `p`:
it is 1 without such a predecessor, at least every `asap(p) + latency(p)`, and
equal to 1 or to one of these sums. There is no additional `1 +`. -/
theorem calculate_irn_asap_max (g : ir_graph) (st : ilpsched_phase) (irn : Nat)
    (hc : consider_for_sched g irn = true) (hself : irn ∉ block_preds g irn) :
    ((calculate_irn_asap g st irn).na irn).asap =
        ((block_preds g irn).map
          (fun p => u32 ((st.na p).asap + fixed_latency g p))).foldl max 1 ∧
      (block_preds g irn = [] → ((calculate_irn_asap g st irn).na irn).asap = 1) ∧
      (∀ p ∈ block_preds g irn,
        u32 ((st.na p).asap + fixed_latency g p) ≤ ((calculate_irn_asap g st irn).na irn).asap) ∧
      (((calculate_irn_asap g st irn).na irn).asap = 1 ∨
        ∃ p ∈ block_preds g irn,
          ((calculate_irn_asap g st irn).na irn).asap = u32 ((st.na p).asap + fixed_latency g p)) := by
  have hmain := calculate_irn_asap_eq g st irn hc hself
  refine ⟨hmain, ?_, ?_, ?_⟩
  · intro he; rw [hmain, he]; rfl
  · intro p hp
    rw [hmain]
    exact foldl_max_ge_mem _ 1 _ (List.mem_map_of_mem _ hp)
  · rw [hmain]
    rcases foldl_max_mem ((block_preds g irn).map
        (fun p => u32 ((st.na p).asap + fixed_latency g p))) 1 with h | h
    · exact Or.inl h
    · right
      obtain ⟨p, hp, e⟩ := List.mem_map.mp h
      exact ⟨p, hp, e.symm⟩

/-- Witness for C8 as amended: operation 2 of `kept_chain_graph` after operation 1. -/
theorem calculate_irn_asap_max_witness :
    ((calculate_irn_asap kept_chain_graph (calculate_irn_asap kept_chain_graph init_phase 1) 2).na
        2).asap =
      ((block_preds kept_chain_graph 2).map
        (fun p => u32 (((calculate_irn_asap kept_chain_graph init_phase 1).na p).asap +
          fixed_latency kept_chain_graph p))).foldl max 1 :=
  (calculate_irn_asap_max kept_chain_graph (calculate_irn_asap kept_chain_graph init_phase 1) 2
    (by decide) (by decide)).1

theorem alap_visit_pred_queue (g : ir_graph) (block cur : Nat) (acc : ilpsched_phase × List Nat)
    (y : Nat) :
    (alap_visit_pred g block cur acc y).2 = acc.2 ∨
      (is_block_pred g block (skip_normal_Proj g y) = true ∧
        (alap_visit_pred g block cur acc y).2 = acc.2 ++ [skip_normal_Proj g y]) := by
  unfold alap_visit_pred
  by_cases h1 : is_block_pred g block (skip_normal_Proj g y) = true
  · by_cases h2 : (acc.1.na (skip_normal_Proj g y)).visit_idx = cur ∧
        (!(acc.1.na cur).alap_changed) = true
    · left
      simp only [h1, h2, if_true, and_self]
    · by_cases h4 : (in_or_dep g (skip_normal_Proj g y)).length > 0
      · right
        refine ⟨h1, ?_⟩
        simp only [h1, if_true]
        rw [if_neg h2]
        simp only [h4, if_true]
      · left
        simp only [h1, if_true]
        rw [if_neg h2]
        simp only [h4, if_false]
  · left
    simp only [h1]
    rfl

theorem alap_visit_pred_fold_queue (g : ir_graph) (block cur : Nat) (l : List Nat) :
    ∀ acc : ilpsched_phase × List Nat, ∀ x ∈ (l.foldl (alap_visit_pred g block cur) acc).2,
      x ∈ acc.2 ∨ x ∈ (l.map (skip_normal_Proj g)).filter (is_block_pred g block) := by
  induction l with
  | nil => intro acc x hx; exact Or.inl hx
  | cons y l ih =>
    intro acc x hx
    simp only [List.foldl_cons] at hx
    rcases ih _ x hx with h | h
    · have hq : x ∈ acc.2 ∨
          (x = skip_normal_Proj g y ∧ is_block_pred g block (skip_normal_Proj g y) = true) := by
        rcases alap_visit_pred_queue g block cur acc y with e | ⟨hb, e⟩
        · rw [e] at h; exact Or.inl h
        · rw [e] at h
          rcases List.mem_append.mp h with h | h
          · exact Or.inl h
          · exact Or.inr ⟨by simpa using h, hb⟩
      rcases hq with hq | ⟨rfl, hb⟩
      · exact Or.inl hq
      · right
        rw [List.map_cons, List.filter_cons, if_pos hb]
        exact List.mem_cons_self _ _
    · right
      rw [List.map_cons, List.filter_cons]
      split_ifs
      · exact List.mem_cons_of_mem _ h
      · exact h

theorem alap_process_node_fold_queue (g : ir_graph) (block : Nat) (queue : List Nat) :
    ∀ acc : ilpsched_phase × List Nat, ∀ x ∈ (queue.foldl (alap_process_node g block) acc).2,
      x ∈ acc.2 ∨ ∃ cur ∈ queue,
        x ∈ ((in_or_dep g cur).reverse.map (skip_normal_Proj g)).filter (is_block_pred g block) := by
  induction queue with
  | nil => intro acc x hx; exact Or.inl hx
  | cons c queue ih =>
    intro acc x hx
    simp only [List.foldl_cons] at hx
    rcases ih _ x hx with h | ⟨cur, hc, h⟩
    · unfold alap_process_node at h
      rcases alap_visit_pred_fold_queue g block c _ _ x h with h | h
      · exact Or.inl h
      · exact Or.inr ⟨c, List.mem_cons_self _ _, h⟩
    · exact Or.inr ⟨cur, List.mem_cons_of_mem _ hc, h⟩

theorem alap_rounds_isSome (g : ir_graph) (block : Nat) (rank : Nat → Nat)
    (hacyc : ∀ n p, (g n).block = block → p ∈ block_preds g n → rank p < rank n) :
    ∀ (fuel : Nat) (st : ilpsched_phase) (queue : List Nat) (R : Nat), R + 1 ≤ fuel →
      (∀ x ∈ queue, (g x).block = block ∧ rank x ≤ R) →
      (alap_rounds g block fuel st queue).isSome = true := by
  intro fuel
  induction fuel with
  | zero => intro st queue R h; omega
  | succ fuel ih =>
    intro st queue R hf hq
    cases queue with
    | nil => rfl
    | cons c queue =>
      show (alap_rounds g block fuel _ _).isSome = true
      have hnext : ∀ x ∈ ((c :: queue).foldl (alap_process_node g block) (st, [])).2,
          (g x).block = block ∧ rank x + 1 ≤ R := by
        intro x hx
        rcases alap_process_node_fold_queue g block _ _ x hx with h | ⟨cur, hc, h⟩
        · simp at h
        · obtain ⟨hb, hr⟩ := hq cur hc
          have hx2 : x ∈ block_preds g cur := by
            unfold block_preds; rw [hb]; exact h
          have h3 := hacyc cur x hb hx2
          have h4 := (List.mem_filter.mp h).2
          unfold is_block_pred at h4
          simp only [Bool.and_eq_true, beq_iff_eq] at h4
          exact ⟨h4.2, by omega⟩
      generalize ((c :: queue).foldl (alap_process_node g block) (st, [])) = r at hnext
      cases hr : r.2 with
      | nil => cases fuel <;> rfl
      | cons y ys =>
        have hy := (hnext y (by rw [hr]; exact List.mem_cons_self _ _)).2
        apply ih r.1 (y :: ys) (R - 1) (by omega)
        intro x hx
        have := hnext x (by rw [hr]; exact hx)
        exact ⟨this.1, by omega⟩

/-- C10 (termination of the ALAP pass). If the same-block dependency graph of `block`
is acyclic (a rank function decreases along every edge from a node of the block
to a same-block predecessor) and the root nodes lie in the block with rank at
most `R`, then `calculate_block_alap` returns a result from any state as soon as
`R + 1` rounds of the work-queue loop are allowed: the queue is empty after at
most `R + 1` rounds. -/
theorem calculate_block_alap_terminates (g : ir_graph) (block : Nat) (rank : Nat → Nat)
    (st : ilpsched_phase) (R fuel : Nat)
    (hacyc : ∀ n p, (g n).block = block → p ∈ block_preds g n → rank p < rank n)
    (hroots : ∀ r ∈ (st.ba block).root_nodes, (g r).block = block ∧ rank r ≤ R)
    (hfuel : R + 1 ≤ fuel) :
    (calculate_block_alap g fuel st block).isSome = true :=
  alap_rounds_isSome g block rank hacyc fuel st _ R hfuel hroots

theorem graph_of_default (nodes : List ir_node) (n : Nat) (h : nodes.length ≤ n) :
    graph_of nodes n = block_node := by
  unfold graph_of
  rw [List.getD_eq_default _ _ h]

theorem square_graph_acyclic :
    ∀ n p, (square_graph n).block = 0 → p ∈ block_preds square_graph n → p < n := by
  intro n p _ hp
  by_cases hn : n < 6
  · interval_cases n <;> revert hp <;> revert p <;> decide
  · have e : square_graph n = block_node := graph_of_default _ n (by simp; omega)
    have : block_preds square_graph n = [] := by
      unfold block_preds in_or_dep
      rw [e]
      rfl
    rw [this] at hp
    simp at hp

/-- Witness for C10: the block 0 of `square_graph` after the first two walks, ranked
by node index, terminates within five rounds. -/
theorem calculate_block_alap_terminates_witness :
    (calculate_block_alap square_graph 5
      (([5, 1, 2, 3, 4] : List Nat).foldl (calculate_irn_asap square_graph)
        (([4, 3, 2, 1, 5] : List Nat).foldl (collect_alap_root_nodes square_graph) init_phase))
      0).isSome = true :=
  calculate_block_alap_terminates square_graph 0 (fun n => n) _ 4 5 square_graph_acyclic
    (by decide) (by decide)

theorem asap_visit_pred_fold_frame (g : ir_graph) (irn j : Nat) (hj : j ≠ irn) (l : List Nat) :
    ∀ st : ilpsched_phase, (l.foldl (asap_visit_pred g irn) st).na j = st.na j := by
  induction l with
  | nil => intro st; rfl
  | cons x l ih =>
    intro st
    rw [List.foldl_cons, ih]
    unfold asap_visit_pred
    by_cases hb : is_block_pred g (g irn).block (skip_normal_Proj g x) = true
    · simp [hb, ilpsched_phase.set_na, hj]
    · simp [hb]

theorem calculate_irn_asap_frame (g : ir_graph) (st : ilpsched_phase) (irn j : Nat)
    (h : j = irn → consider_for_sched g j = false) :
    (calculate_irn_asap g st irn).na j = st.na j := by
  unfold calculate_irn_asap
  by_cases hc : consider_for_sched g irn = true
  · have hj : j ≠ irn := by
      intro e
      have h2 := h e
      rw [e] at h2
      rw [h2] at hc
      exact Bool.false_ne_true hc
    simp only [hc, Bool.not_true, Bool.false_eq_true, if_false]
    show (List.foldl (asap_visit_pred g irn) (st.set_na irn { st.na irn with asap := 1 })
      (in_or_dep g irn).reverse).na j = _
    rw [asap_visit_pred_fold_frame g irn j hj]
    simp [ilpsched_phase.set_na, hj]
  · simp [hc]

theorem calculate_irn_asap_fold_frame (g : ir_graph) (j : Nat) (l : List Nat)
    (h : ∀ x ∈ l, j = x → consider_for_sched g j = false) :
    ∀ st : ilpsched_phase, (l.foldl (calculate_irn_asap g) st).na j = st.na j := by
  induction l with
  | nil => intro st; rfl
  | cons x l ih =>
    intro st
    rw [List.foldl_cons, ih (fun y hy => h y (List.mem_cons_of_mem _ hy))]
    exact calculate_irn_asap_frame g st x j (h x (List.mem_cons_self _ _))

theorem alap_visit_pred_asap (g : ir_graph) (block cur : Nat) (acc : ilpsched_phase × List Nat)
    (x j : Nat) :
    ((alap_visit_pred g block cur acc x).1.na j).asap = (acc.1.na j).asap := by
  unfold alap_visit_pred
  by_cases h1 : is_block_pred g block (skip_normal_Proj g x) = true
  · by_cases h2 : (acc.1.na (skip_normal_Proj g x)).visit_idx = cur ∧
        (!(acc.1.na cur).alap_changed) = true
    · simp only [h1, h2, if_true, and_self]
    · simp only [h1, if_true]
      rw [if_neg h2]
      by_cases hj : j = skip_normal_Proj g x
      · subst hj
        simp only [ilpsched_phase.set_na, if_true]
        split_ifs <;> simp
      · simp only [ilpsched_phase.set_na]
        split_ifs <;> simp [hj]
  · simp only [h1]
    rfl

theorem alap_visit_pred_fold_asap (g : ir_graph) (block cur j : Nat) (l : List Nat) :
    ∀ acc : ilpsched_phase × List Nat,
      ((l.foldl (alap_visit_pred g block cur) acc).1.na j).asap = (acc.1.na j).asap := by
  induction l with
  | nil => intro acc; rfl
  | cons x l ih => intro acc; rw [List.foldl_cons, ih, alap_visit_pred_asap]

theorem alap_process_node_asap (g : ir_graph) (block : Nat) (acc : ilpsched_phase × List Nat)
    (cur j : Nat) :
    ((alap_process_node g block acc cur).1.na j).asap = (acc.1.na j).asap := by
  unfold alap_process_node
  rw [alap_visit_pred_fold_asap]
  simp only [ilpsched_phase.set_na]
  split_ifs with h1
  · by_cases hj : j = cur
    · subst hj; simp
    · simp [hj]
  · rfl

theorem alap_process_node_fold_asap (g : ir_graph) (block j : Nat) (l : List Nat) :
    ∀ acc : ilpsched_phase × List Nat,
      ((l.foldl (alap_process_node g block) acc).1.na j).asap = (acc.1.na j).asap := by
  induction l with
  | nil => intro acc; rfl
  | cons x l ih => intro acc; rw [List.foldl_cons, ih, alap_process_node_asap]

theorem alap_rounds_asap (g : ir_graph) (block j : Nat) :
    ∀ (fuel : Nat) (st : ilpsched_phase) (queue : List Nat) (r : ilpsched_phase),
      alap_rounds g block fuel st queue = some r → (r.na j).asap = (st.na j).asap := by
  intro fuel
  induction fuel with
  | zero =>
    intro st queue r h
    cases queue with
    | nil => simp only [alap_rounds, Option.some.injEq] at h; rw [← h]
    | cons c queue => simp [alap_rounds] at h
  | succ fuel ih =>
    intro st queue r h
    cases queue with
    | nil => simp only [alap_rounds, Option.some.injEq] at h; rw [← h]
    | cons c queue =>
      have h2 := ih _ _ r h
      rw [h2, alap_process_node_fold_asap]

theorem calculate_block_alap_fold_asap (g : ir_graph) (fuel j : Nat) (blocks : List Nat) :
    ∀ (st r : ilpsched_phase), blocks.foldlM (calculate_block_alap g fuel) st = some r →
      (r.na j).asap = (st.na j).asap := by
  induction blocks with
  | nil =>
    intro st r h
    simp only [List.foldlM_nil, Option.pure_def, Option.some.injEq] at h
    rw [← h]
  | cons b blocks ih =>
    intro st r h
    rw [List.foldlM_cons] at h
    cases hb : calculate_block_alap g fuel st b with
    | none => rw [hb] at h; simp at h
    | some s1 =>
      rw [hb] at h
      simp only [Option.some_bind, Option.bind_eq_bind] at h
      rw [ih s1 r h]
      exact alap_rounds_asap g b j fuel st _ s1 hb

theorem refine_asap_alap_times_asap (g : ir_graph) (st : ilpsched_phase) (irn j : Nat)
    (h : consider_for_sched g j = true → (g j).is_Proj = false ∧ (g j).is_Keep = false) :
    ((refine_asap_alap_times g st irn).na j).asap = (st.na j).asap := by
  unfold refine_asap_alap_times
  by_cases hc : consider_for_sched g irn = true
  · by_cases hk : (!(g irn).is_Proj && !(g irn).is_Keep) = true
    · simp [hc, hk]
    · have hj : j ≠ irn := by
        intro e
        subst e
        obtain ⟨a, b⟩ := h hc
        simp [a, b] at hk
      simp only [hc, hk, Bool.not_true, Bool.false_eq_true, if_false]
      simp only [ilpsched_phase.set_na]
      split_ifs <;> simp_all
  · simp [hc]

theorem refine_asap_alap_times_fold_asap (g : ir_graph) (j : Nat)
    (h : consider_for_sched g j = true → (g j).is_Proj = false ∧ (g j).is_Keep = false)
    (l : List Nat) :
    ∀ st : ilpsched_phase,
      ((l.foldl (refine_asap_alap_times g) st).na j).asap = (st.na j).asap := by
  induction l with
  | nil => intro st; rfl
  | cons x l ih =>
    intro st
    rw [List.foldl_cons, ih, refine_asap_alap_times_asap g st x j h]

/-- C7 as amended (ASAP respects precedence outside Projs and Keeps). Let the walk
that runs `calculate_irn_asap` visit each node once and the schedulable same-block
predecessors of `n` before `n`. In the final windows, for a schedulable operation
`n` that is neither Proj nor Keep and a same-block predecessor `p` of `n` that is
not a schedulable Proj or Keep, `asap(n) >= asap(p) + latency(p)` when this sum
does not overflow `unsigned`. -/
theorem window_asap_precedence (g : ir_graph) (pre l1 l3 blocks : List Nat) (n p fuel : Nat)
    (st : ilpsched_phase)
    (h : window_analysis g pre (l1 ++ n :: l3) blocks fuel = some st)
    (hnd : (l1 ++ n :: l3).Nodup)
    (hcn : consider_for_sched g n = true)
    (hnk : (g n).is_Proj = false ∧ (g n).is_Keep = false)
    (hord : ∀ q ∈ block_preds g n, consider_for_sched g q = true → q ∈ l1)
    (hp : p ∈ block_preds g n)
    (hpk : consider_for_sched g p = true → (g p).is_Proj = false ∧ (g p).is_Keep = false)
    (hno : (st.na p).asap + fixed_latency g p < 2 ^ 32) :
    (st.na p).asap + fixed_latency g p ≤ (st.na n).asap := by
  obtain ⟨_, _, hdis⟩ := List.nodup_append.mp hnd
  obtain ⟨hn3, _⟩ := List.nodup_cons.mp (List.nodup_append.mp hnd).2.1
  have hself : n ∉ block_preds g n := fun hmem =>
    hdis (hord n hmem hcn) (List.mem_cons_self _ _)
  unfold window_analysis at h
  simp only [Option.map_eq_some'] at h
  obtain ⟨sB, hB, rfl⟩ := h
  rw [List.foldl_append, List.foldl_cons] at hB
  generalize List.foldl (calculate_irn_asap g) (List.foldl (collect_alap_root_nodes g) init_phase pre)
    l1 = s1 at hB
  have en : ∀ j, (consider_for_sched g j = true → (g j).is_Proj = false ∧ (g j).is_Keep = false) →
      ((List.foldl (refine_asap_alap_times g) sB (l1 ++ n :: l3)).na j).asap =
        ((List.foldl (calculate_irn_asap g) (calculate_irn_asap g s1 n) l3).na j).asap := by
    intro j hj
    rw [refine_asap_alap_times_fold_asap g j hj, calculate_block_alap_fold_asap g fuel j blocks _ sB hB]
  rw [en n (fun _ => hnk)]
  rw [en p hpk] at hno ⊢
  have e1 : (List.foldl (calculate_irn_asap g) (calculate_irn_asap g s1 n) l3).na n =
      (calculate_irn_asap g s1 n).na n :=
    calculate_irn_asap_fold_frame g n l3 (fun x hx e => absurd (e ▸ hx) hn3) _
  have e2 : (List.foldl (calculate_irn_asap g) (calculate_irn_asap g s1 n) l3).na p = s1.na p := by
    have := calculate_irn_asap_fold_frame g p (n :: l3) (fun x hx e => by
      by_contra hc
      have hc2 : consider_for_sched g p = true := by
        cases hv : consider_for_sched g p
        · exact absurd hv hc
        · rfl
      exact hdis (hord p hp hc2) (e ▸ hx)) s1
    rw [List.foldl_cons] at this
    exact this
  rw [e2] at hno
  rw [e1, e2]
  rw [calculate_irn_asap_eq g s1 n hcn hself]
  have hu : u32 ((s1.na p).asap + fixed_latency g p) = (s1.na p).asap + fixed_latency g p := by
    unfold u32
    exact Nat.mod_eq_of_lt hno
  rw [← hu]
  exact foldl_max_ge_mem _ 1 _
    (List.mem_map_of_mem (fun p => u32 ((s1.na p).asap + fixed_latency g p)) hp)

/-- Witness for C7 as amended: the operations 1 and 2 of `kept_chain_graph`. -/
theorem window_asap_precedence_witness :
    (kept_chain_final.na 1).asap + fixed_latency kept_chain_graph 1 ≤ (kept_chain_final.na 2).asap :=
  window_asap_precedence kept_chain_graph [3, 2, 1, 4] [4, 1] [3] [5, 0] 2 1 10 kept_chain_final
    (by rfl) (by decide) (by decide) (by decide) (by decide) (by decide) (by decide) (by decide)

theorem bulk_coef (c : lpp_cst) (vs : List Int) (h : c.factors = bulk vs 1) (v : Int)
    (hv : v ∈ vs) : c.coef v = 1 := by
  unfold lpp_cst.coef
  rw [h]
  cases hf : (bulk vs 1).reverse.find? (fun f => f.1 == v) with
  | none =>
    have := List.find?_eq_none.mp hf (v, 1)
      (List.mem_reverse.mpr (List.mem_map.mpr ⟨v, hv, rfl⟩))
    simp at this
  | some f =>
    have hm := List.mem_reverse.mp (List.mem_of_find?_eq_some hf)
    obtain ⟨w, _, rfl⟩ := List.mem_map.mp hm
    rfl

theorem sum_map_one (l : List Int) (f : Int → Int) (h : ∀ v ∈ l, f v = 1) :
    (l.map f).sum = (l.length : Int) := by
  induction l with
  | nil => rfl
  | cons a l ih =>
    rw [List.map_cons, List.sum_cons, h a (List.mem_cons_self _ _),
      ih (fun v hv => h v (List.mem_cons_of_mem _ hv)), List.length_cons]
    push_cast
    ring

theorem lhs_bulk (c : lpp_cst) (vs : List Int) (h : c.factors = bulk vs 1) (sol : Int → Bool) :
    c.lhs sol = ((vs.dedup.filter sol).length : Int) := by
  unfold lpp_cst.lhs
  have e : c.factors.map Prod.fst = vs := by
    rw [h]
    unfold bulk
    rw [List.map_map]
    exact List.map_id _
  rw [e]
  apply sum_map_one
  intro v hv
  exact bulk_coef c vs h v (List.mem_dedup.mp (List.mem_filter.mp hv).1)

theorem holds_less_bulk (c : lpp_cst) (vs : List Int) (hk : c.kind = lpp_cst_t.lpp_less)
    (h : c.factors = bulk vs 1) (sol : Int → Bool) (hs : c.holds sol = true) :
    ((vs.dedup.filter sol).length : Int) ≤ c.rhs := by
  unfold lpp_cst.holds at hs
  rw [hk] at hs
  rw [← lhs_bulk c vs h sol]
  simpa using hs

theorem holds_equal_bulk (c : lpp_cst) (vs : List Int) (hk : c.kind = lpp_cst_t.lpp_equal)
    (h : c.factors = bulk vs 1) (sol : Int → Bool) (hs : c.holds sol = true) :
    ((vs.dedup.filter sol).length : Int) = c.rhs := by
  unfold lpp_cst.holds at hs
  rw [hk] at hs
  rw [← lhs_bulk c vs h sol]
  simpa using hs

theorem true_vars_length_le (vs l : List Int) (sol : Int → Bool) (hn : l.Nodup)
    (hl : ∀ v ∈ l, v ∈ vs ∧ sol v = true) : l.length ≤ (vs.dedup.filter sol).length := by
  apply List.Subperm.length_le
  apply List.subperm_of_subset hn
  intro v hv
  exact List.mem_filter.mpr ⟨List.mem_dedup.mpr (hl v hv).1, (hl v hv).2⟩

theorem is_sol_holds (lpp : lpp_t) (sol : Int → Bool) (h : lpp.is_sol sol = true) (c : lpp_cst)
    (hc : c ∈ lpp.csts) : c.holds sol = true :=
  List.all_eq_true.mp h c hc

theorem holds_where_holds (lpp : lpp_t) (p : ilp_name → Bool) (sol : Int → Bool)
    (h : lpp.holds_where p sol = true) (c : lpp_cst) (hc : c ∈ lpp.csts)
    (hp : p c.name = true) : c.holds sol = true := by
  have := List.all_eq_true.mp h c hc
  simpa [hp] using this

theorem lpp_extends_refl (l : lpp_t) : l.extended_by l := ⟨rfl, List.prefix_refl _⟩

theorem lpp_extends_trans {l1 l2 l3 : lpp_t} (h1 : l1.extended_by l2) (h2 : l2.extended_by l3) :
    l1.extended_by l3 := ⟨h2.1.trans h1.1, h1.2.trans h2.2⟩

theorem lpp_add_cst_extends (l : lpp_t) (n : ilp_name) (k : lpp_cst_t) (r : Int)
    (f : List (Int × Int)) : l.extended_by (lpp_add_cst l n k r f) :=
  ⟨rfl, List.prefix_append _ _⟩

theorem lpp_add_cst_mem (l : lpp_t) (n : ilp_name) (k : lpp_cst_t) (r : Int)
    (f : List (Int × Int)) :
    ({ name := n, kind := k, rhs := r, factors := f } : lpp_cst) ∈ (lpp_add_cst l n k r f).csts := by
  unfold lpp_add_cst
  simp

theorem foldl_extends {α : Type} (f : lpp_t → α → lpp_t) (hf : ∀ (l : lpp_t) (a : α), l.extended_by (f l a))
    (xs : List α) : ∀ l : lpp_t, l.extended_by (xs.foldl f l) := by
  induction xs with
  | nil => intro l; exact lpp_extends_refl l
  | cons a xs ih => intro l; exact lpp_extends_trans (hf l a) (ih (f l a))

theorem foldl_cst_mem {α : Type} (f : lpp_t → α → lpp_t) (hf : ∀ (l : lpp_t) (a : α), l.extended_by (f l a))
    (xs : List α) (a : α) (ha : a ∈ xs) (c : lpp_cst) (hc : ∀ l, c ∈ (f l a).csts) (l : lpp_t) :
    c ∈ (xs.foldl f l).csts := by
  obtain ⟨l1, l2, rfl⟩ := List.append_of_mem ha
  rw [List.foldl_append, List.foldl_cons]
  exact (foldl_extends f hf l2 _).2.subset (hc _)

theorem create_xy_inv (irn tp : Nat) (dummy : Bool) (wy L : Nat) (C : List lpp_cst) (n : Nat)
    (acc : var_acc) (t : Nat) (h : acc.inv L C n) :
    (create_xy irn tp dummy wy acc t).inv L C (n + 1) := by
  obtain ⟨h1, h2, h3, h4, h5⟩ := h
  have key : (acc.xs ++ [((acc.lpp.vars.length : Int) + 1)]).Pairwise (fun v w => v < w) := by
    rw [List.pairwise_append]
    refine ⟨h1, List.pairwise_singleton _ _, ?_⟩
    intro v hv w hw
    rw [List.mem_singleton] at hw
    have := (h2 v hv).2
    omega
  have key2 : ∀ v ∈ acc.xs ++ [((acc.lpp.vars.length : Int) + 1)],
      (L : Int) < v ∧ v ≤ (acc.lpp.vars.length : Int) + 1 := by
    intro v hv
    rcases List.mem_append.mp hv with hv | hv
    · have := h2 v hv; omega
    · rw [List.mem_singleton] at hv; omega
  unfold create_xy lpp_add_var
  cases dummy <;>
    simp only [Bool.not_false, Bool.not_true, Bool.false_eq_true, if_true, if_false]
  · refine ⟨key, ?_, ?_, h4, ?_⟩
    · intro v hv
      have := key2 v hv
      simp only [List.length_append, List.length_singleton, Nat.cast_add, Nat.cast_one]
      omega
    · simp only [List.length_append, List.length_singleton]
      omega
    · simp [h5]
  · refine ⟨key, ?_, ?_, h4, ?_⟩
    · intro v hv
      have := key2 v hv
      simp only [List.length_append, List.length_singleton, Nat.cast_add, Nat.cast_one]
      omega
    · simp only [List.length_append, List.length_singleton]
      omega
    · simp [h5]

theorem create_ad_inv (irn tp : Nat) (alive : Bool) (ni L : Nat) (C : List lpp_cst) (n : Nat)
    (acc : var_acc) (t : Nat) (h : acc.inv L C n) :
    (create_ad irn tp alive ni acc t).inv L C n := by
  obtain ⟨h1, h2, h3, h4, h5⟩ := h
  unfold create_ad lpp_add_var
  cases alive <;> simp only [Bool.false_eq_true, if_true, if_false]
  · refine ⟨h1, ?_, ?_, h4, h5⟩
    · intro v hv
      have := h2 v hv
      simp only [Bool.false_eq_true, if_false, List.length_append, List.length_singleton,
        Nat.cast_add, Nat.cast_one]
      omega
    · simp only [Bool.false_eq_true, if_false, List.length_append, List.length_singleton]
      omega
  · refine ⟨h1, ?_, ?_, h4, h5⟩
    · intro v hv
      have := h2 v hv
      simp only [if_true, List.length_append, List.length_singleton, Nat.cast_add, Nat.cast_one]
      omega
    · simp only [if_true, List.length_append, List.length_singleton]
      omega

theorem create_xy_fold_inv (irn tp : Nat) (dummy : Bool) (wy L : Nat) (C : List lpp_cst)
    (ts : List Nat) : ∀ (n : Nat) (acc : var_acc), acc.inv L C n →
      (ts.foldl (create_xy irn tp dummy wy) acc).inv L C (n + ts.length) := by
  induction ts with
  | nil => intro n acc h; exact h
  | cons t ts ih =>
    intro n acc h
    have := ih (n + 1) _ (create_xy_inv irn tp dummy wy L C n acc t h)
    rw [List.foldl_cons, List.length_cons]
    have e : n + (ts.length + 1) = n + 1 + ts.length := by omega
    rw [e]
    exact this

theorem create_ad_fold_inv (irn tp : Nat) (alive : Bool) (ni L : Nat) (C : List lpp_cst)
    (n : Nat) (ts : List Nat) : ∀ (acc : var_acc), acc.inv L C n →
      (ts.foldl (create_ad irn tp alive ni) acc).inv L C n := by
  induction ts with
  | nil => intro acc h; exact h
  | cons t ts ih =>
    intro acc h
    exact ih _ (create_ad_inv irn tp alive ni L C n acc t h)

theorem create_tp_vars_inv (irn : Nat) (na : ilpsched_node_attr_t) (ba : ilpsched_block_attr_t)
    (ti : List unit_type_info_t) (dummy alive : Bool) (wy L : Nat) (C : List lpp_cst) (n : Nat)
    (acc : var_acc) (tp_idx : Nat) (h : acc.inv L C n) :
    (create_tp_vars irn na ba ti dummy alive wy acc tp_idx).inv L C
      (n + (sched_steps na).length) := by
  unfold create_tp_vars
  have h1 := create_xy_fold_inv irn (ti.getD tp_idx { tp := 0, n_units := 0 }).tp dummy wy L C
    (sched_steps na) n acc h
  cases dummy
  · exact create_ad_fold_inv _ _ _ _ _ _ _ _ _ h1
  · exact h1

theorem create_tp_vars_fold_inv (irn : Nat) (na : ilpsched_node_attr_t)
    (ba : ilpsched_block_attr_t) (ti : List unit_type_info_t) (dummy alive : Bool) (wy L : Nat)
    (C : List lpp_cst) (us : List Nat) : ∀ (n : Nat) (acc : var_acc), acc.inv L C n →
      (us.foldl (create_tp_vars irn na ba ti dummy alive wy) acc).inv L C
        (n + us.length * (sched_steps na).length) := by
  induction us with
  | nil => intro n acc h; simpa using h
  | cons u us ih =>
    intro n acc h
    have := ih _ _ (create_tp_vars_inv irn na ba ti dummy alive wy L C n acc u h)
    rw [List.foldl_cons, List.length_cons]
    have e : n + (us.length + 1) * (sched_steps na).length =
        n + (sched_steps na).length + us.length * (sched_steps na).length := by ring
    rw [e]
    exact this

theorem sched_steps_eq (na : ilpsched_node_attr_t) (k : Nat) (h : window_ok na k) :
    sched_steps na = List.range' (na.asap - 1) (na.alap - na.asap + 1) := by
  obtain ⟨h1, h2, h3, _⟩ := h
  unfold sched_steps steps_le u32_sub
  have e1 : (na.asap % 2 ^ 32 + 2 ^ 32 - 1 % 2 ^ 32) % 2 ^ 32 = na.asap - 1 := by omega
  have e2 : (na.alap % 2 ^ 32 + 2 ^ 32 - 1 % 2 ^ 32) % 2 ^ 32 = na.alap - 1 := by omega
  have e3 : na.alap - 1 + 1 - (na.asap - 1) = na.alap - na.asap + 1 := by omega
  rw [e1, e2, e3]

theorem VALID_SCHED_INTERVAL_eq (na : ilpsched_node_attr_t) (k : Nat) (h : window_ok na k) :
    VALID_SCHED_INTERVAL na = na.alap - na.asap + 1 := by
  obtain ⟨h1, h2, h3, _⟩ := h
  unfold VALID_SCHED_INTERVAL u32 u32_sub
  omega

theorem ILPVAR_IDX_eq (na : ilpsched_node_attr_t) (k : Nat) (h : window_ok na k) (u t : Nat)
    (hu : u < k) (ht1 : na.asap - 1 ≤ t) (ht2 : t ≤ na.alap - 1) :
    ILPVAR_IDX na u t = u * (na.alap - na.asap + 1) + (t - (na.asap - 1)) := by
  have hv := VALID_SCHED_INTERVAL_eq na k h
  obtain ⟨h1, h2, h3, h4⟩ := h
  unfold ILPVAR_IDX
  rw [hv]
  have hb : u * (na.alap - na.asap + 1) + (na.alap - na.asap + 1) ≤
      k * (na.alap - na.asap + 1) := by
    have : (u + 1) * (na.alap - na.asap + 1) ≤ k * (na.alap - na.asap + 1) :=
      Nat.mul_le_mul_right _ hu
    linarith [this, Nat.succ_mul u (na.alap - na.asap + 1)]
  generalize u * (na.alap - na.asap + 1) = A at hb ⊢
  generalize k * (na.alap - na.asap + 1) = K at hb h4
  unfold u32 u32_sub
  omega

theorem ILPVAR_IDX_lt (na : ilpsched_node_attr_t) (k : Nat) (h : window_ok na k) (u t : Nat)
    (hu : u < k) (ht1 : na.asap - 1 ≤ t) (ht2 : t ≤ na.alap - 1) :
    ILPVAR_IDX na u t < k * (na.alap - na.asap + 1) := by
  rw [ILPVAR_IDX_eq na k h u t hu ht1 ht2]
  obtain ⟨h1, h2, h3, h4⟩ := h
  have : (u + 1) * (na.alap - na.asap + 1) ≤ k * (na.alap - na.asap + 1) :=
    Nat.mul_le_mul_right _ hu
  have e : (u + 1) * (na.alap - na.asap + 1) =
      u * (na.alap - na.asap + 1) + (na.alap - na.asap + 1) := by ring
  generalize (u + 1) * (na.alap - na.asap + 1) = B at *
  generalize u * (na.alap - na.asap + 1) = A at *
  generalize k * (na.alap - na.asap + 1) = K at *
  omega

theorem ILPVAR_IDX_inj (na : ilpsched_node_attr_t) (k : Nat) (h : window_ok na k)
    (u t u2 t2 : Nat) (hu : u < k) (ht1 : na.asap - 1 ≤ t) (ht2 : t ≤ na.alap - 1)
    (hu2 : u2 < k) (ht3 : na.asap - 1 ≤ t2) (ht4 : t2 ≤ na.alap - 1)
    (e : ILPVAR_IDX na u t = ILPVAR_IDX na u2 t2) : u = u2 ∧ t = t2 := by
  rw [ILPVAR_IDX_eq na k h u t hu ht1 ht2, ILPVAR_IDX_eq na k h u2 t2 hu2 ht3 ht4] at e
  obtain ⟨h1, h2, h3, h4⟩ := h
  have hI : 0 < na.alap - na.asap + 1 := by omega
  have a1 : t - (na.asap - 1) < na.alap - na.asap + 1 := by omega
  have a2 : t2 - (na.asap - 1) < na.alap - na.asap + 1 := by omega
  have d1 := congrArg (fun x => x / (na.alap - na.asap + 1)) e
  have m1 := congrArg (fun x => x % (na.alap - na.asap + 1)) e
  simp only at d1 m1
  rw [Nat.add_comm, Nat.add_mul_div_right _ _ hI, Nat.div_eq_of_lt a1,
    Nat.add_comm (u2 * _), Nat.add_mul_div_right _ _ hI, Nat.div_eq_of_lt a2] at d1
  rw [Nat.add_comm, Nat.add_mul_mod_self_right, Nat.mod_eq_of_lt a1,
    Nat.add_comm (u2 * _), Nat.add_mul_mod_self_right, Nat.mod_eq_of_lt a2] at m1
  constructor
  · omega
  · omega

theorem arr_fill_exact (len : Nat) (vals : List Int) (h : vals.length = len) :
    arr_fill len vals = vals := by
  unfold arr_fill
  rw [← h, List.take_length, Nat.sub_self]
  simp

theorem create_node_variables_frame (env : be_ilpsched_env_t) (g : ir_graph) (block : Nat)
    (st : ilp_state) (irn : Nat) :
    (create_node_variables env g block st irn).ph = st.ph ∧
      (create_node_variables env g block st irn).block_last_idx = st.block_last_idx ∧
      (∀ j, j ≠ irn → (create_node_variables env g block st irn).ia j = st.ia j) ∧
      ((create_node_variables env g block st irn).ia irn).n_unit_types =
        (g irn).execunits.length ∧
      ((create_node_variables env g block st irn).ia irn).type_info =
        (g irn).execunits.map (fun units =>
          ({ tp := (units.getD 0 { tp := 0, is_dummy := false }).tp, n_units := units.length } :
            unit_type_info_t)) ∧
      ((create_node_variables env g block st irn).ia irn).block_idx = (st.ia irn).block_idx := by
  unfold create_node_variables
  refine ⟨rfl, rfl, ?_, ?_, ?_, ?_⟩
  · intro j hj
    simp [ilp_state.set_ia, hj]
  · simp [ilp_state.set_ia]
  · simp [ilp_state.set_ia]
  · simp [ilp_state.set_ia]

theorem create_node_variables_lpp (env : be_ilpsched_env_t) (g : ir_graph) (block : Nat)
    (st : ilp_state) (irn : Nat) :
    ∃ acc : var_acc,
      acc.inv st.lpp.vars.length st.lpp.csts
        ((g irn).execunits.length * (sched_steps (st.ph.na irn)).length) ∧
      (create_node_variables env g block st irn).lpp = acc.lpp ∧
      ((create_node_variables env g block st irn).ia irn).ilp_vars.x =
        arr_fill (u32 ((g irn).execunits.length * VALID_SCHED_INTERVAL (st.ph.na irn))) acc.xs := by
  have h0 : var_acc.inv st.lpp.vars.length st.lpp.csts 0
      { lpp := st.lpp, xs := [], ys := [], ads := [] } :=
    ⟨List.Pairwise.nil, fun v hv => by simp at hv, le_refl _, rfl, rfl⟩
  have h1 := create_tp_vars_fold_inv irn (st.ph.na irn) (st.ph.ba block)
    ((g irn).execunits.map (fun units =>
      ({ tp := (units.getD 0 { tp := 0, is_dummy := false }).tp, n_units := units.length } :
        unit_type_info_t)))
    ((st.ia irn).is_dummy_node || (g irn).execunits.any fun units => units.any fun u => u.is_dummy)
    (decide ((st.ph.ba block).n_interesting_nodes > env.limit_dead))
    (u32 ((st.ph.ba block).n_interesting_nodes * (st.ph.ba block).n_interesting_nodes))
    st.lpp.vars.length st.lpp.csts (List.range (g irn).execunits.length) 0 _ h0
  rw [Nat.zero_add, List.length_range] at h1
  refine ⟨_, h1, ?_, ?_⟩
  · unfold create_node_variables
    rfl
  · unfold create_node_variables
    simp [ilp_state.set_ia]

theorem create_node_variables_x (env : be_ilpsched_env_t) (g : ir_graph) (block : Nat)
    (st : ilp_state) (irn : Nat) (hw : window_ok (st.ph.na irn) (g irn).execunits.length) :
    (create_node_variables env g block st irn).lpp.csts = st.lpp.csts ∧
      st.lpp.vars.length ≤ (create_node_variables env g block st irn).lpp.vars.length ∧
      ((create_node_variables env g block st irn).ia irn).ilp_vars.x.length =
        (g irn).execunits.length * ((st.ph.na irn).alap - (st.ph.na irn).asap + 1) ∧
      ((create_node_variables env g block st irn).ia irn).ilp_vars.x.Pairwise (fun v w => v < w) ∧
      (∀ v ∈ ((create_node_variables env g block st irn).ia irn).ilp_vars.x,
        (st.lpp.vars.length : Int) < v ∧
          v ≤ ((create_node_variables env g block st irn).lpp.vars.length : Int)) := by
  obtain ⟨acc, ⟨i1, i2, i3, i4, i5⟩, e1, e2⟩ := create_node_variables_lpp env g block st irn
  have hs : (sched_steps (st.ph.na irn)).length =
      (st.ph.na irn).alap - (st.ph.na irn).asap + 1 := by
    rw [sched_steps_eq _ _ hw, List.length_range']
  have hx : ((create_node_variables env g block st irn).ia irn).ilp_vars.x = acc.xs := by
    rw [e2, VALID_SCHED_INTERVAL_eq _ _ hw]
    apply arr_fill_exact
    rw [i5, hs]
    unfold u32
    exact (Nat.mod_eq_of_lt hw.2.2.2).symm
  rw [hx, e1]
  refine ⟨i4, i3, ?_, i1, i2⟩
  rw [i5, hs]

theorem create_node_variables_no_cst (env : be_ilpsched_env_t) (g : ir_graph) (block : Nat)
    (st : ilp_state) (irn : Nat) :
    (create_node_variables env g block st irn).lpp.csts = st.lpp.csts ∧
      st.lpp.vars.length ≤ (create_node_variables env g block st irn).lpp.vars.length := by
  obtain ⟨acc, ⟨_, _, i3, i4, _⟩, e1, _⟩ := create_node_variables_lpp env g block st irn
  rw [e1]
  exact ⟨i4, i3⟩

theorem create_variables_fold (env : be_ilpsched_env_t) (g : ir_graph) (block : Nat)
    (l : List Nat) : ∀ st : ilp_state, l.Nodup →
      (l.foldl (create_node_variables env g block) st).ph = st.ph ∧
      (l.foldl (create_node_variables env g block) st).block_last_idx = st.block_last_idx ∧
      (l.foldl (create_node_variables env g block) st).lpp.csts = st.lpp.csts ∧
      st.lpp.vars.length ≤ (l.foldl (create_node_variables env g block) st).lpp.vars.length ∧
      (∀ j, j ∉ l → (l.foldl (create_node_variables env g block) st).ia j = st.ia j) ∧
      (∀ n ∈ l,
        ((l.foldl (create_node_variables env g block) st).ia n).n_unit_types =
          (g n).execunits.length ∧
        ((l.foldl (create_node_variables env g block) st).ia n).type_info =
          (g n).execunits.map (fun units =>
            ({ tp := (units.getD 0 { tp := 0, is_dummy := false }).tp, n_units := units.length } :
              unit_type_info_t)) ∧
        ((l.foldl (create_node_variables env g block) st).ia n).block_idx = (st.ia n).block_idx) ∧
      (∀ n ∈ l, window_ok (st.ph.na n) (g n).execunits.length →
        ((l.foldl (create_node_variables env g block) st).ia n).ilp_vars.x.length =
          (g n).execunits.length * ((st.ph.na n).alap - (st.ph.na n).asap + 1) ∧
        ((l.foldl (create_node_variables env g block) st).ia n).ilp_vars.x.Pairwise
          (fun v w => v < w) ∧
        (∀ v ∈ ((l.foldl (create_node_variables env g block) st).ia n).ilp_vars.x,
          (st.lpp.vars.length : Int) < v ∧
            v ≤ ((l.foldl (create_node_variables env g block) st).lpp.vars.length : Int))) ∧
      (∀ n ∈ l, ∀ m ∈ l, n ≠ m → window_ok (st.ph.na n) (g n).execunits.length →
        window_ok (st.ph.na m) (g m).execunits.length →
        ∀ v ∈ ((l.foldl (create_node_variables env g block) st).ia n).ilp_vars.x,
          v ∉ ((l.foldl (create_node_variables env g block) st).ia m).ilp_vars.x) := by
  induction l with
  | nil =>
    intro st _
    refine ⟨rfl, rfl, rfl, le_refl _, fun _ _ => rfl, ?_, ?_, ?_⟩ <;> intro n hn <;> simp at hn
  | cons a l ih =>
    intro st hnd
    obtain ⟨ha, hl⟩ := List.nodup_cons.mp hnd
    rw [List.foldl_cons]
    obtain ⟨f1, f2, f3, f4, f5, f6⟩ := create_node_variables_frame env g block st a
    obtain ⟨c1, c2⟩ := create_node_variables_no_cst env g block st a
    obtain ⟨g1, g2, g3, g4, g5, g6, g7, g8⟩ := ih (create_node_variables env g block st a) hl
    have hxa : ∀ (_ : window_ok (st.ph.na a) (g a).execunits.length),
        ((l.foldl (create_node_variables env g block)
            (create_node_variables env g block st a)).ia a).ilp_vars.x.length =
          (g a).execunits.length * ((st.ph.na a).alap - (st.ph.na a).asap + 1) ∧
        ((l.foldl (create_node_variables env g block)
            (create_node_variables env g block st a)).ia a).ilp_vars.x.Pairwise
          (fun v w => v < w) ∧
        (∀ v ∈ ((l.foldl (create_node_variables env g block)
            (create_node_variables env g block st a)).ia a).ilp_vars.x,
          (st.lpp.vars.length : Int) < v ∧
            v ≤ ((create_node_variables env g block st a).lpp.vars.length : Int)) := by
      intro hw
      rw [g5 a ha]
      obtain ⟨_, _, x3, x4, x5⟩ := create_node_variables_x env g block st a hw
      exact ⟨x3, x4, x5⟩
    refine ⟨g1.trans f1, g2.trans f2, g3.trans c1, le_trans c2 g4, ?_, ?_, ?_, ?_⟩
    · intro j hj
      rw [List.mem_cons, not_or] at hj
      rw [g5 j hj.2, f3 j hj.1]
    · intro n hn
      rcases List.mem_cons.mp hn with rfl | hn
      · rw [g5 n ha]
        exact ⟨f4, f5, f6⟩
      · have hne : n ≠ a := fun e => ha (e ▸ hn)
        obtain ⟨p1, p2, p3⟩ := g6 n hn
        exact ⟨p1, p2, by rw [p3, f3 n hne]⟩
    · intro n hn hw
      rcases List.mem_cons.mp hn with rfl | hn
      · obtain ⟨x3, x4, x5⟩ := hxa hw
        refine ⟨x3, x4, ?_⟩
        intro v hv
        have := x5 v hv
        omega
      · rw [← f1] at hw
        obtain ⟨p1, p2, p3⟩ := g7 n hn hw
        rw [f1] at p1
        refine ⟨p1, p2, ?_⟩
        intro v hv
        have := p3 v hv
        omega
    · intro n hn m hm hnm hwn hwm v hv hv2
      rcases List.mem_cons.mp hn with en | hn2 <;> rcases List.mem_cons.mp hm with em | hm2
      · exact hnm (en.trans em.symm)
      · subst en
        have b1 := (hxa hwn).2.2 v hv
        rw [← f1] at hwm
        have b2 := (g7 m hm2 hwm).2.2 v hv2
        omega
      · subst em
        have b1 := (hxa hwm).2.2 v hv2
        rw [← f1] at hwn
        have b2 := (g7 n hn2 hwn).2.2 v hv
        omega
      · rw [← f1] at hwn hwm
        exact g8 n hn2 m hm2 hnm hwn hwm v hv hv2

theorem create_precedence_cst_extends (st : ilp_state) (irn pred delay : Nat) (lpp : lpp_t)
    (t : Nat) : lpp.extended_by (create_precedence_cst st irn pred delay lpp t) := by
  unfold create_precedence_cst
  exact lpp_add_cst_extends _ _ _ _ _

theorem create_precedence_pred_extends (g : ir_graph) (st : ilp_state) (block irn : Nat)
    (acc : lpp_t × List Nat) (x : Nat) :
    acc.1.extended_by (create_precedence_pred g st block irn acc x).1 := by
  unfold create_precedence_pred
  simp only
  split_ifs
  · exact lpp_extends_refl _
  · exact lpp_extends_refl _
  · dsimp only
    exact foldl_extends _ (create_precedence_cst_extends st irn _ _) _ _

theorem create_precedence_pred_fold_extends (g : ir_graph) (st : ilp_state) (block irn : Nat)
    (xs : List Nat) : ∀ acc : lpp_t × List Nat,
      acc.1.extended_by (xs.foldl (create_precedence_pred g st block irn) acc).1 := by
  induction xs with
  | nil => intro acc; exact lpp_extends_refl _
  | cons x xs ih =>
    intro acc
    exact lpp_extends_trans (create_precedence_pred_extends g st block irn acc x) (ih _)

theorem create_assignment_and_precedence_node_extends (env : be_ilpsched_env_t) (g : ir_graph)
    (st : ilp_state) (block : Nat) (lpp : lpp_t) (irn : Nat) :
    lpp.extended_by (create_assignment_and_precedence_node env g st block lpp irn) := by
  unfold create_assignment_and_precedence_node
  simp only
  refine lpp_extends_trans ?_ (create_precedence_pred_fold_extends g st block irn _ _)
  split_ifs
  · exact lpp_extends_trans (lpp_add_cst_extends _ _ _ _ _) (lpp_add_cst_extends _ _ _ _ _)
  · exact lpp_add_cst_extends _ _ _ _ _

theorem create_assignment_and_precedence_frame (env : be_ilpsched_env_t) (g : ir_graph)
    (st : ilp_state) (block : Nat) :
    (create_assignment_and_precedence_constraints env g st block).ph = st.ph ∧
      (create_assignment_and_precedence_constraints env g st block).ia = st.ia ∧
      st.lpp.extended_by (create_assignment_and_precedence_constraints env g st block).lpp :=
  ⟨rfl, rfl, foldl_extends _ (create_assignment_and_precedence_node_extends env g st block) _ _⟩

theorem create_ressource_frame (env : be_ilpsched_env_t) (st : ilp_state) (block : Nat) :
    (create_ressource_constraints env st block).ph = st.ph ∧
      (create_ressource_constraints env st block).ia = st.ia ∧
      st.lpp.extended_by (create_ressource_constraints env st block).lpp :=
  ⟨rfl, rfl, foldl_extends _
    (fun l _ => foldl_extends _ (fun _ _ => lpp_add_cst_extends _ _ _ _ _) _ l) _ _⟩

theorem create_bundle_frame (env : be_ilpsched_env_t) (g : ir_graph) (st : ilp_state)
    (block : Nat) :
    (create_bundle_constraints env g st block).ph = st.ph ∧
      (create_bundle_constraints env g st block).ia = st.ia ∧
      st.lpp.extended_by (create_bundle_constraints env g st block).lpp :=
  ⟨rfl, rfl, foldl_extends _ (fun _ _ => lpp_add_cst_extends _ _ _ _ _) _ _⟩

theorem create_dying_frame (st : ilp_state) (block : Nat) :
    (create_dying_nodes_constraint st block).ph = st.ph ∧
      (create_dying_nodes_constraint st block).ia = st.ia ∧
      st.lpp.extended_by (create_dying_nodes_constraint st block).lpp := by
  refine ⟨rfl, rfl, foldl_extends _ (fun l t => foldl_extends _ (fun l2 irn => ?_) _ l) _ _⟩
  unfold create_dying_node
  simp only
  split_ifs
  · exact lpp_extends_refl _
  · exact foldl_extends _ (fun l3 _ => lpp_add_cst_extends _ _ _ _ _) _ _
  · exact lpp_extends_refl _

theorem create_alive_frame (st : ilp_state) (block : Nat) :
    (create_alive_nodes_constraint st block).ph = st.ph ∧
      (create_alive_nodes_constraint st block).ia = st.ia ∧
      st.lpp.extended_by (create_alive_nodes_constraint st block).lpp := by
  refine ⟨rfl, rfl, foldl_extends _ (fun l irn => ?_) _ _⟩
  unfold create_alive_node
  simp only
  split_ifs
  · exact lpp_extends_refl _
  · exact foldl_extends _
      (fun l2 _ => foldl_extends _ (fun l3 _ => lpp_add_cst_extends _ _ _ _ _) _ l2) _ _

theorem create_pressure_node_extends (env : be_ilpsched_env_t) (st : ilp_state)
    (cst : (cur_irn glob_type_idx cur_tp_idx : Nat) → lpp_t → Nat → lpp_t)
    (hc : ∀ a b c (l : lpp_t) (t : Nat), l.extended_by (cst a b c l t)) (lpp : lpp_t)
    (cur_irn : Nat) : lpp.extended_by (create_pressure_node env st cst lpp cur_irn) := by
  unfold create_pressure_node
  split_ifs
  · exact lpp_extends_refl _
  · refine foldl_extends _ (fun l tp => ?_) _ _
    cases is_valid_unit_type_for_node tp (st.ia cur_irn) with
    | none => exact lpp_extends_refl _
    | some i => exact foldl_extends _ (hc cur_irn tp i) _ _

theorem create_pressure_dead_frame (env : be_ilpsched_env_t) (st : ilp_state) (block : Nat) :
    (create_pressure_dead_constraint env st block).ph = st.ph ∧
      (create_pressure_dead_constraint env st block).ia = st.ia ∧
      st.lpp.extended_by (create_pressure_dead_constraint env st block).lpp :=
  ⟨rfl, rfl, foldl_extends _ (create_pressure_node_extends env st _
    (fun _ _ _ _ _ => lpp_add_cst_extends _ _ _ _ _)) _ _⟩

theorem create_pressure_alive_frame (env : be_ilpsched_env_t) (st : ilp_state) (block : Nat) :
    (create_pressure_alive_constraint env st block).ph = st.ph ∧
      (create_pressure_alive_constraint env st block).ia = st.ia ∧
      st.lpp.extended_by (create_pressure_alive_constraint env st block).lpp :=
  ⟨rfl, rfl, foldl_extends _ (create_pressure_node_extends env st _
    (fun _ _ _ _ _ => lpp_add_cst_extends _ _ _ _ _)) _ _⟩

theorem build_ilp_tail (env : be_ilpsched_env_t) (st4 : ilp_state) (block : Nat) :
    (if (st4.ph.ba block).n_interesting_nodes > env.limit_dead then
        create_pressure_alive_constraint env (create_alive_nodes_constraint st4 block) block
      else
        create_pressure_dead_constraint env (create_dying_nodes_constraint st4 block) block).ph =
        st4.ph ∧
      (if (st4.ph.ba block).n_interesting_nodes > env.limit_dead then
        create_pressure_alive_constraint env (create_alive_nodes_constraint st4 block) block
      else
        create_pressure_dead_constraint env (create_dying_nodes_constraint st4 block) block).ia =
        st4.ia ∧
      st4.lpp.extended_by
        (if (st4.ph.ba block).n_interesting_nodes > env.limit_dead then
          create_pressure_alive_constraint env (create_alive_nodes_constraint st4 block) block
        else
          create_pressure_dead_constraint env (create_dying_nodes_constraint st4 block) block).lpp := by
  split_ifs
  · obtain ⟨a1, a2, a3⟩ := create_alive_frame st4 block
    obtain ⟨b1, b2, b3⟩ :=
      create_pressure_alive_frame env (create_alive_nodes_constraint st4 block) block
    exact ⟨b1.trans a1, b2.trans a2, lpp_extends_trans a3 b3⟩
  · obtain ⟨a1, a2, a3⟩ := create_dying_frame st4 block
    obtain ⟨b1, b2, b3⟩ :=
      create_pressure_dead_frame env (create_dying_nodes_constraint st4 block) block
    exact ⟨b1.trans a1, b2.trans a2, lpp_extends_trans a3 b3⟩

theorem build_ilp_spec (env : be_ilpsched_env_t) (g : ir_graph) (st : ilp_state) (block : Nat) :
    (build_ilp env g st block).ph = (ilp_with_variables env g st block).ph ∧
      (build_ilp env g st block).ia = (ilp_with_variables env g st block).ia ∧
      (∀ c ∈ (ilp_with_precedence env g st block).lpp.csts,
        c ∈ (build_ilp env g st block).lpp.csts) ∧
      (∀ c ∈ (ilp_with_ressource env g st block).lpp.csts,
        c ∈ (build_ilp env g st block).lpp.csts) ∧
      (∀ c ∈ (ilp_with_bundle env g st block).lpp.csts,
        c ∈ (build_ilp env g st block).lpp.csts) := by
  obtain ⟨t1, t2, t3⟩ := build_ilp_tail env (ilp_with_bundle env g st block) block
  obtain ⟨b1, b2, b3⟩ := create_bundle_frame env g (ilp_with_ressource env g st block) block
  obtain ⟨r1, r2, r3⟩ := create_ressource_frame env (ilp_with_precedence env g st block) block
  obtain ⟨p1, p2, p3⟩ :=
    create_assignment_and_precedence_frame env g (ilp_with_variables env g st block) block
  have e : build_ilp env g st block =
      (if ((ilp_with_bundle env g st block).ph.ba block).n_interesting_nodes > env.limit_dead then
        create_pressure_alive_constraint env
          (create_alive_nodes_constraint (ilp_with_bundle env g st block) block) block
      else
        create_pressure_dead_constraint env
          (create_dying_nodes_constraint (ilp_with_bundle env g st block) block) block) := rfl
  rw [e]
  refine ⟨?_, ?_, ?_, ?_, ?_⟩
  · exact t1.trans (b1.trans (r1.trans p1))
  · exact t2.trans (b2.trans (r2.trans p2))
  · intro c hc
    exact t3.2.subset (b3.2.subset (r3.2.subset hc))
  · intro c hc
    exact t3.2.subset (b3.2.subset hc)
  · intro c hc
    exact t3.2.subset hc

theorem ilp_with_precedence_frame (env : be_ilpsched_env_t) (g : ir_graph) (st : ilp_state)
    (block : Nat) :
    (ilp_with_precedence env g st block).ph = (ilp_with_variables env g st block).ph ∧
      (ilp_with_precedence env g st block).ia = (ilp_with_variables env g st block).ia :=
  ⟨rfl, rfl⟩

theorem ilp_with_ressource_frame (env : be_ilpsched_env_t) (g : ir_graph) (st : ilp_state)
    (block : Nat) :
    (ilp_with_ressource env g st block).ph = (ilp_with_variables env g st block).ph ∧
      (ilp_with_ressource env g st block).ia = (ilp_with_variables env g st block).ia :=
  ⟨rfl, rfl⟩

theorem ilp_with_variables_ph (env : be_ilpsched_env_t) (g : ir_graph) (st : ilp_state)
    (block : Nat) (hnd : (st.ph.ba block).head_ilp_nodes.Nodup) :
    (ilp_with_variables env g st block).ph = st.ph :=
  (create_variables_fold env g block _ { st with lpp := new_lpp } hnd).1

theorem arr_get_mem (x : List Int) (i : Nat) (h : i < x.length) : arr_get x i ∈ x := by
  unfold arr_get
  rw [List.getD_eq_getElem _ _ h]
  exact List.getElem_mem _

theorem arr_get_inj (x : List Int) (hn : x.Nodup) (i j : Nat) (hi : i < x.length)
    (hj : j < x.length) (e : arr_get x i = arr_get x j) : i = j := by
  unfold arr_get at e
  rw [List.getD_eq_getElem _ _ hi, List.getD_eq_getElem _ _ hj] at e
  exact (List.Nodup.getElem_inj_iff hn).mp e

theorem mem_arr_get (x : List Int) (v : Int) (h : v ∈ x) : ∃ i, i < x.length ∧ arr_get x i = v := by
  obtain ⟨i, hi, e⟩ := List.getElem_of_mem h
  refine ⟨i, hi, ?_⟩
  unfold arr_get
  rw [List.getD_eq_getElem _ _ hi, e]

theorem pairwise_lt_nodup (x : List Int) (h : x.Pairwise (fun v w => v < w)) : x.Nodup :=
  h.imp (fun hvw => ne_of_lt hvw)

theorem assignment_cst_mem (env : be_ilpsched_env_t) (g : ir_graph) (st : ilp_state)
    (block n : Nat) (hn : n ∈ (st.ph.ba block).head_ilp_nodes) :
    ({ name := ilp_name.assignment_cst n, kind := lpp_cst_t.lpp_equal, rhs := 1,
       factors := bulk (st.ia n).ilp_vars.x 1 } : lpp_cst) ∈
      (create_assignment_and_precedence_constraints env g st block).lpp.csts := by
  unfold create_assignment_and_precedence_constraints
  apply foldl_cst_mem _ (create_assignment_and_precedence_node_extends env g st block) _ n hn
  intro l
  unfold create_assignment_and_precedence_node
  simp only
  apply (create_precedence_pred_fold_extends g st block n _ _).2.subset
  split_ifs
  · exact (lpp_add_cst_extends _ _ _ _ _).2.subset (lpp_add_cst_mem _ _ _ _ _)
  · exact lpp_add_cst_mem _ _ _ _ _

theorem ilp_tables (env : be_ilpsched_env_t) (g : ir_graph) (st : ilp_state) (block : Nat)
    (hnd : (st.ph.ba block).head_ilp_nodes.Nodup) :
    (build_ilp env g st block).ph = st.ph ∧
      (∀ n ∈ (st.ph.ba block).head_ilp_nodes,
        ((build_ilp env g st block).ia n).n_unit_types = (g n).execunits.length ∧
        ((build_ilp env g st block).ia n).type_info =
          (g n).execunits.map (fun units =>
            ({ tp := (units.getD 0 { tp := 0, is_dummy := false }).tp, n_units := units.length } :
              unit_type_info_t)) ∧
        ((build_ilp env g st block).ia n).block_idx = (st.ia n).block_idx) ∧
      (∀ n ∈ (st.ph.ba block).head_ilp_nodes,
        window_ok (st.ph.na n) (g n).execunits.length →
        ((build_ilp env g st block).ia n).ilp_vars.x.length =
          (g n).execunits.length * ((st.ph.na n).alap - (st.ph.na n).asap + 1) ∧
        ((build_ilp env g st block).ia n).ilp_vars.x.Nodup) ∧
      (∀ n ∈ (st.ph.ba block).head_ilp_nodes, ∀ m ∈ (st.ph.ba block).head_ilp_nodes, n ≠ m →
        window_ok (st.ph.na n) (g n).execunits.length →
        window_ok (st.ph.na m) (g m).execunits.length →
        ∀ v ∈ ((build_ilp env g st block).ia n).ilp_vars.x,
          v ∉ ((build_ilp env g st block).ia m).ilp_vars.x) := by
  obtain ⟨b1, b2, _⟩ := build_ilp_spec env g st block
  obtain ⟨g1, _, _, _, _, g6, g7, g8⟩ :=
    create_variables_fold env g block _ { st with lpp := new_lpp } hnd
  rw [b1, b2]
  exact ⟨g1, g6, fun n hn hw => ⟨(g7 n hn hw).1, pairwise_lt_nodup _ (g7 n hn hw).2.1⟩, g8⟩

theorem ILPVAR_IDX_surj (na : ilpsched_node_attr_t) (k : Nat) (h : window_ok na k) (i : Nat)
    (hi : i < k * (na.alap - na.asap + 1)) :
    ∃ u t, u < k ∧ na.asap - 1 ≤ t ∧ t ≤ na.alap - 1 ∧ ILPVAR_IDX na u t = i := by
  have hI : 0 < na.alap - na.asap + 1 := by omega
  have hm := Nat.mod_lt i hI
  have h1 := h.1
  have h2 := h.2.1
  refine ⟨i / (na.alap - na.asap + 1), na.asap - 1 + i % (na.alap - na.asap + 1), ?_, ?_, ?_, ?_⟩
  · exact (Nat.div_lt_iff_lt_mul hI).mpr hi
  · omega
  · omega
  · rw [ILPVAR_IDX_eq na k h _ _ ((Nat.div_lt_iff_lt_mul hI).mpr hi) (by omega) (by omega)]
    have e : na.asap - 1 + i % (na.alap - na.asap + 1) - (na.asap - 1) =
        i % (na.alap - na.asap + 1) := by omega
    rw [e]
    exact Nat.div_add_mod' i _

theorem filter_length_one {α : Type} (l : List α) (p : α → Bool)
    (h : (l.filter p).length = 1) :
    ∃ v, v ∈ l ∧ p v = true ∧ ∀ w ∈ l, p w = true → w = v := by
  obtain ⟨v, hv⟩ := List.length_eq_one.mp h
  have hm : v ∈ l.filter p := by rw [hv]; exact List.mem_singleton_self v
  refine ⟨v, (List.mem_filter.mp hm).1, (List.mem_filter.mp hm).2, ?_⟩
  intro w hw hp
  have : w ∈ l.filter p := List.mem_filter.mpr ⟨hw, hp⟩
  rw [hv] at this
  exact List.mem_singleton.mp this

/-- C12 (assignment constraint). For every node `n` of the list of interesting
nodes of a block (each listed once) with a valid window, the linear program that
`create_ilp` builds contains the constraint `assignment_cst_n`, an equality
with right-hand side 1 whose variables, all with factor 1, are the entries of the
table `x` of `n`; the table has one entry for each pair of a unit type index and
a step of the window, reached through `ILPVAR_IDX`, and the entries are
pairwise different. Hence every solution sets exactly one of these variables:
it selects exactly one pair (unit type, step), and the step lies in the window. -/
theorem assignment_constraint (env : be_ilpsched_env_t) (g : ir_graph) (st : ilp_state)
    (block n : Nat) (hnd : (st.ph.ba block).head_ilp_nodes.Nodup)
    (hn : n ∈ (st.ph.ba block).head_ilp_nodes)
    (hw : window_ok (st.ph.na n) (g n).execunits.length) :
    ({ name := ilp_name.assignment_cst n, kind := lpp_cst_t.lpp_equal, rhs := 1,
       factors := bulk ((build_ilp env g st block).ia n).ilp_vars.x 1 } : lpp_cst) ∈
        (build_ilp env g st block).lpp.csts ∧
      ((build_ilp env g st block).ia n).ilp_vars.x.length =
        (g n).execunits.length * ((st.ph.na n).alap - (st.ph.na n).asap + 1) ∧
      ((build_ilp env g st block).ia n).ilp_vars.x.Nodup ∧
      (∀ u t, u < (g n).execunits.length → (st.ph.na n).asap ≤ t + 1 → t + 1 ≤ (st.ph.na n).alap →
        ILPVAR_IDX (st.ph.na n) u t < ((build_ilp env g st block).ia n).ilp_vars.x.length) ∧
      (∀ sol : Int → Bool, (build_ilp env g st block).lpp.is_sol sol = true →
        ∃ u t, u < (g n).execunits.length ∧ (st.ph.na n).asap ≤ t + 1 ∧
          t + 1 ≤ (st.ph.na n).alap ∧
          sol (arr_get ((build_ilp env g st block).ia n).ilp_vars.x
            (ILPVAR_IDX (st.ph.na n) u t)) = true ∧
          ∀ u2 t2, u2 < (g n).execunits.length → (st.ph.na n).asap ≤ t2 + 1 →
            t2 + 1 ≤ (st.ph.na n).alap →
            sol (arr_get ((build_ilp env g st block).ia n).ilp_vars.x
              (ILPVAR_IDX (st.ph.na n) u2 t2)) = true → u2 = u ∧ t2 = t) := by
  obtain ⟨b1, b2, b3, _, _⟩ := build_ilp_spec env g st block
  obtain ⟨_, _, t3, _⟩ := ilp_tables env g st block hnd
  obtain ⟨hlen, hnodup⟩ := t3 n hn hw
  have hph := ilp_with_variables_ph env g st block hnd
  have hmem : (lpp_cst.mk (ilp_name.assignment_cst n) lpp_cst_t.lpp_equal 1
      (bulk ((build_ilp env g st block).ia n).ilp_vars.x 1)) ∈
        (build_ilp env g st block).lpp.csts := by
    apply b3
    rw [b2]
    exact assignment_cst_mem env g (ilp_with_variables env g st block) block n (by rw [hph]; exact hn)
  have hidx : ∀ u t, u < (g n).execunits.length → (st.ph.na n).asap ≤ t + 1 →
      t + 1 ≤ (st.ph.na n).alap →
      ILPVAR_IDX (st.ph.na n) u t < ((build_ilp env g st block).ia n).ilp_vars.x.length := by
    intro u t hu h1 h2
    rw [hlen]
    exact ILPVAR_IDX_lt _ _ hw u t hu (by omega) (by have := hw.1; omega)
  refine ⟨hmem, hlen, hnodup, hidx, ?_⟩
  intro sol hsol
  have hh := holds_equal_bulk _ _ rfl rfl sol (is_sol_holds _ sol hsol _ hmem)
  rw [List.Nodup.dedup hnodup] at hh
  have hh1 : (List.filter sol ((build_ilp env g st block).ia n).ilp_vars.x).length = 1 := by
    have : ((List.filter sol ((build_ilp env g st block).ia n).ilp_vars.x).length : Int) = 1 := hh
    exact_mod_cast this
  obtain ⟨v, hv, hsv, huniq⟩ := filter_length_one _ sol hh1
  obtain ⟨i, hi, hiv⟩ := mem_arr_get _ v hv
  rw [hlen] at hi
  obtain ⟨u, t, hu, ht1, ht2, hut⟩ := ILPVAR_IDX_surj _ _ hw i hi
  have h1 := hw.1
  have h2 := hw.2.1
  refine ⟨u, t, hu, by omega, by omega, by rw [hut, hiv]; exact hsv, ?_⟩
  intro u2 t2 hu2 h3 h4 hs2
  have hi2 := hidx u2 t2 hu2 h3 h4
  have e := huniq _ (arr_get_mem _ _ hi2) hs2
  rw [← hiv, ← hut] at e
  have e2 := arr_get_inj _ hnodup _ _ hi2 (hidx u t hu (by omega) (by omega)) e
  exact ILPVAR_IDX_inj _ _ hw u2 t2 u t hu2 (by omega) (by omega) hu (by omega) (by omega) e2

/-- Witness for C12: operation 2 of the linear chain `chain3_graph`. -/
theorem assignment_constraint_witness :
    ({ name := ilp_name.assignment_cst 2, kind := lpp_cst_t.lpp_equal, rhs := 1,
       factors := bulk ((build_ilp one_unit_env chain3_graph chain3_state 0).ia 2).ilp_vars.x 1 } :
        lpp_cst) ∈ (build_ilp one_unit_env chain3_graph chain3_state 0).lpp.csts :=
  (assignment_constraint one_unit_env chain3_graph chain3_state 0 2 (by decide) (by decide)
    (by decide)).1

theorem mem_down_from (n i : Nat) : i ∈ down_from n ↔ i < n := by
  unfold down_from
  rw [List.mem_reverse, List.mem_range]

theorem resource_cst_mem (env : be_ilpsched_env_t) (st : ilp_state) (block tp t : Nat)
    (htp : tp < env.cpu.n_unit_types) (ht : t < (st.ph.ba block).max_steps) :
    lpp_cst.mk (ilp_name.resource_cst tp t) lpp_cst_t.lpp_less
        (((env.cpu.unit_types.getD tp { n_units := 0 }).n_units : Nat) : Int)
        (bulk ((st.ph.ba block).head_ilp_nodes.filterMap (resource_var st tp t)) 1) ∈
      (create_ressource_constraints env st block).lpp.csts := by
  unfold create_ressource_constraints
  apply foldl_cst_mem _
    (fun l _ => foldl_extends _ (fun _ _ => lpp_add_cst_extends _ _ _ _ _) _ l) _ tp
    ((mem_down_from _ _).mpr htp)
  intro l
  apply foldl_cst_mem _ (fun _ _ => lpp_add_cst_extends _ _ _ _ _) _ t (List.mem_range.mpr ht)
  intro l2
  exact lpp_add_cst_mem _ _ _ _ _

theorem resource_var_congr (s1 s2 : ilp_state) (h1 : s1.ph = s2.ph) (h2 : s1.ia = s2.ia) :
    resource_var s1 = resource_var s2 := by
  funext tp t irn
  unfold resource_var
  rw [h1, h2]

theorem u32_sub_one (a : Nat) (h1 : 1 ≤ a) (h2 : a < 2 ^ 32) : u32_sub a 1 = a - 1 := by
  unfold u32_sub
  omega

theorem nodup_getD_inj {α : Type} (l : List α) (d : α) (hn : l.Nodup) (i j : Nat)
    (hi : i < l.length) (hj : j < l.length) (e : l.getD i d = l.getD j d) : i = j := by
  rw [List.getD_eq_getElem _ _ hi, List.getD_eq_getElem _ _ hj] at e
  exact (List.Nodup.getElem_inj_iff hn).mp e

theorem is_valid_unit_type_unique (ia : ilp_node_attr_t) (tp u : Nat)
    (hlen : ia.type_info.length = ia.n_unit_types)
    (hnd : (ia.type_info.map fun i => i.tp).Nodup) (hu : u < ia.n_unit_types)
    (htp : (ia.type_info.getD u { tp := 0, n_units := 0 }).tp = tp) :
    is_valid_unit_type_for_node tp ia = some u := by
  unfold is_valid_unit_type_for_node
  cases hf : (down_from ia.n_unit_types).find?
      (fun i => decide ((ia.type_info.getD i { tp := 0, n_units := 0 }).tp = tp)) with
  | none =>
    have := List.find?_eq_none.mp hf u ((mem_down_from _ _).mpr hu)
    simp only [decide_eq_true_eq] at this
    exact absurd htp this
  | some w =>
    have hw := (mem_down_from _ _).mp (List.mem_of_find?_eq_some hf)
    have hp := List.find?_some hf
    simp only [decide_eq_true_eq] at hp
    have e : (ia.type_info.map fun i => i.tp).getD w 0 =
        (ia.type_info.map fun i => i.tp).getD u 0 := by
      rw [List.getD_eq_getElem _ _ (by rw [List.length_map, hlen]; exact hw),
        List.getD_eq_getElem _ _ (by rw [List.length_map, hlen]; exact hu),
        List.getElem_map, List.getElem_map]
      rw [List.getD_eq_getElem _ _ (by rw [hlen]; exact hw)] at hp
      rw [List.getD_eq_getElem _ _ (by rw [hlen]; exact hu)] at htp
      rw [hp, htp]
    rw [nodup_getD_inj _ 0 hnd w u (by rw [List.length_map, hlen]; exact hw)
      (by rw [List.length_map, hlen]; exact hu) e]

theorem nodes_length_le_true_vars (S : List Nat) (hS : S.Nodup) (x : Nat → List Int)
    (vfun : Nat → Int) (V : List Int) (sol : Int → Bool)
    (hdis : ∀ n ∈ S, ∀ m ∈ S, n ≠ m → ∀ v ∈ x n, v ∉ x m)
    (hv : ∀ n ∈ S, vfun n ∈ x n ∧ vfun n ∈ V ∧ sol (vfun n) = true) :
    S.length ≤ (V.dedup.filter sol).length := by
  have hn : (S.map vfun).Nodup := by
    apply List.Nodup.map_on _ hS
    intro n hn m hm e
    by_contra hne
    exact hdis n hn m hm hne (vfun n) (hv n hn).1 (e ▸ (hv m hm).1)
  have := true_vars_length_le V (S.map vfun) sol hn (by
    intro v hv2
    obtain ⟨n, hn2, rfl⟩ := List.mem_map.mp hv2
    exact ⟨(hv n hn2).2.1, (hv n hn2).2.2⟩)
  rwa [List.length_map] at this

theorem resource_var_of_scheduled (F : ilp_state) (sol : Int → Bool) (n tp t k : Nat)
    (hk : (F.ia n).n_unit_types = k) (hti : (F.ia n).type_info.length = k)
    (hnd : ((F.ia n).type_info.map fun i => i.tp).Nodup) (hw : window_ok (F.ph.na n) k)
    (hxl : (F.ia n).ilp_vars.x.length = k * ((F.ph.na n).alap - (F.ph.na n).asap + 1))
    (hs : scheduled_on F sol n tp t = true) :
    ∃ v, resource_var F tp t n = some v ∧ v ∈ (F.ia n).ilp_vars.x ∧ sol v = true := by
  unfold scheduled_on at hs
  rw [Bool.and_eq_true, decide_eq_true_eq, List.any_eq_true] at hs
  obtain ⟨⟨w1, w2⟩, u, hu, hp⟩ := hs
  rw [List.mem_range, hk] at hu
  rw [Bool.and_eq_true, decide_eq_true_eq] at hp
  have h1 := hw.1
  have h2 := hw.2.1
  have h3 := hw.2.2.1
  have hv := is_valid_unit_type_unique (F.ia n) tp u (by rw [hti, hk]) hnd (by rw [hk]; exact hu) hp.1
  refine ⟨arr_get (F.ia n).ilp_vars.x (ILPVAR_IDX (F.ph.na n) u t), ?_, ?_, hp.2⟩
  · unfold resource_var
    simp only [hv]
    rw [u32_sub_one _ h1 (by omega), u32_sub_one _ (by omega) h3, if_pos (by omega)]
  · apply arr_get_mem
    rw [hxl]
    exact ILPVAR_IDX_lt _ _ hw u t hu (by omega) (by omega)

/-- C14 (resource legality). Let the interesting nodes of a block be listed once, have
valid windows, and list every allowed unit type once. Every 0/1 assignment that
satisfies the resource constraints of the linear program that `create_ilp` builds
(nothing is assumed about the other constraints) has, for every unit type of the
machine and every step `t + 1` with `t < max_steps`, at most `n_units` nodes
placed on that type at that step; in particular two nodes placed at the same step
on a type with one unit are the same node: operations that are eligible only for
such a type get pairwise different steps. -/
theorem resource_legality (env : be_ilpsched_env_t) (g : ir_graph) (st : ilp_state) (block : Nat)
    (sol : Int → Bool) (hnd : (st.ph.ba block).head_ilp_nodes.Nodup)
    (hwin : ∀ n ∈ (st.ph.ba block).head_ilp_nodes, window_ok (st.ph.na n) (g n).execunits.length)
    (htypes : ∀ n ∈ (st.ph.ba block).head_ilp_nodes,
      ((g n).execunits.map fun units => (units.getD 0 { tp := 0, is_dummy := false }).tp).Nodup)
    (hsol : (build_ilp env g st block).lpp.holds_where ilp_name.is_resource_cst sol = true) :
    (∀ tp t, tp < env.cpu.n_unit_types → t < (st.ph.ba block).max_steps →
        ((st.ph.ba block).head_ilp_nodes.filter fun n =>
          scheduled_on (build_ilp env g st block) sol n tp t).length ≤
          (env.cpu.unit_types.getD tp { n_units := 0 }).n_units) ∧
      (∀ tp t n1 n2, tp < env.cpu.n_unit_types → t < (st.ph.ba block).max_steps →
        (env.cpu.unit_types.getD tp { n_units := 0 }).n_units = 1 →
        n1 ∈ (st.ph.ba block).head_ilp_nodes → n2 ∈ (st.ph.ba block).head_ilp_nodes →
        scheduled_on (build_ilp env g st block) sol n1 tp t = true →
        scheduled_on (build_ilp env g st block) sol n2 tp t = true → n1 = n2) := by
  have main : ∀ tp t, tp < env.cpu.n_unit_types → t < (st.ph.ba block).max_steps →
        ((st.ph.ba block).head_ilp_nodes.filter fun n =>
          scheduled_on (build_ilp env g st block) sol n tp t).length ≤
          (env.cpu.unit_types.getD tp { n_units := 0 }).n_units := by
    intro tp t htp ht
    obtain ⟨b1, b2, _, b4, _⟩ := build_ilp_spec env g st block
    obtain ⟨p1, p2, p3, p4⟩ := ilp_tables env g st block hnd
    have hph := ilp_with_variables_ph env g st block hnd
    have hmem := b4 _ (resource_cst_mem env (ilp_with_precedence env g st block) block tp t htp
      (by rw [(ilp_with_precedence_frame env g st block).1, hph]; exact ht))
    rw [resource_var_congr (ilp_with_precedence env g st block) (build_ilp env g st block)
      (b1.symm ▸ (ilp_with_precedence_frame env g st block).1)
      (b2.symm ▸ (ilp_with_precedence_frame env g st block).2),
      (ilp_with_precedence_frame env g st block).1, hph] at hmem
    have hh := holds_less_bulk _ _ rfl rfl sol (holds_where_holds _ _ sol hsol _ hmem rfl)
    have hle := nodes_length_le_true_vars
      ((st.ph.ba block).head_ilp_nodes.filter fun n =>
        scheduled_on (build_ilp env g st block) sol n tp t)
      (hnd.filter _) (fun n => ((build_ilp env g st block).ia n).ilp_vars.x)
      (fun n => (resource_var (build_ilp env g st block) tp t n).getD 0)
      ((st.ph.ba block).head_ilp_nodes.filterMap (resource_var (build_ilp env g st block) tp t))
      sol
      (by
        intro n hn m hm hne
        have hn2 := (List.mem_filter.mp hn).1
        have hm2 := (List.mem_filter.mp hm).1
        exact p4 n hn2 m hm2 hne (hwin n hn2) (hwin m hm2))
      (by
        intro n hn
        obtain ⟨hn2, hs⟩ := List.mem_filter.mp hn
        obtain ⟨q1, q2, _⟩ := p2 n hn2
        obtain ⟨v, e, hv, hsv⟩ := resource_var_of_scheduled (build_ilp env g st block) sol n tp t
          (g n).execunits.length q1 (by rw [q2, List.length_map])
          (by rw [q2, List.map_map]; exact htypes n hn2)
          (by rw [p1]; exact hwin n hn2)
          (by rw [p1]; exact (p3 n hn2 (hwin n hn2)).1) hs
        dsimp only
        rw [e]
        exact ⟨hv, List.mem_filterMap.mpr ⟨n, hn2, e⟩, hsv⟩)
    have : ((List.filter (fun n => scheduled_on (build_ilp env g st block) sol n tp t)
        (st.ph.ba block).head_ilp_nodes).length : Int) ≤
        ((env.cpu.unit_types.getD tp { n_units := 0 }).n_units : Int) :=
      le_trans (by exact_mod_cast hle) hh
    exact_mod_cast this
  refine ⟨main, ?_⟩
  intro tp t n1 n2 htp ht hone hn1 hn2 hs1 hs2
  by_contra hne
  have h2 : ([n1, n2] : List Nat).length ≤
      ((st.ph.ba block).head_ilp_nodes.filter fun n =>
        scheduled_on (build_ilp env g st block) sol n tp t).length := by
    apply List.Subperm.length_le
    apply List.subperm_of_subset (by simp [hne])
    intro v hv
    simp only [List.mem_cons, List.mem_singleton, List.not_mem_nil, or_false] at hv
    rcases hv with rfl | rfl
    · exact List.mem_filter.mpr ⟨hn1, hs1⟩
    · exact List.mem_filter.mpr ⟨hn2, hs2⟩
  have h3 := main tp t htp ht
  rw [hone] at h3
  simp only [List.length_cons, List.length_nil] at h2
  omega

/-- Witness for C14: the three operations of `three_ops_graph`, which are allowed on
the unit type 0 (one unit) only, under the solution `three_ops_sol`; and the
linear program of `used_kept_graph`, which has no solution, under
`used_kept_assignment`, which satisfies its resource constraints and puts the
operation 1 on the unit type 0 at the first step. -/
theorem resource_legality_witness :
    ((three_ops_state.ph.ba 0).head_ilp_nodes.filter fun n =>
      scheduled_on (build_ilp two_types_env three_ops_graph three_ops_state 0) three_ops_sol
        n 0 1).length ≤ (two_types_env.cpu.unit_types.getD 0 { n_units := 0 }).n_units ∧
      (build_ilp one_unit_env used_kept_graph used_kept_state 0).lpp.is_sol used_kept_assignment
        = false ∧
      ((used_kept_state.ph.ba 0).head_ilp_nodes.filter fun n =>
        scheduled_on (build_ilp one_unit_env used_kept_graph used_kept_state 0)
          used_kept_assignment n 0 0) = [1] ∧
      ((used_kept_state.ph.ba 0).head_ilp_nodes.filter fun n =>
        scheduled_on (build_ilp one_unit_env used_kept_graph used_kept_state 0)
          used_kept_assignment n 0 0).length ≤
        (one_unit_env.cpu.unit_types.getD 0 { n_units := 0 }).n_units :=
  ⟨(resource_legality two_types_env three_ops_graph three_ops_state 0 three_ops_sol (by decide)
      (by decide) (by decide) (by decide)).1 0 1 (by decide) (by decide),
    by decide, by decide,
    (resource_legality one_unit_env used_kept_graph used_kept_state 0 used_kept_assignment
      (by decide) (by decide) (by decide) (by decide)).1 0 0 (by decide) (by decide)⟩

theorem bundle_cst_mem (env : be_ilpsched_env_t) (g : ir_graph) (st : ilp_state) (block t : Nat)
    (ht : t < (st.ph.ba block).max_steps) :
    lpp_cst.mk (ilp_name.bundle_cst t) lpp_cst_t.lpp_less
        ((u32 (env.cpu.bundle_size * env.cpu.bundels_per_cycle) : Nat) : Int)
        (bulk ((st.ph.ba block).head_ilp_nodes.flatMap (bundle_vars g st t)) 1) ∈
      (create_bundle_constraints env g st block).lpp.csts := by
  unfold create_bundle_constraints
  apply foldl_cst_mem _ (fun _ _ => lpp_add_cst_extends _ _ _ _ _) _ t (List.mem_range.mpr ht)
  intro l2
  exact lpp_add_cst_mem _ _ _ _ _

theorem bundle_vars_congr (g : ir_graph) (s1 s2 : ilp_state) (h1 : s1.ph = s2.ph)
    (h2 : s1.ia = s2.ia) : bundle_vars g s1 = bundle_vars g s2 := by
  funext t irn
  unfold bundle_vars
  rw [h1, h2]

theorem x_vars_mem (na : ilpsched_node_attr_t) (ia : ilp_node_attr_t) (ts : List Nat) (v : Int) :
    v ∈ x_vars na ia ts ↔
      ∃ u t, u < ia.n_unit_types ∧ t ∈ ts ∧ v = arr_get ia.ilp_vars.x (ILPVAR_IDX na u t) := by
  unfold x_vars
  rw [List.mem_flatMap]
  constructor
  · rintro ⟨u, hu, hv⟩
    obtain ⟨t, ht, e⟩ := List.mem_map.mp hv
    exact ⟨u, t, (mem_down_from _ _).mp hu, ht, e.symm⟩
  · rintro ⟨u, t, hu, ht, e⟩
    exact ⟨u, (mem_down_from _ _).mpr hu, List.mem_map.mpr ⟨t, ht, e.symm⟩⟩

theorem bundle_var_of_issued (g : ir_graph) (F : ilp_state) (sol : Int → Bool) (n t k : Nat)
    (hk : (F.ia n).n_unit_types = k) (hw : window_ok (F.ph.na n) k)
    (hxl : (F.ia n).ilp_vars.x.length = k * ((F.ph.na n).alap - (F.ph.na n).asap + 1))
    (hp : (g n).is_Proj = false) (hkp : (g n).is_Keep = false)
    (hd : (F.ia n).is_dummy_node = false) (hs : issued_at F sol n t = true) :
    ∃ v, v ∈ bundle_vars g F t n ∧ v ∈ (F.ia n).ilp_vars.x ∧ sol v = true := by
  unfold issued_at at hs
  rw [Bool.and_eq_true, decide_eq_true_eq, List.any_eq_true] at hs
  obtain ⟨⟨w1, w2⟩, u, hu, hp2⟩ := hs
  rw [List.mem_range] at hu
  have h1 := hw.1
  have h2 := hw.2.1
  have h3 := hw.2.2.1
  refine ⟨arr_get (F.ia n).ilp_vars.x (ILPVAR_IDX (F.ph.na n) u t), ?_, ?_, hp2⟩
  · unfold bundle_vars
    simp only [hp, hkp, hd, Bool.or_self, Bool.false_eq_true, if_false]
    rw [u32_sub_one _ h1 (by omega), u32_sub_one _ (by omega) h3, if_pos (by omega)]
    exact (x_vars_mem _ _ _ _).mpr ⟨u, t, hu, List.mem_singleton_self t, rfl⟩
  · apply arr_get_mem
    rw [hxl]
    exact ILPVAR_IDX_lt _ _ hw u t (hk ▸ hu) (by omega) (by omega)

/-- C15, as stated, fails: in the linear program of `kept_value_graph` on a machine
with an issue width of 1 the solution `kept_value_sol` satisfies all constraints
and issues two nodes that have no dummy unit at step 2, the Keep 2 and the
operation 3; the bundle constraints do not count the Keep. -/
theorem issue_width_counterexample :
    (build_ilp narrow_issue_env kept_value_graph kept_value_state 0).lpp.is_sol kept_value_sol =
        true ∧
      ((kept_value_state.ph.ba 0).head_ilp_nodes.filter fun n =>
        !((build_ilp narrow_issue_env kept_value_graph kept_value_state 0).ia n).is_dummy_node &&
          issued_at (build_ilp narrow_issue_env kept_value_graph kept_value_state 0)
            kept_value_sol n 1) = [3, 2] ∧
      u32 (narrow_issue_env.cpu.bundle_size * narrow_issue_env.cpu.bundels_per_cycle) = 1 := by
  decide

/-- C15 as amended (issue width). Let the interesting nodes of a block be listed once
and have valid windows. Every 0/1 assignment that satisfies the bundle constraints
of the linear program that `create_ilp` builds (nothing is assumed about the other
constraints) issues, at every step `t + 1` with `t < max_steps`, at most
`bundle_size * bundles_per_cycle` nodes, counting the nodes that are neither Proj
nor Keep and have no dummy unit among their allowed units. -/
theorem issue_width (env : be_ilpsched_env_t) (g : ir_graph) (st : ilp_state) (block : Nat)
    (sol : Int → Bool) (t : Nat) (hnd : (st.ph.ba block).head_ilp_nodes.Nodup)
    (hwin : ∀ n ∈ (st.ph.ba block).head_ilp_nodes, window_ok (st.ph.na n) (g n).execunits.length)
    (hsol : (build_ilp env g st block).lpp.holds_where ilp_name.is_bundle_cst sol = true)
    (ht : t < (st.ph.ba block).max_steps) :
    ((st.ph.ba block).head_ilp_nodes.filter fun n =>
      !(g n).is_Proj && !(g n).is_Keep && !((build_ilp env g st block).ia n).is_dummy_node &&
        issued_at (build_ilp env g st block) sol n t).length ≤
      u32 (env.cpu.bundle_size * env.cpu.bundels_per_cycle) := by
  obtain ⟨b1, b2, _, _, b5⟩ := build_ilp_spec env g st block
  obtain ⟨p1, p2, p3, p4⟩ := ilp_tables env g st block hnd
  have hph := ilp_with_variables_ph env g st block hnd
  have hmem := b5 _ (bundle_cst_mem env g (ilp_with_ressource env g st block) block t
    (by rw [(ilp_with_ressource_frame env g st block).1, hph]; exact ht))
  rw [bundle_vars_congr g (ilp_with_ressource env g st block) (build_ilp env g st block)
    (b1.symm ▸ (ilp_with_ressource_frame env g st block).1)
    (b2.symm ▸ (ilp_with_ressource_frame env g st block).2),
    (ilp_with_ressource_frame env g st block).1, hph] at hmem
  have hh := holds_less_bulk _ _ rfl rfl sol (holds_where_holds _ _ sol hsol _ hmem rfl)
  have key : ∀ n ∈ (st.ph.ba block).head_ilp_nodes.filter (fun n =>
      !(g n).is_Proj && !(g n).is_Keep && !((build_ilp env g st block).ia n).is_dummy_node &&
        issued_at (build_ilp env g st block) sol n t),
      ∃ v, v ∈ bundle_vars g (build_ilp env g st block) t n ∧
        v ∈ ((build_ilp env g st block).ia n).ilp_vars.x ∧ sol v = true := by
    intro n hn
    obtain ⟨hn2, hs⟩ := List.mem_filter.mp hn
    simp only [Bool.and_eq_true, Bool.not_eq_true'] at hs
    obtain ⟨⟨⟨s1, s2⟩, s3⟩, s4⟩ := hs
    exact bundle_var_of_issued g (build_ilp env g st block) sol n t (g n).execunits.length
      (p2 n hn2).1 (by rw [p1]; exact hwin n hn2)
      (by rw [p1]; exact (p3 n hn2 (hwin n hn2)).1) s1 s2 s3 s4
  have hle := nodes_length_le_true_vars
    ((st.ph.ba block).head_ilp_nodes.filter fun n =>
      !(g n).is_Proj && !(g n).is_Keep && !((build_ilp env g st block).ia n).is_dummy_node &&
        issued_at (build_ilp env g st block) sol n t)
    (hnd.filter _) (fun n => ((build_ilp env g st block).ia n).ilp_vars.x)
    (fun n => ((bundle_vars g (build_ilp env g st block) t n).find? sol).getD 0)
    ((st.ph.ba block).head_ilp_nodes.flatMap (bundle_vars g (build_ilp env g st block) t))
    sol
    (by
      intro n hn m hm hne
      have hn2 := (List.mem_filter.mp hn).1
      have hm2 := (List.mem_filter.mp hm).1
      exact p4 n hn2 m hm2 hne (hwin n hn2) (hwin m hm2))
    (by
      intro n hn
      obtain ⟨v, hv1, _, hv3⟩ := key n hn
      have hn2 := (List.mem_filter.mp hn).1
      dsimp only
      cases hf : (bundle_vars g (build_ilp env g st block) t n).find? sol with
      | none => exact absurd hv3 (by simpa using List.find?_eq_none.mp hf v hv1)
      | some w =>
        have hw1 := List.mem_of_find?_eq_some hf
        have hw2 := List.find?_some hf
        refine ⟨?_, List.mem_flatMap.mpr ⟨n, hn2, hw1⟩, hw2⟩
        have hs := (List.mem_filter.mp hn).2
        simp only [Bool.and_eq_true, Bool.not_eq_true'] at hs
        obtain ⟨⟨⟨s1, s2⟩, s3⟩, s4⟩ := hs
        unfold bundle_vars at hw1
        simp only [s1, s2, s3, Bool.or_self, Bool.false_eq_true, if_false] at hw1
        split_ifs at hw1 with hcond
        · obtain ⟨u, t2, hu, ht2, e⟩ := (x_vars_mem _ _ _ _).mp hw1
          rw [List.mem_singleton] at ht2
          subst ht2
          have hw := hwin n hn2
          rw [← p1] at hw
          have h1 := hw.1
          have h2 := hw.2.1
          have h3 := hw.2.2.1
          rw [u32_sub_one _ h1 (by omega), u32_sub_one _ (by omega) h3] at hcond
          show w ∈ _
          rw [e]
          apply arr_get_mem
          rw [(p3 n hn2 (hwin n hn2)).1, ← p1]
          exact ILPVAR_IDX_lt _ _ hw u t2 ((p2 n hn2).1 ▸ hu) hcond.1 hcond.2
        · simp at hw1)
  have : ((List.filter (fun n =>
      !(g n).is_Proj && !(g n).is_Keep && !((build_ilp env g st block).ia n).is_dummy_node &&
        issued_at (build_ilp env g st block) sol n t)
      (st.ph.ba block).head_ilp_nodes).length : Int) ≤
      ((u32 (env.cpu.bundle_size * env.cpu.bundels_per_cycle) : Nat) : Int) :=
    le_trans (by exact_mod_cast hle) hh
  exact_mod_cast this

/-- Witness for C15 as amended: step 2 of `kept_value_graph` under `kept_value_sol`;
and the linear program of `used_kept_graph`, which has no solution, under
`used_kept_assignment`, which satisfies its bundle constraints and issues the
operation 1 at the first step. -/
theorem issue_width_witness :
    ((kept_value_state.ph.ba 0).head_ilp_nodes.filter fun n =>
      !(kept_value_graph n).is_Proj && !(kept_value_graph n).is_Keep &&
        !((build_ilp narrow_issue_env kept_value_graph kept_value_state 0).ia n).is_dummy_node &&
        issued_at (build_ilp narrow_issue_env kept_value_graph kept_value_state 0)
          kept_value_sol n 1).length ≤
      u32 (narrow_issue_env.cpu.bundle_size * narrow_issue_env.cpu.bundels_per_cycle) ∧
      (build_ilp one_unit_env used_kept_graph used_kept_state 0).lpp.is_sol used_kept_assignment
        = false ∧
      ((used_kept_state.ph.ba 0).head_ilp_nodes.filter fun n =>
        !(used_kept_graph n).is_Proj && !(used_kept_graph n).is_Keep &&
          !((build_ilp one_unit_env used_kept_graph used_kept_state 0).ia n).is_dummy_node &&
          issued_at (build_ilp one_unit_env used_kept_graph used_kept_state 0)
            used_kept_assignment n 0) = [1] ∧
      ((used_kept_state.ph.ba 0).head_ilp_nodes.filter fun n =>
        !(used_kept_graph n).is_Proj && !(used_kept_graph n).is_Keep &&
          !((build_ilp one_unit_env used_kept_graph used_kept_state 0).ia n).is_dummy_node &&
          issued_at (build_ilp one_unit_env used_kept_graph used_kept_state 0)
            used_kept_assignment n 0).length ≤
        u32 (one_unit_env.cpu.bundle_size * one_unit_env.cpu.bundels_per_cycle) :=
  ⟨issue_width narrow_issue_env kept_value_graph kept_value_state 0 kept_value_sol 1 (by decide)
      (by decide) (by decide) (by decide),
    by decide, by decide,
    issue_width one_unit_env used_kept_graph used_kept_state 0 used_kept_assignment 0 (by decide)
      (by decide) (by decide) (by decide)⟩

theorem mem_steps_le (lo hi t : Nat) : t ∈ steps_le lo hi ↔ lo ≤ t ∧ t ≤ hi := by
  unfold steps_le
  rw [List.mem_range'_1]
  omega

theorem mem_steps_lt (lo hi t : Nat) : t ∈ steps_lt lo hi ↔ lo ≤ t ∧ t < hi := by
  unfold steps_lt
  rw [List.mem_range'_1]
  omega

theorem create_precedence_pred_fold_mem (g : ir_graph) (st : ilp_state) (block irn p : Nat)
    (hphi : (g p).is_Phi = false) (hblk : (g p).block = block) (hnm : (g p).is_NoMem = false)
    (t : Nat) (c : lpp_cst)
    (ht : t ∈ steps_le
      (u32_sub (max (st.ph.na irn).asap
        (u32_sub (u32 ((st.ph.na p).asap + u32 (fixed_latency g p))) 1)) 1)
      (u32_sub (min (st.ph.na irn).alap
        (u32_sub (u32 ((st.ph.na p).alap + u32 (fixed_latency g p))) 1)) 1))
    (hc : ∀ l, c ∈ (create_precedence_cst st irn p (u32 (fixed_latency g p)) l t).csts)
    (xs : List Nat) : ∀ acc : lpp_t × List Nat,
      (∃ x ∈ xs, skip_normal_Proj g x = p) → (st.ia p).block_idx ∉ acc.2 →
      (∀ x ∈ xs, (g (skip_normal_Proj g x)).is_Phi = false →
        (g (skip_normal_Proj g x)).block = block → (g (skip_normal_Proj g x)).is_NoMem = false →
        (st.ia (skip_normal_Proj g x)).block_idx = (st.ia p).block_idx →
        skip_normal_Proj g x = p) →
      c ∈ (xs.foldl (create_precedence_pred g st block irn) acc).1.csts := by
  induction xs with
  | nil => intro acc ⟨x, hx, _⟩; simp at hx
  | cons x0 xs ih =>
    intro acc hex hbs hinj
    rw [List.foldl_cons]
    have hinj2 := fun x hx => hinj x (List.mem_cons_of_mem _ hx)
    by_cases e0 : skip_normal_Proj g x0 = p
    · apply (create_precedence_pred_fold_extends g st block irn xs _).2.subset
      unfold create_precedence_pred
      simp only [e0, hphi, hblk, hnm, ne_eq, not_true_eq_false, decide_False, Bool.or_self,
        Bool.false_eq_true, if_false, hbs]
      exact foldl_cst_mem _ (create_precedence_cst_extends st irn _ _) _ t ht c hc _
    · have hex2 : ∃ x ∈ xs, skip_normal_Proj g x = p := by
        obtain ⟨x, hx, e⟩ := hex
        rcases List.mem_cons.mp hx with rfl | hx
        · exact absurd e e0
        · exact ⟨x, hx, e⟩
      apply ih _ hex2 _ hinj2
      unfold create_precedence_pred
      simp only
      split_ifs with h1 h2
      · exact hbs
      · exact hbs
      · simp only [List.mem_cons, not_or]
        refine ⟨?_, hbs⟩
        intro e
        simp only [Bool.or_eq_true, decide_eq_true_eq, not_or, Bool.not_eq_true] at h1
        exact e0 (hinj x0 (List.mem_cons_self _ _) h1.1.1 (by
          have := h1.1.2
          simp only [ne_eq, Decidable.not_not] at this
          exact this.symm) h1.2 e.symm)

theorem precedence_cst_mem (env : be_ilpsched_env_t) (g : ir_graph) (st : ilp_state)
    (block n p : Nat) (hn : n ∈ (st.ph.ba block).head_ilp_nodes)
    (hphi : (g p).is_Phi = false) (hblk : (g p).block = block) (hnm : (g p).is_NoMem = false)
    (hedge : p ∈ (in_or_dep g n).map (skip_normal_Proj g))
    (hinj : ∀ q ∈ (in_or_dep g n).map (skip_normal_Proj g), (g q).is_Phi = false →
      (g q).block = block → (g q).is_NoMem = false →
      (st.ia q).block_idx = (st.ia p).block_idx → q = p)
    (t : Nat) (c : lpp_cst)
    (ht : t ∈ steps_le
      (u32_sub (max (st.ph.na n).asap
        (u32_sub (u32 ((st.ph.na p).asap + u32 (fixed_latency g p))) 1)) 1)
      (u32_sub (min (st.ph.na n).alap
        (u32_sub (u32 ((st.ph.na p).alap + u32 (fixed_latency g p))) 1)) 1))
    (hc : ∀ l, c ∈ (create_precedence_cst st n p (u32 (fixed_latency g p)) l t).csts) :
    c ∈ (create_assignment_and_precedence_constraints env g st block).lpp.csts := by
  unfold create_assignment_and_precedence_constraints
  apply foldl_cst_mem _ (create_assignment_and_precedence_node_extends env g st block) _ n hn
  intro l
  unfold create_assignment_and_precedence_node
  simp only
  apply create_precedence_pred_fold_mem g st block n p hphi hblk hnm t c ht hc
  · obtain ⟨x, hx, e⟩ := List.mem_map.mp hedge
    exact ⟨x, List.mem_reverse.mpr hx, e⟩
  · simp
  · intro x hx h1 h2 h3 h4
    exact hinj _ (List.mem_map.mpr ⟨x, List.mem_reverse.mp hx, rfl⟩) h1 h2 h3 h4

theorem precedence_step_exists (an ln ap lp lat tn tp : Nat)
    (h1 : 1 ≤ an) (h2 : an ≤ ln) (h3 : ln < 2 ^ 32) (h4 : 1 ≤ ap) (h5 : ap ≤ lp)
    (h6 : lp + lat < 2 ^ 32) (hfit : ap + lat ≤ ln + 1)
    (hn1 : an ≤ tn + 1) (hn2 : tn + 1 ≤ ln) (hp1 : ap ≤ tp + 1) (hp2 : tp + 1 ≤ lp)
    (hv : tn < tp + lat) :
    ∃ t0, t0 ∈ steps_le (u32_sub (max an (u32_sub (u32 (ap + u32 lat)) 1)) 1)
        (u32_sub (min ln (u32_sub (u32 (lp + u32 lat)) 1)) 1) ∧
      tn ∈ steps_le (u32_sub an 1) t0 ∧
      tp ∈ steps_lt (u32 (u32_sub t0 (u32 lat) + 1)) lp := by
  have e1 : u32 lat = lat := by unfold u32; omega
  have e2 : u32_sub (u32 (ap + lat)) 1 = ap + lat - 1 := by unfold u32 u32_sub; omega
  have e3 : u32_sub (u32 (lp + lat)) 1 = lp + lat - 1 := by unfold u32 u32_sub; omega
  have e4 : u32_sub an 1 = an - 1 := by unfold u32_sub; omega
  rw [e1, e2, e3, e4]
  by_cases hc : ap + lat - 1 ≤ tn + 1
  · refine ⟨tn, ?_, ?_, ?_⟩
    · rw [mem_steps_le]
      have m1 : max an (ap + lat - 1) ≤ tn + 1 := max_le hn1 hc
      have m2 : 1 ≤ max an (ap + lat - 1) := le_trans h1 (le_max_left _ _)
      have m3 : tn + 1 ≤ min ln (lp + lat - 1) := le_min hn2 (by omega)
      have m4 : min ln (lp + lat - 1) ≤ ln := min_le_left _ _
      generalize max an (ap + lat - 1) = A at m1 m2 ⊢
      generalize min ln (lp + lat - 1) = B at m3 m4 ⊢
      unfold u32_sub
      omega
    · rw [mem_steps_le]; omega
    · rw [mem_steps_lt]
      unfold u32 u32_sub
      omega
  · refine ⟨ap + lat - 2, ?_, ?_, ?_⟩
    · rw [mem_steps_le]
      have m1 : max an (ap + lat - 1) = ap + lat - 1 := max_eq_right (by omega)
      have m3 : ap + lat - 1 ≤ min ln (lp + lat - 1) := le_min (by omega) (by omega)
      have m4 : min ln (lp + lat - 1) ≤ ln := min_le_left _ _
      rw [m1]
      generalize min ln (lp + lat - 1) = B at m3 m4 ⊢
      unfold u32_sub
      omega
    · rw [mem_steps_le]; omega
    · rw [mem_steps_lt]
      unfold u32 u32_sub
      omega

theorem two_true_vars_le (vs : List Int) (v1 v2 : Int) (sol : Int → Bool) (hne : v1 ≠ v2)
    (h1 : v1 ∈ vs) (h2 : v2 ∈ vs) (s1 : sol v1 = true) (s2 : sol v2 = true) :
    2 ≤ (vs.dedup.filter sol).length := by
  have := true_vars_length_le vs [v1, v2] sol (by simp [hne]) (by
    intro v hv
    simp only [List.mem_cons, List.mem_singleton, List.not_mem_nil, or_false] at hv
    rcases hv with rfl | rfl
    · exact ⟨h1, s1⟩
    · exact ⟨h2, s2⟩)
  simpa using this

theorem holds_less_bulk_two (c : lpp_cst) (vs : List Int) (hk : c.kind = lpp_cst_t.lpp_less)
    (h : c.factors = bulk vs 1) (hr : c.rhs = 1) (sol : Int → Bool) (hs : c.holds sol = true)
    (v1 v2 : Int) (hne : v1 ≠ v2) (h1 : v1 ∈ vs) (h2 : v2 ∈ vs) (s1 : sol v1 = true)
    (s2 : sol v2 = true) : False := by
  have hh := holds_less_bulk c vs hk h sol hs
  have h3 := two_true_vars_le vs v1 v2 sol hne h1 h2 s1 s2
  rw [hr] at hh
  have : (2 : Int) ≤ 1 := le_trans (by exact_mod_cast h3) hh
  omega

theorem create_variables_block_idx (env : be_ilpsched_env_t) (g : ir_graph) (st : ilp_state)
    (block : Nat) (hnd : (st.ph.ba block).head_ilp_nodes.Nodup) (q : Nat) :
    ((ilp_with_variables env g st block).ia q).block_idx = (st.ia q).block_idx := by
  obtain ⟨_, _, _, _, g5, g6, _, _⟩ :=
    create_variables_fold env g block _ { st with lpp := new_lpp } hnd
  by_cases hq : q ∈ (st.ph.ba block).head_ilp_nodes
  · exact (g6 q hq).2.2
  · exact congrArg ilp_node_attr_t.block_idx (g5 q hq)

/-- C13, as stated, fails: in the linear program of `slow_kept_graph` no precedence
constraint is built for the edge from operation 1 (latency 2) to its Keep 3,
which has the window of operation 1; the solution `slow_kept_sol` satisfies all
constraints and has both at step 1, so `step(1) + latency(1) <= step(3)` fails. -/
theorem precedence_counterexample :
    (build_ilp one_unit_env slow_kept_graph slow_kept_state 0).lpp.is_sol slow_kept_sol = true ∧
      block_preds slow_kept_graph 3 = [1] ∧ fixed_latency slow_kept_graph 1 = 2 ∧
      consider_for_sched slow_kept_graph 1 = true ∧ consider_for_sched slow_kept_graph 3 = true ∧
      solution_step slow_kept_sol (slow_kept_state.ph.na 1)
        ((build_ilp one_unit_env slow_kept_graph slow_kept_state 0).ia 1) = some 0 ∧
      solution_step slow_kept_sol (slow_kept_state.ph.na 3)
        ((build_ilp one_unit_env slow_kept_graph slow_kept_state 0).ia 3) = some 0 ∧
      ((build_ilp one_unit_env slow_kept_graph slow_kept_state 0).lpp.csts.filter fun c =>
        decide (c.name = ilp_name.precedence 1 3 0)) = [] := by
  decide

/-- C13 as amended (schedule legality). Let the interesting nodes of a block be listed
once, and let `p -> n` be a dependency edge of the block between two of them with
valid windows such that the window of `n` reaches the step
`asap(p) + latency(p) - 1`. In every 0/1 assignment that satisfies the assignment
and the precedence constraints of the linear program that `create_ilp` builds
(nothing is assumed about the other constraints), a variable `x` set for `p` and
a variable `x` set for `n` have steps with `step(p) + latency(p) <= step(n)`. -/
theorem precedence_legality (env : be_ilpsched_env_t) (g : ir_graph) (st : ilp_state)
    (block : Nat) (sol : Int → Bool) (n p un tn up tp : Nat)
    (hnd : (st.ph.ba block).head_ilp_nodes.Nodup)
    (hn : n ∈ (st.ph.ba block).head_ilp_nodes) (hp : p ∈ (st.ph.ba block).head_ilp_nodes)
    (hnp : n ≠ p)
    (hwn : window_ok (st.ph.na n) (g n).execunits.length)
    (hwp : window_ok (st.ph.na p) (g p).execunits.length)
    (hphi : (g p).is_Phi = false) (hblk : (g p).block = block) (hnm : (g p).is_NoMem = false)
    (hedge : p ∈ (in_or_dep g n).map (skip_normal_Proj g))
    (hinj : ∀ q ∈ (in_or_dep g n).map (skip_normal_Proj g), (g q).is_Phi = false →
      (g q).block = block → (g q).is_NoMem = false →
      (st.ia q).block_idx = (st.ia p).block_idx → q = p)
    (hov : (st.ph.na p).alap + fixed_latency g p < 2 ^ 32)
    (hfit : (st.ph.na p).asap + fixed_latency g p ≤ (st.ph.na n).alap + 1)
    (hsol : (build_ilp env g st block).lpp.holds_where
      (fun c => c.is_assignment_cst || c.is_precedence_cst) sol = true)
    (hun : un < (g n).execunits.length)
    (hn1 : (st.ph.na n).asap ≤ tn + 1) (hn2 : tn + 1 ≤ (st.ph.na n).alap)
    (hup : up < (g p).execunits.length)
    (hp1 : (st.ph.na p).asap ≤ tp + 1) (hp2 : tp + 1 ≤ (st.ph.na p).alap)
    (hxn : sol (arr_get ((build_ilp env g st block).ia n).ilp_vars.x
      (ILPVAR_IDX (st.ph.na n) un tn)) = true)
    (hxp : sol (arr_get ((build_ilp env g st block).ia p).ilp_vars.x
      (ILPVAR_IDX (st.ph.na p) up tp)) = true) :
    tp + 1 + fixed_latency g p ≤ tn + 1 := by
  by_contra hcon
  have hv : tn < tp + fixed_latency g p := by omega
  obtain ⟨b1, b2, b3, _, _⟩ := build_ilp_spec env g st block
  obtain ⟨p1, p2, p3, p4⟩ := ilp_tables env g st block hnd
  have hph := ilp_with_variables_ph env g st block hnd
  obtain ⟨t0, ht0, htn, htp⟩ := precedence_step_exists (st.ph.na n).asap (st.ph.na n).alap
    (st.ph.na p).asap (st.ph.na p).alap (fixed_latency g p) tn tp hwn.1 hwn.2.1 hwn.2.2.1
    hwp.1 hwp.2.1 hov hfit hn1 hn2 hp1 hp2 hv
  have hvn : arr_get ((build_ilp env g st block).ia n).ilp_vars.x (ILPVAR_IDX (st.ph.na n) un tn) ∈
      x_vars (st.ph.na n) ((build_ilp env g st block).ia n)
        (steps_le (u32_sub (st.ph.na n).asap 1) t0) :=
    (x_vars_mem _ _ _ _).mpr ⟨un, tn, by rw [(p2 n hn).1]; exact hun, htn, rfl⟩
  have hvp : arr_get ((build_ilp env g st block).ia p).ilp_vars.x (ILPVAR_IDX (st.ph.na p) up tp) ∈
      x_vars (st.ph.na p) ((build_ilp env g st block).ia p)
        (steps_lt (u32 (u32_sub t0 (u32 (fixed_latency g p)) + 1)) (st.ph.na p).alap) :=
    (x_vars_mem _ _ _ _).mpr ⟨up, tp, by rw [(p2 p hp).1]; exact hup, htp, rfl⟩
  have hmem := b3 _ (precedence_cst_mem env g (ilp_with_variables env g st block) block n p
    (by rw [hph]; exact hn) hphi hblk hnm hedge
    (by
      intro q hq h1 h2 h3 h4
      rw [create_variables_block_idx env g st block hnd,
        create_variables_block_idx env g st block hnd] at h4
      exact hinj q hq h1 h2 h3 h4)
    t0 _ (by rw [hph]; exact ht0)
    (fun l => lpp_add_cst_mem _ _ _ _ _))
  rw [hph, ← b2] at hmem
  have hxn_mem := arr_get_mem ((build_ilp env g st block).ia n).ilp_vars.x
    (ILPVAR_IDX (st.ph.na n) un tn) (by
      rw [(p3 n hn hwn).1]
      exact ILPVAR_IDX_lt _ _ hwn un tn hun (by omega) (by omega))
  have hxp_mem := arr_get_mem ((build_ilp env g st block).ia p).ilp_vars.x
    (ILPVAR_IDX (st.ph.na p) up tp) (by
      rw [(p3 p hp hwp).1]
      exact ILPVAR_IDX_lt _ _ hwp up tp hup (by omega) (by omega))
  have hne : arr_get ((build_ilp env g st block).ia n).ilp_vars.x (ILPVAR_IDX (st.ph.na n) un tn) ≠
      arr_get ((build_ilp env g st block).ia p).ilp_vars.x (ILPVAR_IDX (st.ph.na p) up tp) :=
    fun e => p4 n hn p hp hnp hwn hwp _ hxn_mem (e ▸ hxp_mem)
  refine holds_less_bulk_two _ _ rfl rfl rfl sol (holds_where_holds _ _ sol hsol _ hmem rfl) _ _ hne ?_ ?_
    hxn hxp
  · split_ifs
    · exact List.mem_append_left _ hvn
    · exact List.mem_append_right _ hvn
  · split_ifs
    · exact List.mem_append_right _ hvp
    · exact List.mem_append_left _ hvp

/-- Witness for C13 as amended: the edge from operation 1 to its Keep 2 in
`kept_value_graph` under `kept_value_steps`, which satisfies the assignment and
the precedence constraints, but not the whole linear program. -/
theorem precedence_legality_witness :
    (build_ilp narrow_issue_env kept_value_graph kept_value_state 0).lpp.is_sol kept_value_steps
        = false ∧
      0 + 1 + fixed_latency kept_value_graph 1 ≤ 1 + 1 :=
  ⟨by decide,
    precedence_legality narrow_issue_env kept_value_graph kept_value_state 0 kept_value_steps
      2 1 0 1 0 0 (by decide) (by decide) (by decide) (by decide) (by decide) (by decide)
      (by decide) (by decide) (by decide) (by decide) (by decide) (by decide) (by decide)
      (by decide) (by decide) (by decide) (by decide) (by decide) (by decide) (by decide)
      (by decide) (by decide)⟩

theorem holds_equal_single (c : lpp_cst) (v : Int) (hk : c.kind = lpp_cst_t.lpp_equal)
    (h : c.factors = bulk [v] 1) (hr : c.rhs = 1) (sol : Int → Bool)
    (hs : c.holds sol = true) : sol v = true := by
  have hh := holds_equal_bulk c [v] hk h sol hs
  rw [hr] at hh
  cases hv : sol v
  · simp [List.filter, hv] at hh
  · rfl

/-- C17 (feasibility by construction) fails on the code: the block of
`used_kept_graph` is acyclic, has three interesting nodes with one allowed unit
type each, and the machine has a unit of its type and an issue width of 1; the
windows are valid, but the Keep 3 has the window `[1, 1]` of the operation 1 it
keeps, so that `assignment_cst_n3`, `assignment_cst_n1` and `precedence_n1_n3_0`
cannot hold together: the linear program has no solution, and `create_ilp` fails
its assertion "ILP solution is not feasible!" for every solver that returns
solutions only. -/
theorem keep_infeasible :
    ((used_kept_state.ph.ba 0).n_interesting_nodes = 3 ∧
      (used_kept_state.ph.ba 0).head_ilp_nodes = [3, 2, 1] ∧
      ([1, 2, 3].map fun n => ((used_kept_state.ph.na n).asap, (used_kept_state.ph.na n).alap)) =
        [(1, 1), (2, 2), (1, 1)]) ∧
      (∀ sol : Int → Bool,
        (build_ilp one_unit_env used_kept_graph used_kept_state 0).lpp.is_sol sol = false) ∧
      (∀ lpp_solve_net : lpp_t → Option (Int → Bool),
        (∀ l sol, lpp_solve_net l = some sol → l.is_sol sol = true) →
        (create_ilp one_unit_env used_kept_graph lpp_solve_net used_kept_state 0).isNone = true) := by
  have hinf : ∀ sol : Int → Bool,
      (build_ilp one_unit_env used_kept_graph used_kept_state 0).lpp.is_sol sol = false := by
    intro sol
    cases hs : (build_ilp one_unit_env used_kept_graph used_kept_state 0).lpp.is_sol sol
    · rfl
    · exfalso
      have m1 : lpp_cst.mk (ilp_name.assignment_cst 3) lpp_cst_t.lpp_equal 1 (bulk [1] 1) ∈
          (build_ilp one_unit_env used_kept_graph used_kept_state 0).lpp.csts := by decide
      have m2 : lpp_cst.mk (ilp_name.assignment_cst 1) lpp_cst_t.lpp_equal 1 (bulk [6] 1) ∈
          (build_ilp one_unit_env used_kept_graph used_kept_state 0).lpp.csts := by decide
      have m3 : lpp_cst.mk (ilp_name.precedence 1 3 0) lpp_cst_t.lpp_less 1 (bulk [1, 6] 1) ∈
          (build_ilp one_unit_env used_kept_graph used_kept_state 0).lpp.csts := by decide
      have s1 := holds_equal_single _ 1 rfl rfl rfl sol (is_sol_holds _ sol hs _ m1)
      have s2 := holds_equal_single _ 6 rfl rfl rfl sol (is_sol_holds _ sol hs _ m2)
      exact holds_less_bulk_two _ [1, 6] rfl rfl rfl sol (is_sol_holds _ sol hs _ m3) 1 6
        (by decide) (by decide) (by decide) s1 s2
  refine ⟨by decide, hinf, ?_⟩
  intro solver hsound
  unfold create_ilp
  rw [if_pos (by decide)]
  cases hsol : solver (build_ilp one_unit_env used_kept_graph used_kept_state 0).lpp with
  | none => simp only [hsol]; rfl
  | some sol =>
    have := hsound _ sol hsol
    rw [hinf sol] at this
    exact absurd this (by decide)

theorem find?_congr_mem {α : Type} (l : List α) (p q : α → Bool) (h : ∀ a ∈ l, p a = q a) :
    l.find? p = l.find? q := by
  induction l with
  | nil => rfl
  | cons a l ih =>
    rw [List.find?_cons, List.find?_cons, h a (List.mem_cons_self _ _),
      ih (fun b hb => h b (List.mem_cons_of_mem _ hb))]

theorem length_flatMap_const {α β : Type} (l : List α) (s : List β) :
    (l.flatMap fun _ => s).length = l.length * s.length := by
  induction l with
  | nil => simp
  | cons a l ih =>
    rw [List.flatMap_cons, List.length_append, ih, List.length_cons]
    ring

theorem solution_step_congr (sol sol2 : Int → Bool) (na : ilpsched_node_attr_t)
    (ia : ilp_node_attr_t)
    (h : ∀ i, i < ia.n_unit_types * (sched_steps na).length →
      sol (arr_get ia.ilp_vars.x i) = sol2 (arr_get ia.ilp_vars.x i)) :
    solution_step sol na ia = solution_step sol2 na ia := by
  unfold solution_step
  congr 1
  apply find?_congr_mem
  intro a ha
  apply h
  have := List.fst_lt_of_mem_enum ha
  rw [length_flatMap_const] at this
  unfold down_from at this
  rwa [List.length_reverse, List.length_range] at this

theorem collect_sched_node_frame (sol : Int → Bool) (acc : ilp_state × List Nat) (irn : Nat) :
    (collect_sched_node sol acc irn).1.ph = acc.1.ph ∧
      ∀ j, ((collect_sched_node sol acc irn).1.ia j).n_unit_types = (acc.1.ia j).n_unit_types ∧
        ((collect_sched_node sol acc irn).1.ia j).ilp_vars = (acc.1.ia j).ilp_vars := by
  unfold collect_sched_node
  cases solution_step sol (acc.1.ph.na irn) (acc.1.ia irn) with
  | none => exact ⟨rfl, fun j => ⟨rfl, rfl⟩⟩
  | some t =>
    refine ⟨rfl, fun j => ?_⟩
    by_cases hj : j = irn
    · subst hj; simp [ilp_state.set_ia]
    · simp [ilp_state.set_ia, hj]

theorem collect_sched_node_fold_congr (sol sol2 : Int → Bool) (l : List Nat) :
    ∀ acc : ilp_state × List Nat,
      (∀ irn ∈ l, ∀ i, i < (acc.1.ia irn).n_unit_types * (sched_steps (acc.1.ph.na irn)).length →
        sol (arr_get (acc.1.ia irn).ilp_vars.x i) = sol2 (arr_get (acc.1.ia irn).ilp_vars.x i)) →
      l.foldl (collect_sched_node sol) acc = l.foldl (collect_sched_node sol2) acc := by
  induction l with
  | nil => intro acc _; rfl
  | cons a l ih =>
    intro acc h
    have e : collect_sched_node sol acc a = collect_sched_node sol2 acc a := by
      unfold collect_sched_node
      rw [solution_step_congr sol sol2 _ _ (h a (List.mem_cons_self _ _))]
    rw [List.foldl_cons, List.foldl_cons, ← e]
    apply ih
    intro irn hirn i hi
    obtain ⟨f1, f2⟩ := collect_sched_node_frame sol acc a
    rw [f1, (f2 irn).1] at hi
    rw [(f2 irn).2]
    exact h irn (List.mem_cons_of_mem _ hirn) i hi

theorem apply_solution_congr (env : be_ilpsched_env_t) (g : ir_graph) (st : ilp_state)
    (sol sol2 : Int → Bool) (block : Nat)
    (h : ∀ irn ∈ (st.ph.ba block).head_ilp_nodes, ∀ i,
      i < (st.ia irn).n_unit_types * (sched_steps (st.ph.na irn)).length →
      sol (arr_get (st.ia irn).ilp_vars.x i) = sol2 (arr_get (st.ia irn).ilp_vars.x i)) :
    apply_solution env g st sol block = apply_solution env g st sol2 block := by
  have e : collect_sched_nodes env st sol block = collect_sched_nodes env st sol2 block := by
    unfold collect_sched_nodes
    simp only
    rw [collect_sched_node_fold_congr sol sol2 _ (st, []) h]
  unfold apply_solution
  rw [e]

theorem apply_solution_small (env : be_ilpsched_env_t) (g : ir_graph) (st : ilp_state)
    (sol sol2 : Int → Bool) (block : Nat) (h : (st.ph.ba block).n_interesting_nodes ≤ 1) :
    apply_solution env g st sol block = apply_solution env g st sol2 block := by
  have e : collect_sched_nodes env st sol block = collect_sched_nodes env st sol2 block := by
    unfold collect_sched_nodes
    simp only
    by_cases h0 : (st.ph.ba block).n_interesting_nodes = 0
    · rw [if_pos h0, if_pos h0]
    · rw [if_neg h0, if_neg h0, if_pos (by omega), if_pos (by omega)]
  unfold apply_solution
  rw [e]

/-- C16 (linear chain scenario). For the block of `chain3_graph` (operations
1 -> 2 -> 3 of latency 1) on a machine with one unit type of one unit, the
analysis gives `max_steps = 3` and the windows `[1, 1]`, `[2, 2]`, `[3, 3]`; the
linear program of `create_ilp` has the solution `chain3_sol`; and for every
solution the step found for the operations 1, 2, 3 is the 0-based step 0, 1, 2 and
the schedule of the block is 1, 2, 3 with these cycles, also as the result of
`create_ilp` for a solver that returns this solution. -/
theorem linear_chain_schedule :
    ((chain3_state.ph.ba 0).max_steps = 3 ∧
      ([1, 2, 3].map fun n => ((chain3_state.ph.na n).asap, (chain3_state.ph.na n).alap)) =
        [(1, 1), (2, 2), (3, 3)]) ∧
      (build_ilp one_unit_env chain3_graph chain3_state 0).lpp.is_sol chain3_sol = true ∧
      (∀ sol : Int → Bool,
        (build_ilp one_unit_env chain3_graph chain3_state 0).lpp.is_sol sol = true →
        ([1, 2, 3].map fun n => solution_step sol (chain3_state.ph.na n)
          ((build_ilp one_unit_env chain3_graph chain3_state 0).ia n)) =
          [some 0, some 1, some 2] ∧
        (apply_solution one_unit_env chain3_graph
          (build_ilp one_unit_env chain3_graph chain3_state 0) sol 0).2 =
          [(1, 0), (2, 1), (3, 2)] ∧
        ∀ lpp_solve_net : lpp_t → Option (Int → Bool),
          lpp_solve_net (build_ilp one_unit_env chain3_graph chain3_state 0).lpp = some sol →
          (create_ilp one_unit_env chain3_graph lpp_solve_net chain3_state 0).map
            ilp_result.sched = some [(1, 0), (2, 1), (3, 2)]) := by
  refine ⟨by decide, by decide, ?_⟩
  intro sol hs
  have m1 : lpp_cst.mk (ilp_name.assignment_cst 1) lpp_cst_t.lpp_equal 1 (bulk [10] 1) ∈
      (build_ilp one_unit_env chain3_graph chain3_state 0).lpp.csts := by decide
  have m2 : lpp_cst.mk (ilp_name.assignment_cst 2) lpp_cst_t.lpp_equal 1 (bulk [5] 1) ∈
      (build_ilp one_unit_env chain3_graph chain3_state 0).lpp.csts := by decide
  have m3 : lpp_cst.mk (ilp_name.assignment_cst 3) lpp_cst_t.lpp_equal 1 (bulk [1] 1) ∈
      (build_ilp one_unit_env chain3_graph chain3_state 0).lpp.csts := by decide
  have s1 := holds_equal_single _ 10 rfl rfl rfl sol (is_sol_holds _ sol hs _ m1)
  have s2 := holds_equal_single _ 5 rfl rfl rfl sol (is_sol_holds _ sol hs _ m2)
  have s3 := holds_equal_single _ 1 rfl rfl rfl sol (is_sol_holds _ sol hs _ m3)
  have hx : ∀ irn ∈ [3, 2, 1], ∀ i,
      i < ((build_ilp one_unit_env chain3_graph chain3_state 0).ia irn).n_unit_types *
        (sched_steps ((build_ilp one_unit_env chain3_graph chain3_state 0).ph.na irn)).length →
      sol (arr_get ((build_ilp one_unit_env chain3_graph chain3_state 0).ia irn).ilp_vars.x i) =
        chain3_sol
          (arr_get ((build_ilp one_unit_env chain3_graph chain3_state 0).ia irn).ilp_vars.x i) := by
    intro irn hirn i hi
    simp only [List.mem_cons, List.mem_singleton, List.not_mem_nil, or_false] at hirn
    rcases hirn with rfl | rfl | rfl
    · have e1 : ((build_ilp one_unit_env chain3_graph chain3_state 0).ia 3).n_unit_types *
          (sched_steps ((build_ilp one_unit_env chain3_graph chain3_state 0).ph.na 3)).length =
          1 := by decide
      have e2 : ((build_ilp one_unit_env chain3_graph chain3_state 0).ia 3).ilp_vars.x = [1] := by
        decide
      rw [e1] at hi
      have e3 : i = 0 := by omega
      rw [e2, e3]
      exact s3.trans (by decide)
    · have e1 : ((build_ilp one_unit_env chain3_graph chain3_state 0).ia 2).n_unit_types *
          (sched_steps ((build_ilp one_unit_env chain3_graph chain3_state 0).ph.na 2)).length =
          1 := by decide
      have e2 : ((build_ilp one_unit_env chain3_graph chain3_state 0).ia 2).ilp_vars.x = [5] := by
        decide
      rw [e1] at hi
      have e3 : i = 0 := by omega
      rw [e2, e3]
      exact s2.trans (by decide)
    · have e1 : ((build_ilp one_unit_env chain3_graph chain3_state 0).ia 1).n_unit_types *
          (sched_steps ((build_ilp one_unit_env chain3_graph chain3_state 0).ph.na 1)).length =
          1 := by decide
      have e2 : ((build_ilp one_unit_env chain3_graph chain3_state 0).ia 1).ilp_vars.x = [10] := by
        decide
      rw [e1] at hi
      have e3 : i = 0 := by omega
      rw [e2, e3]
      exact s1.trans (by decide)
  have hph : ∀ n, (build_ilp one_unit_env chain3_graph chain3_state 0).ph.na n =
      chain3_state.ph.na n := by
    intro n
    rw [(ilp_tables one_unit_env chain3_graph chain3_state 0 (by decide)).1]
  have happ : (apply_solution one_unit_env chain3_graph
      (build_ilp one_unit_env chain3_graph chain3_state 0) sol 0).2 =
      [(1, 0), (2, 1), (3, 2)] := by
    rw [apply_solution_congr one_unit_env chain3_graph _ sol chain3_sol 0 (by
      have e : ((build_ilp one_unit_env chain3_graph chain3_state 0).ph.ba 0).head_ilp_nodes =
          [3, 2, 1] := by decide
      rw [e]
      exact hx)]
    decide
  refine ⟨?_, happ, ?_⟩
  · have c1 := solution_step_congr sol chain3_sol
      ((build_ilp one_unit_env chain3_graph chain3_state 0).ph.na 1)
      ((build_ilp one_unit_env chain3_graph chain3_state 0).ia 1) (hx 1 (by decide))
    have c2 := solution_step_congr sol chain3_sol
      ((build_ilp one_unit_env chain3_graph chain3_state 0).ph.na 2)
      ((build_ilp one_unit_env chain3_graph chain3_state 0).ia 2) (hx 2 (by decide))
    have c3 := solution_step_congr sol chain3_sol
      ((build_ilp one_unit_env chain3_graph chain3_state 0).ph.na 3)
      ((build_ilp one_unit_env chain3_graph chain3_state 0).ia 3) (hx 3 (by decide))
    rw [hph] at c1 c2 c3
    simp only [List.map_cons, List.map_nil, c1, c2, c3]
    decide
  · intro solver hsolver
    unfold create_ilp
    rw [if_pos (by decide)]
    simp only [hsolver, Option.map_some', happ]

theorem refine_asap_alap_times_other (g : ir_graph) (st : ilpsched_phase) (irn j : Nat)
    (h : j ≠ irn ∨ ¬(consider_for_sched g irn = true ∧
      ((g irn).is_Proj = true ∨ (g irn).is_Keep = true))) :
    ((refine_asap_alap_times g st irn).na j).asap = (st.na j).asap ∧
      ((refine_asap_alap_times g st irn).na j).alap = (st.na j).alap := by
  unfold refine_asap_alap_times
  by_cases hc : consider_for_sched g irn = true
  · by_cases hk : (!(g irn).is_Proj && !(g irn).is_Keep) = true
    · simp [hc, hk]
    · have hj : j ≠ irn := by
        rcases h with h | h
        · exact h
        · exfalso
          apply h
          refine ⟨hc, ?_⟩
          cases h1 : (g irn).is_Proj <;> cases h2 : (g irn).is_Keep <;> simp [h1, h2] at hk ⊢
      simp only [hc, hk, Bool.not_true, Bool.false_eq_true, if_false]
      simp only [ilpsched_phase.set_na]
      constructor <;> split_ifs <;> simp_all
  · simp [hc]

theorem refine_asap_alap_times_projkeeps (g : ir_graph) (st : ilpsched_phase) (irn j v : Nat)
    (h : v ∈ (st.na j).projkeeps) : v ∈ ((refine_asap_alap_times g st irn).na j).projkeeps := by
  unfold refine_asap_alap_times
  by_cases hc : consider_for_sched g irn = true
  · by_cases hk : (!(g irn).is_Proj && !(g irn).is_Keep) = true
    · simp only [hc, hk, Bool.not_true, Bool.false_eq_true, if_false, if_true]
      exact h
    · simp only [hc, hk, Bool.not_true, Bool.false_eq_true, if_false]
      simp only [ilpsched_phase.set_na]
      split_ifs <;> simp_all
  · simp only [hc, Bool.not_false, if_true]
    exact h

theorem refine_asap_alap_times_self (g : ir_graph) (st : ilpsched_phase) (k : Nat)
    (hc : consider_for_sched g k = true)
    (hpk : (g k).is_Proj = true ∨ (g k).is_Keep = true) :
    ((refine_asap_alap_times g st k).na k).asap =
        ((refine_asap_alap_times g st k).na
          (skip_Proj g (if (g k).is_Keep then (g k).ins.getD 0 0 else k))).asap ∧
      ((refine_asap_alap_times g st k).na k).alap =
        ((refine_asap_alap_times g st k).na
          (skip_Proj g (if (g k).is_Keep then (g k).ins.getD 0 0 else k))).alap ∧
      k ∈ ((refine_asap_alap_times g st k).na
          (skip_Proj g (if (g k).is_Keep then (g k).ins.getD 0 0 else k))).projkeeps := by
  have hk : ¬((!(g k).is_Proj && !(g k).is_Keep) = true) := by
    rcases hpk with h | h <;> simp [h]
  unfold refine_asap_alap_times
  simp only [hc, hk, Bool.not_true, Bool.false_eq_true, if_false]
  generalize skip_Proj g (if (g k).is_Keep then (g k).ins.getD 0 0 else k) = a
  simp only [ilpsched_phase.set_na]
  by_cases ha : k = a
  · subst ha; simp
  · have ha2 : a ≠ k := fun e => ha e.symm
    simp [ha, ha2]

/-- C11 (structural nodes inherit their window). Let the walk with
`refine_asap_alap_times` visit every node once, and let `k` be a schedulable Proj
or Keep whose ancestor `a` (for a Keep its first operand, with a Proj skipped)
is not refined later in the walk. After the walk `k` has the `asap` and the `alap`
of `a`, and is recorded in the list `projkeeps` of `a`. -/
theorem refine_inherits_window (g : ir_graph) (st : ilpsched_phase) (l1 l3 : List Nat) (k : Nat)
    (hnd : (l1 ++ k :: l3).Nodup)
    (hc : consider_for_sched g k = true)
    (hpk : (g k).is_Proj = true ∨ (g k).is_Keep = true)
    (ha : ∀ x ∈ l3, x = skip_Proj g (if (g k).is_Keep then (g k).ins.getD 0 0 else k) →
      ¬(consider_for_sched g x = true ∧ ((g x).is_Proj = true ∨ (g x).is_Keep = true))) :
    (((l1 ++ k :: l3).foldl (refine_asap_alap_times g) st).na k).asap =
        (((l1 ++ k :: l3).foldl (refine_asap_alap_times g) st).na
          (skip_Proj g (if (g k).is_Keep then (g k).ins.getD 0 0 else k))).asap ∧
      (((l1 ++ k :: l3).foldl (refine_asap_alap_times g) st).na k).alap =
        (((l1 ++ k :: l3).foldl (refine_asap_alap_times g) st).na
          (skip_Proj g (if (g k).is_Keep then (g k).ins.getD 0 0 else k))).alap ∧
      k ∈ (((l1 ++ k :: l3).foldl (refine_asap_alap_times g) st).na
          (skip_Proj g (if (g k).is_Keep then (g k).ins.getD 0 0 else k))).projkeeps := by
  have hk3 : k ∉ l3 := (List.nodup_cons.mp (List.nodup_append.mp hnd).2.1).1
  rw [List.foldl_append, List.foldl_cons]
  have h0 := refine_asap_alap_times_self g (l1.foldl (refine_asap_alap_times g) st) k hc hpk
  generalize refine_asap_alap_times g (l1.foldl (refine_asap_alap_times g) st) k = s2 at h0
  generalize skip_Proj g (if (g k).is_Keep then (g k).ins.getD 0 0 else k) = a at ha h0 ⊢
  clear hnd
  induction l3 generalizing s2 with
  | nil => exact h0
  | cons x l3 ih =>
    rw [List.foldl_cons]
    refine ih (fun h => hk3 (List.mem_cons_of_mem _ h)) _
      (fun y hy => ha y (List.mem_cons_of_mem _ hy)) ?_
    · have hkx : k ≠ x := fun e => hk3 (e ▸ List.mem_cons_self _ _)
      obtain ⟨e1, e2⟩ := refine_asap_alap_times_other g s2 x k (Or.inl hkx)
      obtain ⟨e3, e4⟩ := refine_asap_alap_times_other g s2 x a (by
        by_cases hax : a = x
        · exact Or.inr (ha x (List.mem_cons_self _ _) hax.symm)
        · exact Or.inl hax)
      rw [e1, e2, e3, e4]
      exact ⟨h0.1, h0.2.1, refine_asap_alap_times_projkeeps g s2 x a k h0.2.2⟩

/-- Witness for C11: the Keep 3 of `kept_chain_graph`, visited last by the walk. -/
theorem refine_inherits_window_witness :
    ((([4, 1, 2] ++ 3 :: []).foldl (refine_asap_alap_times kept_chain_graph) init_phase).na
        3).asap =
      ((([4, 1, 2] ++ 3 :: []).foldl (refine_asap_alap_times kept_chain_graph) init_phase).na
        (skip_Proj kept_chain_graph
          (if (kept_chain_graph 3).is_Keep then (kept_chain_graph 3).ins.getD 0 0 else 3))).asap :=
  (refine_inherits_window kept_chain_graph init_phase [4, 1, 2] [] 3 (by decide) (by decide)
    (by decide) (by decide)).1

/-- C19 (materialized order), the tie of two independent operations. In `tie_graph`
on a machine that issues two operations per cycle, `tie_sol` satisfies the linear
program and puts the operations 2 and 3 at step 2; neither depends on the other,
and 3 has the higher latency (3 against 1). The field `latency` that
`cmp_ilpsched_irn` compares holds the latency of the predecessor seen by
`calculate_irn_asap` (2 for node 2, nothing for node 3), and `apply_solution`
puts 2, the operation of lower latency, before 3. -/
theorem latency_tie_break_violated :
    (build_ilp wide_env tie_graph tie_state 0).lpp.is_sol tie_sol ∧
      wide_env.heights_reachable_in_block 2 3 = false ∧
      wide_env.heights_reachable_in_block 3 2 = false ∧
      fixed_latency tie_graph 2 = 1 ∧ fixed_latency tie_graph 3 = 3 ∧
      (tie_state.ph.na 2).latency = 2 ∧ (tie_state.ph.na 3).latency = 0 ∧
      (apply_solution wide_env tie_graph (build_ilp wide_env tie_graph tie_state 0)
        tie_sol 0).2 = [(1, 0), (2, 2), (3, 2)] := by
  refine ⟨by decide, by decide, by decide, by decide, by decide, by decide, by decide, ?_⟩
  decide

theorem add_to_sched_plain (g : ir_graph) (sched : List (Nat × Nat)) (irn cycle : Nat)
    (hM : (g irn).is_mode_M = false) (hT : (g irn).is_mode_T = false)
    (hK : ∀ u ∈ (g irn).outs, (g u).is_Keep = false)
    (hs : sched_is_scheduled sched irn = false) :
    add_to_sched g sched irn cycle = sched ++ [(irn, cycle)] := by
  have hf : ((g irn).outs.filter fun user => (g user).is_Keep) = [] := by
    rw [List.filter_eq_nil_iff]
    intro u hu
    simp [hK u hu]
  unfold add_to_sched
  simp only [hM, hT, hs, check_for_keeps, hf, Bool.false_eq_true, if_false, Bool.not_false,
    if_true, List.append_nil, List.foldl_nil, notified_sched_add_before]

theorem apply_solution_sched (env : be_ilpsched_env_t) (g : ir_graph) (st : ilp_state)
    (sol : Int → Bool) (block : Nat) :
    (apply_solution env g st sol block).2 =
      match (sched_phis g block).2 with
      | some cfop =>
        if !sched_is_scheduled (apply_solution_nodes env g st sol block) cfop then
          add_to_sched g (apply_solution_nodes env g st sol block) cfop 0
        else apply_solution_nodes env g st sol block
      | none => apply_solution_nodes env g st sol block := by
  unfold apply_solution apply_solution_nodes
  dsimp only
  cases (sched_phis g block).2 <;> rfl

/-- C20 (control flow last), as stated. In `branch_graph` the control flow
operation 1 is considered for scheduling; `branch_sol` satisfies the linear
program and places it at step 0, and the schedule of `apply_solution` has the
control flow operation first and the operation 2 last. -/
theorem control_flow_not_last :
    consider_for_sched branch_graph 1 = true ∧
      (build_ilp one_unit_env branch_graph branch_state 0).lpp.is_sol branch_sol = true ∧
      (sched_phis branch_graph 0).2 = some 1 ∧
      (apply_solution one_unit_env branch_graph
        (build_ilp one_unit_env branch_graph branch_state 0) branch_sol 0).2 =
        [(1, 0), (2, 1)] := by
  refine ⟨by decide, by decide, by decide, ?_⟩
  decide

/-- C20 (control flow last), amended. When the control flow operation `cfop` of the
block is not in the schedule after the nodes of the solution are added (a Jmp is
not considered for scheduling), is neither of mode M nor of mode T and has no
Keep, the schedule of `apply_solution` is the schedule of these nodes followed by
`cfop` with cycle 0: the control flow operation is the last element. -/
theorem control_flow_last (env : be_ilpsched_env_t) (g : ir_graph) (st : ilp_state)
    (sol : Int → Bool) (block cfop : Nat)
    (hp : (sched_phis g block).2 = some cfop)
    (hns : sched_is_scheduled (apply_solution_nodes env g st sol block) cfop = false)
    (hM : (g cfop).is_mode_M = false) (hT : (g cfop).is_mode_T = false)
    (hK : ∀ u ∈ (g cfop).outs, (g u).is_Keep = false) :
    (apply_solution env g st sol block).2 =
        apply_solution_nodes env g st sol block ++ [(cfop, 0)] ∧
      (apply_solution env g st sol block).2.getLast? = some (cfop, 0) := by
  have e : (apply_solution env g st sol block).2 =
      apply_solution_nodes env g st sol block ++ [(cfop, 0)] := by
    rw [apply_solution_sched, hp]
    simp only [hns, Bool.not_false, if_true]
    exact add_to_sched_plain g _ cfop 0 hM hT hK hns
  refine ⟨e, ?_⟩
  rw [e, List.getLast?_append]
  rfl

/-- Witness for C20: the Jmp 2 of `single_op_graph` is the last element. -/
theorem control_flow_last_witness :
    (sched_phis single_op_graph 0).2 = some 2 ∧
      (apply_solution one_unit_env single_op_graph single_op_state (fun _ => false) 0).2.getLast? =
        some (2, 0) :=
  ⟨by decide, (control_flow_last one_unit_env single_op_graph single_op_state (fun _ => false) 0 2
    (by decide) (by decide) (by decide) (by decide) (by decide)).2⟩

theorem keeps_fold_mem (g : ir_graph) (cycle : Nat) (keeps : List Nat)
    (hk : ∀ k ∈ keeps, (g k).is_Keep = true) (sched : List (Nat × Nat)) :
    sched <+: keeps.foldl
        (fun sched keep =>
          if !sched_is_scheduled sched keep then notified_sched_add_before sched keep cycle
          else sched) sched ∧
      ∀ p ∈ keeps.foldl
        (fun sched keep =>
          if !sched_is_scheduled sched keep then notified_sched_add_before sched keep cycle
          else sched) sched, p ∈ sched ∨ (g p.1).is_Keep = true := by
  induction keeps generalizing sched with
  | nil => exact ⟨List.prefix_refl _, fun p hp => Or.inl hp⟩
  | cons k ks ih =>
    rw [List.foldl_cons]
    have hks : ∀ k ∈ ks, (g k).is_Keep = true := fun x hx => hk x (List.mem_cons_of_mem _ hx)
    obtain ⟨i1, i2⟩ := ih hks
      (if !sched_is_scheduled sched k then notified_sched_add_before sched k cycle else sched)
    have hpre : sched <+:
        (if !sched_is_scheduled sched k then notified_sched_add_before sched k cycle
          else sched) := by
      split_ifs
      · exact List.prefix_append _ _
      · exact List.prefix_refl _
    refine ⟨hpre.trans i1, ?_⟩
    intro p hp
    rcases i2 p hp with h | h
    · split_ifs at h
      · unfold notified_sched_add_before at h
        rcases List.mem_append.mp h with h | h
        · exact Or.inl h
        · rw [List.mem_singleton] at h
          subst h
          exact Or.inr (hk k (List.mem_cons_self _ _))
      · exact Or.inl h
    · exact Or.inr h

theorem projs_fold_mem (g : ir_graph) (irn cycle : Nat) (hT : (g irn).is_mode_T = true)
    (s0 : List (Nat × Nat)) (l : List Nat) (hl : ∀ u ∈ l, u ∈ (g irn).outs)
    (acc : List (Nat × Nat) × List Nat)
    (h1 : s0 <+: acc.1) (h2 : ∀ p ∈ acc.1, p ∈ s0 ∨ follows_owner g p.1)
    (h3 : ∀ k ∈ acc.2, (g k).is_Keep = true) :
    s0 <+: (l.foldl
        (fun (acc : List (Nat × Nat) × List Nat) user =>
          ((if (g user).to_appear_in_schedule || (g user).is_mode_b then
              notified_sched_add_before acc.1 user cycle
            else acc.1), check_for_keeps g acc.2 user)) acc).1 ∧
      (∀ p ∈ (l.foldl
        (fun (acc : List (Nat × Nat) × List Nat) user =>
          ((if (g user).to_appear_in_schedule || (g user).is_mode_b then
              notified_sched_add_before acc.1 user cycle
            else acc.1), check_for_keeps g acc.2 user)) acc).1, p ∈ s0 ∨ follows_owner g p.1) ∧
      ∀ k ∈ (l.foldl
        (fun (acc : List (Nat × Nat) × List Nat) user =>
          ((if (g user).to_appear_in_schedule || (g user).is_mode_b then
              notified_sched_add_before acc.1 user cycle
            else acc.1), check_for_keeps g acc.2 user)) acc).2, (g k).is_Keep = true := by
  induction l generalizing acc with
  | nil => exact ⟨h1, h2, h3⟩
  | cons u us ih =>
    rw [List.foldl_cons]
    apply ih (fun x hx => hl x (List.mem_cons_of_mem _ hx))
    · dsimp only
      split_ifs
      · exact h1.trans (List.prefix_append _ _)
      · exact h1
    · dsimp only
      intro p hp
      split_ifs at hp with hf
      · unfold notified_sched_add_before at hp
        rcases List.mem_append.mp hp with h | h
        · exact h2 p h
        · rw [List.mem_singleton] at h
          subst h
          exact Or.inr (Or.inr ⟨irn, hT, hl _ (List.mem_cons_self _ _), hf⟩)
      · exact h2 p hp
    · dsimp only
      intro k hk
      unfold check_for_keeps at hk
      rcases List.mem_append.mp hk with h | h
      · exact h3 k h
      · simpa using (List.mem_filter.mp h).2

theorem add_to_sched_mem (g : ir_graph) (sched : List (Nat × Nat)) (irn cycle : Nat) :
    sched <+: add_to_sched g sched irn cycle ∧
      ∀ p ∈ add_to_sched g sched irn cycle, p ∈ sched ∨ p.1 = irn ∨ follows_owner g p.1 := by
  unfold add_to_sched
  by_cases hM : (g irn).is_mode_M = true
  · rw [if_pos hM]
    exact ⟨List.prefix_refl _, fun p hp => Or.inl hp⟩
  · rw [if_neg hM]
    dsimp only
    generalize hs1 : (if (!sched_is_scheduled sched irn) = true then
      notified_sched_add_before sched irn cycle else sched) = s1
    have hpre : sched <+: s1 := by
      rw [← hs1]
      split_ifs
      · exact List.prefix_append _ _
      · exact List.prefix_refl _
    have hmem : ∀ p ∈ s1, p ∈ sched ∨ p.1 = irn := by
      intro p hp
      rw [← hs1] at hp
      split_ifs at hp
      · unfold notified_sched_add_before at hp
        rcases List.mem_append.mp hp with h | h
        · exact Or.inl h
        · rw [List.mem_singleton] at h
          subst h
          exact Or.inr rfl
      · exact Or.inl hp
    by_cases hT : (g irn).is_mode_T = true
    · rw [if_pos hT]
      obtain ⟨f1, f2, f3⟩ := projs_fold_mem g irn cycle hT s1 (g irn).outs (fun u hu => hu)
        (s1, []) (List.prefix_refl _) (fun p hp => Or.inl hp) (fun k hk => by simp at hk)
      obtain ⟨k1, k2⟩ := keeps_fold_mem g cycle _ f3 _
      refine ⟨hpre.trans (f1.trans k1), ?_⟩
      intro p hp
      rcases k2 p hp with h | h
      · rcases f2 p h with h | h
        · rcases hmem p h with h | h
          · exact Or.inl h
          · exact Or.inr (Or.inl h)
        · exact Or.inr (Or.inr h)
      · exact Or.inr (Or.inr (Or.inl h))
    · rw [if_neg hT]
      have f3 : ∀ k ∈ check_for_keeps g [] irn, (g k).is_Keep = true := by
        intro k hk
        unfold check_for_keeps at hk
        rw [List.nil_append] at hk
        simpa using (List.mem_filter.mp hk).2
      obtain ⟨k1, k2⟩ := keeps_fold_mem g cycle _ f3 s1
      refine ⟨hpre.trans k1, ?_⟩
      intro p hp
      rcases k2 p hp with h | h
      · rcases hmem p h with h | h
        · exact Or.inl h
        · exact Or.inr (Or.inl h)
      · exact Or.inr (Or.inr (Or.inl h))

theorem sched_is_scheduled_iff (s : List (Nat × Nat)) (n : Nat) :
    sched_is_scheduled s n = true ↔ n ∈ s.map Prod.fst := by
  unfold sched_is_scheduled
  simp

theorem sched_is_scheduled_prefix (s1 s2 : List (Nat × Nat)) (h : s1 <+: s2) (n : Nat)
    (hn : sched_is_scheduled s1 n = true) : sched_is_scheduled s2 n = true := by
  rw [sched_is_scheduled_iff] at hn ⊢
  obtain ⟨p, hp, e⟩ := List.mem_map.mp hn
  exact List.mem_map.mpr ⟨p, h.subset hp, e⟩

theorem add_to_sched_scheduled (g : ir_graph) (sched : List (Nat × Nat)) (irn cycle : Nat)
    (hM : (g irn).is_mode_M = false) :
    sched_is_scheduled (add_to_sched g sched irn cycle) irn = true := by
  unfold add_to_sched
  rw [if_neg (by simp [hM])]
  dsimp only
  generalize hs1 : (if (!sched_is_scheduled sched irn) = true then
    notified_sched_add_before sched irn cycle else sched) = s1
  have h1 : sched_is_scheduled s1 irn = true := by
    rw [← hs1]
    by_cases hs : sched_is_scheduled sched irn = true
    · rw [if_neg (by simp [hs])]
      exact hs
    · rw [if_pos (by simp [hs])]
      rw [sched_is_scheduled_iff]
      unfold notified_sched_add_before
      simp
  refine sched_is_scheduled_prefix s1 _ ?_ irn h1
  by_cases hT : (g irn).is_mode_T = true
  · rw [if_pos hT]
    obtain ⟨f1, _, f3⟩ := projs_fold_mem g irn cycle hT s1 (g irn).outs (fun u hu => hu)
      (s1, []) (List.prefix_refl _) (fun p hp => Or.inl hp) (fun k hk => by simp at hk)
    exact f1.trans (keeps_fold_mem g cycle _ f3 _).1
  · rw [if_neg hT]
    refine (keeps_fold_mem g cycle _ ?_ _).1
    intro k hk
    unfold check_for_keeps at hk
    rw [List.nil_append] at hk
    simpa using (List.mem_filter.mp hk).2

theorem sched_phis_mem (g : ir_graph) (block : Nat) :
    ∀ p ∈ (sched_phis g block).1, (g p.1).is_Phi = true ∨ follows_owner g p.1 := by
  unfold sched_phis
  have key : ∀ (l : List Nat) (acc : List (Nat × Nat) × Option Nat),
      (∀ p ∈ acc.1, (g p.1).is_Phi = true ∨ follows_owner g p.1) →
      ∀ p ∈ (l.foldl
        (fun (acc : List (Nat × Nat) × Option Nat) irn =>
          if (g irn).is_Phi then (add_to_sched g acc.1 irn 0, acc.2)
          else if (g irn).is_Start || (g irn).is_End || (g irn).is_Proj || (g irn).is_Bad then acc
          else if (g irn).is_cfop then (acc.1, some irn)
          else acc) acc).1, (g p.1).is_Phi = true ∨ follows_owner g p.1 := by
    intro l
    induction l with
    | nil => intro acc h; exact h
    | cons x xs ih =>
      intro acc h
      rw [List.foldl_cons]
      apply ih
      by_cases hP : (g x).is_Phi = true
      · rw [if_pos hP]
        intro p hp
        rcases (add_to_sched_mem g acc.1 x 0).2 p hp with h1 | h1 | h1
        · exact h p h1
        · exact Or.inl (h1 ▸ hP)
        · exact Or.inr h1
      · rw [if_neg hP]
        split_ifs <;> exact h
  exact key _ _ (fun p hp => by simp at hp)

/-- C18 (small-block shortcut), as stated. The block of `single_mem_graph` has
exactly one interesting operation, the node 1 of mode M, which is considered for
scheduling; `create_ilp` builds no linear program and its schedule is the Jmp
alone: the operation is not put into the schedule. -/
theorem single_operation_not_scheduled :
    consider_for_sched single_mem_graph 1 = true ∧
      (single_mem_state.ph.ba 0).n_interesting_nodes = 1 ∧
      (single_mem_state.ph.ba 0).head_ilp_nodes = [1] ∧
      (create_ilp one_unit_env single_mem_graph (fun _ => none) single_mem_state 0).map
        (fun r => (r.lpp.isSome, r.sched)) = some (false, [(2, 0)]) := by
  refine ⟨by decide, by decide, by decide, ?_⟩
  decide

/-- C18 (small-block shortcut), amended. For a block with more than one interesting
node `create_ilp` gives the solver the linear program of `build_ilp` and has a
result exactly when the solver has one. For a block with at most one interesting
node it has a result without a linear program, whose schedule is the one of
`apply_solution` for any solution values whatsoever; with exactly one
interesting node, that node is in the schedule unless it is of mode M; with
none, every scheduled node is a Phi, the control flow operation, a Keep, or a
user of a mode_T node among these that is to appear in the schedule. -/
theorem small_block_shortcut (env : be_ilpsched_env_t) (g : ir_graph)
    (lpp_solve_net : lpp_t → Option (Int → Bool)) (st : ilp_state) (block : Nat) :
    ((st.ph.ba block).n_interesting_nodes > 1 →
      (create_ilp env g lpp_solve_net st block).map ilp_result.lpp =
        (lpp_solve_net (build_ilp env g st block).lpp).map
          fun _ => some (build_ilp env g st block).lpp) ∧
    ((st.ph.ba block).n_interesting_nodes ≤ 1 →
      ∃ r, create_ilp env g lpp_solve_net st block = some r ∧ r.lpp = none ∧
        (∀ sol : Int → Bool, r.sched = (apply_solution env g st sol block).2) ∧
        (∀ n0, (st.ph.ba block).n_interesting_nodes = 1 →
          (st.ph.ba block).head_ilp_nodes.head? = some n0 → (g n0).is_mode_M = false →
          sched_is_scheduled r.sched n0 = true) ∧
        ((st.ph.ba block).n_interesting_nodes = 0 →
          ∀ p ∈ r.sched, (g p.1).is_Phi = true ∨ (sched_phis g block).2 = some p.1 ∨
            follows_owner g p.1)) := by
  constructor
  · intro h
    unfold create_ilp
    rw [if_pos h]
    dsimp only
    cases lpp_solve_net (build_ilp env g st block).lpp <;> rfl
  · intro h
    have hc : create_ilp env g lpp_solve_net st block =
        some { st := (apply_solution env g st (fun _ => false) block).1, lpp := none,
               sched := (apply_solution env g st (fun _ => false) block).2 } := by
      unfold create_ilp
      rw [if_neg (by omega)]
    refine ⟨_, hc, rfl, ?_, ?_, ?_⟩
    · intro sol
      dsimp only
      rw [apply_solution_small env g st sol (fun _ => false) block h]
    · intro n0 h1 hh hM
      dsimp only
      have e : apply_solution_nodes env g st (fun _ => false) block =
          add_to_sched g (sched_phis g block).1 n0 ((st.ia n0).sched_point) := by
        have e1 : collect_sched_nodes env st (fun _ => false) block = (st, [n0]) := by
          unfold collect_sched_nodes
          dsimp only
          rw [if_neg (by omega), if_pos h1]
          cases hl : (st.ph.ba block).head_ilp_nodes with
          | nil => rw [hl] at hh; simp at hh
          | cons a l =>
            rw [hl] at hh
            simp only [List.head?_cons, Option.some.injEq] at hh
            subst hh
            rfl
        unfold apply_solution_nodes
        rw [e1]
        rfl
      have hsn : sched_is_scheduled (apply_solution_nodes env g st (fun _ => false) block) n0 =
          true := by
        rw [e]
        exact add_to_sched_scheduled g _ n0 _ hM
      rw [apply_solution_sched]
      cases (sched_phis g block).2 with
      | none => exact hsn
      | some cfop =>
        dsimp only
        split_ifs
        · exact sched_is_scheduled_prefix _ _ (add_to_sched_mem g _ cfop 0).1 n0 hsn
        · exact hsn
    · intro h0 p hp
      dsimp only at hp
      have e : apply_solution_nodes env g st (fun _ => false) block = (sched_phis g block).1 := by
        have e1 : collect_sched_nodes env st (fun _ => false) block = (st, []) := by
          unfold collect_sched_nodes
          dsimp only
          rw [if_pos h0]
        unfold apply_solution_nodes
        rw [e1]
        rfl
      rw [apply_solution_sched, e] at hp
      have hph := sched_phis_mem g block
      cases hcf : (sched_phis g block).2 with
      | none =>
        rw [hcf] at hp
        rcases hph p hp with h1 | h1
        · exact Or.inl h1
        · exact Or.inr (Or.inr h1)
      | some cfop =>
        rw [hcf] at hp
        dsimp only at hp
        have hp2 : p ∈ (sched_phis g block).1 ∨ p.1 = cfop ∨ follows_owner g p.1 := by
          split_ifs at hp
          · exact (add_to_sched_mem g _ cfop 0).2 p hp
          · exact Or.inl hp
        rcases hp2 with h1 | h1 | h1
        · rcases hph p h1 with h2 | h2
          · exact Or.inl h2
          · exact Or.inr (Or.inr h2)
        · exact Or.inr (Or.inl (by rw [h1]))
        · exact Or.inr (Or.inr h1)

/-- Witness for C18: the block of `single_op_graph` has one interesting node, which
is put into the schedule without a linear program. -/
theorem small_block_shortcut_witness :
    (single_op_state.ph.ba 0).n_interesting_nodes ≤ 1 ∧
      ∃ r, create_ilp one_unit_env single_op_graph (fun _ => none) single_op_state 0 = some r ∧
        r.lpp = none ∧ sched_is_scheduled r.sched 1 = true := by
  refine ⟨by decide, ?_⟩
  obtain ⟨r, h1, h2, _, h4, _⟩ :=
    (small_block_shortcut one_unit_env single_op_graph (fun _ => none) single_op_state 0).2
      (by decide)
  exact ⟨r, h1, h2, h4 1 (by decide) (by decide) (by decide)⟩

/-- C21 (processing order of the global pass) fails on the code for fractional
frequencies: block 2 has the higher execution frequency (3/4 against 1/4), but
`block_freq_gt` returns `(int) 0.5 = 0` and `(int) -0.5 = 0` for the two blocks in
either order, so that the sort does not order them: the sorted array is 1, 2,
and `fix_block_borders` is called for the block of lower frequency first. -/
theorem block_freq_gt_fraction :
    fraction_env.get_block_execfreq 2 > fraction_env.get_block_execfreq 1 ∧
      block_freq_gt fraction_env 2 1 = 0 ∧ block_freq_gt fraction_env 1 2 = 0 ∧
      sort_blocks fraction_env [1, 2] = [1, 2] := by
  with_unfolding_all decide

/-- C22 (global-coordinator safety) fails on the code. In `diamond_env` every block
has a pressure of at most `n_regs = 3` after the local pass. The search for the
Phi 12 of block 5 lets the value 10 and the value 11 live through block 2; both
records saw the pressure 2 of block 2 during the search, and
`materialize_and_commit_end_state` adds 1 for each of them: after `global_assign`
block 2 has the pressure 4. -/
theorem global_pressure_exceeds :
    (∀ bl ∈ [1, 2, 3, 4, 5, 6, 7], (diamond_info bl).pressure ≤ diamond_env.n_regs) ∧
      (global_assign diamond_env 20 [1, 2, 3, 4, 5, 6, 7] diamond_info []).map
        (fun s => [1, 2, 3, 4, 5, 6, 7].map fun bl => (s.bi bl).pressure) =
        some [2, 4, 2, 2, 1, 1, 0] := by
  with_unfolding_all decide

/-- C23 (slot search) fails on the code. Block 7 of `diamond_env` has an empty end
workset, so all three slots are free, and the value 18 is not in it;
`find_slot` gives the slot 0, which the test `slot > 0` rejects:
`can_make_available_at_end` returns `HUGE_VAL` (for every budget of at least one
call), although the costs of a reload at the end of the block are 1. The same
happens with two registers for the value 13 and the full end workset 10, 11 of
block 1, whose entry in slot 0 is older than the search and could be erased. -/
theorem free_slot_zero_rejected :
    (diamond_info 7).ws_end.len = 0 ∧ diamond_env.n_regs = 3 ∧
      find_slot diamond_env.n_regs (2 ^ 32 - 2) (diamond_info 7).ws_end = some 0 ∧
      diamond_env.get_block_execfreq 7 = 1 ∧
      (∀ fuel,
        (can_make_available_at_end diamond_env diamond_info (fuel + 1)
          { (init_global_state diamond_info []).ges with version := 2 ^ 32 - 2 } 7 18).map
          Prod.snd = some double.HUGE_VAL) ∧
      (diamond_info 1).ws_end.irns = [10, 11] ∧
      find_slot 2 (2 ^ 32 - 2) (diamond_info 1).ws_end = some 0 ∧
      ∀ fuel,
        (can_make_available_at_end { diamond_env with n_regs := 2 } diamond_info (fuel + 1)
          { (init_global_state diamond_info []).ges with version := 2 ^ 32 - 2 } 1 13).map
          Prod.snd = some double.HUGE_VAL := by
  refine ⟨by decide, by decide, by decide, by with_unfolding_all decide, ?_, by decide,
    by decide, ?_⟩
  · intro fuel
    with_unfolding_all rfl
  · intro fuel
    with_unfolding_all rfl


/-- C24 (value defined in the block), as stated. The value 10 is defined in block 1
of `diamond_env` and is no Phi; `can_bring_in` returns `HUGE_VAL` for it, not 0. -/
theorem can_bring_in_definition_counterexample :
    diamond_env.get_nodes_block 10 = 1 ∧ diamond_env.is_Phi 10 = false ∧
      (can_bring_in diamond_env diamond_info 20 (init_global_state diamond_info []).ges 1 10).map
        Prod.snd = some double.HUGE_VAL := by
  with_unfolding_all decide

/-- C27 (Phi spilling) fails on the code. In `diamond_env` the Phi 12 of block 5 and
the Phi 17 of block 6 are in the `entrance_reg` of their blocks. The bring-in of 12
succeeds (costs 0, no reload before the first instruction 20 of block 5), and 17
is replaced by a reload before the first instruction 21 of block 6. `global_assign`
tests `bitset_contains_irn(ges.succ_phis, irn)` and calls `be_spill_phi` for 12,
the Phi that arrives in a register, and not for 17. -/
theorem succeeded_phi_spilled :
    (diamond_info 5).entrance_reg.irns = [12] ∧ (diamond_info 6).entrance_reg.irns = [17] ∧
      (global_assign diamond_env 20 [1, 2, 3, 4, 5, 6, 7] diamond_info []).map
        (fun s => (s.reloads, s.ges.succ_phis, s.spilled_phis)) =
        some ([(17, some 21)], [12], [12]) := by
  with_unfolding_all decide

/-- C29 (commit of a finished search) fails on the code. The search of
`fix_block_borders` for block 5 of `diamond_env` is committed; its records for the
value 10 at the end of the blocks 3 and 2 and for the value 11 at the end of the
blocks 4 and 2 have the costs 0. The value was written to the free slot `len` of
the clone, whose length was not increased, so `workset_get_index` does not
find it and nothing is copied: the end worksets of the blocks 3, 2 and 4 are
still 15; 13, 14; and 16. -/
theorem finite_costs_not_committed :
    (fix_block_borders diamond_env 20 (init_global_state diamond_info []) 5).map
        (fun s =>
          ((List.range s.ges.gauge).map fun i =>
              ((s.ges.end_info i).bl, (s.ges.end_info i).irn, (s.ges.end_info i).costs),
            [3, 2, 4].map fun bl => (s.bi bl).ws_end.irns)) =
      some ([(3, 10, double.val 0), (2, 10, double.val 0), (1, 10, double.val 0),
             (4, 11, double.val 0), (2, 11, double.val 0), (1, 11, double.val 0)],
            [[15], [13, 14], [16]]) := by
  with_unfolding_all decide

theorem can_bring_in_loop_finite (env : belady_env_t)
    (cmae : global_end_state_t → Nat → Nat → Option (global_end_state_t × double))
    (bl irn gauge_begin : Nat) (l : List Nat) :
    ∀ (ges : global_end_state_t) (start : double) (r : global_end_state_t × List double),
      pred_calls env cmae bl irn l ges = some r → (∀ c ∈ r.2, c ≠ double.HUGE_VAL) →
      can_bring_in_loop env cmae bl irn gauge_begin l ges start =
        some (r.1, sum_costs start r.2) := by
  induction l with
  | nil =>
    intro ges start r h _
    simp only [pred_calls, Option.some.injEq] at h
    subst h
    rfl
  | cons i rest ih =>
    intro ges start r h hfin
    unfold pred_calls at h
    unfold can_bring_in_loop
    unfold bring_in_operand at h
    cases hc : cmae ges (env.get_Block_cfgpred_block bl i)
        (if (env.is_Phi irn && bl == env.get_nodes_block irn) = true then env.get_irn_n irn i
          else irn) with
    | none => rw [hc] at h; simp at h
    | some q =>
      rw [hc] at h
      dsimp only at h ⊢
      rw [hc]
      dsimp only
      cases hr : pred_calls env cmae bl irn rest q.1 with
      | none => rw [hr] at h; simp at h
      | some p =>
        rw [hr] at h
        simp only [Option.map_some', Option.some.injEq] at h
        subst h
        dsimp only at hfin ⊢
        have hq : q.2 ≠ double.HUGE_VAL := hfin q.2 (List.mem_cons_self _ _)
        have hle : double.HUGE_VAL.le q.2 = false := by
          cases hq2 : q.2 with
          | val x => rfl
          | HUGE_VAL => exact absurd hq2 hq
          | neg_HUGE_VAL => rfl
          | NaN => rfl
        rw [hle]
        simp only [Bool.false_eq_true, if_false]
        rw [ih q.1 (start.add q.2) p hr (fun c hc2 => hfin c (List.mem_cons_of_mem _ hc2))]
        rfl

theorem can_bring_in_loop_huge (env : belady_env_t)
    (cmae : global_end_state_t → Nat → Nat → Option (global_end_state_t × double))
    (bl irn gauge_begin : Nat) (l : List Nat) :
    ∀ (ges : global_end_state_t) (start : double) (k : Nat) (rest : List Nat)
      (r : global_end_state_t × List double) (g2 : global_end_state_t),
      pred_calls env cmae bl irn l ges = some r → (∀ c ∈ r.2, c ≠ double.HUGE_VAL) →
      cmae r.1 (env.get_Block_cfgpred_block bl k) (bring_in_operand env bl irn k) =
        some (g2, double.HUGE_VAL) →
      can_bring_in_loop env cmae bl irn gauge_begin (l ++ k :: rest) ges start =
        some ({ g2 with gauge := gauge_begin }, double.HUGE_VAL) := by
  induction l with
  | nil =>
    intro ges start k rest r g2 h _ hk
    simp only [pred_calls, Option.some.injEq] at h
    subst h
    rw [List.nil_append]
    unfold can_bring_in_loop
    unfold bring_in_operand at hk
    dsimp only at hk ⊢
    rw [hk]
    rfl
  | cons i l ih =>
    intro ges start k rest r g2 h hfin hk
    unfold pred_calls at h
    rw [List.cons_append]
    unfold can_bring_in_loop
    unfold bring_in_operand at h
    cases hc : cmae ges (env.get_Block_cfgpred_block bl i)
        (if (env.is_Phi irn && bl == env.get_nodes_block irn) = true then env.get_irn_n irn i
          else irn) with
    | none => rw [hc] at h; simp at h
    | some q =>
      rw [hc] at h
      dsimp only at h ⊢
      rw [hc]
      dsimp only
      cases hr : pred_calls env cmae bl irn l q.1 with
      | none => rw [hr] at h; simp at h
      | some p =>
        rw [hr] at h
        simp only [Option.map_some', Option.some.injEq] at h
        subst h
        dsimp only at hfin hk ⊢
        have hq : q.2 ≠ double.HUGE_VAL := hfin q.2 (List.mem_cons_self _ _)
        have hle : double.HUGE_VAL.le q.2 = false := by
          cases hq2 : q.2 with
          | val x => rfl
          | HUGE_VAL => exact absurd hq2 hq
          | neg_HUGE_VAL => rfl
          | NaN => rfl
        rw [hle]
        simp only [Bool.false_eq_true, if_false]
        exact ih q.1 (start.add q.2) k rest p g2 hr
          (fun c hc2 => hfin c (List.mem_cons_of_mem _ hc2)) hk

theorem range_split (n k : Nat) (hk : k < n) :
    List.range n = List.range k ++ k :: List.range' (k + 1) (n - k - 1) := by
  have e : n = (1 + (n - k - 1)) + k := by omega
  conv_lhs => rw [e]
  rw [List.range_eq_range', List.range_eq_range', ← List.range'_append 0 k (1 + (n - k - 1)) 1]
  congr 1
  rw [Nat.add_comm 1 (n - k - 1), List.range'_succ]
  simp

/-- C24 (value defined in the block), amended. For a value that is defined in the
block and is no Phi, `can_bring_in` returns `HUGE_VAL`, for every budget; it
calls nothing and leaves the search state as it is. -/
theorem can_bring_in_definition (env : belady_env_t) (bi : Nat → block_info_t) (fuel : Nat)
    (ges : global_end_state_t) (bl irn : Nat)
    (hdef : env.get_nodes_block irn = bl) (hphi : env.is_Phi irn = false) :
    can_bring_in env bi fuel ges bl irn = some (ges, double.HUGE_VAL) := by
  unfold can_bring_in can_bring_in_with
  simp [hdef, hphi]

/-- Witness for C24: the value 10, defined in block 1 of `diamond_env`. -/
theorem can_bring_in_definition_witness :
    can_bring_in diamond_env diamond_info 0 (init_global_state diamond_info []).ges 1 10 =
      some ((init_global_state diamond_info []).ges, double.HUGE_VAL) :=
  can_bring_in_definition diamond_env diamond_info 0 (init_global_state diamond_info []).ges 1 10
    (by decide) (by decide)

/-- C25 (predecessor sum of `can_bring_in`). Let `irn` be a Phi or a value that is not
defined in `bl`. If the calls of `can_make_available_at_end` for all predecessor
edges, made one after the other with the operand `bring_in_operand`, return
costs other than `HUGE_VAL`, `can_bring_in` returns their sum, added up in the type
`double` from 0.0 in the order of the edges, and the state after the last call.
If the calls for the edges before `k` return costs other than `HUGE_VAL` and the
call for the edge `k` returns `HUGE_VAL`, `can_bring_in` returns `HUGE_VAL` and the
state after that call with the gauge set back to its value at the entry: no
later predecessor is examined. -/
theorem can_bring_in_predecessor_sum (env : belady_env_t) (bi : Nat → block_info_t)
    (fuel : Nat) (ges : global_end_state_t) (bl irn : Nat)
    (h : env.is_Phi irn = true ∨ env.get_nodes_block irn ≠ bl) :
    (∀ r, pred_calls env (can_make_available_at_end env bi fuel) bl irn
          (List.range (env.get_irn_arity bl)) ges = some r →
        (∀ c ∈ r.2, c ≠ double.HUGE_VAL) →
        can_bring_in env bi fuel ges bl irn = some (r.1, sum_costs (double.val 0) r.2)) ∧
    (∀ k r g2, k < env.get_irn_arity bl →
        pred_calls env (can_make_available_at_end env bi fuel) bl irn (List.range k) ges =
          some r →
        (∀ c ∈ r.2, c ≠ double.HUGE_VAL) →
        can_make_available_at_end env bi fuel r.1 (env.get_Block_cfgpred_block bl k)
          (bring_in_operand env bl irn k) = some (g2, double.HUGE_VAL) →
        can_bring_in env bi fuel ges bl irn =
          some ({ g2 with gauge := ges.gauge }, double.HUGE_VAL)) := by
  have hc : (env.is_Phi irn || !(bl == env.get_nodes_block irn)) = true := by
    rcases h with h | h
    · simp [h]
    · have : (bl == env.get_nodes_block irn) = false := by
        rw [beq_eq_false_iff_ne]
        exact fun e => h e.symm
      simp [this]
  constructor
  · intro r hr hfin
    unfold can_bring_in can_bring_in_with
    dsimp only
    rw [if_pos hc]
    exact can_bring_in_loop_finite env _ bl irn ges.gauge _ ges (double.val 0) r hr hfin
  · intro k r g2 hk hr hfin hcall
    unfold can_bring_in can_bring_in_with
    dsimp only
    rw [if_pos hc, range_split _ k hk]
    exact can_bring_in_loop_huge env _ bl irn ges.gauge _ ges (double.val 0) k _ r g2 hr hfin hcall

/-- Witness for C25. The Phi 12 of block 5 in `diamond_env`, whose operands cost
nothing at the end of both predecessors; and the value 10 at the join 4 of
`join_env`, whose costs at the ends of the three predecessors are 0 and the doubles
0.1 and 0.7: the result is their sum in the type `double`, which is smaller than
the exact sum of the three numbers. -/
theorem can_bring_in_predecessor_sum_witness :
    (diamond_env.is_Phi 12 = true ∧
      (can_bring_in diamond_env diamond_info 20 (init_global_state diamond_info []).ges 5 12).map
        Prod.snd = some (double.val 0)) ∧
      (join_env.get_nodes_block 10 ≠ 4 ∧
        (pred_calls join_env (can_make_available_at_end join_env join_info 20) 4 10
          (List.range (join_env.get_irn_arity 4)) (init_global_state join_info []).ges).map
          Prod.snd =
          some [double.val 0, double.val double_tenth, double.val double_seven_tenths] ∧
        (can_bring_in join_env join_info 20 (init_global_state join_info []).ges 4 10).map
          Prod.snd = some (double.val double_tenth_plus_seven_tenths) ∧
        double_tenth_plus_seven_tenths < 0 + double_tenth + double_seven_tenths) := by
  refine ⟨⟨by decide, ?_⟩, by decide, by with_unfolding_all rfl, ?_, by with_unfolding_all decide⟩
  · have e : (pred_calls diamond_env (can_make_available_at_end diamond_env diamond_info 20) 5 12
        (List.range (diamond_env.get_irn_arity 5)) (init_global_state diamond_info []).ges).map
        Prod.snd = some [double.val 0, double.val 0] := by with_unfolding_all decide
    cases hp : pred_calls diamond_env (can_make_available_at_end diamond_env diamond_info 20) 5 12
        (List.range (diamond_env.get_irn_arity 5)) (init_global_state diamond_info []).ges with
    | none => rw [hp] at e; simp at e
    | some r =>
      rw [hp] at e
      simp only [Option.map_some', Option.some.injEq] at e
      rw [(can_bring_in_predecessor_sum diamond_env diamond_info 20
        (init_global_state diamond_info []).ges 5 12 (Or.inl (by decide))).1 r hp
        (by rw [e]; intro c hc; simp at hc; rw [hc]; exact fun h => by cases h)]
      have hs : sum_costs (double.val 0) [double.val 0, double.val 0] = double.val 0 := by
        with_unfolding_all decide
      rw [Option.map_some', e, hs]
  · have e : (pred_calls join_env (can_make_available_at_end join_env join_info 20) 4 10
        (List.range (join_env.get_irn_arity 4)) (init_global_state join_info []).ges).map
        Prod.snd =
        some [double.val 0, double.val double_tenth, double.val double_seven_tenths] := by
      with_unfolding_all rfl
    cases hp : pred_calls join_env (can_make_available_at_end join_env join_info 20) 4 10
        (List.range (join_env.get_irn_arity 4)) (init_global_state join_info []).ges with
    | none => rw [hp] at e; simp at e
    | some r =>
      rw [hp] at e
      simp only [Option.map_some', Option.some.injEq] at e
      rw [(can_bring_in_predecessor_sum join_env join_info 20
        (init_global_state join_info []).ges 4 10 (Or.inr (by decide))).1 r hp
        (by
          rw [e]
          intro c hc
          simp only [List.mem_cons, List.mem_singleton, List.not_mem_nil, or_false] at hc
          rcases hc with rfl | rfl | rfl <;> exact fun h => by cases h)]
      have hs : sum_costs (double.val 0)
          [double.val 0, double.val double_tenth, double.val double_seven_tenths] =
          double.val double_tenth_plus_seven_tenths := by
        with_unfolding_all rfl
      rw [Option.map_some', e, hs]

theorem commit_end_state_frame (s : global_state) (i : Nat) :
    (commit_end_state s i).reloads =
        s.reloads ++ (if (s.ges.end_info i).reload_at_end then
          [((s.ges.end_info i).irn, some (s.ges.end_info i).bl)] else []) ∧
      (∀ j, ((commit_end_state s i).ges.end_info j).bl = (s.ges.end_info j).bl ∧
        ((commit_end_state s i).ges.end_info j).irn = (s.ges.end_info j).irn ∧
        ((commit_end_state s i).ges.end_info j).reload_at_end =
          (s.ges.end_info j).reload_at_end) ∧
      (commit_end_state s i).ges.gauge = s.ges.gauge ∧
      (commit_end_state s i).ges.succ_phis = s.ges.succ_phis ∧
      (commit_end_state s i).spilled_phis = s.spilled_phis := by
  unfold commit_end_state
  dsimp only
  cases workset_get_index (s.ges.end_info i).end_state (s.ges.end_info i).irn with
  | none =>
    dsimp only
    refine ⟨?_, fun j => ⟨rfl, rfl, rfl⟩, rfl, rfl, rfl⟩
    split_ifs <;> simp
  | some idx =>
    dsimp only
    refine ⟨?_, ?_, rfl, rfl, rfl⟩
    · split_ifs <;> simp
    · intro j
      unfold global_end_state_t.update
      dsimp only
      by_cases hj : j = i
      · subst hj; simp
      · simp [hj]

theorem commit_fold_frame (l : List Nat) :
    ∀ s : global_state,
      (l.foldl commit_end_state s).reloads =
          s.reloads ++ (l.filter fun i => (s.ges.end_info i).reload_at_end).map
            (fun i => ((s.ges.end_info i).irn, some (s.ges.end_info i).bl)) ∧
        (∀ j, ((l.foldl commit_end_state s).ges.end_info j).bl = (s.ges.end_info j).bl ∧
          ((l.foldl commit_end_state s).ges.end_info j).irn = (s.ges.end_info j).irn ∧
          ((l.foldl commit_end_state s).ges.end_info j).reload_at_end =
            (s.ges.end_info j).reload_at_end) ∧
        (l.foldl commit_end_state s).ges.gauge = s.ges.gauge ∧
        (l.foldl commit_end_state s).ges.succ_phis = s.ges.succ_phis ∧
        (l.foldl commit_end_state s).spilled_phis = s.spilled_phis := by
  induction l with
  | nil => intro s; simp
  | cons i l ih =>
    intro s
    rw [List.foldl_cons]
    obtain ⟨a1, a2, a3, a4, a5⟩ := commit_end_state_frame s i
    obtain ⟨b1, b2, b3, b4, b5⟩ := ih (commit_end_state s i)
    refine ⟨?_, ?_, b3.trans a3, b4.trans a4, b5.trans a5⟩
    · rw [b1, a1, List.filter_cons]
      have e : (l.filter fun j => ((commit_end_state s i).ges.end_info j).reload_at_end).map
          (fun j => (((commit_end_state s i).ges.end_info j).irn,
            some ((commit_end_state s i).ges.end_info j).bl)) =
          (l.filter fun j => (s.ges.end_info j).reload_at_end).map
            (fun j => ((s.ges.end_info j).irn, some (s.ges.end_info j).bl)) := by
        have e1 : (fun j => ((commit_end_state s i).ges.end_info j).reload_at_end) =
            fun j => (s.ges.end_info j).reload_at_end := by
          funext j; exact (a2 j).2.2
        have e2 : (fun j => (((commit_end_state s i).ges.end_info j).irn,
            some ((commit_end_state s i).ges.end_info j).bl)) =
            fun j => ((s.ges.end_info j).irn, some (s.ges.end_info j).bl) := by
          funext j; rw [(a2 j).1, (a2 j).2.1]
        rw [e1, e2]
      rw [e]
      cases (s.ges.end_info i).reload_at_end <;> simp
    · intro j
      obtain ⟨c1, c2, c3⟩ := b2 j
      obtain ⟨d1, d2, d3⟩ := a2 j
      exact ⟨c1.trans d1, c2.trans d2, c3.trans d3⟩

theorem commit_end_state_bi (s : global_state) (i bl : Nat) :
    (commit_end_state s i).bi bl =
      if bl = (s.ges.end_info i).bl then
        commit_block_info s.ges.version (s.ges.end_info i) (s.bi bl)
      else s.bi bl := by
  unfold commit_end_state commit_block_info
  dsimp only
  cases workset_get_index (s.ges.end_info i).end_state (s.ges.end_info i).irn with
  | none =>
    dsimp only
    by_cases h : bl = (s.ges.end_info i).bl
    · rw [if_pos h, if_pos h, h]
    · rw [if_neg h, if_neg h]
  | some idx =>
    dsimp only
    by_cases h : bl = (s.ges.end_info i).bl
    · rw [if_pos h, if_pos h, h]
    · rw [if_neg h, if_neg h]

theorem commit_end_state_records (s : global_state) (i : Nat) :
    (commit_end_state s i).ges.version = s.ges.version ∧
      ∀ j, j ≠ i → (commit_end_state s i).ges.end_info j = s.ges.end_info j := by
  unfold commit_end_state
  dsimp only
  cases workset_get_index (s.ges.end_info i).end_state (s.ges.end_info i).irn with
  | none => exact ⟨rfl, fun _ _ => rfl⟩
  | some idx =>
    refine ⟨rfl, fun j hj => ?_⟩
    unfold global_end_state_t.update
    dsimp only
    rw [if_neg hj]

theorem commit_fold_bi (bl : Nat) (l : List Nat) (hl : l.Nodup) :
    ∀ s : global_state,
      (l.foldl commit_end_state s).bi bl =
        l.foldl (fun b i => if bl = (s.ges.end_info i).bl then
          commit_block_info s.ges.version (s.ges.end_info i) b else b) (s.bi bl) := by
  induction l with
  | nil => intro s; rfl
  | cons i l ih =>
    intro s
    rw [List.foldl_cons, List.foldl_cons, ih (List.nodup_cons.mp hl).2 (commit_end_state s i),
      commit_end_state_bi, (commit_end_state_records s i).1]
    apply List.foldl_ext
    intro b j hj
    rw [(commit_end_state_records s i).2 j
      (fun e => (List.nodup_cons.mp hl).1 (e ▸ hj))]

theorem foldl_fixed {α β : Type} (f : α → β → α) (l : List β) (a : α)
    (h : ∀ b ∈ l, ∀ x, f x b = x) : l.foldl f a = a := by
  induction l generalizing a with
  | nil => rfl
  | cons b l ih =>
    rw [List.foldl_cons, h b (List.mem_cons_self _ _),
      ih a (fun c hc => h c (List.mem_cons_of_mem _ hc))]

/-- C26 (top-level decision of `fix_block_borders`). Let the search of `can_bring_in`
for the value `irn` of the `entrance_reg` of `block` return the state `r.1` and the
costs `r.2`. If the costs are greater than the execution frequency of the block
(the comparison `>` of doubles), exactly one reload of `irn` before the first
non-Phi instruction is added to the requests, and the block records are the
ones before the search. Otherwise no reload before that instruction is added:
the reloads added are those of the records with `reload_at_end`, each at the end
of the block of its record, and the records of the search are committed. The
record of every block is what the records of the search for that block make of it,
one after the other, with `commit_block_info`; a block without a record of the
search keeps its record; and for the last record of a block the pressure of the
block is at least the length of the end workset of the record, and if the
value of the record is in that workset, the workset, with the version of the
search in the slot of the value, is the end workset of the block afterwards. A
Phi of the block is added to `succ_phis`. -/
theorem fix_block_borders_decision (env : belady_env_t) (fuel block : Nat) (s : global_state)
    (irn : Nat) (r : global_end_state_t × double)
    (hs : can_bring_in env s.bi fuel
      { s.ges with gauge := 0, version := u32_sub s.ges.version 1 } block irn = some r) :
    ((double.val (env.get_block_execfreq block)).lt r.2 = true →
      ∃ s2, fix_block_borders_value env fuel block s irn = some s2 ∧
        s2.reloads = s.reloads ++ [(irn, (s.bi block).first_non_in)] ∧ s2.bi = s.bi ∧
        s2.spilled_phis = s.spilled_phis ∧ s2.ges.succ_phis = r.1.succ_phis) ∧
    ((double.val (env.get_block_execfreq block)).lt r.2 = false →
      ∃ s2, fix_block_borders_value env fuel block s irn = some s2 ∧
        s2.reloads = s.reloads ++
          ((List.range r.1.gauge).filter fun i => (r.1.end_info i).reload_at_end).map
            (fun i => ((r.1.end_info i).irn, some (r.1.end_info i).bl)) ∧
        s2.spilled_phis = s.spilled_phis ∧
        s2.ges.succ_phis = r.1.succ_phis ++
          (if (env.is_Phi irn && (env.get_nodes_block irn == block)) = true then [irn] else []) ∧
        (∀ bl, s2.bi bl = (List.range r.1.gauge).foldl
          (fun b i => if bl = (r.1.end_info i).bl then
            commit_block_info r.1.version (r.1.end_info i) b else b) (s.bi bl)) ∧
        (∀ bl, (∀ i < r.1.gauge, (r.1.end_info i).bl ≠ bl) → s2.bi bl = s.bi bl) ∧
        (∀ i < r.1.gauge,
          (∀ j < r.1.gauge, i < j → (r.1.end_info j).bl ≠ (r.1.end_info i).bl) →
          (r.1.end_info i).end_state.len ≤ (s2.bi (r.1.end_info i).bl).pressure ∧
          ∀ idx, workset_get_index (r.1.end_info i).end_state (r.1.end_info i).irn = some idx →
            (s2.bi (r.1.end_info i).bl).ws_end =
              workset_set_version (r.1.end_info i).end_state idx r.1.version)) := by
  constructor
  · intro hlt
    refine ⟨{ s with ges := r.1, reloads := s.reloads ++ [(irn, (s.bi block).first_non_in)] },
      ?_, rfl, rfl, rfl, rfl⟩
    unfold fix_block_borders_value
    dsimp only
    rw [hs]
    dsimp only
    rw [if_pos hlt]
  · intro hlt
    have hgauge : (if (env.is_Phi irn && (env.get_nodes_block irn == block)) = true then
        { r.1 with succ_phis := r.1.succ_phis ++ [irn] } else r.1).gauge = r.1.gauge := by
      split_ifs <;> rfl
    have hinfo : (if (env.is_Phi irn && (env.get_nodes_block irn == block)) = true then
        { r.1 with succ_phis := r.1.succ_phis ++ [irn] } else r.1).end_info = r.1.end_info := by
      split_ifs <;> rfl
    have hver : (if (env.is_Phi irn && (env.get_nodes_block irn == block)) = true then
        { r.1 with succ_phis := r.1.succ_phis ++ [irn] } else r.1).version = r.1.version := by
      split_ifs <;> rfl
    have hphis : (if (env.is_Phi irn && (env.get_nodes_block irn == block)) = true then
        { r.1 with succ_phis := r.1.succ_phis ++ [irn] } else r.1).succ_phis =
        r.1.succ_phis ++
          (if (env.is_Phi irn && (env.get_nodes_block irn == block)) = true then [irn] else []) := by
      split_ifs <;> simp
    have hbi : ∀ bl, (materialize_and_commit_end_state
        { s with ges := if (env.is_Phi irn && (env.get_nodes_block irn == block)) = true then
            { r.1 with succ_phis := r.1.succ_phis ++ [irn] } else r.1 }).bi bl =
        (List.range r.1.gauge).foldl
          (fun b i => if bl = (r.1.end_info i).bl then
            commit_block_info r.1.version (r.1.end_info i) b else b) (s.bi bl) := by
      intro bl
      unfold materialize_and_commit_end_state
      rw [commit_fold_bi bl _ (List.nodup_range _)]
      dsimp only
      rw [hgauge, hinfo, hver]
    refine ⟨materialize_and_commit_end_state
        { s with ges := if (env.is_Phi irn && (env.get_nodes_block irn == block)) = true then
            { r.1 with succ_phis := r.1.succ_phis ++ [irn] } else r.1 }, ?_, ?_, ?_, ?_, hbi, ?_, ?_⟩
    · unfold fix_block_borders_value
      dsimp only
      rw [hs]
      dsimp only
      rw [if_neg (by rw [hlt]; exact Bool.false_ne_true)]
    · unfold materialize_and_commit_end_state
      rw [(commit_fold_frame _ _).1]
      dsimp only
      rw [hgauge, hinfo]
    · unfold materialize_and_commit_end_state
      rw [(commit_fold_frame _ _).2.2.2.2]
    · unfold materialize_and_commit_end_state
      rw [(commit_fold_frame _ _).2.2.2.1]
      exact hphis
    · intro bl hno
      rw [hbi bl]
      apply foldl_fixed
      intro i hi b
      rw [if_neg (fun e => hno i (List.mem_range.mp hi) e.symm)]
    · intro i hi hlast
      have hrest : ∀ b : block_info_t,
          (List.range' (i + 1) (r.1.gauge - i - 1)).foldl
            (fun b j => if (r.1.end_info i).bl = (r.1.end_info j).bl then
              commit_block_info r.1.version (r.1.end_info j) b else b) b = b := by
        intro b
        apply foldl_fixed
        intro j hj x
        rw [List.mem_range'_1] at hj
        rw [if_neg (fun e => hlast j (by omega) (by omega) e.symm)]
      rw [hbi, range_split _ i hi, List.foldl_append, List.foldl_cons, hrest, if_pos rfl]
      refine ⟨le_max_right _ _, fun idx hidx => ?_⟩
      unfold commit_block_info
      dsimp only
      rw [hidx]

/-- Witness for C26. The Phi 17 of block 6 in `diamond_env`, for which the search
returns `HUGE_VAL`: one reload before the instruction 21. The value 10 at the
join 4 of `join_env`: the costs are the sum of the doubles 0.1 and 0.7, which is the
execution frequency of block 4 and smaller than the exact sum of the two numbers,
so the search is committed: reloads at the ends of the blocks 2 and 3, the record
of block 4 unchanged, and the value fixed in the end workset of block 1 with the
version of the search. -/
theorem fix_block_borders_decision_witness :
    (fix_block_borders_value diamond_env 20 6 (init_global_state diamond_info []) 17).map
        (fun s => s.reloads) = some [(17, some 21)] ∧
      (double.val double_tenth).add (double.val double_seven_tenths) =
        double.val (join_env.get_block_execfreq 4) ∧
      join_env.get_block_execfreq 4 < double_tenth + double_seven_tenths ∧
      ∃ s2, fix_block_borders_value join_env 20 4 (init_global_state join_info []) 10 = some s2 ∧
        s2.reloads = [(10, some 2), (10, some 3)] ∧ s2.bi 4 = join_info 4 ∧
        ((s2.bi 1).ws_end.vals 0).version = 2 ^ 32 - 2 := by
  refine ⟨?_, by with_unfolding_all rfl, by with_unfolding_all decide, ?_⟩
  · have e : (can_bring_in diamond_env (init_global_state diamond_info []).bi 20
        { (init_global_state diamond_info []).ges with
          gauge := 0, version := u32_sub (init_global_state diamond_info []).ges.version 1 }
        6 17).map Prod.snd = some double.HUGE_VAL := by with_unfolding_all decide
    cases hp : can_bring_in diamond_env (init_global_state diamond_info []).bi 20
        { (init_global_state diamond_info []).ges with
          gauge := 0, version := u32_sub (init_global_state diamond_info []).ges.version 1 }
        6 17 with
    | none => rw [hp] at e; simp at e
    | some r =>
      rw [hp] at e
      simp only [Option.map_some', Option.some.injEq] at e
      obtain ⟨s2, h1, h2, _⟩ :=
        (fix_block_borders_decision diamond_env 20 6 (init_global_state diamond_info []) 17 r
          hp).1 (by rw [e]; rfl)
      rw [h1, Option.map_some', h2]
      rfl
  · have e : (can_bring_in join_env (init_global_state join_info []).bi 20
        { (init_global_state join_info []).ges with
          gauge := 0, version := u32_sub (init_global_state join_info []).ges.version 1 }
        4 10).map (fun r =>
          (r.2,
            ((List.range r.1.gauge).filter fun i => (r.1.end_info i).reload_at_end).map
              (fun i => ((r.1.end_info i).irn, some (r.1.end_info i).bl)),
            (List.range r.1.gauge).all (fun i => (r.1.end_info i).bl != 4),
            decide (0 < r.1.gauge),
            (List.range r.1.gauge).all
              (fun j => decide (0 < j → (r.1.end_info j).bl ≠ (r.1.end_info 0).bl)),
            (r.1.end_info 0).bl,
            workset_get_index (r.1.end_info 0).end_state (r.1.end_info 0).irn,
            r.1.version)) =
        some (double.val double_tenth_plus_seven_tenths, [(10, some 2), (10, some 3)], true,
          true, true, 1, some 0, 2 ^ 32 - 2) := by
      with_unfolding_all rfl
    cases hp : can_bring_in join_env (init_global_state join_info []).bi 20
        { (init_global_state join_info []).ges with
          gauge := 0, version := u32_sub (init_global_state join_info []).ges.version 1 }
        4 10 with
    | none => rw [hp] at e; simp at e
    | some r =>
      rw [hp] at e
      simp only [Option.map_some', Option.some.injEq, Prod.mk.injEq, List.all_eq_true,
        List.mem_range, bne_iff_ne, decide_eq_true_eq] at e
      obtain ⟨e1, e2, e3, e4, e5, e6, e7, e8⟩ := e
      obtain ⟨s2, h1, h2, _, _, _, h6, h7⟩ :=
        (fix_block_borders_decision join_env 20 4 (init_global_state join_info []) 10 r hp).2
          (by rw [e1]; with_unfolding_all rfl)
      refine ⟨s2, h1, ?_, ?_, ?_⟩
      · rw [h2, e2]; rfl
      · rw [h6 4 e3]; rfl
      · have h := (h7 0 e4 (fun j hj hlt => e5 j hj hlt)).2 0 e7
        rw [e6] at h
        rw [h, e8]
        simp [workset_set_version]

theorem displace_make_room_mem (env : belady_env_t) (s : belady_state) (demand : Nat) (u : Bool) :
    ∀ v ∈ (displace_make_room env s demand u).irns, v ∈ s.ws.irns := by
  intro v hv
  unfold displace_make_room at hv
  dsimp only at hv
  split_ifs at hv with hlen
  · unfold workset_t.irns at hv
    have hl : env.n_regs - demand ≤ (workset_sort (displace_set_times env s u)).len := by
      have e1 : (workset_sort (displace_set_times env s u)).len =
          (displace_set_times env s u).len := rfl
      rw [e1, displace_set_times_len]
      omega
    rw [workset_set_length_locs _ _ hl, workset_sort_locs, displace_set_times_locs] at hv
    obtain ⟨loc, hloc, e⟩ := List.mem_map.mp hv
    have h1 := List.mem_of_mem_take hloc
    rw [(List.perm_insertionSort _ _).mem_iff] at h1
    obtain ⟨l0, hl0, e0⟩ := List.mem_map.mp h1
    unfold workset_t.irns
    refine List.mem_map.mpr ⟨l0, hl0, ?_⟩
    rw [← e, ← e0]
  · exact hv

theorem workset_insert_fold_considered {env : belady_env_t} (l : List Nat) :
    ∀ ws ws2 : workset_t, l.foldlM (workset_insert env) ws = some ws2 →
      ∀ v ∈ ws2.irns, v ∈ ws.irns ∨ env.consider_in_reg_alloc v = true := by
  induction l with
  | nil =>
    intro ws ws2 h v hv
    simp only [List.foldlM_nil, Option.pure_def, Option.some.injEq] at h
    subst h
    exact Or.inl hv
  | cons a l ih =>
    intro ws ws2 h v hv
    rw [List.foldlM_cons] at h
    cases h1 : workset_insert env ws a with
    | none => rw [h1] at h; simp at h
    | some w1 =>
      rw [h1] at h
      simp only [Option.bind_eq_bind, Option.some_bind] at h
      rcases ih w1 ws2 h v hv with hm | hc
      · by_cases hca : env.consider_in_reg_alloc a = true
        · rcases workset_insert_irns h1 with e | ⟨_, e⟩
          · rw [e] at hm; exact Or.inl hm
          · rw [e] at hm
            rcases List.mem_append.mp hm with h2 | h2
            · exact Or.inl h2
            · rw [List.mem_singleton] at h2
              exact Or.inr (h2 ▸ hca)
        · have e : w1 = ws := by
            unfold workset_insert at h1
            simp only [hca, Bool.not_false, if_true, Option.some.injEq] at h1
            exact h1.symm
          rw [e] at hm
          exact Or.inl hm
      · exact Or.inr hc

theorem displace_len_eq {env : belady_env_t} {s s2 : belady_state} {nv : workset_t} {u : Bool}
    (hnd : nv.irns.Nodup) (hc : ∀ v ∈ nv.irns, env.consider_in_reg_alloc v = true)
    (hnv : nv.len ≤ env.n_regs) (h : displace env s nv u = some s2) :
    s2.ws.len =
      min (s.ws.len + (nv.irns.filter (fun v => !workset_contains s.ws v)).length) env.n_regs := by
  obtain ⟨acc, hm, w2, hw, e⟩ := displace_some_mark h
  obtain ⟨f1, _, _, _, f5⟩ := displace_mark_fold_frame _ _ _ hm
  dsimp only at f1 f5
  rw [List.nil_append] at f5
  have hT : ∀ v ∈ acc.2, env.consider_in_reg_alloc v = true ∧
      v ∉ (displace_make_room env acc.1 acc.2.length u).irns := by
    intro v hv
    rw [f5] at hv
    obtain ⟨hv1, hv2⟩ := List.mem_filter.mp hv
    refine ⟨hc v hv1, fun hm2 => ?_⟩
    have h3 := displace_make_room_mem env acc.1 acc.2.length u v hm2
    rw [f1] at h3
    have := (workset_contains_iff s.ws v).mpr h3
    simp [this] at hv2
  have hTnd : acc.2.Nodup := by rw [f5]; exact hnd.filter _
  have hTlen : acc.2.length ≤ env.n_regs := by
    rw [f5]
    have := List.length_filter_le (fun v => !workset_contains s.ws v) nv.irns
    rw [workset_irns_length] at this
    omega
  have hlen1 := displace_make_room_len env acc.1 acc.2.length u
  rw [f1] at hlen1
  obtain ⟨w3, hw3, e3⟩ := workset_insert_fold_exact acc.2
    (displace_make_room env acc.1 acc.2.length u) hTnd hT (by rw [hlen1]; omega)
  rw [hw] at hw3
  simp only [Option.some.injEq] at hw3
  subst hw3
  have e4 : w2.len = (displace_make_room env acc.1 acc.2.length u).len + acc.2.length := by
    rw [← workset_irns_length w2, e3, List.length_append, workset_irns_length]
  rw [e]
  dsimp only
  rw [e4, hlen1, ← f5]
  omega

theorem displace_mark_pressure {env : belady_env_t} {u : Bool} {a b : belady_state × List Nat}
    {v : Nat} (h : displace_mark env u a v = some b) :
    a.1.bi.pressure ≤ b.1.bi.pressure ∧
      b.1.bi.pressure ≤ a.1.bi.pressure + (if workset_contains a.1.ws v then 0 else 1) ∧
      (a.1.bi.pressure ≤ env.n_regs → b.1.bi.pressure ≤ env.n_regs) := by
  unfold displace_mark at h
  dsimp only at h
  by_cases hcont : workset_contains a.1.ws v = true
  · simp only [hcont, Bool.not_true, Bool.false_eq_true, if_false, Option.some.injEq] at h
    subst h
    simp [hcont]
  · simp only [hcont, Bool.not_false, if_true] at h
    simp only [hcont, Bool.false_eq_true, if_false]
    by_cases hu : u = true
    · simp only [hu, if_true] at h
      by_cases ht : is_transport_in env a.1.bi.bl v = true
      · simp only [ht, if_true] at h
        by_cases hp : a.1.bi.pressure < env.n_regs
        · simp only [hp, if_true] at h
          cases hi : workset_insert env a.1.bi.entrance_reg v with
          | none => rw [hi] at h; simp at h
          | some er =>
            rw [hi] at h
            simp only [Option.map_some', Option.some.injEq] at h
            subst h
            dsimp only
            omega
        · simp only [hp, if_false] at h
          cases hi : workset_insert env a.1.bi.entrance_mem v with
          | none => rw [hi] at h; simp at h
          | some em =>
            rw [hi] at h
            simp only [Option.map_some', Option.some.injEq] at h
            subst h
            dsimp only
            omega
      · simp only [ht, Bool.false_eq_true, if_false, Option.some.injEq] at h
        subst h
        dsimp only
        omega
    · simp only [hu, Bool.false_eq_true, if_false, Option.some.injEq] at h
      subst h
      dsimp only
      omega

theorem displace_mark_fold_pressure {env : belady_env_t} {u : Bool} (l : List Nat) :
    ∀ a b : belady_state × List Nat, l.foldlM (displace_mark env u) a = some b →
      a.1.bi.pressure ≤ b.1.bi.pressure ∧
        b.1.bi.pressure ≤ a.1.bi.pressure +
          (l.filter (fun v => !workset_contains a.1.ws v)).length ∧
        (a.1.bi.pressure ≤ env.n_regs → b.1.bi.pressure ≤ env.n_regs) := by
  induction l with
  | nil =>
    intro a b h
    simp only [List.foldlM_nil, Option.pure_def, Option.some.injEq] at h
    subst h
    simp
  | cons v l ih =>
    intro a b h
    rw [List.foldlM_cons] at h
    cases h1 : displace_mark env u a v with
    | none => rw [h1] at h; simp at h
    | some a1 =>
      rw [h1] at h
      simp only [Option.bind_eq_bind, Option.some_bind] at h
      obtain ⟨p1, p2, p3⟩ := displace_mark_pressure h1
      obtain ⟨q1, q2, q3⟩ := ih a1 b h
      have hws : a1.1.ws = a.1.ws := (displace_mark_frame h1).1
      rw [hws] at q2
      refine ⟨le_trans p1 q1, ?_, fun hle => q3 (p3 hle)⟩
      rw [List.filter_cons]
      by_cases hcont : workset_contains a.1.ws v = true
      · simp only [hcont, if_true] at p2
        simp only [hcont, Bool.not_true, Bool.false_eq_true, if_false]
        omega
      · simp only [hcont, Bool.false_eq_true, if_false] at p2
        simp only [hcont, Bool.not_false, if_true, List.length_cons]
        omega

theorem request_set_ok {env : belady_env_t} (l : List Nat) (w nv : workset_t)
    (h : l.foldlM (workset_insert env) (workset_clear w) = some nv) :
    nv.irns.Nodup ∧ (∀ v ∈ nv.irns, env.consider_in_reg_alloc v = true) ∧
      nv.len ≤ env.n_regs := by
  obtain ⟨added, _, _, hnd⟩ := workset_insert_fold_irns l _ _ h
  refine ⟨hnd (by rw [workset_clear_irns]; exact List.nodup_nil), ?_, ?_⟩
  · intro v hv
    rcases workset_insert_fold_considered l _ _ h v hv with h1 | h1
    · rw [workset_clear_irns] at h1; cases h1
    · exact h1
  · exact workset_insert_fold_le l _ _ (Nat.zero_le _) h

theorem displace_pressure_le {env : belady_env_t} {s s2 : belady_state} {nv : workset_t}
    {u : Bool} (h : displace env s nv u = some s2) :
    s.bi.pressure ≤ s2.bi.pressure ∧
      s2.bi.pressure ≤
        s.bi.pressure + (nv.irns.filter (fun v => !workset_contains s.ws v)).length ∧
      (s.bi.pressure ≤ env.n_regs → s2.bi.pressure ≤ env.n_regs) := by
  obtain ⟨acc, hm, w2, _, e⟩ := displace_some_mark h
  have := displace_mark_fold_pressure _ _ _ hm
  rw [e]
  exact this

theorem belady_instr_pressure {env : belady_env_t} {acc acc2 : workset_t × belady_state}
    {irn : sched_node} (hi : (irn.is_Proj || irn.is_Phi) = false)
    (hp : acc.2.bi.pressure ≤ acc.2.ws.len) (hl : acc.2.ws.len ≤ env.n_regs)
    (h : belady_instr env acc irn = some acc2) :
    acc2.2.bi.pressure = acc2.2.ws.len ∧ acc.2.ws.len ≤ acc2.2.ws.len ∧
      acc2.2.ws.len ≤ env.n_regs := by
  unfold belady_instr at h
  simp only [hi, Bool.false_eq_true, if_false, Option.bind_eq_some, Option.map_eq_some'] at h
  obtain ⟨used, h1, s1, h2, defined, h3, s2, h4, rfl⟩ := h
  obtain ⟨u1, u2, u3⟩ := request_set_ok irn.ins acc.1 used h1
  obtain ⟨d1, d2, d3⟩ := request_set_ok _ used defined h3
  have l1 := displace_len_eq u1 u2 u3 h2
  have l2 := displace_len_eq d1 d2 d3 h4
  obtain ⟨_, p2, p3⟩ := displace_pressure_le h2
  obtain ⟨q1, q2⟩ := @displace_mark_fold_false env defined.irns (s1, [])
  obtain ⟨acc4, hm4, _, _, e4⟩ := displace_some_mark h4
  have hq : s2.bi.pressure = s1.bi.pressure := by
    rw [q2.1] at hm4
    simp only [Option.some.injEq] at hm4
    rw [e4, ← hm4, q2.2]
  dsimp only at l1 p2 p3 ⊢
  have p3b := p3 (le_trans hp hl)
  omega

theorem belady_loop_pressure {env : belady_env_t} (sched : List sched_node) :
    ∀ acc acc2 : workset_t × belady_state, belady_loop env acc sched = some acc2 →
      acc.2.bi.pressure ≤ acc.2.ws.len → acc.2.ws.len ≤ env.n_regs →
      acc2.2.bi.pressure = max acc.2.bi.pressure ((workset_lengths env acc sched).foldr max 0) := by
  induction sched with
  | nil =>
    intro acc acc2 h _ _
    unfold belady_loop at h
    simp only [List.foldlM_nil, Option.pure_def, Option.some.injEq] at h
    subst h
    simp [workset_lengths]
  | cons irn rest ih =>
    intro acc acc2 h hp hl
    unfold belady_loop at h
    rw [List.foldlM_cons] at h
    cases h1 : belady_instr env acc irn with
    | none => rw [h1] at h; simp at h
    | some acc1 =>
      rw [h1] at h
      simp only [Option.bind_eq_bind, Option.some_bind] at h
      unfold workset_lengths
      rw [h1]
      dsimp only
      by_cases hi : (irn.is_Proj || irn.is_Phi) = true
      · have e : acc1 = acc := by
          unfold belady_instr at h1
          simp only [hi, if_true, Option.some.injEq] at h1
          exact h1.symm
        subst e
        rw [if_pos hi, List.nil_append]
        exact ih acc1 acc2 h hp hl
      · have hi2 : (irn.is_Proj || irn.is_Phi) = false := by
          cases hb : (irn.is_Proj || irn.is_Phi) with
          | false => rfl
          | true => exact absurd hb hi
        obtain ⟨b1, b2, b3⟩ := belady_instr_pressure hi2 hp hl h1
        have := ih acc1 acc2 h (le_of_eq b1) b3
        rw [if_neg hi, this, b1]
        simp only [List.singleton_append, List.foldr_cons]
        omega

/-- C30 (pressure output of the local pass). When `belady` has processed a block that
it entered with at most `n_regs` values in the main workset, the pressure of the
block is the maximum of the lengths that the workset had after the instructions
of the block (0 for a block without instruction). -/
theorem belady_pressure_max (env : belady_env_t) (ws : workset_t) (instr : Nat)
    (reloads : List (Nat × Nat)) (bl : Nat) (sched : List sched_node) (s : belady_state)
    (hws : ws.len ≤ env.n_regs) (h : belady env ws instr reloads bl sched = some s) :
    s.bi.pressure =
      (workset_lengths env
        (new_workset, { ws := ws, instr := instr, instr_nr := 0, reloads := reloads,
                        bi := new_block_info bl }) sched).foldr max 0 := by
  unfold belady at h
  dsimp only at h
  cases h1 : belady_loop env
      (new_workset, { ws := ws, instr := instr, instr_nr := 0, reloads := reloads,
                      bi := new_block_info bl }) sched with
  | none => rw [h1] at h; simp at h
  | some acc =>
    rw [h1] at h
    simp only [Option.map_some', Option.some.injEq] at h
    subst h
    have := belady_loop_pressure sched _ acc h1 (Nat.zero_le _) hws
    dsimp only at this ⊢
    rw [this]
    simp [new_block_info]

/-- Witness for C30: `chain_block` with three registers; the workset lengths after
its four instructions are 1, 2, 3, 3. -/
theorem belady_pressure_max_witness :
    ∃ s, belady chain_env new_workset 0 [] 0 chain_block = some s ∧ s.bi.pressure = 3 := by
  cases h : belady chain_env new_workset 0 [] 0 chain_block with
  | none =>
    have e : (belady chain_env new_workset 0 [] 0 chain_block).isSome = true := by decide
    rw [h] at e
    cases e
  | some s =>
    refine ⟨s, rfl, ?_⟩
    rw [belady_pressure_max chain_env new_workset 0 [] 0 chain_block s (by decide) h]
    decide

/-- Values of `round_double`: 0.1, 0.7 and 1/3 are rounded to the nearest binary64
number, a negative number like its absolute value, a tie goes to the even
significand (`1 + 2 ^ -53` down to 1, `1 + 3 * 2 ^ -53` up to `1 + 2 ^ -51`), a
number above a tie goes up, a binary64 number is kept, and an integer with more
than 53 bits is rounded. -/
theorem round_double_samples :
    round_double (1 / 10) = double.val double_tenth ∧
      round_double (7 / 10) = double.val double_seven_tenths ∧
      round_double (1 / 3) = double.val (6004799503160661 / 18014398509481984) ∧
      round_double (-(1 / 3)) = double.val (-(6004799503160661 / 18014398509481984)) ∧
      round_double (1 + 1 / 2 ^ 53) = double.val 1 ∧
      round_double (1 + 3 / 2 ^ 53) = double.val (1 + 1 / 2 ^ 51) ∧
      round_double (1 + 5 / 2 ^ 54) = double.val (1 + 1 / 2 ^ 52) ∧
      round_double (3 / 4) = double.val (3 / 4) ∧
      round_double (2 ^ 60 + 1) = double.val (2 ^ 60) := by
  refine ⟨?_, ?_, ?_, ?_, ?_, ?_, ?_, ?_, ?_⟩ <;> with_unfolding_all rfl

theorem round_pos_nonneg (n d : Nat) (x : ℚ) (h : round_pos n d = some x) : 0 ≤ x := by
  unfold round_pos at h
  dsimp only at h
  split_ifs at h
  all_goals
    simp only [Option.some.injEq] at h
    rw [← h, Rat.mkRat_eq_div]
    exact div_nonneg (by exact_mod_cast Nat.zero_le _) (by exact_mod_cast Nat.zero_le _)

theorem round_double_nonneg (q : ℚ) (h : 0 ≤ q) : (double.val 0).le (round_double q) = true := by
  unfold round_double
  split_ifs with h0 hpos
  · simp [double.le]
  · cases hr : round_pos q.num.toNat q.den with
    | none => rfl
    | some x =>
      simp only [double.le, decide_eq_true_eq]
      exact round_pos_nonneg _ _ x hr
  · exact absurd (lt_of_le_of_ne h (Ne.symm h0)) hpos

theorem double_zero_le_add (a b : double) (ha : (double.val 0).le a = true)
    (hb : (double.val 0).le b = true) : (double.val 0).le (a.add b) = true := by
  cases a with
  | HUGE_VAL => cases b <;> first | rfl | simp [double.le] at hb
  | neg_HUGE_VAL => simp [double.le] at ha
  | NaN => simp [double.le] at ha
  | val p =>
    cases b with
    | HUGE_VAL => rfl
    | neg_HUGE_VAL => simp [double.le] at hb
    | NaN => simp [double.le] at hb
    | val q =>
      simp only [double.le, decide_eq_true_eq] at ha hb
      simp only [double.add]
      exact round_double_nonneg _ (add_nonneg ha hb)

theorem extended_by_refl (g : global_end_state_t) : g.extended_by g :=
  ⟨le_refl _, fun _ _ => rfl, rfl, rfl⟩

theorem extended_by_trans {g1 g2 g3 : global_end_state_t} (h1 : g1.extended_by g2)
    (h2 : g2.extended_by g3) : g1.extended_by g3 :=
  ⟨le_trans h1.1 h2.1,
    fun i hi => (h2.2.1 i (lt_of_lt_of_le hi h1.1)).trans (h1.2.1 i hi),
    h2.2.2.1.trans h1.2.2.1, h2.2.2.2.trans h1.2.2.2⟩

theorem covers_of_extended {g g2 : global_end_state_t} {S : List (Nat × Nat)}
    (h : g.extended_by g2) (hc : g.covers S) : g2.covers S := by
  intro p hp
  obtain ⟨i, hi, e1, e2⟩ := hc p hp
  exact ⟨i, lt_of_lt_of_le hi h.1, by rw [h.2.1 i hi]; exact e1, by rw [h.2.1 i hi]; exact e2⟩

theorem extended_by_reset {g g2 : global_end_state_t} (h : g.extended_by g2)
    (hv : g.visited) :
    g.extended_by { g2 with gauge := g.gauge } ∧
      global_end_state_t.visited { g2 with gauge := g.gauge } := by
  refine ⟨⟨le_refl _, h.2.1, h.2.2.1, h.2.2.2⟩, ?_⟩
  intro i hi
  dsimp only at hi ⊢
  rw [h.2.1 i hi]
  exact hv i hi

theorem get_block_end_state_found (bi : Nat → block_info_t) (ges : global_end_state_t)
    (bl irn i : Nat)
    (h : (List.range ges.gauge).find?
      (fun i => (ges.end_info i).bl == bl && (ges.end_info i).irn == irn) = some i) :
    get_block_end_state bi ges bl irn = (ges, i) ∧ i < ges.gauge := by
  refine ⟨?_, ?_⟩
  · unfold get_block_end_state
    rw [h]
  · exact List.mem_range.mp (List.mem_of_find?_eq_some h)

theorem get_block_end_state_fresh (bi : Nat → block_info_t) (ges : global_end_state_t)
    (bl irn : Nat)
    (h : (List.range ges.gauge).find?
      (fun i => (ges.end_info i).bl == bl && (ges.end_info i).irn == irn) = none) :
    get_block_end_state bi ges bl irn =
        ({ ges.update ges.gauge
            { bl := bl, irn := irn, costs := double.val (-1), end_state := (bi bl).ws_end,
              reload_at_end := false, live_through := false } with gauge := ges.gauge + 1 },
          ges.gauge) ∧
      ∀ S : List (Nat × Nat), ges.covers S → (bl, irn) ∉ S := by
  refine ⟨?_, ?_⟩
  · unfold get_block_end_state
    rw [h]
  · intro S hc hmem
    obtain ⟨i, hi, e1, e2⟩ := hc (bl, irn) hmem
    rw [List.find?_eq_none] at h
    have := h i (List.mem_range.mpr hi)
    simp [e1, e2] at this

theorem can_bring_in_loop_ok (env : belady_env_t)
    (cmae : global_end_state_t → Nat → Nat → Option (global_end_state_t × double))
    (bl irn : Nat) (g0 : global_end_state_t) (hv0 : g0.visited)
    (hcallee : ∀ (g : global_end_state_t) (i : Nat), i < env.get_irn_arity bl →
      g0.extended_by g → g.visited →
      ∃ r, cmae g (env.get_Block_cfgpred_block bl i) (bring_in_operand env bl irn i) = some r ∧
        g.extended_by r.1 ∧ r.1.visited ∧ (double.val 0).le r.2 = true)
    (l : List Nat) :
    (∀ i ∈ l, i < env.get_irn_arity bl) →
    ∀ (g : global_end_state_t) (costs : double), g0.extended_by g → g.visited →
      (double.val 0).le costs = true →
      ∃ r, can_bring_in_loop env cmae bl irn g0.gauge l g costs = some r ∧
        g0.extended_by r.1 ∧ r.1.visited ∧ (double.val 0).le r.2 = true := by
  induction l with
  | nil =>
    intro _ g costs hg hv hc
    exact ⟨(g, costs), rfl, hg, hv, hc⟩
  | cons i rest ih =>
    intro hl g costs hg hv hc
    obtain ⟨r, hr, e1, e2, e3⟩ := hcallee g i (hl i (List.mem_cons_self _ _)) hg hv
    unfold bring_in_operand at hr
    unfold can_bring_in_loop
    dsimp only
    rw [hr]
    dsimp only
    by_cases hh : double.HUGE_VAL.le r.2 = true
    · rw [if_pos hh]
      obtain ⟨x1, x2⟩ := extended_by_reset (extended_by_trans hg e1) hv0
      exact ⟨_, rfl, x1, x2, rfl⟩
    · rw [if_neg hh]
      exact ih (fun j hj => hl j (List.mem_cons_of_mem _ hj)) r.1 (costs.add r.2)
        (extended_by_trans hg e1) e2 (double_zero_le_add _ _ hc e3)

theorem can_bring_in_with_ok (env : belady_env_t)
    (cmae : global_end_state_t → Nat → Nat → Option (global_end_state_t × double))
    (bl irn : Nat) (g0 : global_end_state_t) (hv0 : g0.visited)
    (hcallee : ∀ (g : global_end_state_t) (i : Nat), i < env.get_irn_arity bl →
      g0.extended_by g → g.visited →
      ∃ r, cmae g (env.get_Block_cfgpred_block bl i) (bring_in_operand env bl irn i) = some r ∧
        g.extended_by r.1 ∧ r.1.visited ∧ (double.val 0).le r.2 = true) :
    ∃ r, can_bring_in_with env cmae g0 bl irn = some r ∧
      g0.extended_by r.1 ∧ r.1.visited ∧ (double.val 0).le r.2 = true := by
  unfold can_bring_in_with
  dsimp only
  split_ifs
  · exact can_bring_in_loop_ok env cmae bl irn g0 hv0 hcallee _
      (fun i hi => List.mem_range.mp hi) g0 (double.val 0) (extended_by_refl g0) hv0
      (by simp [double.le])
  · exact ⟨_, rfl, extended_by_refl g0, hv0, rfl⟩

theorem update_fresh_ok (g : global_end_state_t) (bes : block_end_state_t)
    (hv : g.visited) (hc : (double.val 0).le bes.costs = true) :
    g.extended_by { g.update g.gauge bes with gauge := g.gauge + 1 } ∧
      global_end_state_t.visited { g.update g.gauge bes with gauge := g.gauge + 1 } := by
  refine ⟨⟨Nat.le_succ _, ?_, rfl, rfl⟩, ?_⟩
  · intro i hi
    unfold global_end_state_t.update
    dsimp only
    rw [if_neg (by omega)]
  · intro i hi
    unfold global_end_state_t.update
    dsimp only at hi ⊢
    by_cases hik : i = g.gauge
    · rw [if_pos hik]; exact hc
    · rw [if_neg hik]; exact hv i (by omega)

theorem choose_cheaper_ok (g g2 : global_end_state_t) (reload_here c : double)
    (hg : g.extended_by g2) (hk : g.gauge < g2.gauge) (hv : g2.visited)
    (hr : (double.val 0).le reload_here = true) (hc : (double.val 0).le c = true) :
    g.extended_by (choose_cheaper g2 g.gauge (g.gauge + 1) reload_here c) ∧
      (choose_cheaper g2 g.gauge (g.gauge + 1) reload_here c).visited ∧
      g.gauge < (choose_cheaper g2 g.gauge (g.gauge + 1) reload_here c).gauge := by
  unfold choose_cheaper
  dsimp only
  by_cases hle : reload_here.le c = true
  · rw [if_pos hle]
    refine ⟨⟨?_, ?_, hg.2.2.1, hg.2.2.2⟩, ?_, ?_⟩
    · simp [global_end_state_t.update]
    · intro i hi
      simp only [global_end_state_t.update]
      rw [if_neg (by omega)]
      exact hg.2.1 i hi
    · intro i hi
      simp only [global_end_state_t.update] at hi ⊢
      by_cases hik : i = g.gauge
      · simp only [hik, if_true]; exact hr
      · simp only [hik, if_false]; exact hv i (by omega)
    · simp [global_end_state_t.update]
  · rw [if_neg hle]
    refine ⟨⟨?_, ?_, hg.2.2.1, hg.2.2.2⟩, ?_, ?_⟩
    · simp only [global_end_state_t.update]; omega
    · intro i hi
      simp only [global_end_state_t.update]
      rw [if_neg (by omega)]
      exact hg.2.1 i hi
    · intro i hi
      simp only [global_end_state_t.update] at hi ⊢
      by_cases hik : i = g.gauge
      · simp only [hik, if_true]; exact hc
      · simp only [hik, if_false]; exact hv i hi
    · simp only [global_end_state_t.update]; exact hk

theorem take_slot_ok (g g3 : global_end_state_t) (slot irn : Nat)
    (hg : g.extended_by g3) (hk : g.gauge < g3.gauge) (hv : g3.visited) :
    g.extended_by (take_slot g3 g.gauge slot irn).1 ∧
      (take_slot g3 g.gauge slot irn).1.visited ∧
      (double.val 0).le (take_slot g3 g.gauge slot irn).2 = true := by
  unfold take_slot
  dsimp only
  refine ⟨⟨hg.1, ?_, hg.2.2.1, hg.2.2.2⟩, ?_, hv _ hk⟩
  · intro i hi
    simp only [global_end_state_t.update]
    rw [if_neg (by omega)]
    exact hg.2.1 i hi
  · intro i hi
    simp only [global_end_state_t.update] at hi ⊢
    by_cases hik : i = g.gauge
    · simp only [hik, if_true]; exact hv _ hk
    · simp only [hik, if_false]; exact hv i hi

theorem can_make_available_at_end_visit (env : belady_env_t) (bi : Nat → block_info_t)
    (fuel : Nat) (ges : global_end_state_t) (bl irn : Nat) (hv : ges.visited)
    (hfreq : 0 ≤ env.get_block_execfreq bl)
    (hcallee : (List.range ges.gauge).find?
        (fun i => (ges.end_info i).bl == bl && (ges.end_info i).irn == irn) = none →
      ∀ (g : global_end_state_t) (i : Nat), i < env.get_irn_arity bl →
      ges.extended_by g → g.visited → g.covers [(bl, irn)] →
      ∃ r, can_make_available_at_end env bi fuel g (env.get_Block_cfgpred_block bl i)
          (bring_in_operand env bl irn i) = some r ∧
        g.extended_by r.1 ∧ r.1.visited ∧ (double.val 0).le r.2 = true) :
    ∃ r, can_make_available_at_end env bi (fuel + 1) ges bl irn = some r ∧
      ges.extended_by r.1 ∧ r.1.visited ∧ (double.val 0).le r.2 = true := by
  unfold can_make_available_at_end
  cases hfind : (List.range ges.gauge).find?
      (fun i => (ges.end_info i).bl == bl && (ges.end_info i).irn == irn) with
  | some i =>
    obtain ⟨e, hi⟩ := get_block_end_state_found bi ges bl irn i hfind
    rw [e]
    dsimp only
    rw [if_pos (hv i hi)]
    exact ⟨_, rfl, extended_by_refl ges, hv, hv i hi⟩
  | none =>
    obtain ⟨e, _⟩ := get_block_end_state_fresh bi ges bl irn hfind
    rw [e]
    dsimp only
    have hk : ∀ (b : block_end_state_t),
        (global_end_state_t.update ges ges.gauge b).end_info ges.gauge = b := by
      intro b; simp [global_end_state_t.update]
    rw [hk]
    dsimp only
    have hneg : (double.val 0).le (double.val (-1)) = false := by
      simp [double.le]
    rw [hneg]
    simp only [Bool.false_eq_true, if_false]
    have hA : ∀ c b : block_end_state_t, (double.val 0).le b.costs = true →
        ges.extended_by
            (global_end_state_t.update { ges.update ges.gauge c with gauge := ges.gauge + 1 }
              ges.gauge b) ∧
          (global_end_state_t.update { ges.update ges.gauge c with gauge := ges.gauge + 1 }
              ges.gauge b).visited := by
      intro c b hb
      refine ⟨⟨Nat.le_succ _, ?_, rfl, rfl⟩, ?_⟩
      · intro i hi
        simp only [global_end_state_t.update]
        rw [if_neg (by omega), if_neg (by omega)]
      · intro i hi
        simp only [global_end_state_t.update] at hi ⊢
        by_cases hik : i = ges.gauge
        · simp only [hik, if_true]; exact hb
        · simp only [hik, if_false]; exact hv i (by omega)
    split
    · exact ⟨_, rfl, And.left (hA _ _ (by rfl)), And.right (hA _ _ (by rfl)), rfl⟩
    · split
      · exact ⟨_, rfl, And.left (hA _ _ (by rfl)), And.right (hA _ _ (by rfl)), rfl⟩
      · rename_i slot hslot
        split
        · have hG := hA { bl := bl, irn := irn, costs := double.val (-1), end_state := (bi bl).ws_end, reload_at_end := false, live_through := false } { bl := bl, irn := irn, costs := double.HUGE_VAL, end_state := (bi bl).ws_end, reload_at_end := false, live_through := false } rfl
          have hin : ∃ r2, (if (bi bl).pressure < env.n_regs then
                can_bring_in_with env (can_make_available_at_end env bi fuel)
                  (global_end_state_t.update { ges.update ges.gauge { bl := bl, irn := irn, costs := double.val (-1), end_state := (bi bl).ws_end, reload_at_end := false, live_through := false } with gauge := ges.gauge + 1 } ges.gauge { bl := bl, irn := irn, costs := double.HUGE_VAL, end_state := (bi bl).ws_end, reload_at_end := false, live_through := false }) bl irn
              else some (global_end_state_t.update { ges.update ges.gauge { bl := bl, irn := irn, costs := double.val (-1), end_state := (bi bl).ws_end, reload_at_end := false, live_through := false } with gauge := ges.gauge + 1 } ges.gauge { bl := bl, irn := irn, costs := double.HUGE_VAL, end_state := (bi bl).ws_end, reload_at_end := false, live_through := false }, double.HUGE_VAL)) = some r2 ∧
              ges.extended_by r2.1 ∧ ges.gauge < r2.1.gauge ∧ r2.1.visited ∧
              (double.val 0).le r2.2 = true := by
            by_cases hp : (bi bl).pressure < env.n_regs
            · rw [if_pos hp]
              obtain ⟨r2, h2, e1, e2, e3⟩ := can_bring_in_with_ok env
                (can_make_available_at_end env bi fuel) bl irn _ hG.2
                (fun g i hi hg hgv => hcallee hfind g i hi (extended_by_trans hG.1 hg) hgv
                  (by
                    intro p hp2
                    rw [List.mem_singleton] at hp2
                    subst hp2
                    refine ⟨ges.gauge, lt_of_lt_of_le (Nat.lt_succ_self _) hg.1, ?_, ?_⟩
                    · rw [hg.2.1 ges.gauge (Nat.lt_succ_self _)]
                      simp [global_end_state_t.update]
                    · rw [hg.2.1 ges.gauge (Nat.lt_succ_self _)]
                      simp [global_end_state_t.update]))
              exact ⟨r2, h2, extended_by_trans hG.1 e1,
                lt_of_lt_of_le (Nat.lt_succ_self _) e1.1, e2, e3⟩
            · rw [if_neg hp]
              exact ⟨_, rfl, hG.1, Nat.lt_succ_self _, hG.2, rfl⟩
          obtain ⟨r2, h2, e1, e2, e3, e4⟩ := hin
          split
          · rename_i heq
            exact absurd (h2.symm.trans heq) (by simp)
          · rename_i r3 heq
            have e : r2 = r3 := Option.some.inj (h2.symm.trans heq)
            subst e
            have hr : (double.val 0).le (double.val (env.get_block_execfreq bl)) = true := by
              simp only [double.le, decide_eq_true_eq]; exact hfreq
            obtain ⟨c1, c2, c3⟩ := choose_cheaper_ok ges r2.1
              (double.val (env.get_block_execfreq bl)) r2.2 e1 e2 e3 hr e4
            obtain ⟨d1, d2, d3⟩ := take_slot_ok ges _ slot irn c1 c3 c2
            exact ⟨_, rfl, d1, d2, d3⟩
        · exact ⟨_, rfl, And.left (hA _ _ (by rfl)), And.right (hA _ _ (by rfl)), rfl⟩

theorem can_make_available_at_end_ok (env : belady_env_t) (bi : Nat → block_info_t)
    (U : List (Nat × Nat)) (hfreq : ∀ bl, 0 ≤ env.get_block_execfreq bl)
    (hU : ∀ p ∈ U, ∀ i < env.get_irn_arity p.1,
      (env.get_Block_cfgpred_block p.1 i, bring_in_operand env p.1 p.2 i) ∈ U) :
    ∀ (n fuel : Nat), n < fuel →
      ∀ (S : List (Nat × Nat)) (ges : global_end_state_t) (bl irn : Nat),
      S.Nodup → (∀ p ∈ S, p ∈ U) → U.length ≤ S.length + n → (bl, irn) ∈ U →
      ges.visited → ges.covers S →
      ∃ r, can_make_available_at_end env bi fuel ges bl irn = some r ∧
        ges.extended_by r.1 ∧ r.1.visited ∧ (double.val 0).le r.2 = true := by
  intro n
  induction n with
  | zero =>
    intro fuel hf S ges bl irn hnd hsub hlen hmem hv hc
    obtain ⟨f, rfl⟩ : ∃ f, fuel = f + 1 := ⟨fuel - 1, by omega⟩
    apply can_make_available_at_end_visit env bi f ges bl irn hv (hfreq bl)
    intro hfind
    exfalso
    have hnot := (get_block_end_state_fresh bi ges bl irn hfind).2 S hc
    have hsub2 : ((bl, irn) :: S) ⊆ U := by
      intro p hp
      rcases List.mem_cons.mp hp with h | h
      · rw [h]; exact hmem
      · exact hsub p h
    have := (List.subperm_of_subset (List.nodup_cons.mpr ⟨hnot, hnd⟩) hsub2).length_le
    rw [List.length_cons] at this
    omega
  | succ n ih =>
    intro fuel hf S ges bl irn hnd hsub hlen hmem hv hc
    obtain ⟨f, rfl⟩ : ∃ f, fuel = f + 1 := ⟨fuel - 1, by omega⟩
    apply can_make_available_at_end_visit env bi f ges bl irn hv (hfreq bl)
    intro hfind g i hi hg hgv hgc
    have hnot := (get_block_end_state_fresh bi ges bl irn hfind).2 S hc
    refine ih f (by omega) ((bl, irn) :: S) g _ _ (List.nodup_cons.mpr ⟨hnot, hnd⟩) ?_ ?_
      (hU (bl, irn) hmem i hi) hgv ?_
    · intro p hp
      rcases List.mem_cons.mp hp with h | h
      · rw [h]; exact hmem
      · exact hsub p h
    · rw [List.length_cons]; omega
    · intro p hp
      rcases List.mem_cons.mp hp with h | h
      · exact hgc p (by rw [h]; exact List.mem_singleton.mpr rfl)
      · exact covers_of_extended hg hc p h

/-- C28 (cycle safety). Let `blocks` and `nodes` be lists such that the control flow
predecessors of the blocks are among the blocks and the operands of the Phis
among the nodes (a finite graph, with any back edges and self loops), and let
no execution frequency be negative. For a block and a value of these lists the
search that `fix_block_borders` starts returns: `can_bring_in` and the loop body
of `fix_block_borders` have a result for every budget of nested calls above
`blocks.length * nodes.length`. -/
theorem search_terminates (env : belady_env_t) (blocks nodes : List Nat)
    (hfreq : ∀ bl, 0 ≤ env.get_block_execfreq bl)
    (hpred : ∀ bl ∈ blocks, ∀ i < env.get_irn_arity bl,
      env.get_Block_cfgpred_block bl i ∈ blocks)
    (hops : ∀ irn ∈ nodes, env.is_Phi irn = true →
      ∀ i < env.get_irn_arity (env.get_nodes_block irn), env.get_irn_n irn i ∈ nodes)
    (s : global_state) (block irn fuel : Nat) (hb : block ∈ blocks) (hi : irn ∈ nodes)
    (hf : blocks.length * nodes.length < fuel) :
    (can_bring_in env s.bi fuel
        { s.ges with gauge := 0, version := u32_sub s.ges.version 1 } block irn).isSome = true ∧
      (fix_block_borders_value env fuel block s irn).isSome = true := by
  have hU : ∀ p ∈ List.product blocks nodes, ∀ i < env.get_irn_arity p.1,
      (env.get_Block_cfgpred_block p.1 i, bring_in_operand env p.1 p.2 i) ∈ List.product blocks nodes := by
    intro p hp i hi2
    obtain ⟨p1, p2⟩ := p
    rw [List.pair_mem_product] at hp ⊢
    refine ⟨hpred p1 hp.1 i hi2, ?_⟩
    unfold bring_in_operand
    dsimp only
    split_ifs with hc
    · simp only [Bool.and_eq_true, beq_iff_eq] at hc
      exact hops p2 hp.2 hc.1 i (by rw [← hc.2]; exact hi2)
    · exact hp.2
  have hv0 : global_end_state_t.visited
      { s.ges with gauge := 0, version := u32_sub s.ges.version 1 } := by
    intro i hi2
    exact absurd hi2 (Nat.not_lt_zero _)
  obtain ⟨r, hr, _, _, _⟩ := can_bring_in_with_ok env (can_make_available_at_end env s.bi fuel)
    block irn _ hv0
    (fun g i hi2 _ hgv =>
      can_make_available_at_end_ok env s.bi (List.product blocks nodes) hfreq hU
        (List.product blocks nodes).length fuel (lt_of_eq_of_lt (List.length_product blocks nodes) hf) [] g _ _
        List.nodup_nil (fun p hp => by cases hp) (by simp)
        (hU (block, irn) (List.pair_mem_product.mpr ⟨hb, hi⟩) i hi2) hgv
        (fun p hp => by cases hp))
  have hr2 : can_bring_in env s.bi fuel
      { s.ges with gauge := 0, version := u32_sub s.ges.version 1 } block irn = some r := hr
  refine ⟨by rw [hr2]; rfl, ?_⟩
  unfold fix_block_borders_value
  dsimp only
  rw [hr2]
  dsimp only
  split_ifs <;> rfl

/-- Witness for C28: the block 2 of `loop_env`, which is its own predecessor. -/
theorem search_terminates_witness :
    loop_env.get_Block_cfgpred_block 2 0 = 2 ∧
      (fix_block_borders_value loop_env 2 2 (init_global_state loop_info []) 10).isSome = true :=
  ⟨by decide,
    (search_terminates loop_env [2] [10]
      (fun bl => by show (0 : ℚ) ≤ 1; norm_num)
      (fun bl _ i _ => by show (2 : Nat) ∈ [2]; simp)
      (fun irn _ h => by cases h)
      (init_global_state loop_info []) 2 10 2 (by simp) (by simp) (by decide)).2⟩

/-- C31 (slot marking) fails on the code. In `diamond_env` the call of
`can_make_available_at_end` for the value 10 at the end of block 3 returns the
finite costs 0; the value was written to the free slot 1 of the end workset 15 of
the record, whose length stays 1, so that `workset_get_index` does not find the
value in the end workset of the record. -/
theorem finite_costs_value_not_contained :
    (can_make_available_at_end diamond_env diamond_info 20
        { (init_global_state diamond_info []).ges with version := 2 ^ 32 - 2 } 3 10).map
      (fun r => (r.2, (r.1.end_info 0).bl, (r.1.end_info 0).irn, (r.1.end_info 0).costs,
        (r.1.end_info 0).end_state.len, (r.1.end_info 0).end_state.irns,
        ((r.1.end_info 0).end_state.vals 1).irn,
        workset_get_index (r.1.end_info 0).end_state 10)) =
      some (double.val 0, 3, 10, double.val 0, 1, [15], 10, none) := by
  with_unfolding_all rfl

/-- C32 (distance of values that must not be spilled) fails on the code. In
`pinned_env` the value 1 carries the dont_spill flag and has no use behind the
instruction with number 6; `get_distance` tests the infinite distance before it
reads the flag and returns `USES_INFINITY`, not the 0 of its description. -/
theorem get_distance_pinned_counterexample :
    pinned_env.dont_spill 1 = true ∧
      pinned_env.USES_IS_INFINITE (pinned_env.be_get_next_use 11 6 1 true) = true ∧
      get_distance pinned_env 11 6 1 true = pinned_env.USES_INFINITY ∧
      pinned_env.USES_INFINITY ≠ 0 := by
  decide

/-- The three cases of `get_distance`. When the next-use oracle reports no further
use, it returns `USES_INFINITY`, also for a value with the dont_spill flag;
otherwise it returns 0 for a value with the flag and the distance of the oracle
for every other value. -/
theorem get_distance_cases (env : belady_env_t) (from_ from_step def_ : Nat)
    (skip_from_uses : Bool) :
    (env.USES_IS_INFINITE (env.be_get_next_use from_ from_step def_ skip_from_uses) = true →
      get_distance env from_ from_step def_ skip_from_uses = env.USES_INFINITY) ∧
    (env.USES_IS_INFINITE (env.be_get_next_use from_ from_step def_ skip_from_uses) = false →
      env.dont_spill def_ = true →
      get_distance env from_ from_step def_ skip_from_uses = 0) ∧
    (env.USES_IS_INFINITE (env.be_get_next_use from_ from_step def_ skip_from_uses) = false →
      env.dont_spill def_ = false →
      get_distance env from_ from_step def_ skip_from_uses =
        env.be_get_next_use from_ from_step def_ skip_from_uses) := by
  unfold get_distance
  refine ⟨?_, ?_, ?_⟩
  · intro h; simp [h]
  · intro h1 h2; simp [h1, h2]
  · intro h1 h2; simp [h1, h2]

/-- In `pinned_env` the value 1 is used by the instruction with number 5, one step
behind the instruction with number 4; its distance is 0. -/
theorem get_distance_cases_witness :
    pinned_env.be_get_next_use 5 4 1 false = 1 ∧ get_distance pinned_env 5 4 1 false = 0 :=
  ⟨by decide, (get_distance_cases pinned_env 5 4 1 false).2.1 (by decide) (by decide)⟩

/-- C33 (insertion into a workset). For a value `v` of the register class and a
workset with fewer than `n_regs` entries, all different, `workset_insert` returns
a workset that holds `v` exactly once and has no duplicates. If `v` was contained,
the result is the workset itself; otherwise the length has grown by 1, the slots
below the old length are unchanged and the new slot holds `v`. A second insertion
of `v` changes nothing. -/
theorem workset_insert_once (env : belady_env_t) (ws : workset_t) (v : Nat)
    (hc : env.consider_in_reg_alloc v = true) (hlen : ws.len < env.n_regs)
    (hnd : ws.irns.Nodup) :
    ∃ ws2, workset_insert env ws v = some ws2 ∧ ws2.irns.count v = 1 ∧ ws2.irns.Nodup ∧
      (v ∈ ws.irns → ws2 = ws) ∧
      (v ∉ ws.irns → ws2.len = ws.len + 1 ∧ (∀ i < ws.len, ws2.vals i = ws.vals i) ∧
        (ws2.vals ws.len).irn = v ∧ ws2.irns = ws.irns ++ [v]) ∧
      workset_insert env ws2 v = some ws2 := by
  by_cases hm : v ∈ ws.irns
  · have hcon : workset_contains ws v = true := (workset_contains_iff ws v).mpr hm
    have e : workset_insert env ws v = some ws := by
      unfold workset_insert
      simp [hc, hcon]
    exact ⟨ws, e, List.count_eq_one_of_mem hnd hm, hnd, fun _ => rfl,
      fun h => absurd hm h, e⟩
  · have hcon : workset_contains ws v = false := by
      cases h : workset_contains ws v with
      | false => rfl
      | true => exact absurd ((workset_contains_iff ws v).mp h) hm
    have e : workset_insert env ws v =
        some { len := ws.len + 1,
               vals := fun i => if i = ws.len then { ws.vals i with irn := v } else ws.vals i } := by
      unfold workset_insert
      simp [hc, hcon, hlen]
    obtain ⟨ws3, e3, hirns⟩ := workset_insert_new hc hm hlen
    rw [e] at e3
    simp only [Option.some.injEq] at e3
    have hmem : v ∈ ws3.irns := by rw [hirns]; simp
    have hnd3 : ws3.irns.Nodup := by
      rw [hirns]
      exact List.nodup_append.mpr ⟨hnd, List.nodup_singleton v,
        fun a ha hb => hm (by rw [List.mem_singleton] at hb; rw [← hb]; exact ha)⟩
    have hcon3 : workset_contains ws3 v = true := (workset_contains_iff ws3 v).mpr hmem
    refine ⟨ws3, by rw [e, e3], List.count_eq_one_of_mem hnd3 hmem, hnd3,
      fun h => absurd h hm, fun _ => ⟨?_, ?_, ?_, hirns⟩, ?_⟩
    · rw [← e3]
    · intro i hi
      rw [← e3]
      dsimp only
      rw [if_neg (by omega)]
    · rw [← e3]
      simp
    · unfold workset_insert
      simp [hc, hcon3]

/-- Witness for C33: the value 1 and the empty workset with four registers. -/
theorem workset_insert_once_witness :
    ∃ ws2, workset_insert five_values_env new_workset 1 = some ws2 ∧ ws2.irns.count 1 = 1 := by
  obtain ⟨ws2, h1, h2, _⟩ := workset_insert_once five_values_env new_workset 1 (by decide)
    (by decide) (by decide)
  exact ⟨ws2, h1, h2⟩

/-- C34 (latency attribute) fails on the code. In `tie_graph` the operation 3 has the
fixed latency 3 and no predecessor in the block: `calculate_irn_asap` leaves its
attribute `latency` at 0. The operation 2 has the fixed latency 1 and the
predecessor 1 of latency 2: `calculate_irn_asap` executes `na->latency = lat` with
the latency of the predecessor and records 2. -/
theorem latency_attribute_of_predecessor :
    fixed_latency tie_graph 3 = 3 ∧
      ((calculate_irn_asap tie_graph init_phase 3).na 3).latency = 0 ∧
      fixed_latency tie_graph 2 = 1 ∧ fixed_latency tie_graph 1 = 2 ∧
      ((calculate_irn_asap tie_graph (calculate_irn_asap tie_graph init_phase 1) 2).na
        2).latency = 2 := by
  decide

/-- C38 (block independence of the local pass) fails on the code. `belady` never
clears `env->ws`: after the block 1 of `two_blocks_env`, which defines the value
1, the workset holds 1, and the block processed next starts with it. Processed
after block 1, block 2 finds its live-in value 1 in the workset and records
nothing in `entrance_reg`; processed first, it records 1 in `entrance_reg`. -/
theorem belady_depends_on_block_order :
    (belady two_blocks_env new_workset 0 [] 1 def_block).map (fun s => s.ws.irns) = some [1] ∧
      (belady_blocks two_blocks_env [(1, def_block), (2, use_block)]).map
        (fun r => r.2.map fun b => (b.bl, b.entrance_reg.irns, b.pressure)) =
        some [(1, [], 1), (2, [], 1)] ∧
      (belady_blocks two_blocks_env [(2, use_block), (1, def_block)]).map
        (fun r => r.2.map fun b => (b.bl, b.entrance_reg.irns, b.pressure)) =
        some [(2, [1], 1), (1, [], 1)] := by
  decide

/-- C39 (assertion validity in the local pass) fails on the code. Every instruction
of `three_live_ins_block` uses one value of the register class and defines none,
and there is one register. After the first two instructions `entrance_mem` holds
the value 2 and is full; the third instruction uses the live-in value 3, which
`displace` inserts into `entrance_mem`: the assertion "Workset already full!" of
`workset_insert` fails, and `belady` has no result. -/
theorem entrance_mem_overflow :
    three_live_ins_env.n_regs = 1 ∧
      (∀ irn ∈ three_live_ins_block,
        (irn.ins.filter three_live_ins_env.consider_in_reg_alloc).length ≤ 1 ∧
        (irn.defs.filter three_live_ins_env.consider_in_reg_alloc).length = 0) ∧
      (belady three_live_ins_env new_workset 0 [] 0 (three_live_ins_block.take 2)).map
        (fun s => (s.bi.entrance_reg.irns, s.bi.entrance_mem.irns, s.ws.irns)) =
        some ([1], [2], [2]) ∧
      ((belady three_live_ins_env new_workset 0 [] 0 (three_live_ins_block.take 2)).bind
        fun s => workset_insert three_live_ins_env s.bi.entrance_mem 3).isNone = true ∧
      (belady three_live_ins_env new_workset 0 [] 0 three_live_ins_block).isNone = true := by
  decide

/-- C37 (consistent sort order), the order is not transitive. In `kept_pair_graph`
the only dependency is that of the Keep 2 on the operation 1, `kept_pair_sol`
satisfies the linear program and puts the nodes 1, 2 and 3 at the same step. The
field `latency` is 0 for 1 and 3 and 2 for the Keep. Every pair is antisymmetric,
and `cmp_ilpsched_irn` puts 2 not after 3 (higher latency) and 3 not after 1
(equal latency), but 2 after 1 (dependency); the sort of `apply_solution`
returns 3, 1, 2 for the collected order 3, 2, 1. -/
theorem comparator_not_transitive :
    (build_ilp wide_env kept_pair_graph kept_pair_state 0).lpp.is_sol kept_pair_sol ∧
      (∀ n m, wide_env.heights_reachable_in_block n m = decide (n = 2 ∧ m = 1)) ∧
      in_or_dep kept_pair_graph 2 = [1] ∧ in_or_dep kept_pair_graph 1 = [] ∧
      in_or_dep kept_pair_graph 3 = [] ∧
      ([1, 2, 3].map fun n => (kept_pair_sched_state.ia n).sched_point) = [0, 0, 0] ∧
      ([1, 2, 3].map fun n => (kept_pair_sched_state.ph.na n).latency) = [0, 2, 0] ∧
      (∀ a ∈ [1, 2, 3], ∀ b ∈ [1, 2, 3],
        cmp_ilpsched_irn wide_env kept_pair_sched_state a b =
          -cmp_ilpsched_irn wide_env kept_pair_sched_state b a ∨ a = b) ∧
      cmp_ilpsched_irn wide_env kept_pair_sched_state 2 3 = -1 ∧
      cmp_ilpsched_irn wide_env kept_pair_sched_state 3 1 = 0 ∧
      cmp_ilpsched_irn wide_env kept_pair_sched_state 2 1 = 1 ∧
      (collect_sched_nodes wide_env (build_ilp wide_env kept_pair_graph kept_pair_state 0)
        kept_pair_sol 0).2 = [3, 1, 2] := by
  refine ⟨by decide, fun _ _ => rfl, by decide, by decide, by decide, by decide, by decide,
    by decide, by decide, by decide, by decide, by decide⟩

/-- C36 (index safety of the dead/alive tables), the loop over the steps at which a
node can die runs one step too far. In `two_types_graph` the block has 2 steps and
the operation 1, not a dummy node, has the window start 1 and 2 unit types: its
table `d` has 2 * (2 - 1 + 1) = 4 entries, but `create_variables` creates the 6
variables d(1, tp, t) for t = 0, 1, 2, of which the last two are written behind
the end of the table. The table holds the variables of (0, 0), (0, 1), (0, 2),
(1, 0), so that the entry at `ILPVAR_IDX_DEAD` of type index 1 and step 0, which
is 2, is the variable of type 0 and step 2. -/
theorem dead_table_overflow :
    ((create_variables two_types_env two_types_graph two_types_state 0).ph.ba 0).max_steps = 2 ∧
      ((create_variables two_types_env two_types_graph two_types_state 0).ph.na 1).asap = 1 ∧
      ((create_variables two_types_env two_types_graph two_types_state 0).ia 1).n_unit_types = 2 ∧
      ((create_variables two_types_env two_types_graph two_types_state 0).ia 1).is_dummy_node
        = false ∧
      ((create_variables two_types_env two_types_graph two_types_state 0).ia 1).ilp_vars.d
        = [12, 13, 14, 19] ∧
      ((create_variables two_types_env two_types_graph two_types_state 0).lpp.vars.map
          lpp_var.name).drop 11 =
        [ilp_name.d 1 0 0, ilp_name.d 1 0 1, ilp_name.d 1 0 2, ilp_name.x 1 1 0,
          ilp_name.y 1 1 0, ilp_name.x 1 1 1, ilp_name.y 1 1 1,
          ilp_name.d 1 1 0, ilp_name.d 1 1 1, ilp_name.d 1 1 2] ∧
      ILPVAR_IDX_DEAD ((create_variables two_types_env two_types_graph two_types_state 0).ph.ba 0)
        ((create_variables two_types_env two_types_graph two_types_state 0).ph.na 1) 1 0 = 2 ∧
      (create_variables two_types_env two_types_graph two_types_state 0).lpp.var_name
        (arr_get ((create_variables two_types_env two_types_graph two_types_state 0).ia
          1).ilp_vars.d 2) = some (ilp_name.d 1 0 2) := by
  refine ⟨by decide, by decide, by decide, by decide, by decide, by decide, by decide,
    by decide⟩

/-- C35 (index safety of the x tables), a predecessor of latency 0. In
`proj_user_graph` the predecessor of the operation 3 is the Proj 2, which has
execution units and the latency 0; the windows are [1, 1] for the Proj and [2, 2]
for 3. In the precedence constraints of the pair `t_high` is
`MIN(2, 1 + 0 - 1) = 0`, the bound `t_high - 1` of the loop wraps to 2^32 - 1, and
the loop reaches t = 2 (and every later step). There `ILPVAR_IDX` of the operation
3 for the step 2 is 1, the length of its table `x`, and the constraint gets the
entry read behind the table. -/
theorem precedence_index_outside_table :
    block_preds proj_user_graph 3 = [2] ∧ fixed_latency proj_user_graph 2 = 0 ∧
      ([2, 3].map fun n => ((proj_user_state.ph.na n).asap, (proj_user_state.ph.na n).alap))
        = [(1, 1), (2, 2)] ∧
      min (proj_user_state.ph.na 3).alap
        (u32_sub (u32 ((proj_user_state.ph.na 2).alap + u32 (fixed_latency proj_user_graph 2))) 1)
        = 0 ∧
      2 ∈ steps_le
        (u32_sub (max (proj_user_state.ph.na 3).asap
          (u32_sub (u32 ((proj_user_state.ph.na 2).asap + u32 (fixed_latency proj_user_graph 2)))
            1)) 1)
        (u32_sub (min (proj_user_state.ph.na 3).alap
          (u32_sub (u32 ((proj_user_state.ph.na 2).alap + u32 (fixed_latency proj_user_graph 2)))
            1)) 1) ∧
      ((create_variables one_unit_env proj_user_graph proj_user_state 0).ia 3).ilp_vars.x.length
        = 1 ∧
      2 ∈ steps_le (u32_sub (proj_user_state.ph.na 3).asap 1) 2 ∧
      ILPVAR_IDX (proj_user_state.ph.na 3) 0 2 = 1 ∧
      ((create_precedence_cst (create_variables one_unit_env proj_user_graph proj_user_state 0)
        3 2 0 new_lpp 2).csts.map lpp_cst.factors) = [[(1, 1), (-1, 1)]] := by
  refine ⟨by decide, by decide, by decide, by decide,
    (mem_steps_le _ _ _).mpr ⟨by decide, by decide⟩, by decide, by decide, by decide,
    by decide⟩

theorem workset_insert_fold_mem {env : belady_env_t} (l : List Nat) :
    ∀ ws ws2 : workset_t, l.foldlM (workset_insert env) ws = some ws2 →
      (∀ x ∈ ws.irns, x ∈ ws2.irns) ∧
        ∀ v ∈ l, env.consider_in_reg_alloc v = true → v ∈ ws2.irns := by
  induction l with
  | nil =>
    intro ws ws2 h
    simp only [List.foldlM_nil, Option.pure_def, Option.some.injEq] at h
    subst h
    exact ⟨fun _ hx => hx, fun v hv => by cases hv⟩
  | cons a l ih =>
    intro ws ws2 h
    rw [List.foldlM_cons] at h
    cases h1 : workset_insert env ws a with
    | none => rw [h1] at h; simp at h
    | some w1 =>
      rw [h1] at h
      simp only [Option.bind_eq_bind, Option.some_bind] at h
      obtain ⟨i1, i2⟩ := ih w1 ws2 h
      obtain ⟨m1, m2⟩ := workset_insert_mem h1
      refine ⟨fun x hx => i1 x (m1 x hx), ?_⟩
      intro v hv hc
      rcases List.mem_cons.mp hv with rfl | hv
      · exact i1 _ (m2 hc)
      · exact i2 v hv hc

theorem displace_make_room_nodup (env : belady_env_t) (s : belady_state) (demand : Nat)
    (u : Bool) (hnd : s.ws.irns.Nodup) : (displace_make_room env s demand u).irns.Nodup := by
  unfold displace_make_room
  dsimp only
  split_ifs with hlen
  · unfold workset_t.irns
    have hl : env.n_regs - demand ≤ (workset_sort (displace_set_times env s u)).len := by
      have e1 : (workset_sort (displace_set_times env s u)).len =
          (displace_set_times env s u).len := rfl
      rw [e1, displace_set_times_len]
      omega
    rw [workset_set_length_locs _ _ hl, workset_sort_locs, displace_set_times_locs]
    apply List.Nodup.sublist ((List.take_sublist _ _).map _)
    apply ((List.perm_insertionSort _ _).map loc_t.irn).nodup_iff.mpr
    rw [List.map_map]
    exact hnd
  · exact hnd

theorem displace_irns {env : belady_env_t} {s s2 : belady_state} {nv : workset_t} {u : Bool}
    (hnd : s.ws.irns.Nodup) (h : displace env s nv u = some s2) :
    s2.ws.irns.Nodup ∧
      (∀ v ∈ s2.ws.irns, v ∈ s.ws.irns ∨ (v ∈ nv.irns ∧ v ∉ s.ws.irns)) ∧
      (∀ v ∈ nv.irns, v ∉ s.ws.irns → env.consider_in_reg_alloc v = true → v ∈ s2.ws.irns) ∧
      s2.instr = s.instr ∧ s2.instr_nr = s.instr_nr ∧ s2.bi.bl = s.bi.bl := by
  obtain ⟨acc, hm, w2, hw, rfl⟩ := displace_some_mark h
  obtain ⟨fws, finstr, fnr, fbl, fti⟩ := displace_mark_fold_frame _ _ _ hm
  simp only [List.nil_append] at fti fws finstr fnr fbl
  obtain ⟨added, e, hs, hn⟩ := workset_insert_fold_irns acc.2 _ w2 hw
  have hroomnd := displace_make_room_nodup env acc.1 acc.2.length u (by rw [fws]; exact hnd)
  have hti : ∀ v, v ∈ acc.2 ↔ v ∈ nv.irns ∧ v ∉ s.ws.irns := by
    intro v
    rw [fti, List.mem_filter]
    constructor
    · rintro ⟨h1, h2⟩
      refine ⟨h1, fun hm2 => ?_⟩
      have := (workset_contains_iff s.ws v).mpr hm2
      simp [this] at h2
    · rintro ⟨h1, h2⟩
      refine ⟨h1, ?_⟩
      cases hc : workset_contains s.ws v with
      | false => rfl
      | true => exact absurd ((workset_contains_iff s.ws v).mp hc) h2
  refine ⟨hn hroomnd, ?_, ?_, finstr, fnr, fbl⟩
  · intro v hv
    show v ∈ s.ws.irns ∨ _
    have hv2 : v ∈ w2.irns := hv
    rw [e] at hv2
    rcases List.mem_append.mp hv2 with h1 | h1
    · left
      have := displace_make_room_mem env acc.1 acc.2.length u v h1
      rwa [fws] at this
    · right
      exact (hti v).mp (hs v h1).1
  · intro v hv hnin hc
    exact (workset_insert_fold_mem acc.2 _ w2 hw).2 v ((hti v).mpr ⟨hv, hnin⟩) hc

theorem displace_keeps {env : belady_env_t} {s s2 : belady_state} {nv : workset_t} {u : Bool}
    (I : Nat) (hnd : s.ws.irns.Nodup) (hnv : nv.len ≤ env.n_regs)
    (hidx : ∀ v ∈ s.ws.irns, v < 2 ^ 31)
    (hdist : ∀ v ∈ s.ws.irns, get_distance env s.instr s.instr_nr v (!u) < 2 ^ 31)
    (h : displace env s nv u = some s2)
    (hcnt : (s.ws.irns.filter fun v =>
        decide (get_distance env s.instr s.instr_nr v (!u) < I)).length +
      (nv.irns.filter (fun v => !workset_contains s.ws v)).length ≤ env.n_regs) :
    ∀ v ∈ s.ws.irns, get_distance env s.instr s.instr_nr v (!u) < I → v ∈ s2.ws.irns := by
  intro v hv hfin
  obtain ⟨c1, c2⟩ := displace_victims env s s2 nv u hnd hnv hidx hdist h
  by_cases hle : s.ws.len + (nv.irns.filter (fun v => !workset_contains s.ws v)).length ≤
      env.n_regs
  · exact c1 hle v hv
  · obtain ⟨d1, d2⟩ := c2 (by omega)
    by_contra hvn
    have hK : ∀ k ∈ s.ws.irns.filter (fun x => decide (x ∈ s2.ws.irns)),
        k ∈ s.ws.irns.filter fun x =>
          decide (get_distance env s.instr s.instr_nr x (!u) < I) := by
      intro k hk
      obtain ⟨hk1, hk2⟩ := List.mem_filter.mp hk
      simp only [decide_eq_true_eq] at hk2
      refine List.mem_filter.mpr ⟨hk1, ?_⟩
      simp only [decide_eq_true_eq]
      rcases d2 v hv hvn k hk1 hk2 with h3 | h3
      · omega
      · omega
    have hsub : ∀ k ∈ v :: s.ws.irns.filter (fun x => decide (x ∈ s2.ws.irns)),
        k ∈ s.ws.irns.filter fun x =>
          decide (get_distance env s.instr s.instr_nr x (!u) < I) := by
      intro k hk
      rcases List.mem_cons.mp hk with rfl | hk
      · exact List.mem_filter.mpr ⟨hv, by simpa using hfin⟩
      · exact hK k hk
    have hndv : (v :: s.ws.irns.filter (fun x => decide (x ∈ s2.ws.irns))).Nodup := by
      refine List.nodup_cons.mpr ⟨fun hm => ?_, hnd.filter _⟩
      have := (List.mem_filter.mp hm).2
      simp only [decide_eq_true_eq] at this
      exact hvn this
    have hlen := (List.subperm_of_subset hndv hsub).length_le
    have hpart : (s.ws.irns.filter (fun x => decide (x ∈ s2.ws.irns))).length +
        (s.ws.irns.filter (fun x => decide (x ∉ s2.ws.irns))).length = s.ws.len := by
      rw [← workset_irns_length]
      have := List.length_eq_length_filter_add (l := s.ws.irns)
        (fun x => decide (x ∈ s2.ws.irns))
      rw [this]
      congr 2
      apply List.filter_congr
      intro x _
      simp
    rw [List.length_cons] at hlen
    omega


theorem used_at_index {α : Type} (A B : List α) (f : α → List Nat) (d v : Nat) :
    (∃ k, A.length + d ≤ k ∧ k < (A ++ B).length ∧ v ∈ ((A ++ B).map f).getD k []) ↔
      ∃ x ∈ B.drop d, v ∈ f x := by
  constructor
  · rintro ⟨k, h1, h2, h3⟩
    rw [List.length_append] at h2
    rw [List.getD_eq_getElem _ _ (by rw [List.length_map, List.length_append]; exact h2),
      List.getElem_map, List.getElem_append_right (by omega)] at h3
    refine ⟨_, ?_, h3⟩
    rw [List.mem_iff_getElem]
    refine ⟨k - A.length - d, by rw [List.length_drop]; omega, ?_⟩
    rw [List.getElem_drop]
    congr 1
    omega
  · rintro ⟨x, hx, hv⟩
    rw [List.mem_iff_getElem] at hx
    obtain ⟨i, hi, rfl⟩ := hx
    rw [List.length_drop] at hi
    refine ⟨A.length + d + i, by omega, by rw [List.length_append]; omega, ?_⟩
    rw [List.getD_eq_getElem _ _ (by rw [List.length_map, List.length_append]; omega),
      List.getElem_map, List.getElem_append_right (by omega)]
    rw [List.getElem_drop] at hv
    have e : A.length + d + i - A.length = d + i := by omega
    simp only [e]
    exact hv

theorem local_next_use_cases (sched : List sched_node) (inf j v : Nat) (skip : Bool) :
    ((∃ k, j + (if skip then 1 else 0) ≤ k ∧ k < (sched.filter sched_node.is_instr).length ∧
        v ∈ ((sched.filter sched_node.is_instr).map sched_node.ins).getD k []) →
      local_next_use sched inf j v skip < (sched.filter sched_node.is_instr).length) ∧
    ((¬ ∃ k, j + (if skip then 1 else 0) ≤ k ∧ k < (sched.filter sched_node.is_instr).length ∧
        v ∈ ((sched.filter sched_node.is_instr).map sched_node.ins).getD k []) →
      local_next_use sched inf j v skip = inf) := by
  have hdef : local_next_use sched inf j v skip =
      match (List.range (sched.filter sched_node.is_instr).length).find?
        (fun k => decide (j + (if skip then 1 else 0) ≤ k) &&
          (((sched.filter sched_node.is_instr).map sched_node.ins).getD k []).contains v) with
      | some k => k - j
      | none => inf := rfl
  constructor
  · rintro ⟨k, h1, h2, h3⟩
    rw [hdef]
    cases hf : (List.range (sched.filter sched_node.is_instr).length).find?
        (fun k => decide (j + (if skip then 1 else 0) ≤ k) &&
          (((sched.filter sched_node.is_instr).map sched_node.ins).getD k []).contains v) with
    | none =>
      have := List.find?_eq_none.mp hf k (List.mem_range.mpr h2)
      simp only [Bool.and_eq_true, decide_eq_true_eq, List.contains_iff_exists_mem_beq,
        beq_iff_eq, exists_eq_right', not_and] at this
      exact absurd h3 (this h1)
    | some k2 =>
      have := List.mem_range.mp (List.mem_of_find?_eq_some hf)
      show k2 - j < _
      omega
  · intro hno
    rw [hdef]
    cases hf : (List.range (sched.filter sched_node.is_instr).length).find?
        (fun k => decide (j + (if skip then 1 else 0) ≤ k) &&
          (((sched.filter sched_node.is_instr).map sched_node.ins).getD k []).contains v) with
    | none => rfl
    | some k2 =>
      exfalso
      have hm := List.mem_range.mp (List.mem_of_find?_eq_some hf)
      have hp := List.find?_some hf
      simp only [Bool.and_eq_true, decide_eq_true_eq, List.contains_iff_exists_mem_beq,
        beq_iff_eq, exists_eq_right'] at hp
      exact hno ⟨k2, hp.1, hm, hp.2⟩


theorem get_distance_local {env : belady_env_t} {sched : List sched_node}
    (ho : local_oracle env sched) (pre rest : List sched_node) (hs : sched = pre ++ rest)
    (f v : Nat) (skip : Bool) :
    ((∃ x ∈ (rest.filter sched_node.is_instr).drop (if skip then 1 else 0), v ∈ x.ins) →
      get_distance env f (pre.filter sched_node.is_instr).length v skip < env.USES_INFINITY) ∧
    ((¬ ∃ x ∈ (rest.filter sched_node.is_instr).drop (if skip then 1 else 0), v ∈ x.ins) →
      get_distance env f (pre.filter sched_node.is_instr).length v skip = env.USES_INFINITY) ∧
    get_distance env f (pre.filter sched_node.is_instr).length v skip < 2 ^ 31 := by
  obtain ⟨o1, o2, o3, o4⟩ := ho
  have hlen : (sched.filter sched_node.is_instr).length < env.USES_INFINITY :=
    lt_of_le_of_lt (List.length_filter_le _ _) o4
  obtain ⟨c1, c2⟩ := local_next_use_cases sched env.USES_INFINITY
    (pre.filter sched_node.is_instr).length v skip
  have hiff := used_at_index (pre.filter sched_node.is_instr) (rest.filter sched_node.is_instr)
    sched_node.ins (if skip then 1 else 0) v
  rw [← List.filter_append, ← hs] at hiff
  have hfin : (∃ x ∈ (rest.filter sched_node.is_instr).drop (if skip then 1 else 0), v ∈ x.ins) →
      get_distance env f (pre.filter sched_node.is_instr).length v skip < env.USES_INFINITY := by
    intro hu
    have h1 := c1 (hiff.mpr hu)
    unfold get_distance
    dsimp only
    rw [o1, o2]
    have hd : decide (env.USES_INFINITY ≤ local_next_use sched env.USES_INFINITY
        (pre.filter sched_node.is_instr).length v skip) = false := by
      rw [decide_eq_false_iff_not]; omega
    rw [hd]
    simp only [Bool.false_eq_true, if_false]
    split_ifs <;> omega
  have hinf : (¬ ∃ x ∈ (rest.filter sched_node.is_instr).drop (if skip then 1 else 0), v ∈ x.ins) →
      get_distance env f (pre.filter sched_node.is_instr).length v skip = env.USES_INFINITY := by
    intro hu
    have h1 := c2 (fun h => hu (hiff.mp h))
    unfold get_distance
    dsimp only
    rw [o1, o2, h1]
    simp
  refine ⟨hfin, hinf, ?_⟩
  by_cases hu : ∃ x ∈ (rest.filter sched_node.is_instr).drop (if skip then 1 else 0), v ∈ x.ins
  · have := hfin hu; omega
  · rw [hinf hu]; exact o3

theorem le_foldr_max (l : List Nat) (x : Nat) (h : x ∈ l) : x ≤ l.foldr max 0 := by
  induction l with
  | nil => cases h
  | cons a l ih =>
    rw [List.foldr_cons]
    rcases List.mem_cons.mp h with rfl | h
    · exact le_max_left _ _
    · exact le_trans (ih h) (le_max_right _ _)

theorem filter_is_instr_idem (l : List sched_node) :
    (l.filter sched_node.is_instr).filter sched_node.is_instr = l.filter sched_node.is_instr := by
  rw [List.filter_filter]
  congr 1
  funext x
  simp

theorem mem_live_values_at {sched pre post : List sched_node} {irn : sched_node}
    (cls li : Nat → Bool) (hs : sched = pre ++ irn :: post) (hin : irn.is_instr = true) (v : Nat) :
    v ∈ live_values sched cls li (pre.filter sched_node.is_instr).length ↔
      v ∈ block_values sched ∧ cls v = true ∧
        (v ∈ irn.defs ∨ ((li v = true ∨ v ∈ block_defs pre) ∧
          (v ∈ irn.ins ∨ ∃ x ∈ post, x.is_instr = true ∧ v ∈ x.ins))) := by
  have hf : sched.filter sched_node.is_instr =
      pre.filter sched_node.is_instr ++ irn :: post.filter sched_node.is_instr := by
    rw [hs, List.filter_append, List.filter_cons, if_pos hin]
  unfold live_values
  dsimp only
  rw [List.mem_filter, List.mem_filter, List.mem_dedup, hf]
  have e1 : ((pre.filter sched_node.is_instr ++ irn :: post.filter sched_node.is_instr).map
      sched_node.defs).getD (pre.filter sched_node.is_instr).length [] = irn.defs := by
    rw [List.map_append, List.getD_append_right _ _ _ _ (by rw [List.length_map]),
      List.length_map, Nat.sub_self]
    rfl
  have e2 : (pre.filter sched_node.is_instr ++ irn :: post.filter sched_node.is_instr).take
      (pre.filter sched_node.is_instr).length = pre.filter sched_node.is_instr := by
    rw [List.take_left']
    rfl
  have e3 : (pre.filter sched_node.is_instr ++ irn :: post.filter sched_node.is_instr).drop
      (pre.filter sched_node.is_instr).length = irn :: post.filter sched_node.is_instr := by
    rw [List.drop_left']
    rfl
  have e4 : block_defs (pre.filter sched_node.is_instr) = block_defs pre := by
    unfold block_defs
    rw [filter_is_instr_idem]
  rw [e1, e2, e3, e4]
  simp only [Bool.or_eq_true, Bool.and_eq_true, List.contains_iff_exists_mem_beq, beq_iff_eq,
    exists_eq_right', List.any_cons, List.any_eq_true, List.mem_filter]
  constructor
  · rintro ⟨⟨h1, h2⟩, h3⟩
    refine ⟨h1, h2, ?_⟩
    rcases h3 with h3 | ⟨h4, h5⟩
    · exact Or.inl h3
    · refine Or.inr ⟨h4, ?_⟩
      rcases h5 with h5 | ⟨x, ⟨hx1, hx2⟩, hx3⟩
      · exact Or.inl h5
      · exact Or.inr ⟨x, hx1, hx2, hx3⟩
  · rintro ⟨h1, h2, h3⟩
    refine ⟨⟨h1, h2⟩, ?_⟩
    rcases h3 with h3 | ⟨h4, h5⟩
    · exact Or.inl h3
    · refine Or.inr ⟨h4, ?_⟩
      rcases h5 with h5 | ⟨x, hx1, hx2, hx3⟩
      · exact Or.inl h5
      · exact Or.inr ⟨x, ⟨hx1, hx2⟩, hx3⟩

theorem live_count_le {sched pre post : List sched_node} {irn : sched_node}
    (cls li : Nat → Bool) (hs : sched = pre ++ irn :: post) (hin : irn.is_instr = true)
    (L : List Nat) (hnd : L.Nodup)
    (hL : ∀ v ∈ L, v ∈ block_values sched ∧ cls v = true ∧
        (v ∈ irn.defs ∨ ((li v = true ∨ v ∈ block_defs pre) ∧
          (v ∈ irn.ins ∨ ∃ x ∈ post, x.is_instr = true ∧ v ∈ x.ins)))) :
    L.length ≤ max_live sched cls li := by
  have h1 : L.length ≤ (live_values sched cls li (pre.filter sched_node.is_instr).length).length :=
    (List.subperm_of_subset hnd
      (fun v hv => (mem_live_values_at cls li hs hin v).mpr (hL v hv))).length_le
  refine le_trans h1 ?_
  unfold max_live
  apply le_foldr_max
  refine List.mem_map.mpr ⟨(pre.filter sched_node.is_instr).length, ?_, rfl⟩
  rw [List.mem_range, hs, List.filter_append, List.filter_cons, if_pos hin, List.length_append,
    List.length_cons]
  omega


theorem block_values_append (pre : List sched_node) (irn : sched_node) :
    block_values (pre ++ [irn]) =
      block_values pre ++ (if irn.is_instr then irn.ins ++ irn.defs else []) := by
  unfold block_values
  rw [List.filter_append, List.flatMap_append]
  cases h : irn.is_instr <;> simp [List.filter, h]

theorem block_defs_sub_values (pre : List sched_node) (v : Nat) (h : v ∈ block_defs pre) :
    v ∈ block_values pre := by
  unfold block_defs at h
  unfold block_values
  rw [List.mem_flatMap] at h ⊢
  obtain ⟨x, hx, hv⟩ := h
  exact ⟨x, hx, List.mem_append_right _ hv⟩

theorem block_values_prefix (pre rest : List sched_node) (v : Nat) (h : v ∈ block_values pre) :
    v ∈ block_values (pre ++ rest) := by
  unfold block_values at h ⊢
  rw [List.filter_append, List.flatMap_append]
  exact List.mem_append_left _ h

theorem length_le_distinct (cls : Nat → Bool) (X L : List Nat) (hnd : L.Nodup)
    (hL : ∀ v ∈ L, v ∈ X ∧ cls v = true) : L.length ≤ ((X.filter cls).dedup).length :=
  (List.subperm_of_subset hnd (fun v hv =>
    List.mem_dedup.mpr (List.mem_filter.mpr (hL v hv)))).length_le

theorem dist_usage {env : belady_env_t} {sched : List sched_node} (ho : local_oracle env sched)
    (pre post : List sched_node) (irn : sched_node) (hs : sched = pre ++ irn :: post)
    (hin : irn.is_instr = true) (f v : Nat) :
    (get_distance env f (pre.filter sched_node.is_instr).length v false < env.USES_INFINITY ↔
      (v ∈ irn.ins ∨ ∃ x ∈ post, x.is_instr = true ∧ v ∈ x.ins)) ∧
    get_distance env f (pre.filter sched_node.is_instr).length v false < 2 ^ 31 := by
  obtain ⟨g1, g2, g3⟩ := get_distance_local ho pre (irn :: post) hs f v false
  simp only [Bool.false_eq_true, if_false, List.drop_zero, List.filter_cons, hin, if_true,
    List.mem_cons, exists_eq_or_imp, List.mem_filter] at g1 g2
  refine ⟨⟨fun h => ?_, fun h => ?_⟩, g3⟩
  · by_contra hn
    have := g2 (by
      rintro (h1 | ⟨x, ⟨hx1, hx2⟩, hx3⟩)
      · exact hn (Or.inl h1)
      · exact hn (Or.inr ⟨x, hx1, hx2, hx3⟩))
    omega
  · apply g1
    rcases h with h | ⟨x, hx1, hx2, hx3⟩
    · exact Or.inl h
    · exact Or.inr ⟨x, ⟨hx1, hx2⟩, hx3⟩

theorem dist_def {env : belady_env_t} {sched : List sched_node} (ho : local_oracle env sched)
    (pre post : List sched_node) (irn : sched_node) (hs : sched = pre ++ irn :: post)
    (hin : irn.is_instr = true) (f v : Nat) :
    (get_distance env f (pre.filter sched_node.is_instr).length v true < env.USES_INFINITY ↔
      ∃ x ∈ post, x.is_instr = true ∧ v ∈ x.ins) ∧
    get_distance env f (pre.filter sched_node.is_instr).length v true < 2 ^ 31 := by
  obtain ⟨g1, g2, g3⟩ := get_distance_local ho pre (irn :: post) hs f v true
  simp only [if_true, List.filter_cons, hin, List.drop_succ_cons, List.drop_zero,
    List.mem_filter] at g1 g2
  refine ⟨⟨fun h => ?_, fun h => ?_⟩, g3⟩
  · by_contra hn
    have := g2 (by
      rintro ⟨x, ⟨hx1, hx2⟩, hx3⟩
      exact hn ⟨x, hx1, hx2, hx3⟩)
    omega
  · apply g1
    obtain ⟨x, hx1, hx2, hx3⟩ := h
    exact ⟨x, ⟨hx1, hx2⟩, hx3⟩


theorem belady_instr_live_fit {env : belady_env_t} {sched pre post : List sched_node}
    {irn : sched_node} {r0 : List (Nat × Nat)} {bl : Nat} (w : workset_t) {s : belady_state}
    (ho : local_oracle env sched) (hs : sched = pre ++ irn :: post)
    (hidx : ∀ v ∈ block_values sched, v < 2 ^ 31)
    (hlive : max_live sched env.consider_in_reg_alloc (fun v => is_transport_in env bl v) ≤
      env.n_regs)
    (havail : irn.is_instr = true → ∀ v ∈ irn.ins, env.consider_in_reg_alloc v = true →
      is_transport_in env bl v = true ∨ v ∈ block_defs pre)
    (hearly : irn.is_instr = true →
      (∃ v ∈ irn.ins, env.consider_in_reg_alloc v = true ∧ v ∉ block_values pre) →
      ((block_values pre ++ irn.ins).filter env.consider_in_reg_alloc).dedup.length ≤ env.n_regs)
    (hinv : live_fit_inv env r0 bl pre (irn :: post) s) :
    ∃ acc2, belady_instr env (w, s) irn = some acc2 ∧
      live_fit_inv env r0 bl (pre ++ [irn]) post acc2.2 := by
  obtain ⟨i1, i2, i3, i4, i5, i6, i7, i8, i9, i10⟩ := hinv
  unfold belady_instr
  cases hpq : (irn.is_Proj || irn.is_Phi) with
  | true =>
    have hni : irn.is_instr = false := by simp [sched_node.is_instr, hpq]
    have ev : block_values (pre ++ [irn]) = block_values pre := by
      rw [block_values_append, hni]; simp
    have ed : block_defs (pre ++ [irn]) = block_defs pre := by
      rw [block_defs_append, hni]; simp
    have ef : (pre ++ [irn]).filter sched_node.is_instr = pre.filter sched_node.is_instr := by
      rw [List.filter_append]; simp [List.filter, hni]
    refine ⟨(w, s), by simp, i1, i2, i3, ?_, ?_, ?_, i7, i8, i9, ?_⟩
    · rw [ev, ed]; exact i4
    · rw [ev]
      intro v hv hc ⟨x, hx, hx2, hx3⟩
      exact i5 v hv hc ⟨x, List.mem_cons_of_mem _ hx, hx2, hx3⟩
    · rw [ev]; exact i6
    · rw [ef]; exact i10
  | false =>
    have hin : irn.is_instr = true := by simp [sched_node.is_instr, hpq]
    simp only [Bool.false_eq_true, if_false]
    have ev : block_values (pre ++ [irn]) = block_values pre ++ (irn.ins ++ irn.defs) := by
      rw [block_values_append, hin]; simp
    have ed : block_defs (pre ++ [irn]) = block_defs pre ++ irn.defs := by
      rw [block_defs_append, hin]; simp
    have ef : ((pre ++ [irn]).filter sched_node.is_instr).length =
        (pre.filter sched_node.is_instr).length + 1 := by
      rw [List.filter_append]; simp [List.filter, hin]
    have hsub : ∀ v, v ∈ block_values (pre ++ [irn]) → v ∈ block_values sched := by
      intro v hv
      have : sched = (pre ++ [irn]) ++ post := by rw [hs]; simp
      rw [this]
      exact block_values_prefix _ _ v hv
    have hsubp : ∀ v, v ∈ block_values pre → v ∈ block_values sched := by
      intro v hv
      rw [hs]
      exact block_values_prefix _ _ v hv
    -- the live values at this instruction
    have hUnd : (live_values sched env.consider_in_reg_alloc (fun v => is_transport_in env bl v)
        (pre.filter sched_node.is_instr).length).Nodup := by
      unfold live_values
      exact ((List.nodup_dedup _).filter _).filter _
    have hU : (live_values sched env.consider_in_reg_alloc (fun v => is_transport_in env bl v)
        (pre.filter sched_node.is_instr).length).length ≤ env.n_regs :=
      le_trans (live_count_le _ _ hs hin _ hUnd
        (fun v hv => (mem_live_values_at _ _ hs hin v).mp hv)) hlive
    have hcount : ∀ L : List Nat, L.Nodup →
        (∀ v ∈ L, v ∈ block_values sched ∧ env.consider_in_reg_alloc v = true ∧
          (v ∈ irn.defs ∨ ((is_transport_in env bl v = true ∨ v ∈ block_defs pre) ∧
            (v ∈ irn.ins ∨ ∃ x ∈ post, x.is_instr = true ∧ v ∈ x.ins)))) →
        L.length ≤ env.n_regs := fun L hnd hL =>
      le_trans (live_count_le env.consider_in_reg_alloc (fun v => is_transport_in env bl v)
        hs hin L hnd hL) hlive
    -- the request set of the used values
    obtain ⟨used, hu, und, uU, uc, um, uall⟩ := @workset_insert_fold_request env _ hU irn.ins
      (workset_clear w) (by rw [workset_clear_irns]; exact List.nodup_nil)
      (by rw [workset_clear_irns]; simp) (by rw [workset_clear_irns]; simp)
      (fun v hv hc => (mem_live_values_at _ _ hs hin v).mpr
        ⟨hsub v (by rw [ev]; exact List.mem_append_right _ (List.mem_append_left _ hv)), hc,
          Or.inr ⟨havail hin v hv hc, Or.inl hv⟩⟩)
    have um2 : ∀ v ∈ used.irns, v ∈ irn.ins := by
      intro v hv
      rcases um v hv with h | h
      · rw [workset_clear_irns] at h; simp at h
      · exact h
    have ulen : used.len ≤ env.n_regs := by
      rw [← workset_irns_length]
      exact le_trans (List.subperm_of_subset und uU).length_le hU
    -- the values to insert at the uses
    have hnew : ∀ v ∈ used.irns.filter (fun v => !workset_contains s.ws v),
        v ∈ irn.ins ∧ env.consider_in_reg_alloc v = true ∧ v ∉ s.ws.irns ∧
          v ∉ block_values pre ∧ is_transport_in env bl v = true := by
      intro v hv
      obtain ⟨hv1, hv2⟩ := List.mem_filter.mp hv
      have hnin : v ∉ s.ws.irns := by
        intro hm
        have := (workset_contains_iff s.ws v).mpr hm
        simp [this] at hv2
      have hnv : v ∉ block_values pre := fun hb =>
        hnin (i5 v hb (uc v hv1) ⟨irn, List.mem_cons_self _ _, hin, um2 v hv1⟩)
      refine ⟨um2 v hv1, uc v hv1, hnin, hnv, ?_⟩
      rcases havail hin v (um2 v hv1) (uc v hv1) with h | h
      · exact h
      · exact absurd (block_defs_sub_values _ _ h) hnv
    have hnewnd : (used.irns.filter (fun v => !workset_contains s.ws v)).Nodup := und.filter _
    have hpn : s.bi.pressure + (used.irns.filter (fun v => !workset_contains s.ws v)).length ≤
        ((block_values pre ++ irn.ins).filter env.consider_in_reg_alloc).dedup.length := by
      have h1 : (((block_values pre).filter env.consider_in_reg_alloc).dedup ++
          used.irns.filter (fun v => !workset_contains s.ws v)).length ≤
          ((block_values pre ++ irn.ins).filter env.consider_in_reg_alloc).dedup.length := by
        apply length_le_distinct
        · refine List.nodup_append.mpr ⟨List.nodup_dedup _, hnewnd, ?_⟩
          intro v h1 h2
          exact (hnew v h2).2.2.2.1 (List.mem_filter.mp (List.mem_dedup.mp h1)).1
        · intro v hv
          rcases List.mem_append.mp hv with h | h
          · have := List.mem_filter.mp (List.mem_dedup.mp h)
            exact ⟨List.mem_append_left _ this.1, this.2⟩
          · exact ⟨List.mem_append_right _ (hnew v h).1, (hnew v h).2.1⟩
      rw [List.length_append] at h1
      omega
    have hpress : s.bi.pressure + (used.irns.filter (fun v => !workset_contains s.ws v)).length ≤
        env.n_regs := by
      cases hl : used.irns.filter (fun v => !workset_contains s.ws v) with
      | nil => simpa using i7
      | cons a l =>
        rw [← hl]
        have ha : a ∈ used.irns.filter (fun v => !workset_contains s.ws v) := by
          rw [hl]; exact List.mem_cons_self _ _
        exact le_trans hpn (hearly hin ⟨a, (hnew a ha).1, (hnew a ha).2.1, (hnew a ha).2.2.2.1⟩)
    -- step 1 of the displacement for the uses
    obtain ⟨b, hb, br, bp, be⟩ := @displace_mark_fold_no_reload env used.irns
      ({ s with bi := { s.bi with first_non_in := s.bi.first_non_in.orElse fun _ => some irn.idx },
                instr := irn.idx }, [])
      (by
        intro v hv hn
        have hv2 : v ∈ used.irns.filter (fun v => !workset_contains s.ws v) := by
          refine List.mem_filter.mpr ⟨hv, ?_⟩
          cases hc : workset_contains s.ws v with
          | false => rfl
          | true => exact absurd ((workset_contains_iff s.ws v).mp hc) hn
        show is_transport_in env s.bi.bl v = true
        rw [i9]
        exact (hnew v hv2).2.2.2.2)
      hpress i8
    obtain ⟨_, _, _, bbl, _⟩ := displace_mark_fold_frame _ _ _ hb
    obtain ⟨s2, h2, l2, _, r2, b2, n2, m2⟩ := displace_of_mark ulen hb
    obtain ⟨nd2, mem2, ins2, _, _, _⟩ := displace_irns
      (s := { s with
        bi := { s.bi with first_non_in := (s.bi.first_non_in.orElse fun _ => some irn.idx) },
        instr := irn.idx }) i2 h2
    have hidx1 : ∀ v ∈ s.ws.irns, v < 2 ^ 31 := fun v hv => hidx v (hsubp v (i4 v hv).2.1)
    have keep2 := displace_keeps
      (s := { s with
        bi := { s.bi with first_non_in := (s.bi.first_non_in.orElse fun _ => some irn.idx) },
        instr := irn.idx }) env.USES_INFINITY i2 ulen hidx1
      (by
        intro v _
        show get_distance env irn.idx s.instr_nr v (!true) < 2 ^ 31
        rw [i10]
        exact (dist_usage ho pre post irn hs hin irn.idx v).2)
      h2
      (by
        show (s.ws.irns.filter fun v =>
            decide (get_distance env irn.idx s.instr_nr v (!true) < env.USES_INFINITY)).length +
          (used.irns.filter (fun v => !workset_contains s.ws v)).length ≤ env.n_regs
        rw [← List.length_append]
        apply hcount
        · refine List.nodup_append.mpr ⟨i2.filter _, hnewnd, ?_⟩
          intro v h1 h2
          exact (hnew v h2).2.2.1 (List.mem_filter.mp h1).1
        · intro v hv
          rcases List.mem_append.mp hv with h | h
          · obtain ⟨h1, h3⟩ := List.mem_filter.mp h
            rw [decide_eq_true_eq, i10] at h3
            exact ⟨hsubp v (i4 v h1).2.1, (i4 v h1).1,
              Or.inr ⟨(i4 v h1).2.2, (dist_usage ho pre post irn hs hin irn.idx v).1.mp h3⟩⟩
          · exact ⟨hsub v (by
                rw [ev]; exact List.mem_append_right _ (List.mem_append_left _ (hnew v h).1)),
              (hnew v h).2.1, Or.inr ⟨Or.inl (hnew v h).2.2.2.2, Or.inl (hnew v h).1⟩⟩)
    have keep2b : ∀ v ∈ s.ws.irns,
        (v ∈ irn.ins ∨ ∃ x ∈ post, x.is_instr = true ∧ v ∈ x.ins) → v ∈ s2.ws.irns := by
      intro v hv hu2
      apply keep2 v hv
      show get_distance env irn.idx s.instr_nr v (!true) < env.USES_INFINITY
      rw [i10]
      exact (dist_usage ho pre post irn hs hin irn.idx v).1.mpr hu2
    -- facts about the workset after the uses
    have ws2 : ∀ v ∈ s2.ws.irns, env.consider_in_reg_alloc v = true ∧
        v ∈ block_values (pre ++ [irn]) ∧ (is_transport_in env bl v = true ∨ v ∈ block_defs pre) := by
      intro v hv
      rcases mem2 v hv with h | ⟨h, hn⟩
      · have := i4 v h
        exact ⟨this.1, by rw [ev]; exact List.mem_append_left _ this.2.1, this.2.2⟩
      · exact ⟨uc v h, by
          rw [ev]; exact List.mem_append_right _ (List.mem_append_left _ (um2 v h)),
          havail hin v (um2 v h) (uc v h)⟩
    have in2 : ∀ v ∈ irn.ins, env.consider_in_reg_alloc v = true → v ∈ s2.ws.irns := by
      intro v hv hc
      by_cases hm : v ∈ s.ws.irns
      · exact keep2b v hm (Or.inl hv)
      · exact ins2 v (uall v hv hc) hm hc
    -- the request set of the defined values
    obtain ⟨defined, hd, dnd, dU, dc, dm, dall⟩ := @workset_insert_fold_request env _ hU
      (if irn.is_mode_T then irn.outs else [irn.idx])
      (workset_clear used) (by rw [workset_clear_irns]; exact List.nodup_nil)
      (by rw [workset_clear_irns]; simp) (by rw [workset_clear_irns]; simp)
      (fun v hv hc => (mem_live_values_at _ _ hs hin v).mpr
        ⟨hsub v (by rw [ev]; exact List.mem_append_right _ (List.mem_append_right _ hv)), hc,
          Or.inl hv⟩)
    have dm2 : ∀ v ∈ defined.irns, v ∈ irn.defs := by
      intro v hv
      rcases dm v hv with h | h
      · rw [workset_clear_irns] at h; simp at h
      · exact h
    have dlen : defined.len ≤ env.n_regs := by
      rw [← workset_irns_length]
      exact le_trans (List.subperm_of_subset dnd dU).length_le hU
    obtain ⟨a3, ha3, ea3⟩ := @displace_mark_fold_false env defined.irns (s2, [])
    obtain ⟨s3, h3, l3, _, r3, b3, n3, m3⟩ := displace_of_mark dlen ha3
    obtain ⟨nd3, mem3, ins3, _, _, _⟩ := displace_irns nd2 h3
    have hnr2 : s2.instr_nr = (pre.filter sched_node.is_instr).length := by
      rw [m2]
      obtain ⟨_, _, f3, _, _⟩ := displace_mark_fold_frame _ _ _ hb
      rw [f3]
      exact i10
    have keep3 := displace_keeps env.USES_INFINITY nd2 dlen
      (fun v hv => hidx v (hsub v (ws2 v hv).2.1))
      (by
        intro v _
        show get_distance env s2.instr s2.instr_nr v (!false) < 2 ^ 31
        rw [hnr2]
        exact (dist_def ho pre post irn hs hin s2.instr v).2)
      h3
      (by
        show (s2.ws.irns.filter fun v =>
            decide (get_distance env s2.instr s2.instr_nr v (!false) < env.USES_INFINITY)).length +
          (defined.irns.filter (fun v => !workset_contains s2.ws v)).length ≤ env.n_regs
        rw [← List.length_append]
        apply hcount
        · refine List.nodup_append.mpr ⟨nd2.filter _, dnd.filter _, ?_⟩
          intro v h1 h2
          have hc := (List.mem_filter.mp h2).2
          have := (workset_contains_iff s2.ws v).mpr (List.mem_filter.mp h1).1
          simp [this] at hc
        · intro v hv
          rcases List.mem_append.mp hv with h | h
          · obtain ⟨h1, h4⟩ := List.mem_filter.mp h
            rw [decide_eq_true_eq, hnr2] at h4
            exact ⟨hsub v (ws2 v h1).2.1, (ws2 v h1).1,
              Or.inr ⟨(ws2 v h1).2.2,
                Or.inr ((dist_def ho pre post irn hs hin s2.instr v).1.mp h4)⟩⟩
          · have h1 := (List.mem_filter.mp h).1
            exact ⟨hsub v (by
                rw [ev]
                exact List.mem_append_right _ (List.mem_append_right _ (dm2 v h1))),
              dc v h1, Or.inl (dm2 v h1)⟩)
    have keep3b : ∀ v ∈ s2.ws.irns, (∃ x ∈ post, x.is_instr = true ∧ v ∈ x.ins) →
        v ∈ s3.ws.irns := by
      intro v hv hu2
      apply keep3 v hv
      show get_distance env s2.instr s2.instr_nr v (!false) < env.USES_INFINITY
      rw [hnr2]
      exact (dist_def ho pre post irn hs hin s2.instr v).1.mpr hu2
    have ws3 : ∀ v ∈ s3.ws.irns, env.consider_in_reg_alloc v = true ∧
        v ∈ block_values (pre ++ [irn]) ∧
        (is_transport_in env bl v = true ∨ v ∈ block_defs (pre ++ [irn])) := by
      intro v hv
      rcases mem3 v hv with h | ⟨h, hn⟩
      · have := ws2 v h
        refine ⟨this.1, this.2.1, ?_⟩
        rcases this.2.2 with h5 | h5
        · exact Or.inl h5
        · exact Or.inr (by rw [ed]; exact List.mem_append_left _ h5)
      · exact ⟨dc v h, by
          rw [ev]; exact List.mem_append_right _ (List.mem_append_right _ (dm2 v h)),
          Or.inr (by rw [ed]; exact List.mem_append_right _ (dm2 v h))⟩
    have hp3 : s3.bi.pressure =
        s.bi.pressure + (used.irns.filter (fun v => !workset_contains s.ws v)).length := by
      rw [b3, ea3, b2]
      exact bp
    have hlen3 : s3.ws.len ≤
        ((block_values (pre ++ [irn])).filter env.consider_in_reg_alloc).dedup.length := by
      rw [← workset_irns_length]
      exact length_le_distinct _ _ _ nd3 (fun v hv => ⟨(ws3 v hv).2.1, (ws3 v hv).1⟩)
    have hmono : ((block_values pre ++ irn.ins).filter env.consider_in_reg_alloc).dedup.length ≤
        ((block_values (pre ++ [irn])).filter env.consider_in_reg_alloc).dedup.length := by
      apply length_le_distinct _ _ _ (List.nodup_dedup _)
      intro v hv
      have := List.mem_filter.mp (List.mem_dedup.mp hv)
      refine ⟨?_, this.2⟩
      rw [ev]
      rcases List.mem_append.mp this.1 with h | h
      · exact List.mem_append_left _ h
      · exact List.mem_append_right _ (List.mem_append_left _ h)
    let bi4 : block_info_t := { s3.bi with pressure := max s3.bi.pressure s3.ws.len }
    refine ⟨(defined, { s3 with bi := bi4, instr_nr := s3.instr_nr + 1 }), ?_, ?_⟩
    · simp [hu, h2, hd, h3]
    · refine ⟨?_, nd3, l3, ws3, ?_, ?_, ?_, ?_, ?_, ?_⟩
      · show s3.reloads = r0
        rw [r3, ea3, r2, br]
        exact i1
      · intro v hv hc hlater
        show v ∈ s3.ws.irns
        rw [ev] at hv
        rcases List.mem_append.mp hv with h | h
        · obtain ⟨x, hx1, hx2, hx3⟩ := hlater
          have hw := i5 v h hc ⟨x, List.mem_cons_of_mem _ hx1, hx2, hx3⟩
          exact keep3b v (keep2b v hw (Or.inr ⟨x, hx1, hx2, hx3⟩)) ⟨x, hx1, hx2, hx3⟩
        · rcases List.mem_append.mp h with h | h
          · exact keep3b v (in2 v h hc) hlater
          · by_cases hm : v ∈ s2.ws.irns
            · exact keep3b v hm hlater
            · exact ins3 v (dall v h hc) hm hc
      · show max s3.bi.pressure s3.ws.len ≤ _
        exact max_le (by rw [hp3]; exact le_trans hpn hmono) hlen3
      · show max s3.bi.pressure s3.ws.len ≤ env.n_regs
        exact max_le (by rw [hp3]; exact hpress) l3
      · show s3.bi.entrance_reg.len ≤ max s3.bi.pressure s3.ws.len
        rw [b3, ea3, b2]
        exact le_trans be (le_max_left _ _)
      · show s3.bi.bl = bl
        rw [b3, ea3, b2, bbl]
        exact i9
      · show s3.instr_nr + 1 = _
        rw [ef, m3, ea3, hnr2]


theorem belady_loop_live_fit {env : belady_env_t} {sched : List sched_node}
    {r0 : List (Nat × Nat)} {bl : Nat} (ho : local_oracle env sched)
    (hidx : ∀ v ∈ block_values sched, v < 2 ^ 31)
    (hlive : max_live sched env.consider_in_reg_alloc (fun v => is_transport_in env bl v) ≤
      env.n_regs)
    (havail : ∀ p irn q, sched = p ++ irn :: q → irn.is_instr = true → ∀ v ∈ irn.ins,
      env.consider_in_reg_alloc v = true → is_transport_in env bl v = true ∨ v ∈ block_defs p)
    (hearly : ∀ p irn q, sched = p ++ irn :: q → irn.is_instr = true →
      (∃ v ∈ irn.ins, env.consider_in_reg_alloc v = true ∧ v ∉ block_values p) →
      ((block_values p ++ irn.ins).filter env.consider_in_reg_alloc).dedup.length ≤ env.n_regs)
    (rest : List sched_node) :
    ∀ (pre : List sched_node) (w : workset_t) (s : belady_state), sched = pre ++ rest →
      live_fit_inv env r0 bl pre rest s →
      ∃ acc, belady_loop env (w, s) rest = some acc ∧
        live_fit_inv env r0 bl (pre ++ rest) [] acc.2 := by
  induction rest with
  | nil => intro pre w s _ hinv; exact ⟨(w, s), rfl, by simpa using hinv⟩
  | cons irn rest ih =>
    intro pre w s hs hinv
    obtain ⟨a1, h1, inv1⟩ := belady_instr_live_fit w ho hs hidx hlive
      (havail pre irn rest hs) (hearly pre irn rest hs) hinv
    obtain ⟨acc, h2, inv2⟩ := ih (pre ++ [irn]) a1.1 a1.2 (by rw [hs]; simp) inv1
    refine ⟨acc, ?_, by simpa using inv2⟩
    simp only [belady_loop, List.foldlM_cons, Option.bind_eq_bind] at h2 ⊢
    rw [h1]
    exact h2

/-- The block `chain_block` with three registers meets every condition of the
no-reload theorem of the local pass but the last one: at most three values are
live at a time and every used value is transported in or defined earlier, but its
last node uses the live-in value 9 for the first time when the block, the operands
included, has used or defined four values of the class. -/
theorem chain_block_late_first_use :
    max_live chain_block chain_env.consider_in_reg_alloc
        (fun v => is_transport_in chain_env 0 v) ≤ chain_env.n_regs ∧
      (∀ k < chain_block.length, ∀ irn ∈ (chain_block.drop k).take 1, irn.is_instr = true →
        ∀ v ∈ irn.ins, chain_env.consider_in_reg_alloc v = true →
          is_transport_in chain_env 0 v = true ∨ v ∈ block_defs (chain_block.take k)) ∧
      (∀ v ∈ block_values chain_block, v < 2 ^ 31) ∧
      ((block_values (chain_block.take 3) ++ [9, 3]).filter
        chain_env.consider_in_reg_alloc).dedup.length = 4 ∧
      chain_env.n_regs = 3 := by
  refine ⟨by decide, by decide, by decide, by decide, rfl⟩

/-- C4 as amended (idempotence of the local pass). Let the next-use oracle be the one
of the block (no value is used behind the block), and let the node numbers be
below `2 ^ 31`. If the number of simultaneously live values of the register class
never exceeds `n_regs`, every used value of the class is transported into the
block or defined by an earlier instruction, and every instruction that uses a
value of the class which no earlier instruction has used or defined (a value
transported in) is reached while the block, its operands included, has used or
defined at most `n_regs` different values of the class, then `belady`, started
with an empty workset, returns and adds no reload to the log `r0` (so requests no
reload when `r0` is empty). The nodes of the schedule are addressed by their
position `k`. -/
theorem belady_no_reload (env : belady_env_t) (bl instr0 : Nat) (r0 : List (Nat × Nat))
    (sched : List sched_node) (ho : local_oracle env sched)
    (hidx : ∀ v ∈ block_values sched, v < 2 ^ 31)
    (hlive : max_live sched env.consider_in_reg_alloc (fun v => is_transport_in env bl v) ≤
      env.n_regs)
    (havail : ∀ k < sched.length, ∀ irn ∈ (sched.drop k).take 1, irn.is_instr = true →
      ∀ v ∈ irn.ins, env.consider_in_reg_alloc v = true →
        is_transport_in env bl v = true ∨ v ∈ block_defs (sched.take k))
    (hearly : ∀ k < sched.length, ∀ irn ∈ (sched.drop k).take 1, irn.is_instr = true →
      (∃ v ∈ irn.ins, env.consider_in_reg_alloc v = true ∧ v ∉ block_values (sched.take k)) →
      ((block_values (sched.take k) ++ irn.ins).filter env.consider_in_reg_alloc).dedup.length ≤
        env.n_regs) :
    ∃ s, belady env new_workset instr0 r0 bl sched = some s ∧ s.reloads = r0 := by
  have hsplit : ∀ p irn q, sched = p ++ irn :: q →
      p.length < sched.length ∧ irn ∈ (sched.drop p.length).take 1 ∧ sched.take p.length = p := by
    intro p irn q h
    refine ⟨by rw [h]; simp, ?_, by rw [h, List.take_left']; rfl⟩
    rw [h, List.drop_left' rfl]
    simp
  obtain ⟨acc, h, inv⟩ := @belady_loop_live_fit env sched r0 bl ho hidx hlive
    (by
      intro p irn q h hin v hv hc
      obtain ⟨h1, h2, h3⟩ := hsplit p irn q h
      have := havail p.length h1 irn h2 hin v hv hc
      rwa [h3] at this)
    (by
      intro p irn q h hin hex
      obtain ⟨h1, h2, h3⟩ := hsplit p irn q h
      have := hearly p.length h1 irn h2 hin (by rw [h3]; exact hex)
      rwa [h3] at this)
    sched [] new_workset
    { ws := new_workset, instr := instr0, instr_nr := 0, reloads := r0, bi := new_block_info bl }
    rfl
    ⟨rfl, by simp [new_workset, workset_t.irns, workset_t.locs], Nat.zero_le _,
      by simp [new_workset, workset_t.irns, workset_t.locs], by simp [block_values],
      Nat.zero_le _, Nat.zero_le _, le_refl _, rfl, rfl⟩
  refine ⟨{ acc.2 with bi := { acc.2.bi with ws_end := acc.2.ws } }, ?_, inv.1⟩
  unfold belady
  simp only [h, Option.map_some']

/-- Witness for C4 as amended: `live_chain_block` with two registers uses or defines
seven values, of which two are live at any instruction; the live-in value 9 is
used by the first instruction. `belady` requests no reload. -/
theorem belady_no_reload_witness :
    ((block_values live_chain_block).filter live_chain_env.consider_in_reg_alloc).dedup.length
        = 7 ∧
      ∃ s, belady live_chain_env new_workset 0 [] 0 live_chain_block = some s ∧ s.reloads = [] :=
  ⟨by decide,
    belady_no_reload live_chain_env 0 0 [] live_chain_block
      ⟨fun _ _ _ _ => rfl, fun _ => rfl, by decide, by decide⟩ (by decide) (by decide)
      (by decide) (by decide)⟩

end Firm
